import Mathlib

/-!
# Recursive Reed-Muller synthesis: a shallow embedding of `src/recsyn.cpp`

The development follows the source file top down: the literal helpers, the
store of packed truth tables (`kc_vt`), the gate graph (`kc_gg`) with its
hashing constructors, the node counter and the two recursive synthesizers;
then the exchange of two variables of a table, the duplication of a graph, the
variable-length integers of the AIGER writer, the generator of variable
orderings with its driver, the level counter, and the stretching of a table of
fewer than six variables by the reader.

Conventions of the embedding.

* A 64-bit word (`kc_uint64`) is a natural number below `2 ^ 64`; the two
  operations that can leave that range (`~` and `<<`) are cut back explicitly.
* A truth table is the list of its words, a store is the list of its tables
  together with the word count `words` shared by all of them.  A loop over the
  `words` words of a table is a map or a zip over the list, a comparison of two
  tables word by word is the comparison of the lists.  The capacity fields
  (`cap`) and the reallocation policy are not represented: a store can always
  grow.  Sizes, identifiers and the traversal counter are exact natural numbers
  or integers.
* Every function that can read or write outside the live part of a vector, fail
  an assertion on an index, or shift by a negative amount returns `Option`, and
  `none` stands for that failure.  The condition guarded by the assertion of
  `kc_gg_tid_increment` concerns the 31-bit range of the counter only and is
  kept as the separate predicate `kc_gg_tid_increment_pre`.
* C++ leaves the order in which the operands of a call or of `+` are evaluated
  unspecified.  The two places of the source where both operands change the
  graph (`kc_gg_mux`, `kc_gg_node_count2`) take the order from a `kc_order`.
* The array `currPerm` of the permutation generator is a list of `MAX_VARS`
  integers, and a read at an index outside of it, such as `currPerm[-1]`, is a
  failure.  The product of `kc_factorial` is computed in `int`; a product that
  leaves the 32-bit range is brought back into it by `kc_int32`.
* A `while` loop whose number of turns is not the length of a list takes a
  bound on the number of turns; the properties show that the bound suffices.
-/

namespace RecSyn

/-! ## Various helpers -/

/-- Literal of variable `Var` with complement flag `c`. -/
def kc_v2l (Var c : Nat) : Nat := Var + Var + c

/-- Variable of a literal. -/
def kc_l2v (Lit : Nat) : Nat := Lit >>> 1

/-- Complement flag of a literal. -/
def kc_l2c (Lit : Nat) : Nat := Lit &&& 1

/-- Complemented literal. -/
def kc_lnot (Lit : Nat) : Nat := Lit ^^^ 1

/-- An `int` of the source taken as a literal; the helpers of the source assert
`Lit >= 0`, so a negative value is a failure. -/
def kc_lit_of_int (x : Int) : Option Nat := if 0 ≤ x then some x.toNat else none

/-- Truth table size in 64-bit words.  The shift is exact: the number of variables
is at most `MAX_VARS = 16`, far from the range of `int`. -/
def kc_truth_word_num (n : Nat) : Nat := if n ≤ 6 then 1 else 1 <<< (n - 6)

/-- The word with all 64 bits set, `~(kc_uint64)0`. -/
def kc_ones : Nat := 0xFFFFFFFFFFFFFFFF

/-- Complement `~x` of a 64-bit word. -/
def kc_not (x : Nat) : Nat := kc_ones - x

/-- Left shift `x << s` of a 64-bit word; the bits shifted out are lost. -/
def kc_shl (x s : Nat) : Nat := (x <<< s) % 2 ^ 64

/-- First index of the list (in list order) that passes the test `p`; this is the
shape of the search loops of the source.  A failing test makes the search fail. -/
def kc_find (p : Nat → Option Bool) : List Nat → Option (Option Nat)
  | [] => some none
  | i :: is =>
    match p i with
    | none => none
    | some true => some (some i)
    | some false => kc_find p is

/-- Store `x` into word `k` of a table; writing outside the table is a failure. -/
def kc_write (t : List Nat) (k x : Nat) : Option (List Nat) :=
  if k < t.length then some (t.set k x) else none

/-! ## Vector of truth tables -/

/-- The store `kc_vt`: `ptr` holds the `size` live tables, each of `words` words. -/
structure kc_vt where
  words : Nat
  ptr : List (List Nat)
deriving DecidableEq, Repr

/-- Number of live tables. -/
def kc_vt_size (v : kc_vt) : Nat := v.ptr.length

/-- Shrinks the store to `ttNum` tables (asserts `ttNum <= size`). -/
def kc_vt_resize (v : kc_vt) (ttNum : Nat) : Option kc_vt :=
  if ttNum ≤ v.ptr.length then some { v with ptr := v.ptr.take ttNum } else none

/-- Drops the last `num` tables (asserts `num <= size`). -/
def kc_vt_shrink (v : kc_vt) (num : Nat) : Option kc_vt :=
  if num ≤ v.ptr.length then some { v with ptr := v.ptr.take (v.ptr.length - num) } else none

/-- Table `ttId` of the store (asserts `ttId < size`). -/
def kc_vt_read (v : kc_vt) (ttId : Nat) : Option (List Nat) := v.ptr[ttId]?

/-- Appends the table `t`: `kc_vt_append` followed by the filling of the new slot. -/
def kc_vt_push (v : kc_vt) (t : List Nat) : kc_vt := { v with ptr := v.ptr ++ [t] }

/-- Appends to `v` a copy of table `ttId` of `v2` (asserts equal word counts). -/
def kc_vt_move (v v2 : kc_vt) (ttId : Nat) : Option kc_vt :=
  if v.words = v2.words then
    match kc_vt_read v2 ttId with
    | some t => some (kc_vt_push v t)
    | none => none
  else none

/-! ## Initialization of truth tables -/

/-- Elementary truth tables of the six variables that live inside one word. -/
def s_Truths6 : List Nat :=
  [0xAAAAAAAAAAAAAAAA, 0xCCCCCCCCCCCCCCCC, 0xF0F0F0F0F0F0F0F0,
   0xFF00FF00FF00FF00, 0xFFFF0000FFFF0000, 0xFFFFFFFF00000000]

/-- Complements of the elementary truth tables. -/
def s_Truths6Neg : List Nat :=
  [0x5555555555555555, 0x3333333333333333, 0x0F0F0F0F0F0F0F0F,
   0x00FF00FF00FF00FF, 0x0000FFFF0000FFFF, 0x00000000FFFFFFFF]

/-- Empty store of the given word count. -/
def kc_vt_start (words : Nat) : kc_vt := { words := words, ptr := [] }

/-- Table number `i + 2` written by `kc_vt_start_truth`: variable `i / 2`,
complemented when `i` is odd. -/
def kc_vt_start_truth_tt (words i : Nat) : List Nat :=
  let tt : List Nat :=
    if i / 2 < 6 then
      (List.range words).map (fun _ => s_Truths6.getD (i / 2) 0)
    else
      (List.range words).map (fun k => if k &&& (1 <<< (i / 2 - 6)) ≠ 0 then kc_ones else 0)
  if i &&& 1 ≠ 0 then tt.map kc_not else tt

/-- Store of the constant and elementary tables of `nvars` variables: table 0 is
constant 0, table 1 constant 1, tables `2 i + 2` and `2 i + 3` variable `i` and
its complement. -/
def kc_vt_start_truth (nvars : Nat) : kc_vt :=
  let words := kc_truth_word_num nvars
  { words := words
    ptr := [List.replicate words 0, List.replicate words kc_ones] ++
      (List.range (2 * nvars)).map (kc_vt_start_truth_tt words) }

/-- Independent copy of a store. -/
def kc_vt_dup (v : kc_vt) : kc_vt := v

/-! ## Boolean operations on truth tables

The source appends the result slot before it reads the operands, so the
assertion of `kc_vt_read` would let an operand name the fresh, still
uninitialised slot; here an operand has to be a table that was live before. -/

/-- Appends the bitwise AND of tables `ttA` and `ttB`; returns its identifier. -/
def kc_vt_and (v : kc_vt) (ttA ttB : Nat) : Option (kc_vt × Nat) :=
  match kc_vt_read v ttA, kc_vt_read v ttB with
  | some pA, some pB => some (kc_vt_push v (List.zipWith (· &&& ·) pA pB), v.ptr.length)
  | _, _ => none

/-- Appends the bitwise XOR of tables `ttA` and `ttB`; returns its identifier. -/
def kc_vt_xor (v : kc_vt) (ttA ttB : Nat) : Option (kc_vt × Nat) :=
  match kc_vt_read v ttA, kc_vt_read v ttB with
  | some pA, some pB => some (kc_vt_push v (List.zipWith (· ^^^ ·) pA pB), v.ptr.length)
  | _, _ => none

/-- Appends the bitwise complement of table `ttA`; returns its identifier. -/
def kc_vt_inv (v : kc_vt) (ttA : Nat) : Option (kc_vt × Nat) :=
  match kc_vt_read v ttA with
  | some pA => some (kc_vt_push v (pA.map kc_not), v.ptr.length)
  | none => none

/-- Word by word comparison of two tables of one store. -/
def kc_vt_is_equal (v : kc_vt) (ttA ttB : Nat) : Option Bool :=
  match kc_vt_read v ttA, kc_vt_read v ttB with
  | some pA, some pB => some (decide (pA = pB))
  | _, _ => none

/-- Word by word comparison of two tables of two stores of equal word count. -/
def kc_vt_is_equal2 (vA : kc_vt) (ttA : Nat) (vB : kc_vt) (ttB : Nat) : Option Bool :=
  match kc_vt_read vA ttA, kc_vt_read vB ttB with
  | some pA, some pB => if vA.words = vB.words then some (decide (pA = pB)) else none
  | _, _ => none

/-- Word indices visited by the word-granular double loops of the source,
`for (; tt < tLimit; tt += 2 * Step) for (i = 0; i < Step; i++)`, in the order of
the visit: index `2 * Step * b + i` for block `b` and offset `i`. -/
def kc_block_index (words Step : Nat) : List Nat :=
  (List.range ((words + 2 * Step - 1) / (2 * Step))).flatMap
    (fun b => (List.range Step).map (fun i => 2 * Step * b + i))

/-- Does table `ttId` depend on variable `iVar`? -/
def kc_vt_has_var (v : kc_vt) (ttId iVar : Nat) : Option Bool :=
  match kc_vt_read v ttId with
  | none => none
  | some tt =>
    if iVar < 6 then
      let Shift := 1 <<< iVar
      some (tt.any (fun x => decide (((x >>> Shift) &&& s_Truths6Neg.getD iVar 0)
                                      ≠ (x &&& s_Truths6Neg.getD iVar 0))))
    else
      let Step := 1 <<< (iVar - 6)
      (kc_find (fun k =>
          (tt[k]?).bind (fun x => (tt[Step + k]?).bind (fun y => some (decide (x ≠ y)))))
        (kc_block_index v.words Step)).map Option.isSome

/-- Appends the negative cofactor of table `ttId` with respect to `iVar`.  In the
word-granular loop the fresh slot starts as zeros here; the loop writes every
word of it when the variable is one of the table. -/
def kc_vt_cof0 (v : kc_vt) (ttId iVar : Nat) : Option (kc_vt × Nat) :=
  match kc_vt_read v ttId with
  | none => none
  | some tt =>
    if iVar ≤ 5 then
      let shift := 1 <<< iVar
      some (kc_vt_push v (tt.map (fun x =>
        kc_shl (x &&& s_Truths6Neg.getD iVar 0) shift ||| (x &&& s_Truths6Neg.getD iVar 0))),
        v.ptr.length)
    else
      let iStep := kc_truth_word_num iVar
      match (kc_block_index v.words iStep).foldlM (fun ttNew k =>
          (tt[k]?).bind (fun x =>
            (kc_write ttNew k x).bind (fun t => kc_write t (k + iStep) x)))
          (List.replicate v.words 0) with
      | none => none
      | some ttNew => some (kc_vt_push v ttNew, v.ptr.length)

/-- Appends the positive cofactor of table `ttId` with respect to `iVar`; the fresh
slot is treated as in `kc_vt_cof0`. -/
def kc_vt_cof1 (v : kc_vt) (ttId iVar : Nat) : Option (kc_vt × Nat) :=
  match kc_vt_read v ttId with
  | none => none
  | some tt =>
    if iVar ≤ 5 then
      let shift := 1 <<< iVar
      some (kc_vt_push v (tt.map (fun x =>
        (x &&& s_Truths6.getD iVar 0) ||| ((x &&& s_Truths6.getD iVar 0) >>> shift))),
        v.ptr.length)
    else
      let iStep := kc_truth_word_num iVar
      match (kc_block_index v.words iStep).foldlM (fun ttNew k =>
          (tt[k + iStep]?).bind (fun x =>
            (kc_write ttNew k x).bind (fun t => kc_write t (k + iStep) x)))
          (List.replicate v.words 0) with
      | none => none
      | some ttNew => some (kc_vt_push v ttNew, v.ptr.length)

/-! ## Gate graph data structure -/

/-- The gate graph `kc_gg`.  Object 0 is constant 0, objects `1 .. nins` are the
primary inputs, the others are two-input nodes; `fans` holds two fanin literals
per object (`-1` for the constant and the inputs), `tts` one truth table per
literal. -/
structure kc_gg where
  nins : Nat
  size : Nat
  tid : Int
  tids : List Int
  fans : List Int
  tops : List Int
  funcs : kc_vt
  tts : kc_vt
  outs : kc_vt
deriving DecidableEq, Repr

/-- Evaluation order of the two operand calls in `kc_gg_mux` and in the sum of
`kc_gg_node_count2`; `true` evaluates the right operand first. -/
structure kc_order where
  mux_rtl : Bool
  sum_rtl : Bool
deriving DecidableEq, Repr

/-- Fanin `n` of object `v` (a read of `fans`, which asserts the index). -/
def kc_gg_fanin (p : kc_gg) (v n : Nat) : Option Int := p.fans[2 * v + n]?

/-- A node is an XOR when its first fanin is the larger one. -/
def kc_gg_is_xor (p : kc_gg) (v : Nat) : Option Bool :=
  match kc_gg_fanin p v 0, kc_gg_fanin p v 1 with
  | some f0, some f1 => some (decide (f0 > f1))
  | _, _ => none

/-- Number of internal nodes. -/
def kc_gg_node_num (p : kc_gg) : Nat := p.size - 1 - p.nins

/-- Condition asserted by `kc_gg_tid_increment`. -/
def kc_gg_tid_increment_pre (p : kc_gg) : Prop := p.tid < 0x7FFFFFFF

/-- Starts a new traversal. -/
def kc_gg_tid_increment (p : kc_gg) : kc_gg × Int := ({ p with tid := p.tid + 1 }, p.tid + 1)

/-- Was object `v` visited in the current traversal? -/
def kc_gg_tid_is_cur (p : kc_gg) (v : Nat) : Option Bool :=
  match p.tids[v]? with
  | some t => some (decide (t = p.tid))
  | none => none

/-- Marks object `v` as visited in the current traversal. -/
def kc_gg_tid_set_cur (p : kc_gg) (v : Nat) : Option (kc_gg × Bool) :=
  if v < p.tids.length then some ({ p with tids := p.tids.set v p.tid }, true) else none

/-- Marks object `v`; the flag tells whether it was unmarked before. -/
def kc_gg_tid_update (p : kc_gg) (v : Nat) : Option (kc_gg × Bool) :=
  match kc_gg_tid_is_cur p v with
  | none => none
  | some true => some (p, false)
  | some false => kc_gg_tid_set_cur p v

/-- Fresh graph with constant and inputs only. -/
def kc_gg_start (nins : Nat) (outs : kc_vt) : kc_gg :=
  { nins := nins
    size := 1 + nins
    tid := 1
    tids := List.replicate (1 + nins) 0
    fans := List.replicate (2 * (1 + nins)) (-1)
    tops := []
    funcs := kc_vt_start (kc_truth_word_num nins)
    tts := kc_vt_start_truth nins
    outs := kc_vt_dup outs }

/-- Looks for an existing literal for a node with fanins `lit1`, `lit2` whose
table was appended as `ttId`: first a node with the same fanins (structural
hashing), then any literal with the same table (functional hashing).  The inner
`none` is the `-1` of the source. -/
def kc_gg_hash_node (gg : kc_gg) (lit1 lit2 ttId : Nat) : Option (Option Nat) :=
  match kc_find (fun i =>
      (kc_gg_fanin gg i 0).bind (fun f0 =>
        if f0 = (lit1 : Int) then
          (kc_gg_fanin gg i 1).bind (fun f1 => some (decide (f1 = (lit2 : Int))))
        else some false))
      (List.range' (1 + gg.nins) (gg.size - (1 + gg.nins))) with
  | none => none
  | some (some i) => some (some (kc_v2l i 0))
  | some none => kc_find (fun i => kc_vt_is_equal gg.tts ttId i) (List.range (2 * gg.size))

/-- Appends a node with fanins `lit1`, `lit2` whose positive table is already
stored as `ttId`; the complemented table is appended behind it. -/
def kc_gg_append_node (gg : kc_gg) (lit1 lit2 ttId : Nat) : Option (kc_gg × Nat) :=
  match kc_vt_inv gg.tts ttId with
  | none => none
  | some (tts, _) =>
    if tts.ptr.length = 2 * (gg.size + 1) then
      some ({ gg with size := gg.size + 1
                      fans := gg.fans ++ [(lit1 : Int), (lit2 : Int)]
                      tids := gg.tids ++ [0]
                      tts := tts }, kc_v2l gg.size 0)
    else none

/-- Looks for a literal whose table equals table `ttId` of `funcs`. -/
def kc_gg_hash_function (gg : kc_gg) (ttId : Nat) : Option (Option Nat) :=
  kc_find (fun i => kc_vt_is_equal2 gg.tts i gg.funcs ttId) (List.range (2 * gg.size))

/-- Common tail of `kc_gg_and` and `kc_gg_xor` once the table of the new node has
been appended as `ttId`: reuse the literal found by hashing and pop the table,
or append the node. -/
def kc_gg_hash_or_append (gg : kc_gg) (lit1 lit2 ttId : Nat) : Option (kc_gg × Nat) :=
  match kc_gg_hash_node gg lit1 lit2 ttId with
  | none => none
  | some none => kc_gg_append_node gg lit1 lit2 ttId
  | some (some lit) =>
    match kc_vt_resize gg.tts ttId with
    | none => none
    | some tts => some ({ gg with tts := tts }, lit)

/-- AND of two literals. -/
def kc_gg_and (gg : kc_gg) (lit1 lit2 : Nat) : Option (kc_gg × Nat) :=
  if lit1 = 0 then some (gg, 0)
  else if lit2 = 0 then some (gg, 0)
  else if lit1 = 1 then some (gg, lit2)
  else if lit2 = 1 then some (gg, lit1)
  else if lit1 = lit2 then some (gg, lit1)
  else if lit1 ^^^ lit2 = 1 then some (gg, 0)
  else
    let a := if lit1 > lit2 then lit2 else lit1
    let b := if lit1 > lit2 then lit1 else lit2
    if a < b then
      match kc_vt_and gg.tts a b with
      | none => none
      | some (tts, ttId) => kc_gg_hash_or_append { gg with tts := tts } a b ttId
    else none

/-- XOR of two literals. -/
def kc_gg_xor (gg : kc_gg) (lit1 lit2 : Nat) : Option (kc_gg × Nat) :=
  if lit1 = 1 then some (gg, lit2 ^^^ 1)
  else if lit2 = 1 then some (gg, lit1 ^^^ 1)
  else if lit1 = 0 then some (gg, lit2)
  else if lit2 = 0 then some (gg, lit1)
  else if lit1 = lit2 then some (gg, 0)
  else if lit1 ^^^ lit2 = 1 then some (gg, 1)
  else
    let a := if lit1 < lit2 then lit2 else lit1
    let b := if lit1 < lit2 then lit1 else lit2
    if a > b then
      match kc_vt_xor gg.tts a b with
      | none => none
      | some (tts, ttId) => kc_gg_hash_or_append { gg with tts := tts } a b ttId
    else none

/-- OR of two literals. -/
def kc_gg_or (gg : kc_gg) (lit1 lit2 : Nat) : Option (kc_gg × Nat) :=
  match kc_gg_and gg (kc_lnot lit1) (kc_lnot lit2) with
  | none => none
  | some (g, r) => some (g, kc_lnot r)

/-- Multiplexer `ctrl ? lit1 : lit0`. -/
def kc_gg_mux (ord : kc_order) (gg : kc_gg) (ctrl lit1 lit0 : Nat) : Option (kc_gg × Nat) :=
  if ord.mux_rtl then
    match kc_gg_and gg (kc_lnot ctrl) lit0 with
    | none => none
    | some (g1, e) =>
      match kc_gg_and g1 ctrl lit1 with
      | none => none
      | some (g2, t) => kc_gg_or g2 t e
  else
    match kc_gg_and gg ctrl lit1 with
    | none => none
    | some (g1, t) =>
      match kc_gg_and g1 (kc_lnot ctrl) lit0 with
      | none => none
      | some (g2, e) => kc_gg_or g2 t e

/-- The function `(ctrl AND lit1) XOR lit0`. -/
def kc_gg_and_xor (gg : kc_gg) (ctrl lit1 lit0 : Nat) : Option (kc_gg × Nat) :=
  match kc_gg_and gg ctrl lit1 with
  | none => none
  | some (g1, t) => kc_gg_xor g1 t lit0

/-! ## Counting nodes -/

/-- Counts the unmarked internal nodes in the fanin cone of `lit` and marks them.
The first argument bounds the depth of the recursion; running out of it is a
failure. -/
def kc_gg_node_count_rec : Nat → kc_gg → Int → Option (kc_gg × Nat)
  | 0, _, _ => none
  | fuel + 1, gg, lit =>
    match kc_lit_of_int lit with
    | none => none
    | some l =>
      if kc_l2v l ≤ gg.nins then some (gg, 0)
      else
        match kc_gg_tid_update gg (kc_l2v l) with
        | none => none
        | some (gg1, false) => some (gg1, 0)
        | some (gg1, true) =>
          match gg1.fans[l]? with
          | none => none
          | some f0 =>
            match kc_gg_node_count_rec fuel gg1 f0 with
            | none => none
            | some (gg2, r0) =>
              match gg2.fans[kc_lnot l]? with
              | none => none
              | some f1 =>
                match kc_gg_node_count_rec fuel gg2 f1 with
                | none => none
                | some (gg3, r1) => some (gg3, 1 + r0 + r1)

/-- Number of internal nodes in the fanin cones of two literals.  A chain of
nested calls marks a new object at every step, so `size` bounds its depth. -/
def kc_gg_node_count2 (ord : kc_order) (gg : kc_gg) (lit0 lit1 : Int) : Option (kc_gg × Nat) :=
  let gg0 := (kc_gg_tid_increment gg).1
  if ord.sum_rtl then
    match kc_gg_node_count_rec gg0.size gg0 lit1 with
    | none => none
    | some (gg1, r1) =>
      match kc_gg_node_count_rec gg1.size gg1 lit0 with
      | none => none
      | some (gg2, r0) => some (gg2, r0 + r1)
  else
    match kc_gg_node_count_rec gg0.size gg0 lit0 with
    | none => none
    | some (gg1, r0) =>
      match kc_gg_node_count_rec gg1.size gg1 lit1 with
      | none => none
      | some (gg2, r1) => some (gg2, r0 + r1)

/-! ## Recursive synthesis -/

/-- Body of `synthesis_and_rec`; the first argument is `varId + 1`, so that the
recursion on `varId - 1` is structural and `0` stands for every negative
`varId`.  With a negative `varId` a miss of the hash lookup would make
`kc_vt_has_var` shift by a negative amount, which is a failure. -/
def synthesis_and_go (ord : kc_order) : Nat → kc_gg → Nat → Option (kc_gg × Int)
  | 0, gg, ttId =>
    match kc_gg_hash_function gg ttId with
    | none => none
    | some (some iLit) => some (gg, (iLit : Int))
    | some none => none
  | k + 1, gg, ttId =>
    match kc_gg_hash_function gg ttId with
    | none => none
    | some (some iLit) => some (gg, (iLit : Int))
    | some none =>
      match kc_vt_has_var gg.funcs ttId k with
      | none => none
      | some false => synthesis_and_go ord k gg ttId
      | some true =>
        match kc_vt_cof0 gg.funcs ttId k with
        | none => none
        | some (fs0, f0) =>
          match kc_vt_cof1 fs0 ttId k with
          | none => none
          | some (fs1, f1) =>
            match synthesis_and_go ord k { gg with funcs := fs1 } f0 with
            | none => none
            | some (gg0, lit0) =>
              match synthesis_and_go ord k gg0 f1 with
              | none => none
              | some (gg1, lit1) =>
                match kc_vt_shrink gg1.funcs 2 with
                | none => none
                | some fs2 =>
                  match kc_lit_of_int lit1, kc_lit_of_int lit0 with
                  | some l1, some l0 =>
                    match kc_gg_mux ord { gg1 with funcs := fs2 } (kc_v2l (1 + k) 0) l1 l0 with
                    | none => none
                    | some (g, r) => some (g, (r : Int))
                  | _, _ => none

/-- Takes the function `ttId` of `funcs` and the top-most variable; returns the
literal of the circuit (AND nodes only). -/
def synthesis_and_rec (ord : kc_order) (gg : kc_gg) (ttId : Nat) (varId : Int) :
    Option (kc_gg × Int) :=
  synthesis_and_go ord (varId + 1).toNat gg ttId

/-- Body of `synthesis_xor_rec`; the first argument is `varId + 1` as in
`synthesis_and_go`. -/
def synthesis_xor_go (ord : kc_order) : Nat → kc_gg → Nat → Option (kc_gg × Int)
  | 0, gg, ttId =>
    match kc_gg_hash_function gg ttId with
    | none => none
    | some (some iLit) => some (gg, (iLit : Int))
    | some none => none
  | k + 1, gg, ttId =>
    match kc_gg_hash_function gg ttId with
    | none => none
    | some (some iLit) => some (gg, (iLit : Int))
    | some none =>
      match kc_vt_has_var gg.funcs ttId k with
      | none => none
      | some false => synthesis_xor_go ord k gg ttId
      | some true =>
        match kc_vt_cof0 gg.funcs ttId k with
        | none => none
        | some (fs0, f0) =>
          match kc_vt_cof1 fs0 ttId k with
          | none => none
          | some (fs1, f1) =>
            match kc_vt_xor fs1 f0 f1 with
            | none => none
            | some (fs2, f2) =>
              match synthesis_xor_go ord k { gg with funcs := fs2 } f0 with
              | none => none
              | some (gg0, lit0) =>
                match synthesis_xor_go ord k gg0 f1 with
                | none => none
                | some (gg1, lit1) =>
                  match synthesis_xor_go ord k gg1 f2 with
                  | none => none
                  | some (gg2, lit2) =>
                    match kc_vt_shrink gg2.funcs 3 with
                    | none => none
                    | some fs3 =>
                      let c : Nat := if lit0 ≥ 2 ∧ lit1 ≥ 2 then 1 else 0
                      match kc_gg_node_count2 ord { gg2 with funcs := fs3 } lit0 lit1 with
                      | none => none
                      | some (g3, c01) =>
                        match kc_gg_node_count2 ord g3 lit0 lit2 with
                        | none => none
                        | some (g4, c02) =>
                          match kc_gg_node_count2 ord g4 lit1 lit2 with
                          | none => none
                          | some (g5, c12) =>
                            let n01 := c01 + 1 + 2 * c
                            let n02 := c02 + 1 + 1 * c
                            let n12 := c12 + 1 + 1 * c
                            let min := Nat.min n01 (Nat.min n02 n12)
                            match kc_lit_of_int lit0, kc_lit_of_int lit1, kc_lit_of_int lit2 with
                            | some l0, some l1, some l2 =>
                              if min = n01 then
                                match kc_gg_mux ord g5 (kc_v2l (1 + k) 0) l1 l0 with
                                | none => none
                                | some (g, r) => some (g, (r : Int))
                              else if min = n02 then
                                match kc_gg_and_xor g5 (kc_v2l (1 + k) 0) l2 l0 with
                                | none => none
                                | some (g, r) => some (g, (r : Int))
                              else if min = n12 then
                                match kc_gg_and_xor g5 (kc_v2l (1 + k) 1) l2 l1 with
                                | none => none
                                | some (g, r) => some (g, (r : Int))
                              else some (g5, -1)
                            | _, _, _ => none

/-- Takes the function `ttId` of `funcs` and the top-most variable; returns the
literal of the circuit (AND and XOR nodes). -/
def synthesis_xor_rec (ord : kc_order) (gg : kc_gg) (ttId : Nat) (varId : Int) :
    Option (kc_gg × Int) :=
  synthesis_xor_go ord (varId + 1).toNat gg ttId

/-! ## Top level procedures -/

/-- Solves the problem for one variable order: every output is copied into the
emptied scratch store and synthesized, its literal is pushed to `tops`. -/
def kc_top_level_call_one (ord : kc_order) (nvars : Nat) (outs : kc_vt) (and_only : Bool) :
    Option kc_gg :=
  (List.range outs.ptr.length).foldlM (fun gg i =>
    match kc_vt_resize gg.funcs 0 with
    | none => none
    | some fs0 =>
      match kc_vt_move fs0 gg.outs i with
      | none => none
      | some fs1 =>
        match (if and_only then synthesis_and_rec ord { gg with funcs := fs1 } 0 ((nvars : Int) - 1)
               else synthesis_xor_rec ord { gg with funcs := fs1 } 0 ((nvars : Int) - 1)) with
        | none => none
        | some (g, top) => some { g with tops := g.tops ++ [top] })
    (kc_gg_start nvars outs)

/-! ## Notions used to state the properties -/

/-- Bit `m` of a truth table: the value of the function on minterm `m`. -/
def kc_tt_bit (t : List Nat) (m : Nat) : Bool := (t.getD (m / 64) 0).testBit (m % 64)

/-- Minterm index `m` with bit `i` cleared. -/
def kc_clear_bit (m i : Nat) : Nat := if m.testBit i then m - 2 ^ i else m

/-- Minterm index `m` with bit `i` set. -/
def kc_set_bit (m i : Nat) : Nat := if m.testBit i then m else m + 2 ^ i

/-- A table of `words` 64-bit words. -/
def kc_tt_ok (words : Nat) (t : List Nat) : Prop := t.length = words ∧ ∀ x ∈ t, x < 2 ^ 64

/-- Every table of the store has `words` 64-bit words. -/
def kc_vt_ok (v : kc_vt) : Prop := ∀ t ∈ v.ptr, kc_tt_ok v.words t

/-- The function of table `t` does not depend on variable `j`: its value on a
minterm does not change when bit `j` of the minterm is cleared. -/
def kc_tt_indep (t : List Nat) (j : Nat) : Prop :=
  ∀ m, m < 64 * t.length → kc_tt_bit t m = kc_tt_bit t (kc_clear_bit m j)

instance kc_tt_ok_dec (words : Nat) (t : List Nat) : Decidable (kc_tt_ok words t) := by
  unfold kc_tt_ok; infer_instance

instance kc_vt_ok_dec (v : kc_vt) : Decidable (kc_vt_ok v) := by
  unfold kc_vt_ok; infer_instance

instance kc_tt_indep_dec (t : List Nat) (j : Nat) : Decidable (kc_tt_indep t j) := by
  unfold kc_tt_indep; infer_instance

/-- Output tables as the reader has to deliver them for `n` inputs: the word
count is that of `n` variables, every table is made of 64-bit words, and a
table of fewer than 6 variables is stretched, which means that it does not
depend on the variables `n .. 5` of its single word. -/
def kc_outs_ok (n : Nat) (outs : kc_vt) : Prop :=
  outs.words = kc_truth_word_num n ∧ kc_vt_ok outs ∧
    ∀ t ∈ outs.ptr, ∀ j, j < 6 → n ≤ j → kc_tt_indep t j

instance kc_outs_ok_dec (n : Nat) (outs : kc_vt) : Decidable (kc_outs_ok n outs) := by
  unfold kc_outs_ok; infer_instance

/-- Table of literal `l` in the graph (the empty list outside the store). -/
def kc_gg_tt (gg : kc_gg) (l : Nat) : List Nat := gg.tts.ptr.getD l []

/-- Graphs obtained from `kc_gg_start nins outs` by calls of the five Boolean
constructors with literals of the graph they are applied to. -/
inductive kc_gg_reach (nins : Nat) (outs : kc_vt) : kc_gg → Prop
  | start : kc_gg_reach nins outs (kc_gg_start nins outs)
  | and_step (gg g : kc_gg) (a b r : Nat) : kc_gg_reach nins outs gg →
      a < 2 * gg.size → b < 2 * gg.size → kc_gg_and gg a b = some (g, r) →
      kc_gg_reach nins outs g
  | xor_step (gg g : kc_gg) (a b r : Nat) : kc_gg_reach nins outs gg →
      a < 2 * gg.size → b < 2 * gg.size → kc_gg_xor gg a b = some (g, r) →
      kc_gg_reach nins outs g
  | or_step (gg g : kc_gg) (a b r : Nat) : kc_gg_reach nins outs gg →
      a < 2 * gg.size → b < 2 * gg.size → kc_gg_or gg a b = some (g, r) →
      kc_gg_reach nins outs g
  | mux_step (ord : kc_order) (gg g : kc_gg) (c t e r : Nat) : kc_gg_reach nins outs gg →
      c < 2 * gg.size → t < 2 * gg.size → e < 2 * gg.size →
      kc_gg_mux ord gg c t e = some (g, r) → kc_gg_reach nins outs g
  | and_xor_step (gg g : kc_gg) (c t e r : Nat) : kc_gg_reach nins outs gg →
      c < 2 * gg.size → t < 2 * gg.size → e < 2 * gg.size →
      kc_gg_and_xor gg c t e = some (g, r) → kc_gg_reach nins outs g

/-- The invariant of the gate graph that the constructors maintain. -/
structure kc_gg_inv (gg : kc_gg) : Prop where
  size_ge : 1 + gg.nins ≤ gg.size
  fans_len : gg.fans.length = 2 * gg.size
  tids_len : gg.tids.length = gg.size
  tts_len : gg.tts.ptr.length = 2 * gg.size
  tts_words : gg.tts.words = kc_truth_word_num gg.nins
  tts_ok : kc_vt_ok gg.tts
  const0 : kc_gg_tt gg 0 = List.replicate gg.tts.words 0
  polar : ∀ l, l < 2 * gg.size → kc_gg_tt gg (l ^^^ 1) = (kc_gg_tt gg l).map kc_not
  vars : ∀ i, i < gg.nins → ∀ m, m < 64 * gg.tts.words →
    kc_tt_bit (kc_gg_tt gg (2 * (i + 1))) m = m.testBit i
  node : ∀ v, gg.nins < v → v < gg.size → ∃ a b : Nat,
    gg.fans[2 * v]? = some (a : Int) ∧ gg.fans[2 * v + 1]? = some (b : Int) ∧
    a ≠ b ∧ a < 2 * v ∧ b < 2 * v ∧
    (a < b → kc_gg_tt gg (2 * v) = List.zipWith (· &&& ·) (kc_gg_tt gg a) (kc_gg_tt gg b)) ∧
    (b < a → kc_gg_tt gg (2 * v) = List.zipWith (· ^^^ ·) (kc_gg_tt gg a) (kc_gg_tt gg b))
  struct_uniq : ∀ v w, gg.nins < v → v < gg.size → gg.nins < w → w < gg.size →
    gg.fans[2 * v]? = gg.fans[2 * w]? → gg.fans[2 * v + 1]? = gg.fans[2 * w + 1]? → v = w
  func_uniq : ∀ l m, l < 2 * gg.size → m < 2 * gg.size → kc_gg_tt gg l = kc_gg_tt gg m → l = m

/-- Graph `g` extends graph `gg`: same inputs, same outputs to realize, and the
tables of `gg` are an initial segment of those of `g`. -/
def kc_gg_ext (gg g : kc_gg) : Prop :=
  g.nins = gg.nins ∧ gg.size ≤ g.size ∧ g.outs = gg.outs ∧ g.tops = gg.tops ∧
    g.funcs = gg.funcs ∧ g.tts.words = gg.tts.words ∧
    ∃ more, g.tts.ptr = gg.tts.ptr ++ more

/-! ## Two small graphs on which the properties are instantiated -/

/-- The graph of two inputs after `kc_gg_and` of the two input literals 2 and 4. -/
def kc_demo_and : kc_gg :=
  { nins := 2
    size := 4
    tid := 1
    tids := [0, 0, 0, 0]
    fans := [-1, -1, -1, -1, -1, -1, 2, 4]
    tops := []
    funcs := { words := 1, ptr := [] }
    tts := { words := 1
             ptr := [[0], [0xFFFFFFFFFFFFFFFF], [0xAAAAAAAAAAAAAAAA], [0x5555555555555555],
                     [0xCCCCCCCCCCCCCCCC], [0x3333333333333333],
                     [0x8888888888888888], [0x7777777777777777]] }
    outs := { words := 1, ptr := [] } }

/-- The graph `kc_demo_and` after `kc_gg_xor` of the two input literals 2 and 4. -/
def kc_demo_xor : kc_gg :=
  { nins := 2
    size := 5
    tid := 1
    tids := [0, 0, 0, 0, 0]
    fans := [-1, -1, -1, -1, -1, -1, 2, 4, 4, 2]
    tops := []
    funcs := { words := 1, ptr := [] }
    tts := { words := 1
             ptr := [[0], [0xFFFFFFFFFFFFFFFF], [0xAAAAAAAAAAAAAAAA], [0x5555555555555555],
                     [0xCCCCCCCCCCCCCCCC], [0x3333333333333333],
                     [0x8888888888888888], [0x7777777777777777],
                     [0x6666666666666666], [0x9999999999999999]] }
    outs := { words := 1, ptr := [] } }

/-- Graph `g` differs from graph `gg` in the traversal counter and in the values
of the traversal marks only. -/
def kc_gg_same (gg g : kc_gg) : Prop :=
  g.nins = gg.nins ∧ g.size = gg.size ∧ g.fans = gg.fans ∧ g.tts = gg.tts ∧
    g.funcs = gg.funcs ∧ g.tops = gg.tops ∧ g.outs = gg.outs ∧
    g.tids.length = gg.tids.length

/-- What a call of a synthesizer on graph `gg` for the target table `f` has to
deliver: a literal of an extension of `gg` whose table is `f`. -/
def kc_synth_post (gg : kc_gg) (f : List Nat) (res : Option (kc_gg × Int)) : Prop :=
  ∃ (g : kc_gg) (r : Nat), res = some (g, (r : Int)) ∧ kc_gg_inv g ∧ kc_gg_ext gg g ∧
    r < 2 * g.size ∧ kc_gg_tt g r = f

/-- What a call of a synthesizer with top-most variable `k - 1` needs: a graph
that satisfies the invariant, a scratch store of the word count of the graph
that holds the target `f` as table `ttId`, and a target that depends on no
variable from `k` on. -/
def kc_synth_pre (gg : kc_gg) (k ttId : Nat) (f : List Nat) : Prop :=
  kc_gg_inv gg ∧ k ≤ gg.nins ∧ gg.funcs.words = gg.tts.words ∧ kc_vt_ok gg.funcs ∧
    gg.funcs.ptr[ttId]? = some f ∧ ∀ j, k ≤ j → j < max gg.nins 6 → kc_tt_indep f j

/-- State of `kc_top_level_call_one` after the first `j` outputs: the graph
satisfies the invariant and every literal pushed to `tops` so far is a literal
of the graph whose table is the output it was synthesized for. -/
def kc_tops_ok (n : Nat) (outs : kc_vt) (j : Nat) (g : kc_gg) : Prop :=
  kc_gg_inv g ∧ g.nins = n ∧ g.outs = outs ∧ g.funcs.words = kc_truth_word_num n ∧
    g.tops.length = j ∧
    ∀ i, i < j → ∃ top : Nat, g.tops[i]? = some (top : Int) ∧ top < 2 * g.size ∧
      outs.ptr[i]? = some (kc_gg_tt g top)

/-! ## Swapping variables in truth tables -/

/-- The masks `s_PPMasks[i][j]` of the exchange of two variables `i < j` that both
live inside a word: the bits that stay, the bits that move up, the bits that
move down. -/
def s_PPMasks : List (List (List Nat)) :=
  [ [ [0x0000000000000000, 0x0000000000000000, 0x0000000000000000],
      [0x9999999999999999, 0x2222222222222222, 0x4444444444444444],
      [0xA5A5A5A5A5A5A5A5, 0x0A0A0A0A0A0A0A0A, 0x5050505050505050],
      [0xAA55AA55AA55AA55, 0x00AA00AA00AA00AA, 0x5500550055005500],
      [0xAAAA5555AAAA5555, 0x0000AAAA0000AAAA, 0x5555000055550000],
      [0xAAAAAAAA55555555, 0x00000000AAAAAAAA, 0x5555555500000000] ],
    [ [0x0000000000000000, 0x0000000000000000, 0x0000000000000000],
      [0x0000000000000000, 0x0000000000000000, 0x0000000000000000],
      [0xC3C3C3C3C3C3C3C3, 0x0C0C0C0C0C0C0C0C, 0x3030303030303030],
      [0xCC33CC33CC33CC33, 0x00CC00CC00CC00CC, 0x3300330033003300],
      [0xCCCC3333CCCC3333, 0x0000CCCC0000CCCC, 0x3333000033330000],
      [0xCCCCCCCC33333333, 0x00000000CCCCCCCC, 0x3333333300000000] ],
    [ [0x0000000000000000, 0x0000000000000000, 0x0000000000000000],
      [0x0000000000000000, 0x0000000000000000, 0x0000000000000000],
      [0x0000000000000000, 0x0000000000000000, 0x0000000000000000],
      [0xF00FF00FF00FF00F, 0x00F000F000F000F0, 0x0F000F000F000F00],
      [0xF0F00F0FF0F00F0F, 0x0000F0F00000F0F0, 0x0F0F00000F0F0000],
      [0xF0F0F0F00F0F0F0F, 0x00000000F0F0F0F0, 0x0F0F0F0F00000000] ],
    [ [0x0000000000000000, 0x0000000000000000, 0x0000000000000000],
      [0x0000000000000000, 0x0000000000000000, 0x0000000000000000],
      [0x0000000000000000, 0x0000000000000000, 0x0000000000000000],
      [0x0000000000000000, 0x0000000000000000, 0x0000000000000000],
      [0xFF0000FFFF0000FF, 0x0000FF000000FF00, 0x00FF000000FF0000],
      [0xFF00FF0000FF00FF, 0x00000000FF00FF00, 0x00FF00FF00000000] ],
    [ [0x0000000000000000, 0x0000000000000000, 0x0000000000000000],
      [0x0000000000000000, 0x0000000000000000, 0x0000000000000000],
      [0x0000000000000000, 0x0000000000000000, 0x0000000000000000],
      [0x0000000000000000, 0x0000000000000000, 0x0000000000000000],
      [0x0000000000000000, 0x0000000000000000, 0x0000000000000000],
      [0xFFFF00000000FFFF, 0x00000000FFFF0000, 0x0000FFFF00000000] ] ]

/-- Entry `s_PPMasks[i][j][k]`. -/
def kc_pp_mask (i j k : Nat) : Nat := ((s_PPMasks.getD i []).getD j []).getD k 0

/-- Offsets visited by the loops of `kc_vt_swap_vars` for two variables outside
the word, `for (; tt < pLimit; tt += 2 * jStep) for (i = 0; i < jStep; i += 2 * iStep)
for (j = 0; j < iStep; j++)`, in the order of the visit: the offset of the block
plus `i + j`. -/
def kc_swap_index (words iStep jStep : Nat) : List Nat :=
  (List.range ((words + 2 * jStep - 1) / (2 * jStep))).flatMap
    (fun b => (kc_block_index jStep iStep).map (fun k => 2 * jStep * b + k))

/-- Exchanges the variables `iVar` and `jVar` of table `ttId` in place.  The
variables are natural numbers here: the caller passes positions of an array it
has just accessed. -/
def kc_vt_swap_vars (v : kc_vt) (ttId iVar jVar : Nat) : Option kc_vt :=
  if iVar = jVar then some v
  else
    let i := if jVar < iVar then jVar else iVar
    let j := if jVar < iVar then iVar else jVar
    if kc_truth_word_num (i + 1) ≤ v.words ∧ kc_truth_word_num (j + 1) ≤ v.words then
      match kc_vt_read v ttId with
      | none => none
      | some tt =>
        let res : Option (List Nat) :=
          if j ≤ 5 then
            let shift := (1 <<< j) - (1 <<< i)
            some (tt.map (fun x =>
              (x &&& kc_pp_mask i j 0) ||| kc_shl (x &&& kc_pp_mask i j 1) shift
                ||| ((x &&& kc_pp_mask i j 2) >>> shift)))
          else if i ≤ 5 ∧ j > 5 then
            let jStep := kc_truth_word_num j
            let shift := 1 <<< i
            (kc_block_index v.words jStep).foldlM (fun t k =>
              (t[k]?).bind (fun lo =>
                (t[k + jStep]?).bind (fun hi =>
                  (kc_write t k ((lo &&& kc_not (s_Truths6.getD i 0))
                      ||| (kc_shl hi shift &&& s_Truths6.getD i 0))).bind (fun t1 =>
                    (t1[k + jStep]?).bind (fun hi1 =>
                      kc_write t1 (k + jStep) ((hi1 &&& s_Truths6.getD i 0)
                        ||| ((lo &&& s_Truths6.getD i 0) >>> shift))))))) tt
          else
            let iStep := kc_truth_word_num i
            let jStep := kc_truth_word_num j
            (kc_swap_index v.words iStep jStep).foldlM (fun t k =>
              (t[iStep + k]?).bind (fun a =>
                (t[jStep + k]?).bind (fun b =>
                  (kc_write t (iStep + k) b).bind (fun t1 =>
                    kc_write t1 (jStep + k) a)))) tt
        match res with
        | none => none
        | some ttNew => some { v with ptr := v.ptr.set ttId ttNew }
    else none

/-! ## Duplication and node counting over the outputs -/

/-- Number of internal nodes in the fanin cones of the outputs; the nodes counted
are left marked with the new traversal identifier. -/
def kc_gg_node_count (gg : kc_gg) : Option (kc_gg × Nat) :=
  let gg0 := (kc_gg_tid_increment gg).1
  gg0.tops.foldlM (fun (st : kc_gg × Nat) top =>
    match kc_gg_node_count_rec st.1.size st.1 top with
    | none => none
    | some (g, c) => some (g, st.2 + c)) (gg0, 0)

/-- The array `pCopy` of `kc_gg_dup` before the loop over the nodes: `2 * size`
zeros from `calloc`, then `pCopy[i] = i` for the literals of the constant and of
the inputs. -/
def kc_gg_dup_init (gg : kc_gg) : Option (List Nat) :=
  (List.range (2 * (1 + gg.nins))).foldlM (fun (p : List Nat) i => kc_write p i i)
    (List.replicate (2 * gg.size) 0)

/-- One turn of the loop of `kc_gg_dup` over the nodes, for node `i`: a node
marked in the current traversal is rebuilt in the new graph from the copies of
its fanins and its two literals are entered into `pCopy`.  The state is the new
graph and the array `pCopy`. -/
def kc_gg_dup_node (ord : kc_order) (gg : kc_gg) (only_and : Bool) (st : kc_gg × List Nat)
    (i : Nat) : Option (kc_gg × List Nat) :=
  match kc_gg_tid_is_cur gg i with
  | none => none
  | some false => some st
  | some true =>
    match kc_gg_fanin gg i 0, kc_gg_fanin gg i 1, kc_gg_is_xor gg i with
    | some lit0, some lit1, some isx =>
      match (kc_lit_of_int lit0).bind (fun l => st.2[l]?),
            (kc_lit_of_int lit1).bind (fun l => st.2[l]?) with
      | some c0, some c1 =>
        match (if !isx then kc_gg_and st.1 c0 c1
               else if only_and then kc_gg_mux ord st.1 c0 (kc_lnot c1) c1
               else kc_gg_xor st.1 c0 c1) with
        | none => none
        | some (g, r) =>
          match kc_write st.2 (2 * i) r with
          | none => none
          | some p1 =>
            match kc_write p1 (2 * i + 1) (kc_lnot r) with
            | none => none
            | some p2 => some (g, p2)
      | _, _ => none
    | _, _, _ => none

/-- The last loop of `kc_gg_dup`: the copy of every output literal is pushed to
the outputs of the new graph. -/
def kc_gg_dup_tops (gg : kc_gg) (pCopy : List Nat) (g1 : kc_gg) : Option kc_gg :=
  gg.tops.foldlM (fun (g : kc_gg) top =>
    match (kc_lit_of_int top).bind (fun l => pCopy[l]?) with
    | none => none
    | some c => some { g with tops := g.tops ++ [(c : Int)] }) g1

/-- Duplicates the graph while only copying the nodes marked in the current
traversal; with `only_and` an XOR node is expanded into AND nodes. -/
def kc_gg_dup (ord : kc_order) (gg : kc_gg) (only_and : Bool) : Option kc_gg :=
  match kc_gg_dup_init gg with
  | none => none
  | some pCopy0 =>
    match (List.range' (1 + gg.nins) (gg.size - (1 + gg.nins))).foldlM
        (kc_gg_dup_node ord gg only_and) (kc_gg_start gg.nins gg.outs, pCopy0) with
    | none => none
    | some (g1, pCopy) => kc_gg_dup_tops gg pCopy g1

/-! ## AIGER interface -/

/-- Bytes written by `kc_aiger_write_uint` for the `unsigned` value `x`, in the
order of the `fputc` calls.  The mask `~0x7f` is `0xFFFFFF80` in 32-bit unsigned
arithmetic and a byte is an `unsigned char`, cut to 8 bits. -/
def kc_aiger_write_uint (x : Nat) : List Nat :=
  if h : x &&& 0xFFFFFF80 ≠ 0 then
    (((x &&& 0x7f) ||| 0x80) % 256) :: kc_aiger_write_uint (x >>> 7)
  else [x % 256]
termination_by x
decreasing_by
  have hx : x ≠ 0 := by
    intro h0; subst h0; simp at h
  rw [Nat.shiftRight_eq_div_pow]
  exact Nat.div_lt_self (Nat.pos_of_ne_zero hx) (by norm_num)

/-! ## Permutation generation -/

/-- Largest allowed number of inputs, the length of the array `currPerm` of the
callers of `kc_get_next_perm`. -/
def MAX_VARS : Nat := 16

/-- Read of an `int` array at an `int` index; an index outside the array is a
failure. -/
def kc_arr_read (a : List Int) (i : Int) : Option Int :=
  if 0 ≤ i then a[i.toNat]? else none

/-- The first loop of `kc_get_next_perm`,
`while (i >= 0 && currPerm[i - 1] >= currPerm[i]) i--`; the argument is `i + 1`
and the result is the value of `i` after the loop. -/
def kc_perm_scan_i (currPerm : List Int) : Nat → Option Int
  | 0 => some (-1)
  | k + 1 =>
    match kc_arr_read currPerm ((k : Int) - 1), kc_arr_read currPerm (k : Int) with
    | some a, some b => if a ≥ b then kc_perm_scan_i currPerm k else some (k : Int)
    | _, _ => none

/-- The second loop of `kc_get_next_perm`,
`while (j > i && currPerm[j - 1] <= currPerm[i - 1]) j--`; the last argument is
`j` and the result is the value of `j` after the loop. -/
def kc_perm_scan_j (currPerm : List Int) (i : Int) : Nat → Option Nat
  | 0 => if (0 : Int) > i then none else some 0
  | j + 1 =>
    if ((j + 1 : Nat) : Int) > i then
      match kc_arr_read currPerm (j : Int), kc_arr_read currPerm (i - 1) with
      | some a, some b => if a ≤ b then kc_perm_scan_j currPerm i j else some (j + 1)
      | _, _ => none
    else some (j + 1)

/-- One exchange of `kc_get_next_perm`: `KC_SWAP(int, currPerm[x], currPerm[y])`
followed, when `tts` is not `NULL`, by `kc_vt_swap_vars(tts, t, x, y)` for every
table `t`. -/
def kc_perm_swap (currPerm : List Int) (tts : Option kc_vt) (x y : Int) :
    Option (List Int × Option kc_vt) :=
  match kc_arr_read currPerm x, kc_arr_read currPerm y with
  | some a, some b =>
    let p := (currPerm.set x.toNat b).set y.toNat a
    match tts with
    | none => some (p, none)
    | some v =>
      match (List.range v.ptr.length).foldlM
          (fun w t => kc_vt_swap_vars w t x.toNat y.toNat) v with
      | none => none
      | some w => some (p, some w)
  | _, _ => none

/-- The last loop of `kc_get_next_perm`, `while (i < j) { exchange; i++; j--; }`.
The first argument bounds the number of turns; running out of it is a failure. -/
def kc_perm_reverse : Nat → List Int → Option kc_vt → Int → Int →
    Option (List Int × Option kc_vt)
  | 0, p, t, i, j => if i < j then none else some (p, t)
  | fuel + 1, p, t, i, j =>
    if i < j then
      match kc_perm_swap p t (i - 1) (j - 1) with
      | none => none
      | some (p1, t1) => kc_perm_reverse fuel p1 t1 (i + 1) (j - 1)
    else some (p, t)

/-- Generates the next permutation in lexicographic order and applies the same
exchanges to the tables of `tts` (`none` is the `NULL` store). -/
def kc_get_next_perm (currPerm : List Int) (nVars : Nat) (tts : Option kc_vt) :
    Option (List Int × Option kc_vt) :=
  match kc_perm_scan_i currPerm nVars with
  | none => none
  | some i =>
    if i ≥ 0 then
      match kc_perm_scan_j currPerm i nVars with
      | none => none
      | some j =>
        match kc_perm_swap currPerm tts (i - 1) ((j : Int) - 1) with
        | none => none
        | some (p1, t1) => kc_perm_reverse nVars p1 t1 (i + 1) (nVars : Int)
    else some (currPerm, tts)

/-- An `int` result brought back into the range of 32-bit two's complement. -/
def kc_int32 (x : Int) : Int := (x + 2 ^ 31) % 2 ^ 32 - 2 ^ 31

/-- The product `1 * 2 * ... * nVars` in `int` arithmetic. -/
def kc_factorial (nVars : Nat) : Int :=
  (List.range' 1 nVars).foldl (fun Res i => kc_int32 (Res * (i : Int))) 1

/-- The array `currPerm` as both callers of `kc_get_next_perm` set it up:
`MAX_VARS` zeros, then `currPerm[i] = i` for the `nvars` variables. -/
def kc_perm_init (nvars : Nat) : Option (List Int) :=
  (List.range nvars).foldlM
    (fun (p : List Int) i => if i < p.length then some (p.set i (i : Int)) else none)
    (List.replicate MAX_VARS 0)

/-- Solves the problem for all variable orders: the state of the loop is the
store `outs`, the store `best`, the array `currPerm` and `CostBest`; the result
is the store `outs` after the call. -/
def kc_top_level_call_perm (ord : kc_order) (nvars : Nat) (outs : kc_vt) (and_only : Bool) :
    Option kc_vt :=
  match kc_perm_init nvars with
  | none => none
  | some currPerm0 =>
    match (List.range (kc_factorial nvars).toNat).foldlM
        (fun (st : kc_vt × kc_vt × List Int × Int) _ =>
          match kc_top_level_call_one ord nvars st.1 and_only with
          | none => none
          | some ggTemp =>
            match kc_gg_node_count ggTemp with
            | none => none
            | some (_, CostThis) =>
              let better : Bool := decide (st.2.2.2 > (CostThis : Int))
              match kc_get_next_perm st.2.2.1 nvars (some st.1) with
              | some (p, some o) =>
                some (o, (if better then kc_vt_dup st.1 else st.2.1), p,
                      (if better then (CostThis : Int) else st.2.2.2))
              | _ => none)
        (outs, kc_vt_start outs.words, currPerm0, 0x7FFFFFFF) with
    | none => none
    | some st => some (kc_vt_dup st.2.1)

/-- The loop of `kc_perm_test` without the printing: the array after `k` calls
of `kc_get_next_perm` with a `NULL` store, starting from the identity. -/
def kc_perm_iter (nVars : Nat) : Nat → Option (List Int)
  | 0 => kc_perm_init nVars
  | k + 1 =>
    match kc_perm_iter nVars k with
    | none => none
    | some p =>
      match kc_get_next_perm p nVars none with
      | none => none
      | some (q, _) => some q

/-! ## Notions used to state the properties of the permutation machinery -/

/-- Minterm index `m` with bit `i` given the value `b`. -/
def kc_put_bit (m i : Nat) (b : Bool) : Nat := if b then kc_set_bit m i else kc_clear_bit m i

/-- Minterm index `m` with its bits at positions `i` and `j` exchanged. -/
def kc_swap_bits (m i j : Nat) : Nat :=
  kc_put_bit (kc_put_bit m i (m.testBit j)) j (m.testBit i)

/-- Value of a sequence of bytes read as little-endian groups of 7 bits: the sum
of `(b_k AND 0x7F) * 2 ^ (7 k)`. -/
def kc_varint_value : List Nat → Nat
  | [] => 0
  | b :: bs => (b &&& 0x7F) + 2 ^ 7 * kc_varint_value bs

/-- The three masks of `s_PPMasks[i][j]` split the 64 positions of a word:
position `c` keeps its bit, or receives the bit from `2 ^ j - 2 ^ i` below, or
from `2 ^ j - 2 ^ i` above, and the source position is `c` with its bits `i` and
`j` exchanged. -/
def kc_pp_split (i j c : Nat) : Prop :=
  ((kc_pp_mask i j 0).testBit c = true ∧
    (decide (2 ^ j - 2 ^ i ≤ c) && (kc_pp_mask i j 1).testBit (c - (2 ^ j - 2 ^ i))) = false ∧
    (kc_pp_mask i j 2).testBit (2 ^ j - 2 ^ i + c) = false ∧ kc_swap_bits c i j = c) ∨
  ((kc_pp_mask i j 0).testBit c = false ∧
    (decide (2 ^ j - 2 ^ i ≤ c) && (kc_pp_mask i j 1).testBit (c - (2 ^ j - 2 ^ i))) = true ∧
    (kc_pp_mask i j 2).testBit (2 ^ j - 2 ^ i + c) = false ∧
    kc_swap_bits c i j = c - (2 ^ j - 2 ^ i)) ∨
  ((kc_pp_mask i j 0).testBit c = false ∧
    (decide (2 ^ j - 2 ^ i ≤ c) && (kc_pp_mask i j 1).testBit (c - (2 ^ j - 2 ^ i))) = false ∧
    (kc_pp_mask i j 2).testBit (2 ^ j - 2 ^ i + c) = true ∧
    kc_swap_bits c i j = 2 ^ j - 2 ^ i + c)

instance kc_pp_split_dec (i j c : Nat) : Decidable (kc_pp_split i j c) := by
  unfold kc_pp_split; infer_instance

/-- The identity ordering `0, 1, ..., n - 1`. -/
def kc_perm_id (n : Nat) : List Int := (List.range n).map (fun (i : Nat) => (i : Int))

/-- Lexicographic rank of an ordering among the orderings of its elements: the
sum over the positions of the number of smaller elements behind the position
times the factorial of the number of elements behind it. -/
def kc_perm_rank : List Int → Nat
  | [] => 0
  | x :: r => r.countP (fun w => decide (w < x)) * r.length.factorial + kc_perm_rank r

/-! ## Predicates on duplicated graphs -/

/-- Every internal node is an AND node: its first fanin is the smaller one. -/
def kc_gg_and_only (g : kc_gg) : Prop :=
  ∀ v, g.nins < v → v < g.size → ∃ a b : Nat,
    g.fans[2 * v]? = some (a : Int) ∧ g.fans[2 * v + 1]? = some (b : Int) ∧ a < b

/-- Objects in the fanin cones of the outputs of the graph. -/
inductive kc_gg_cone (gg : kc_gg) : Nat → Prop
  | top (l : Nat) : (l : Int) ∈ gg.tops → kc_gg_cone gg (l / 2)
  | fanin (v a c : Nat) : kc_gg_cone gg v → gg.nins < v → c < 2 →
      gg.fans[2 * v + c]? = some (a : Int) → kc_gg_cone gg (a / 2)

/-- State of the loop of `kc_gg_dup` before node `i`, for a set `G` of nodes of
the source graph: the new graph is well formed, has the inputs of the source and
no outputs yet, the entries of `pCopy` are literals of it, and the entry of
every literal below `2 * i` of a constant, an input or a node of `G` is a
literal with the same table. -/
def kc_gg_dup_inv (gg : kc_gg) (G : Nat → Prop) (i : Nat) (st : kc_gg × List Nat) : Prop :=
  kc_gg_inv st.1 ∧ st.1.nins = gg.nins ∧ st.1.tops = [] ∧ st.2.length = 2 * gg.size ∧
    (∀ x, x ∈ st.2 → x < 2 * st.1.size) ∧
    ∀ l, l < 2 * i → (l / 2 ≤ gg.nins ∨ G (l / 2)) →
      ∃ c, st.2[l]? = some c ∧ kc_gg_tt st.1 c = kc_gg_tt gg l

/-- The graph `kc_demo_xor` with the complemented XOR literal 9 as its only
output, as `kc_gg_node_count` leaves it: the XOR node 4 is marked with the
traversal identifier 2, the AND node 3 is not. -/
def kc_demo_marked : kc_gg :=
  { kc_demo_xor with tid := 2, tids := [0, 0, 0, 0, 2], tops := [9] }

/-- The copy of `kc_demo_marked` made by `kc_gg_dup` with `only_and`, operands of
the multiplexer evaluated from the left: three AND nodes for the XOR node. -/
def kc_demo_dup : kc_gg :=
  { nins := 2
    size := 6
    tid := 1
    tids := [0, 0, 0, 0, 0, 0]
    fans := [-1, -1, -1, -1, -1, -1, 3, 4, 2, 5, 7, 9]
    tops := [10]
    funcs := { words := 1, ptr := [] }
    tts := { words := 1
             ptr := [[0], [0xFFFFFFFFFFFFFFFF], [0xAAAAAAAAAAAAAAAA], [0x5555555555555555],
                     [0xCCCCCCCCCCCCCCCC], [0x3333333333333333],
                     [0x4444444444444444], [0xBBBBBBBBBBBBBBBB],
                     [0x2222222222222222], [0xDDDDDDDDDDDDDDDD],
                     [0x9999999999999999], [0x6666666666666666]] }
    outs := { words := 1, ptr := [] } }

/-! ## Predicates on traversal marks -/

/-- Number of internal nodes below object `v` that carry the current traversal
mark. -/
def kc_gg_marked_below (gg : kc_gg) (v : Nat) : Nat :=
  (List.range' (1 + gg.nins) (v - (1 + gg.nins))).countP
    (fun i => decide (gg.tids[i]? = some gg.tid))

/-- What a call of `kc_gg_node_count_rec` on a literal of object `root` that
turns graph `gg` into `g` and returns `c` has done: only marks have changed;
marks are kept; `root` is marked unless it is an input or the constant; every
object whose mark has changed is an internal node that is now marked, has its
fanins marked, and lies in every set of objects that holds `root` and is closed
under fanins; and `c` new marks are there. -/
def kc_gg_marks_post (gg g : kc_gg) (root c : Nat) : Prop :=
  kc_gg_same gg g ∧ g.tid = gg.tid ∧
  (∀ v : Nat, gg.tids[v]? = some gg.tid → g.tids[v]? = some gg.tid) ∧
  (root ≤ gg.nins ∨ g.tids[root]? = some gg.tid) ∧
  (∀ v : Nat, g.tids[v]? ≠ gg.tids[v]? →
    gg.nins < v ∧ g.tids[v]? = some gg.tid ∧
    (∀ k a : Nat, k < 2 → gg.fans[2 * v + k]? = some (a : Int) →
      a / 2 ≤ gg.nins ∨ g.tids[a / 2]? = some gg.tid) ∧
    (∀ C : Nat → Prop, C root →
      (∀ w a k : Nat, C w → gg.nins < w → k < 2 → gg.fans[2 * w + k]? = some (a : Int) →
        C (a / 2)) → C v)) ∧
  kc_gg_marked_below g g.size = kc_gg_marked_below gg gg.size + c

/-- No mark of the graph is ahead of the traversal counter. -/
def kc_gg_tids_ok (gg : kc_gg) : Prop := 0 ≤ gg.tid ∧ ∀ t, t ∈ gg.tids → t ≤ gg.tid

/-- State of the loop of `kc_gg_node_count` over the outputs of graph `gg` after
`j` outputs: every marked object is an internal node in the fanin cones of the
outputs whose fanins are marked, the nodes of the outputs done are marked, and
the sum is the number of marked nodes. -/
def kc_gg_count_inv (gg : kc_gg) (j : Nat) (st : kc_gg × Nat) : Prop :=
  kc_gg_same gg st.1 ∧ st.1.tid = gg.tid + 1 ∧
  (∀ v : Nat, st.1.tids[v]? = some (gg.tid + 1) →
    gg.nins < v ∧ kc_gg_cone gg v ∧
    ∀ k a : Nat, k < 2 → gg.fans[2 * v + k]? = some (a : Int) →
      a / 2 ≤ gg.nins ∨ st.1.tids[a / 2]? = some (gg.tid + 1)) ∧
  (∀ i, i < j → ∃ l : Nat, gg.tops[i]? = some (l : Int) ∧
    (l / 2 ≤ gg.nins ∨ st.1.tids[l / 2]? = some (gg.tid + 1))) ∧
  st.2 = kc_gg_marked_below st.1 st.1.size

/-- State of the loop of `kc_gg_dup` without expansion before node `i`: the
state of `kc_gg_dup_inv` for the marked nodes, and the new graph holds one node
for every marked node below `i`, in the same order and of the same type, and
nothing else. -/
def kc_gg_copy_inv (gg : kc_gg) (i : Nat) (st : kc_gg × List Nat) : Prop :=
  kc_gg_dup_inv gg (fun v => gg.tids[v]? = some gg.tid) i st ∧
  st.1.size = 1 + gg.nins + kc_gg_marked_below gg i ∧
  (∀ v : Nat, gg.nins < v → v < i → gg.tids[v]? = some gg.tid →
    st.2[2 * v]? = some (2 * (1 + gg.nins + kc_gg_marked_below gg v)) ∧
    kc_gg_is_xor st.1 (1 + gg.nins + kc_gg_marked_below gg v) = kc_gg_is_xor gg v) ∧
  (∀ m, m < 2 * st.1.size → ∃ l : Nat, l < 2 * i ∧
    (l / 2 ≤ gg.nins ∨ gg.tids[l / 2]? = some gg.tid) ∧ st.2[l]? = some m)

/-! ## Relation between the ordering and the permuted tables -/

/-- The minterm of the original function that minterm `m` of a permuted table
stands for: bit `currPerm[p]` of the result is bit `p` of `m`, for the positions
`p < n`. -/
def kc_perm_index (currPerm : List Int) (n m : Nat) : Nat :=
  ((List.range n).map (fun p => if m.testBit p then 2 ^ (currPerm.getD p 0).toNat else 0)).sum

/-- The relation between the array `currPerm` and the store `tts` of tables
permuted along with it: every table of `tts` is the table of the same number of
the store `orig` with position `p` standing for the original variable
`currPerm[p]`. -/
def kc_perm_rel (currPerm : List Int) (n : Nat) (orig tts : kc_vt) : Prop :=
  tts.ptr.length = orig.ptr.length ∧
  ∀ t m, m < 2 ^ n →
    kc_tt_bit (tts.ptr.getD t []) m = kc_tt_bit (orig.ptr.getD t []) (kc_perm_index currPerm n m)

/-! ## Levels, node count of a synthesis, stretching -/

/-- Level of the node of `lit` in the array `levs`; an unmarked internal node is
marked and gets one more than the larger level of its two fanins.  The first
argument bounds the depth of the recursion as in `kc_gg_node_count_rec`. -/
def kc_gg_level_rec : Nat → kc_gg → List Int → Int → Option (kc_gg × List Int × Int)
  | 0, _, _, _ => none
  | fuel + 1, gg, levs, lit =>
    match kc_lit_of_int lit with
    | none => none
    | some l =>
      if kc_l2v l ≤ gg.nins then (levs[kc_l2v l]?).map (fun x => (gg, levs, x))
      else
        match kc_gg_tid_update gg (kc_l2v l) with
        | none => none
        | some (gg1, false) => (levs[kc_l2v l]?).map (fun x => (gg1, levs, x))
        | some (gg1, true) =>
          match gg1.fans[l]? with
          | none => none
          | some f0 =>
            match kc_gg_level_rec fuel gg1 levs f0 with
            | none => none
            | some (gg2, levs2, res0) =>
              match gg2.fans[kc_lnot l]? with
              | none => none
              | some f1 =>
                match kc_gg_level_rec fuel gg2 levs2 f1 with
                | none => none
                | some (gg3, levs3, res1) =>
                  let r : Int := 1 + (if res0 > res1 then res0 else res1)
                  if kc_l2v l < levs3.length then some (gg3, levs3.set (kc_l2v l) r, r)
                  else none

/-- Number of levels of the fanin cones of the outputs; the nodes visited are
left marked with the new traversal identifier. -/
def kc_gg_level (gg : kc_gg) : Option (kc_gg × Int) :=
  let gg0 := (kc_gg_tid_increment gg).1
  match gg0.tops.foldlM (fun (st : kc_gg × List Int × Int) top =>
      match kc_gg_level_rec st.1.size st.1 st.2.1 top with
      | none => none
      | some (g, levs, r) => some (g, levs, if st.2.2 > r then st.2.2 else r))
      (gg0, List.replicate gg0.size 0, 0) with
  | none => none
  | some (g, _, levMax) => some (g, levMax)

/-- Node count of the graph that `kc_top_level_call_one` builds, as
`kc_top_level_call_perm` and `kc_top_level_call` take it. -/
def kc_synth_count (ord : kc_order) (nvars : Nat) (outs : kc_vt) (and_only : Bool) :
    Option Nat :=
  (kc_top_level_call_one ord nvars outs and_only).bind
    (fun g => (kc_gg_node_count g).map Prod.snd)

/-- What the claims on the two-input XOR look at in a graph: the number of
internal nodes, the types of the internal nodes, and the tables of the
outputs. -/
def kc_gg_shape (g : kc_gg) : Nat × List (Option Bool) × List (Option (List Nat)) :=
  (kc_gg_node_num g,
   (List.range' (1 + g.nins) (g.size - (1 + g.nins))).map (kc_gg_is_xor g),
   g.tops.map (fun t => kc_vt_read g.tts t.toNat))

/-- The six lines of `kc_truth_stretch`,
`if (nVars == k) nVars++, t = (t & mask) | ((t & mask) << width)`,
as the triples `(k, mask, width)`. -/
def kc_stretch_lines : List (Int × Nat × Nat) :=
  [(0, 0x1, 1), (1, 0x3, 2), (2, 0xF, 4), (3, 0xFF, 8), (4, 0xFFFF, 16), (5, 0xFFFFFFFF, 32)]

/-- One line of `kc_truth_stretch` on the pair of `nVars` and `t`. -/
def kc_stretch_step (st : Int × Nat) (ln : Int × Nat × Nat) : Int × Nat :=
  if st.1 = ln.1 then (st.1 + 1, (st.2 &&& ln.2.1) ||| kc_shl (st.2 &&& ln.2.1) ln.2.2) else st

/-- Replicates the table of `nVars < 6` variables over the 64-bit word; the two
assertions of the source are failures. -/
def kc_truth_stretch (t : Nat) (nVars : Int) : Option Nat :=
  if nVars ≥ 0 then
    let st := kc_stretch_lines.foldl kc_stretch_step (nVars, t)
    if st.1 = 6 then some st.2 else none
  else none

/-! ## The parity function and its chain of XOR nodes -/

/-- The initial graph of two inputs with the parity of the inputs (table `6`) as
the only table of its scratch store. -/
def kc_demo_target : kc_gg :=
  { kc_gg_start 2 ⟨1, []⟩ with funcs := { words := 1, ptr := [[0x6666666666666666]] } }

/-- Value of the parity of the variables `0 .. m - 1` on the minterm `x`. -/
def kc_parity_bit : Nat → Nat → Bool
  | 0, _ => false
  | m + 1, x => kc_parity_bit m x ^^ x.testBit m

/-- Truth table, over `n` variables, of the parity `x0 XOR ... XOR x(m-1)` of the
first `m` variables: the XOR of their elementary tables. -/
def kc_parity_tt (n m : Nat) : List Nat :=
  (List.range m).foldl
    (fun t i => List.zipWith (· ^^^ ·) t (kc_vt_start_truth_tt (kc_truth_word_num n) (2 * i)))
    (List.replicate (kc_truth_word_num n) 0)

/-- Literal of the parity of the variables `0 .. i` in the chain of XOR nodes:
the first input itself for `i = 0`, the node `n + i` otherwise. -/
def kc_parity_lit (n i : Nat) : Nat := if i = 0 then 2 else 2 * (n + i)

/-- Graph of `n` inputs whose internal nodes are the first `j` nodes of the chain
of XOR nodes: node `n + i` carries the parity of the variables `0 .. i`; the
first node has the fanins `x1`, `x0`, and node `n + i` for `i ≥ 2` has the
previous node and the input `x_i` as its fanins. -/
def kc_parity_chain (n j : Nat) (g : kc_gg) : Prop :=
  kc_gg_inv g ∧ g.nins = n ∧ g.size = 1 + n + j ∧
  (∀ i, 1 ≤ i → i ≤ j → kc_gg_tt g (2 * (n + i)) = kc_parity_tt n (i + 1)) ∧
  (1 ≤ j → g.fans[2 * (n + 1)]? = some 4 ∧ g.fans[2 * (n + 1) + 1]? = some 2) ∧
  (∀ i, 2 ≤ i → i ≤ j →
    g.fans[2 * (n + i)]? = some ((2 * (n + i - 1) : Nat) : Int) ∧
    g.fans[2 * (n + i) + 1]? = some ((2 * (i + 1) : Nat) : Int))

end RecSyn

/-! # Properties -/

namespace RecSyn

/-! ## Words -/

theorem kc_not_lt (x : Nat) : kc_not x < 2 ^ 64 := by
  unfold kc_not kc_ones; omega

theorem kc_not_not (x : Nat) (hx : x < 2 ^ 64) : kc_not (kc_not x) = x := by
  unfold kc_not kc_ones at *; omega

theorem kc_not_ne (x : Nat) : kc_not x ≠ x := by
  unfold kc_not kc_ones; omega

theorem kc_not_testBit (x : Nat) (hx : x < 2 ^ 64) (i : Nat) :
    (kc_not x).testBit i = (decide (i < 64) && !x.testBit i) := by
  have h : kc_not x = 2 ^ 64 - (x + 1) := by unfold kc_not kc_ones; omega
  rw [h]; exact Nat.testBit_two_pow_sub_succ hx i

theorem kc_testBit_high (x : Nat) (hx : x < 2 ^ 64) (i : Nat) (hi : 64 ≤ i) :
    x.testBit i = false := by
  apply Nat.testBit_lt_two_pow
  exact Nat.lt_of_lt_of_le hx (Nat.pow_le_pow_right (by norm_num) hi)

theorem kc_word_ext (x y : Nat) (hx : x < 2 ^ 64) (hy : y < 2 ^ 64)
    (h : ∀ i, i < 64 → x.testBit i = y.testBit i) : x = y := by
  apply Nat.eq_of_testBit_eq
  intro i
  by_cases hi : i < 64
  · exact h i hi
  · rw [kc_testBit_high x hx i (by omega), kc_testBit_high y hy i (by omega)]

theorem kc_ones_testBit (i : Nat) : kc_ones.testBit i = decide (i < 64) := by
  have h : kc_ones = 2 ^ 64 - 1 := by unfold kc_ones; norm_num
  rw [h]; exact Nat.testBit_two_pow_sub_one 64 i

theorem kc_and_not (x : Nat) (hx : x < 2 ^ 64) : x &&& kc_not x = 0 := by
  apply Nat.eq_of_testBit_eq; intro i
  rw [Nat.testBit_and, kc_not_testBit x hx]
  cases x.testBit i <;> simp

theorem kc_not_and (x : Nat) (hx : x < 2 ^ 64) : kc_not x &&& x = 0 := by
  rw [Nat.and_comm]; exact kc_and_not x hx

theorem kc_xor_not (x : Nat) (hx : x < 2 ^ 64) : x ^^^ kc_not x = kc_ones := by
  apply Nat.eq_of_testBit_eq; intro i
  rw [Nat.testBit_xor, kc_not_testBit x hx, kc_ones_testBit]
  by_cases hi : i < 64
  · cases x.testBit i <;> simp [hi]
  · simp [hi, kc_testBit_high x hx i (by omega)]

theorem kc_and_ones (x : Nat) (hx : x < 2 ^ 64) : x &&& kc_ones = x := by
  apply Nat.eq_of_testBit_eq; intro i
  rw [Nat.testBit_and, kc_ones_testBit]
  by_cases hi : i < 64
  · simp [hi]
  · simp [hi, kc_testBit_high x hx i (by omega)]

theorem kc_xor_ones (x : Nat) (hx : x < 2 ^ 64) : x ^^^ kc_ones = kc_not x := by
  apply Nat.eq_of_testBit_eq; intro i
  rw [Nat.testBit_xor, kc_not_testBit x hx, kc_ones_testBit]
  by_cases hi : i < 64
  · cases x.testBit i <;> simp [hi]
  · simp [hi, kc_testBit_high x hx i (by omega)]

theorem kc_not_zero : kc_not 0 = kc_ones := by unfold kc_not; omega

/-- Complementing one operand of an XOR complements the result. -/
theorem kc_xor_not_left (x y : Nat) (hx : x < 2 ^ 64) (hy : y < 2 ^ 64) :
    kc_not x ^^^ y = kc_not (x ^^^ y) := by
  apply Nat.eq_of_testBit_eq; intro i
  rw [Nat.testBit_xor, kc_not_testBit x hx, kc_not_testBit _ (Nat.xor_lt_two_pow hx hy),
    Nat.testBit_xor]
  by_cases hi : i < 64
  · cases x.testBit i <;> cases y.testBit i <;> simp [hi]
  · simp [hi, kc_testBit_high y hy i (by omega)]

/-- De Morgan: the complement of the AND of the complements is the OR. -/
theorem kc_not_and_not (x y : Nat) (hx : x < 2 ^ 64) (hy : y < 2 ^ 64) :
    kc_not (kc_not x &&& kc_not y) = x ||| y := by
  apply Nat.eq_of_testBit_eq; intro i
  rw [kc_not_testBit _ (Nat.and_lt_two_pow _ (kc_not_lt y)), Nat.testBit_and,
    kc_not_testBit x hx, kc_not_testBit y hy, Nat.testBit_or]
  by_cases hi : i < 64
  · cases x.testBit i <;> cases y.testBit i <;> simp [hi]
  · simp [hi, kc_testBit_high x hx i (by omega), kc_testBit_high y hy i (by omega)]

/-! ## Literals -/

theorem kc_xor_one_div (l : Nat) : (l ^^^ 1) / 2 = l / 2 := by
  rw [Nat.xor_div_two]; simp

theorem kc_xor_one_mod (l : Nat) : (l ^^^ 1) % 2 = 1 - l % 2 := by
  have h := Nat.testBit_xor l 1 0
  rw [Nat.testBit_zero, Nat.testBit_zero, Nat.testBit_zero] at h
  have h1 : (l ^^^ 1) % 2 < 2 := Nat.mod_lt _ (by norm_num)
  have h2 : l % 2 < 2 := Nat.mod_lt _ (by norm_num)
  by_cases h3 : l % 2 = 1
  · simp only [h3, decide_True, Nat.one_mod, Bool.xor_self, decide_eq_false_iff_not] at h; omega
  · simp only [h3, decide_False, Nat.one_mod, decide_True, Bool.false_xor, decide_eq_true_eq] at h; omega

theorem kc_xor_one_eq (l : Nat) : l ^^^ 1 = if l % 2 = 0 then l + 1 else l - 1 := by
  have h1 := kc_xor_one_div l
  have h2 := kc_xor_one_mod l
  split <;> omega

theorem kc_xor_eq_one (a b : Nat) : a ^^^ b = 1 ↔ b = a ^^^ 1 := by
  constructor
  · intro h
    have : a ^^^ (a ^^^ b) = a ^^^ 1 := by rw [h]
    rw [← Nat.xor_assoc, Nat.xor_self, Nat.zero_xor] at this
    exact this
  · intro h
    rw [h, ← Nat.xor_assoc, Nat.xor_self, Nat.zero_xor]

/-! ## Tables -/

theorem kc_tt_ok_get (w : Nat) (t : List Nat) (h : kc_tt_ok w t) (i : Nat) (hi : i < t.length) :
    t[i] < 2 ^ 64 := h.2 _ (List.getElem_mem hi)

theorem kc_tt_ok_replicate (w x : Nat) (hx : x < 2 ^ 64) : kc_tt_ok w (List.replicate w x) := by
  refine ⟨by simp, ?_⟩
  intro y hy
  rw [List.mem_replicate] at hy
  rw [hy.2]; exact hx

theorem kc_tt_ok_and (w : Nat) (a b : List Nat) (ha : kc_tt_ok w a) (hb : kc_tt_ok w b) :
    kc_tt_ok w (List.zipWith (· &&& ·) a b) := by
  refine ⟨by simp [ha.1, hb.1], ?_⟩
  intro x hx
  obtain ⟨i, hi, rfl⟩ := List.getElem_of_mem hx
  rw [List.getElem_zipWith]
  simp only [List.length_zipWith] at hi
  exact Nat.and_lt_two_pow _ (kc_tt_ok_get w b hb i (by omega))

theorem kc_tt_ok_xor (w : Nat) (a b : List Nat) (ha : kc_tt_ok w a) (hb : kc_tt_ok w b) :
    kc_tt_ok w (List.zipWith (· ^^^ ·) a b) := by
  refine ⟨by simp [ha.1, hb.1], ?_⟩
  intro x hx
  obtain ⟨i, hi, rfl⟩ := List.getElem_of_mem hx
  rw [List.getElem_zipWith]
  simp only [List.length_zipWith] at hi
  exact Nat.xor_lt_two_pow (kc_tt_ok_get w a ha i (by omega)) (kc_tt_ok_get w b hb i (by omega))

theorem kc_tt_ok_not (w : Nat) (a : List Nat) (ha : kc_tt_ok w a) : kc_tt_ok w (a.map kc_not) := by
  refine ⟨by simp [ha.1], ?_⟩
  intro x hx
  rw [List.mem_map] at hx
  obtain ⟨y, _, rfl⟩ := hx
  exact kc_not_lt y

theorem kc_tt_not_not (w : Nat) (a : List Nat) (ha : kc_tt_ok w a) :
    (a.map kc_not).map kc_not = a := by
  apply List.ext_getElem (by simp)
  intro i h1 h2
  simp only [List.getElem_map]
  exact kc_not_not _ (kc_tt_ok_get w a ha i h2)

theorem kc_tt_and_comm (a b : List Nat) :
    List.zipWith (· &&& ·) a b = List.zipWith (· &&& ·) b a := by
  rw [List.zipWith_comm]; congr 1; funext x y; exact Nat.and_comm y x

theorem kc_tt_xor_comm (a b : List Nat) :
    List.zipWith (· ^^^ ·) a b = List.zipWith (· ^^^ ·) b a := by
  rw [List.zipWith_comm]; congr 1; funext x y; exact Nat.xor_comm y x

theorem kc_tt_and_self (a : List Nat) : List.zipWith (· &&& ·) a a = a := by
  apply List.ext_getElem (by simp)
  intro i h1 h2
  simp

theorem kc_tt_xor_self (a : List Nat) : List.zipWith (· ^^^ ·) a a = List.replicate a.length 0 := by
  apply List.ext_getElem (by simp)
  intro i h1 h2
  simp

theorem kc_tt_and_zero (w : Nat) (a : List Nat) (ha : a.length = w) :
    List.zipWith (· &&& ·) (List.replicate w 0) a = List.replicate w 0 := by
  apply List.ext_getElem (by simp [ha])
  intro i h1 h2
  simp

theorem kc_tt_xor_zero (w : Nat) (a : List Nat) (ha : a.length = w) :
    List.zipWith (· ^^^ ·) (List.replicate w 0) a = a := by
  apply List.ext_getElem (by simp [ha])
  intro i h1 h2
  simp

theorem kc_tt_not_zero (w : Nat) : (List.replicate w 0).map kc_not = List.replicate w kc_ones := by
  simp [kc_not_zero]

theorem kc_tt_and_ones (w : Nat) (a : List Nat) (ha : kc_tt_ok w a) :
    List.zipWith (· &&& ·) (List.replicate w kc_ones) a = a := by
  apply List.ext_getElem (by simp [ha.1])
  intro i h1 h2
  simp only [List.getElem_zipWith, List.getElem_replicate]
  rw [Nat.and_comm]
  exact kc_and_ones _ (kc_tt_ok_get w a ha i h2)

theorem kc_tt_xor_ones (w : Nat) (a : List Nat) (ha : kc_tt_ok w a) :
    List.zipWith (· ^^^ ·) (List.replicate w kc_ones) a = a.map kc_not := by
  apply List.ext_getElem (by simp [ha.1])
  intro i h1 h2
  simp only [List.getElem_zipWith, List.getElem_replicate, List.getElem_map]
  rw [Nat.xor_comm]
  exact kc_xor_ones _ (kc_tt_ok_get w a ha i (by simpa using h2))

theorem kc_tt_and_not (w : Nat) (a : List Nat) (ha : kc_tt_ok w a) :
    List.zipWith (· &&& ·) a (a.map kc_not) = List.replicate w 0 := by
  apply List.ext_getElem (by simp [ha.1])
  intro i h1 h2
  simp only [List.getElem_zipWith, List.getElem_replicate, List.getElem_map]
  exact kc_and_not _ (kc_tt_ok_get w a ha i (by simp at h1; omega))

theorem kc_tt_xor_not (w : Nat) (a : List Nat) (ha : kc_tt_ok w a) :
    List.zipWith (· ^^^ ·) a (a.map kc_not) = List.replicate w kc_ones := by
  apply List.ext_getElem (by simp [ha.1])
  intro i h1 h2
  simp only [List.getElem_zipWith, List.getElem_replicate, List.getElem_map]
  exact kc_xor_not _ (kc_tt_ok_get w a ha i (by simp at h1; omega))

theorem kc_tt_xor_not_left (w : Nat) (a b : List Nat) (ha : kc_tt_ok w a) (hb : kc_tt_ok w b) :
    List.zipWith (· ^^^ ·) (a.map kc_not) b = (List.zipWith (· ^^^ ·) a b).map kc_not := by
  apply List.ext_getElem (by simp)
  intro i h1 h2
  simp only [List.getElem_zipWith, List.getElem_map]
  simp only [List.length_zipWith, List.length_map] at h1
  exact kc_xor_not_left _ _ (kc_tt_ok_get w a ha i (by omega)) (kc_tt_ok_get w b hb i (by omega))

theorem kc_tt_not_and_not (w : Nat) (a b : List Nat) (ha : kc_tt_ok w a) (hb : kc_tt_ok w b) :
    (List.zipWith (· &&& ·) (a.map kc_not) (b.map kc_not)).map kc_not
      = List.zipWith (· ||| ·) a b := by
  apply List.ext_getElem (by simp)
  intro i h1 h2
  simp only [List.getElem_zipWith, List.getElem_map]
  simp only [List.length_zipWith] at h2
  exact kc_not_and_not _ _ (kc_tt_ok_get w a ha i (by omega)) (kc_tt_ok_get w b hb i (by omega))

theorem kc_tt_not_ne (w : Nat) (a : List Nat) (ha : a.length = w) (hw : 0 < w) :
    a.map kc_not ≠ a := by
  intro h
  have h0 : (a.map kc_not)[0]? = a[0]? := by rw [h]
  rw [List.getElem?_map, List.getElem?_eq_getElem (by omega)] at h0
  simp only [Option.map_some', Option.some.injEq] at h0
  exact kc_not_ne _ h0

theorem kc_tt_not_inj (w : Nat) (a b : List Nat) (ha : kc_tt_ok w a) (hb : kc_tt_ok w b)
    (h : a.map kc_not = b.map kc_not) : a = b := by
  rw [← kc_tt_not_not w a ha, ← kc_tt_not_not w b hb, h]

/-! ## Bits of tables -/

theorem kc_getD_zipWith (f : Nat → Nat → Nat) (hf : f 0 0 = 0) (a b : List Nat)
    (h : a.length = b.length) (k : Nat) :
    (List.zipWith f a b).getD k 0 = f (a.getD k 0) (b.getD k 0) := by
  simp only [List.getD_eq_getElem?_getD, List.getElem?_zipWith]
  by_cases hk : k < a.length
  · rw [List.getElem?_eq_getElem hk, List.getElem?_eq_getElem (by omega)]; rfl
  · rw [List.getElem?_eq_none (by omega), List.getElem?_eq_none (by omega)]; simp [hf]

theorem kc_tt_bit_and (a b : List Nat) (h : a.length = b.length) (m : Nat) :
    kc_tt_bit (List.zipWith (· &&& ·) a b) m = (kc_tt_bit a m && kc_tt_bit b m) := by
  unfold kc_tt_bit
  rw [kc_getD_zipWith _ (by simp) a b h, Nat.testBit_and]

theorem kc_tt_bit_xor (a b : List Nat) (h : a.length = b.length) (m : Nat) :
    kc_tt_bit (List.zipWith (· ^^^ ·) a b) m = (kc_tt_bit a m ^^ kc_tt_bit b m) := by
  unfold kc_tt_bit
  rw [kc_getD_zipWith _ (by simp) a b h, Nat.testBit_xor]

theorem kc_tt_bit_or (a b : List Nat) (h : a.length = b.length) (m : Nat) :
    kc_tt_bit (List.zipWith (· ||| ·) a b) m = (kc_tt_bit a m || kc_tt_bit b m) := by
  unfold kc_tt_bit
  rw [kc_getD_zipWith _ (by simp) a b h, Nat.testBit_or]

theorem kc_tt_bit_not (w : Nat) (a : List Nat) (ha : kc_tt_ok w a) (m : Nat) (hm : m < 64 * w) :
    kc_tt_bit (a.map kc_not) m = !kc_tt_bit a m := by
  unfold kc_tt_bit
  have hk : m / 64 < a.length := by rw [ha.1]; omega
  simp only [List.getD_eq_getElem?_getD, List.getElem?_map, List.getElem?_eq_getElem hk,
    Option.map_some', Option.getD_some]
  rw [kc_not_testBit _ (kc_tt_ok_get w a ha _ hk)]
  have : m % 64 < 64 := Nat.mod_lt _ (by norm_num)
  simp [this]

theorem kc_tt_bit_high (a : List Nat) (m : Nat) (hm : 64 * a.length ≤ m) :
    kc_tt_bit a m = false := by
  unfold kc_tt_bit
  rw [List.getD_eq_getElem?_getD, List.getElem?_eq_none (by omega)]
  simp

/-- Two tables of the same word count are equal when they agree on every minterm. -/
theorem kc_tt_ext (w : Nat) (a b : List Nat) (ha : kc_tt_ok w a) (hb : kc_tt_ok w b)
    (h : ∀ m, m < 64 * w → kc_tt_bit a m = kc_tt_bit b m) : a = b := by
  apply List.ext_getElem (by rw [ha.1, hb.1])
  intro k h1 h2
  apply kc_word_ext _ _ (kc_tt_ok_get w a ha k h1) (kc_tt_ok_get w b hb k h2)
  intro i hi
  have hm := h (64 * k + i) (by rw [ha.1] at h1; omega)
  unfold kc_tt_bit at hm
  have e1 : (64 * k + i) / 64 = k := by omega
  have e2 : (64 * k + i) % 64 = i := by omega
  rw [e1, e2] at hm
  simpa [List.getD_eq_getElem?_getD, List.getElem?_eq_getElem h1, List.getElem?_eq_getElem h2]
    using hm

/-! ## Minterm indices -/

theorem kc_testBit_split (m i : Nat) :
    m.testBit i = if i < 6 then (m % 64).testBit i else (m / 64).testBit (i - 6) := by
  have h := Nat.testBit_mul_pow_two_add (m / 64) (Nat.mod_lt m (by norm_num : 0 < 2 ^ 6)) i
  have e : 2 ^ 6 * (m / 64) + m % 2 ^ 6 = m := by norm_num; omega
  rw [e] at h
  rw [h]

theorem kc_testBit_ge (m i : Nat) (h : m.testBit i = true) : 2 ^ i ≤ m :=
  Nat.testBit_implies_ge h

theorem kc_pow_split (i : Nat) (hi : 6 ≤ i) : 2 ^ i = 64 * 2 ^ (i - 6) := by
  have : i = 6 + (i - 6) := by omega
  rw [this, Nat.pow_add]; norm_num

theorem kc_pow_lt_64 (i : Nat) (hi : i < 6) : 2 ^ i < 64 := by
  have : (2:Nat) ^ i < 2 ^ 6 := Nat.pow_lt_pow_right (by norm_num) hi
  simpa using this

theorem kc_clear_bit_low (m i : Nat) (hi : i < 6) :
    kc_clear_bit m i / 64 = m / 64 ∧ kc_clear_bit m i % 64 = kc_clear_bit (m % 64) i := by
  unfold kc_clear_bit
  have hs := kc_testBit_split m i
  simp only [hi, if_true] at hs
  rw [hs]
  by_cases hb : (m % 64).testBit i = true
  · have := kc_testBit_ge _ _ hb
    simp only [hb, if_true]
    generalize 2 ^ i = p at *
    omega
  · simp only [hb]
    simp

theorem kc_set_bit_low (m i : Nat) (hi : i < 6) (hm : (m % 64).testBit i = false → m % 64 + 2 ^ i < 64) :
    kc_set_bit m i / 64 = m / 64 ∧ kc_set_bit m i % 64 = kc_set_bit (m % 64) i := by
  unfold kc_set_bit
  have hs := kc_testBit_split m i
  simp only [hi, if_true] at hs
  rw [hs]
  by_cases hb : (m % 64).testBit i = true
  · simp only [hb, if_true]; simp
  · simp only [hb]
    have := hm (by simpa using hb)
    simp only [Bool.false_eq_true, if_false]
    generalize 2 ^ i = p at *
    omega

theorem kc_clear_bit_high (m i : Nat) (hi : 6 ≤ i) :
    kc_clear_bit m i / 64 = kc_clear_bit (m / 64) (i - 6) ∧ kc_clear_bit m i % 64 = m % 64 := by
  unfold kc_clear_bit
  have hs := kc_testBit_split m i
  have hn : ¬ i < 6 := by omega
  simp only [hn, if_false] at hs
  rw [hs]
  by_cases hb : (m / 64).testBit (i - 6) = true
  · have := kc_testBit_ge _ _ hb
    have hp := kc_pow_split i hi
    simp only [hb, if_true]
    omega
  · simp only [hb]; simp

theorem kc_set_bit_high (m i : Nat) (hi : 6 ≤ i) :
    kc_set_bit m i / 64 = kc_set_bit (m / 64) (i - 6) ∧ kc_set_bit m i % 64 = m % 64 := by
  unfold kc_set_bit
  have hs := kc_testBit_split m i
  have hn : ¬ i < 6 := by omega
  simp only [hn, if_false] at hs
  rw [hs]
  by_cases hb : (m / 64).testBit (i - 6) = true
  · simp only [hb, if_true]; simp
  · have hp := kc_pow_split i hi
    simp only [hb]
    simp only [Bool.false_eq_true, if_false]
    omega

/-! ## The masks of the six variables inside a word -/

theorem s_Truths6Neg_lt (i : Nat) : s_Truths6Neg.getD i 0 < 2 ^ 64 := by
  by_cases hi : i < 6
  · revert i; decide
  · rw [List.getD_eq_getElem?_getD, List.getElem?_eq_none (by simp [s_Truths6Neg]; omega)]; simp

theorem s_Truths6_lt (i : Nat) : s_Truths6.getD i 0 < 2 ^ 64 := by
  by_cases hi : i < 6
  · revert i; decide
  · rw [List.getD_eq_getElem?_getD, List.getElem?_eq_none (by simp [s_Truths6]; omega)]; simp

theorem s_Truths6Neg_testBit (i : Nat) (hi : i < 6) (c : Nat) :
    (s_Truths6Neg.getD i 0).testBit c = (decide (c < 64) && !c.testBit i) := by
  by_cases hc : c < 64
  · have h : ∀ i, i < 6 → ∀ c, c < 64 →
        (s_Truths6Neg.getD i 0).testBit c = (decide (c < 64) && !c.testBit i) := by decide
    exact h i hi c hc
  · rw [kc_testBit_high _ (s_Truths6Neg_lt i) c (by omega)]; simp [hc]

theorem s_Truths6_testBit (i : Nat) (hi : i < 6) (c : Nat) :
    (s_Truths6.getD i 0).testBit c = (decide (c < 64) && c.testBit i) := by
  by_cases hc : c < 64
  · have h : ∀ i, i < 6 → ∀ c, c < 64 →
        (s_Truths6.getD i 0).testBit c = (decide (c < 64) && c.testBit i) := by decide
    exact h i hi c hc
  · rw [kc_testBit_high _ (s_Truths6_lt i) c (by omega)]; simp [hc]

/-- Inside a word, clearing a set bit `i` of a bit position subtracts `2 ^ i`
and the result has bit `i` clear; a position with bit `i` clear has room for it. -/
theorem kc_bit_pos_facts (i : Nat) (hi : i < 6) (c : Nat) (hc : c < 64) :
    (c.testBit i = true → 2 ^ i ≤ c ∧ (c - 2 ^ i).testBit i = false) ∧
    (c.testBit i = false → c + 2 ^ i < 64 ∧ (c + 2 ^ i).testBit i = true ∧
      (2 ^ i ≤ c → (c - 2 ^ i).testBit i = true)) := by
  have h : ∀ i, i < 6 → ∀ c, c < 64 →
      (c.testBit i = true → 2 ^ i ≤ c ∧ (c - 2 ^ i).testBit i = false) ∧
      (c.testBit i = false → c + 2 ^ i < 64 ∧ (c + 2 ^ i).testBit i = true ∧
        (2 ^ i ≤ c → (c - 2 ^ i).testBit i = true)) := by decide
  exact h i hi c hc

/-- Word of the negative cofactor: bit `c` is bit `c` with bit `i` cleared of `x`. -/
theorem kc_cof0_word (x i c : Nat) (hi : i < 6) (hc : c < 64) :
    (kc_shl (x &&& s_Truths6Neg.getD i 0) (1 <<< i) ||| (x &&& s_Truths6Neg.getD i 0)).testBit c
      = x.testBit (kc_clear_bit c i) := by
  unfold kc_shl kc_clear_bit
  rw [Nat.one_shiftLeft, Nat.testBit_or, Nat.testBit_mod_two_pow, Nat.testBit_shiftLeft,
    Nat.testBit_and, Nat.testBit_and, s_Truths6Neg_testBit i hi, s_Truths6Neg_testBit i hi]
  obtain ⟨h1, h2⟩ := kc_bit_pos_facts i hi c hc
  by_cases hb : c.testBit i = true
  · obtain ⟨h3, h4⟩ := h1 hb
    have h5 : c - 2 ^ i < 64 := Nat.lt_of_le_of_lt (Nat.sub_le _ _) hc
    simp [hb, hc, h3, h4, h5]
  · have hb2 : c.testBit i = false := by simpa using hb
    obtain ⟨_, _, h6⟩ := h2 hb2
    by_cases h7 : 2 ^ i ≤ c
    · simp [hb2, hc, h7, h6 h7]
    · simp [hb2, hc, h7]

/-- Word of the positive cofactor: bit `c` is bit `c` with bit `i` set of `x`. -/
theorem kc_cof1_word (x i c : Nat) (hi : i < 6) (hc : c < 64) :
    ((x &&& s_Truths6.getD i 0) ||| ((x &&& s_Truths6.getD i 0) >>> (1 <<< i))).testBit c
      = x.testBit (kc_set_bit c i) := by
  unfold kc_set_bit
  rw [Nat.one_shiftLeft, Nat.testBit_or, Nat.testBit_shiftRight,
    Nat.testBit_and, Nat.testBit_and, s_Truths6_testBit i hi, s_Truths6_testBit i hi]
  obtain ⟨h1, h2⟩ := kc_bit_pos_facts i hi c hc
  by_cases hb : c.testBit i = true
  · have h3 : (2 ^ i + c).testBit i = false := by
      rw [Nat.testBit_two_pow_add_eq, hb]; rfl
    simp [hb, hc, h3]
  · have hb2 : c.testBit i = false := by simpa using hb
    obtain ⟨h4, h5, _⟩ := h2 hb2
    rw [Nat.add_comm] at h4 h5
    simp only [hb2, hc, h4, h5, decide_True, Bool.true_and, Bool.and_false, Bool.false_or,
      Bool.and_true, Bool.false_eq_true, if_false]
    rw [Nat.add_comm]

/-! ## Cofactors inside a word -/

theorem kc_tt_bit_map (f : Nat → Nat) (hf : f 0 = 0) (t : List Nat) (m : Nat) :
    kc_tt_bit (t.map f) m = (f (t.getD (m / 64) 0)).testBit (m % 64) := by
  unfold kc_tt_bit
  congr 1
  simp only [List.getD_eq_getElem?_getD, List.getElem?_map]
  cases t[m / 64]? <;> simp [hf]

theorem kc_cof0_low_bits (t : List Nat) (i : Nat) (hi : i < 6) (m : Nat) :
    kc_tt_bit (t.map (fun x =>
      kc_shl (x &&& s_Truths6Neg.getD i 0) (1 <<< i) ||| (x &&& s_Truths6Neg.getD i 0))) m
      = kc_tt_bit t (kc_clear_bit m i) := by
  rw [kc_tt_bit_map _ (by simp [kc_shl])]
  rw [kc_cof0_word _ i _ hi (Nat.mod_lt _ (by norm_num))]
  unfold kc_tt_bit
  obtain ⟨h1, h2⟩ := kc_clear_bit_low m i hi
  rw [h1, h2]

theorem kc_cof1_low_bits (t : List Nat) (i : Nat) (hi : i < 6) (m : Nat) :
    kc_tt_bit (t.map (fun x =>
      (x &&& s_Truths6.getD i 0) ||| ((x &&& s_Truths6.getD i 0) >>> (1 <<< i)))) m
      = kc_tt_bit t (kc_set_bit m i) := by
  rw [kc_tt_bit_map _ (by simp)]
  rw [kc_cof1_word _ i _ hi (Nat.mod_lt _ (by norm_num))]
  unfold kc_tt_bit
  obtain ⟨h1, h2⟩ := kc_set_bit_low m i hi
    (fun h => (((kc_bit_pos_facts i hi (m % 64) (Nat.mod_lt _ (by norm_num))).2) h).1)
  rw [h1, h2]

theorem kc_cof0_low_ok (w : Nat) (t : List Nat) (ht : kc_tt_ok w t) (i : Nat) :
    kc_tt_ok w (t.map (fun x =>
      kc_shl (x &&& s_Truths6Neg.getD i 0) (1 <<< i) ||| (x &&& s_Truths6Neg.getD i 0))) := by
  refine ⟨by simp [ht.1], ?_⟩
  intro y hy
  rw [List.mem_map] at hy
  obtain ⟨x, _, rfl⟩ := hy
  apply Nat.or_lt_two_pow
  · unfold kc_shl; exact Nat.mod_lt _ (by norm_num)
  · exact Nat.and_lt_two_pow _ (s_Truths6Neg_lt i)

theorem kc_cof1_low_ok (w : Nat) (t : List Nat) (ht : kc_tt_ok w t) (i : Nat) :
    kc_tt_ok w (t.map (fun x =>
      (x &&& s_Truths6.getD i 0) ||| ((x &&& s_Truths6.getD i 0) >>> (1 <<< i)))) := by
  refine ⟨by simp [ht.1], ?_⟩
  intro y hy
  rw [List.mem_map] at hy
  obtain ⟨x, _, rfl⟩ := hy
  have h1 : x &&& s_Truths6.getD i 0 < 2 ^ 64 := Nat.and_lt_two_pow _ (s_Truths6_lt i)
  apply Nat.or_lt_two_pow h1
  rw [Nat.shiftRight_eq_div_pow]
  exact Nat.lt_of_le_of_lt (Nat.div_le_self _ _) h1

/-! ## The word-granular double loop -/

theorem kc_block_index_mem (W S k : Nat) :
    k ∈ kc_block_index W S ↔
      ∃ b, b < (W + 2 * S - 1) / (2 * S) ∧ ∃ i, i < S ∧ k = 2 * S * b + i := by
  unfold kc_block_index
  simp only [List.mem_flatMap, List.mem_range, List.mem_map]
  constructor
  · rintro ⟨b, hb, i, hi, rfl⟩; exact ⟨b, hb, i, hi, rfl⟩
  · rintro ⟨b, hb, i, hi, rfl⟩; exact ⟨b, hb, i, hi, rfl⟩

/-- With `2 ^ (e + 1)` dividing the word count, the loop visits exactly the word
indices below the word count whose bit `e` is clear. -/
theorem kc_block_index_mem_pow (d e k : Nat) (he : e < d) :
    k ∈ kc_block_index (2 ^ d) (2 ^ e) ↔ k < 2 ^ d ∧ k.testBit e = false := by
  rw [kc_block_index_mem]
  have hS : 0 < 2 ^ e := Nat.two_pow_pos e
  have hd : 2 ^ d = 2 * 2 ^ e * 2 ^ (d - e - 1) := by
    rw [← Nat.pow_succ', ← Nat.pow_add]; congr 1; omega
  have hq : 0 < 2 ^ (d - e - 1) := Nat.two_pow_pos _
  have hnb : (2 ^ d + 2 * 2 ^ e - 1) / (2 * 2 ^ e) = 2 ^ (d - e - 1) := by
    rw [hd]
    generalize 2 ^ (d - e - 1) = q at *
    generalize 2 ^ e = S at *
    have h2 : 2 * S * q + 2 * S - 1 = 2 * S * q + (2 * S - 1) := by omega
    rw [h2, Nat.mul_add_div (by omega), Nat.div_eq_of_lt (by omega)]
    rfl
  rw [hnb, hd, Nat.testBit_to_div_mod]
  generalize 2 ^ (d - e - 1) = q at *
  generalize 2 ^ e = S at *
  constructor
  · rintro ⟨b, hb, i, hi, rfl⟩
    constructor
    · have : 2 * S * (b + 1) ≤ 2 * S * q := Nat.mul_le_mul_left _ hb
      rw [Nat.mul_add, Nat.mul_one] at this
      omega
    · have h1 : (2 * S * b + i) / S = 2 * b := by
        rw [Nat.mul_comm 2 S, Nat.mul_assoc, Nat.mul_add_div hS, Nat.div_eq_of_lt hi]; rfl
      rw [h1]; simp
  · rintro ⟨hk, hbit⟩
    refine ⟨k / (2 * S), ?_, k % (2 * S), ?_, ?_⟩
    · rw [Nat.div_lt_iff_lt_mul (by omega)]; rw [Nat.mul_comm]; exact hk
    · rw [Nat.mul_comm 2 S, Nat.mod_mul]
      have h2 : k / S % 2 = 0 := by
        have := Nat.mod_lt (k / S) (by norm_num : 0 < 2)
        simp only [decide_eq_false_iff_not] at hbit
        omega
      rw [h2]
      have := Nat.mod_lt k hS
      omega
    · exact (Nat.div_add_mod k (2 * S)).symm

theorem kc_truth_word_num_pow (i : Nat) (hi : 6 ≤ i) : kc_truth_word_num i = 2 ^ (i - 6) := by
  unfold kc_truth_word_num
  by_cases h : i ≤ 6
  · have : i = 6 := by omega
    subst this; rfl
  · rw [if_neg h, Nat.one_shiftLeft]

theorem kc_truth_word_num_pos (n : Nat) : 0 < kc_truth_word_num n := by
  unfold kc_truth_word_num
  split
  · norm_num
  · rw [Nat.one_shiftLeft]; exact Nat.two_pow_pos _

theorem kc_clear_bit_testBit (j e : Nat) : (kc_clear_bit j e).testBit e = false := by
  unfold kc_clear_bit
  by_cases hb : j.testBit e = true
  · rw [if_pos hb]
    have hge := kc_testBit_ge j e hb
    have h := Nat.testBit_two_pow_add_eq (j - 2 ^ e) e
    rw [Nat.add_sub_cancel' hge, hb] at h
    cases h2 : (j - 2 ^ e).testBit e
    · rfl
    · rw [h2] at h; simp at h
  · rw [if_neg hb]; simpa using hb

theorem kc_clear_bit_le (j e : Nat) : kc_clear_bit j e ≤ j := by
  unfold kc_clear_bit; split
  · exact Nat.sub_le _ _
  · exact Nat.le_refl _

theorem kc_clear_bit_eq_iff (j e k : Nat) (hk : k.testBit e = false) :
    kc_clear_bit j e = k ↔ (j = k ∨ j = k + 2 ^ e) := by
  unfold kc_clear_bit
  constructor
  · intro h
    by_cases hb : j.testBit e = true
    · rw [if_pos hb] at h
      have hge := kc_testBit_ge j e hb
      right; omega
    · rw [if_neg hb] at h; left; exact h
  · rintro (h | h)
    · subst h; simp [hk]
    · subst h
      have h2 : (k + 2 ^ e).testBit e = true := by
        rw [Nat.add_comm, Nat.testBit_two_pow_add_eq, hk]; rfl
      rw [if_pos h2]; omega

theorem kc_clear_add_eq_set (j e : Nat) : kc_clear_bit j e + 2 ^ e = kc_set_bit j e ∨
    (j.testBit e = true ∧ kc_clear_bit j e + 2 ^ e = j ∧ kc_set_bit j e = j) := by
  unfold kc_clear_bit kc_set_bit
  by_cases hb : j.testBit e = true
  · right
    have hge := kc_testBit_ge j e hb
    simp only [hb, if_true]
    exact ⟨trivial, by omega, trivial⟩
  · left; simp [hb]

theorem kc_block_count (d e : Nat) (he : e < d) :
    (2 ^ d + 2 * 2 ^ e - 1) / (2 * 2 ^ e) = 2 ^ (d - e - 1) ∧
      2 ^ d = 2 * 2 ^ e * 2 ^ (d - e - 1) := by
  have hS : 0 < 2 ^ e := Nat.two_pow_pos e
  have hd : 2 ^ d = 2 * 2 ^ e * 2 ^ (d - e - 1) := by
    rw [← Nat.pow_succ', ← Nat.pow_add]; congr 1; omega
  refine ⟨?_, hd⟩
  rw [hd]
  generalize 2 ^ (d - e - 1) = q at *
  generalize 2 ^ e = S at *
  have h2 : 2 * S * q + 2 * S - 1 = 2 * S * q + (2 * S - 1) := by omega
  rw [h2, Nat.mul_add_div (by omega), Nat.div_eq_of_lt (by omega)]
  rfl

theorem kc_block_index_add_lt (d e k : Nat) (he : e < d)
    (hk : k ∈ kc_block_index (2 ^ d) (2 ^ e)) : k + 2 ^ e < 2 ^ d := by
  rw [kc_block_index_mem] at hk
  obtain ⟨h1, h2⟩ := kc_block_count d e he
  rw [h1] at hk
  obtain ⟨b, hb, i, hi, rfl⟩ := hk
  rw [h2]
  generalize 2 ^ (d - e - 1) = q at *
  generalize 2 ^ e = S at *
  have : 2 * S * (b + 1) ≤ 2 * S * q := Nat.mul_le_mul_left _ hb
  rw [Nat.mul_add, Nat.mul_one] at this
  omega

/-- The double loop of the cofactor routines: after the loop, word `j` holds the
source word read for the visited index `j` with bit `e` cleared. -/
theorem kc_fold_writes (e W : Nat) (tt : List Nat) (g : Nat → Nat) (idx : List Nat)
    (hidx : ∀ k, k ∈ idx → k.testBit e = false ∧ k + 2 ^ e < W ∧ g k < tt.length)
    (init : List Nat) (hinit : init.length = W) :
    ∃ r, idx.foldlM (fun ttNew k =>
          (tt[g k]?).bind (fun x =>
            (kc_write ttNew k x).bind (fun t => kc_write t (k + 2 ^ e) x))) init = some r ∧
      r.length = W ∧
      ∀ j, r[j]? = if kc_clear_bit j e ∈ idx then tt[g (kc_clear_bit j e)]? else init[j]? := by
  induction idx generalizing init with
  | nil => exact ⟨init, rfl, hinit, fun j => by simp⟩
  | cons k rest ih =>
    obtain ⟨hk1, hk2, hk3⟩ := hidx k (List.mem_cons_self _ _)
    have hS : 0 < 2 ^ e := Nat.two_pow_pos e
    have hw1 : kc_write init k tt[g k] = some (init.set k tt[g k]) := by
      unfold kc_write; rw [if_pos (by omega)]
    have hw2 : kc_write (init.set k tt[g k]) (k + 2 ^ e) tt[g k]
        = some ((init.set k tt[g k]).set (k + 2 ^ e) tt[g k]) := by
      unfold kc_write; rw [if_pos (by rw [List.length_set]; omega)]
    obtain ⟨r, hr1, hr2, hr3⟩ := ih (fun k hk => hidx k (List.mem_cons_of_mem _ hk))
      ((init.set k tt[g k]).set (k + 2 ^ e) tt[g k]) (by simp [hinit])
    refine ⟨r, ?_, hr2, ?_⟩
    · rw [List.foldlM_cons]
      simp only [List.getElem?_eq_getElem hk3, hw1, Option.bind_eq_bind, Option.some_bind, hw2]
      exact hr1
    · intro j
      rw [hr3 j]
      by_cases hm : kc_clear_bit j e ∈ rest
      · rw [if_pos hm, if_pos (List.mem_cons_of_mem _ hm)]
      · rw [if_neg hm]
        by_cases hjk : kc_clear_bit j e = k
        · rw [if_pos (by rw [hjk]; exact List.mem_cons_self _ _), hjk,
            List.getElem?_eq_getElem hk3]
          rcases (kc_clear_bit_eq_iff j e k hk1).1 hjk with h | h
          · subst h
            rw [List.getElem?_set_ne (by omega), List.getElem?_set_self (by omega)]
          · subst h
            rw [List.getElem?_set_self (by rw [List.length_set]; omega)]
        · have hn : ¬ kc_clear_bit j e ∈ k :: rest := by
            rw [List.mem_cons]; push_neg; exact ⟨hjk, hm⟩
          rw [if_neg hn]
          have h1 : j ≠ k := fun h => hjk ((kc_clear_bit_eq_iff j e k hk1).2 (Or.inl h))
          have h2 : j ≠ k + 2 ^ e := fun h => hjk ((kc_clear_bit_eq_iff j e k hk1).2 (Or.inr h))
          rw [List.getElem?_set_ne (Ne.symm h2), List.getElem?_set_ne (Ne.symm h1)]

/-- Result of the word-granular loop of a cofactor routine on a table of
`2 ^ d` words: every word `j` of the new table is the source word read for `j`
with bit `e` cleared. -/
theorem kc_cof_loop (d e : Nat) (he : e < d) (tt : List Nat) (htt : kc_tt_ok (2 ^ d) tt)
    (g : Nat → Nat) (hg : ∀ k, k + 2 ^ e < 2 ^ d → g k < 2 ^ d) :
    ∃ r, (kc_block_index (2 ^ d) (2 ^ e)).foldlM (fun ttNew k =>
          (tt[g k]?).bind (fun x =>
            (kc_write ttNew k x).bind (fun t => kc_write t (k + 2 ^ e) x)))
          (List.replicate (2 ^ d) 0) = some r ∧
      kc_tt_ok (2 ^ d) r ∧
      ∀ j, j < 2 ^ d → r.getD j 0 = tt.getD (g (kc_clear_bit j e)) 0 := by
  have hidx : ∀ k, k ∈ kc_block_index (2 ^ d) (2 ^ e) →
      k.testBit e = false ∧ k + 2 ^ e < 2 ^ d ∧ g k < tt.length := by
    intro k hk
    have h1 := kc_block_index_add_lt d e k he hk
    exact ⟨((kc_block_index_mem_pow d e k he).1 hk).2, h1, by rw [htt.1]; exact hg k h1⟩
  obtain ⟨r, hr1, hr2, hr3⟩ := kc_fold_writes e (2 ^ d) tt g _ hidx
    (List.replicate (2 ^ d) 0) (by simp)
  have hmem : ∀ j, j < 2 ^ d → kc_clear_bit j e ∈ kc_block_index (2 ^ d) (2 ^ e) := by
    intro j hj
    rw [kc_block_index_mem_pow d e _ he]
    exact ⟨Nat.lt_of_le_of_lt (kc_clear_bit_le j e) hj, kc_clear_bit_testBit j e⟩
  have hget : ∀ j, j < 2 ^ d → r[j]? = tt[g (kc_clear_bit j e)]? := by
    intro j hj
    rw [hr3 j, if_pos (hmem j hj)]
  refine ⟨r, hr1, ⟨hr2, ?_⟩, ?_⟩
  · intro x hx
    obtain ⟨j, hj, rfl⟩ := List.getElem_of_mem hx
    have h1 := hget j (by omega)
    have h2 := (hidx _ (hmem j (by omega))).2.2
    rw [List.getElem?_eq_getElem hj, List.getElem?_eq_getElem h2] at h1
    rw [Option.some.inj h1]
    exact kc_tt_ok_get _ tt htt _ h2
  · intro j hj
    rw [List.getD_eq_getElem?_getD, List.getD_eq_getElem?_getD, hget j hj]

/-- The negative cofactor: the appended table has on minterm `m` the value of the
source table on `m` with bit `iVar` cleared. -/
theorem kc_vt_cof0_spec (n : Nat) (v : kc_vt) (ttId iVar : Nat) (tt : List Nat)
    (hw : v.words = kc_truth_word_num n) (htt : kc_tt_ok v.words tt)
    (hread : kc_vt_read v ttId = some tt) (hi : iVar < n) :
    ∃ ttNew, kc_vt_cof0 v ttId iVar = some (kc_vt_push v ttNew, v.ptr.length) ∧
      kc_tt_ok v.words ttNew ∧
      ∀ m, m < 64 * v.words → kc_tt_bit ttNew m = kc_tt_bit tt (kc_clear_bit m iVar) := by
  by_cases h5 : iVar ≤ 5
  · refine ⟨_, ?_, kc_cof0_low_ok v.words tt htt iVar, fun m _ => kc_cof0_low_bits tt iVar (by omega) m⟩
    unfold kc_vt_cof0
    rw [hread]
    simp only [if_pos h5]
  · have hW : v.words = 2 ^ (n - 6) := by rw [hw]; exact kc_truth_word_num_pow n (by omega)
    have hS : kc_truth_word_num iVar = 2 ^ (iVar - 6) := kc_truth_word_num_pow iVar (by omega)
    rw [hW] at htt
    obtain ⟨r, hr1, hr2, hr3⟩ := kc_cof_loop (n - 6) (iVar - 6) (by omega) tt htt (fun k => k)
      (fun k hk => by have := Nat.two_pow_pos (iVar - 6); simp only; omega)
    refine ⟨r, ?_, by rw [hW]; exact hr2, ?_⟩
    · unfold kc_vt_cof0
      rw [hread]
      simp only [if_neg h5, hS, hW]
      rw [hr1]
    · intro m hm
      rw [hW] at hm
      unfold kc_tt_bit
      obtain ⟨h1, h2⟩ := kc_clear_bit_high m iVar (by omega)
      rw [h1, h2, hr3 _ (by omega)]

/-- The positive cofactor: the appended table has on minterm `m` the value of the
source table on `m` with bit `iVar` set. -/
theorem kc_vt_cof1_spec (n : Nat) (v : kc_vt) (ttId iVar : Nat) (tt : List Nat)
    (hw : v.words = kc_truth_word_num n) (htt : kc_tt_ok v.words tt)
    (hread : kc_vt_read v ttId = some tt) (hi : iVar < n) :
    ∃ ttNew, kc_vt_cof1 v ttId iVar = some (kc_vt_push v ttNew, v.ptr.length) ∧
      kc_tt_ok v.words ttNew ∧
      ∀ m, m < 64 * v.words → kc_tt_bit ttNew m = kc_tt_bit tt (kc_set_bit m iVar) := by
  by_cases h5 : iVar ≤ 5
  · refine ⟨_, ?_, kc_cof1_low_ok v.words tt htt iVar, fun m _ => kc_cof1_low_bits tt iVar (by omega) m⟩
    unfold kc_vt_cof1
    rw [hread]
    simp only [if_pos h5]
  · have hW : v.words = 2 ^ (n - 6) := by rw [hw]; exact kc_truth_word_num_pow n (by omega)
    have hS : kc_truth_word_num iVar = 2 ^ (iVar - 6) := kc_truth_word_num_pow iVar (by omega)
    rw [hW] at htt
    obtain ⟨r, hr1, hr2, hr3⟩ := kc_cof_loop (n - 6) (iVar - 6) (by omega) tt htt
      (fun k => k + 2 ^ (iVar - 6)) (fun k hk => hk)
    refine ⟨r, ?_, by rw [hW]; exact hr2, ?_⟩
    · unfold kc_vt_cof1
      rw [hread]
      simp only [if_neg h5, hS, hW]
      rw [hr1]
    · intro m hm
      rw [hW] at hm
      unfold kc_tt_bit
      obtain ⟨h1, h2⟩ := kc_set_bit_high m iVar (by omega)
      rw [h1, h2, hr3 _ (by omega)]
      rcases kc_clear_add_eq_set (m / 64) (iVar - 6) with h | ⟨_, h, h'⟩
      · rw [h]
      · rw [h, h']

/-! ## Search loops -/

theorem kc_find_spec (p : Nat → Option Bool) (q : Nat → Bool) (l : List Nat)
    (h : ∀ i, i ∈ l → p i = some (q i)) : kc_find p l = some (l.find? q) := by
  induction l with
  | nil => rfl
  | cons i is ih =>
    unfold kc_find
    rw [h i (List.mem_cons_self _ _)]
    cases hq : q i
    · simp only [List.find?_cons, hq]
      exact ih (fun j hj => h j (List.mem_cons_of_mem _ hj))
    · simp only [List.find?_cons, hq]

theorem kc_find_none (q : Nat → Bool) (l : List Nat) (h : (l.find? q).isSome = false) :
    ∀ x, x ∈ l → q x = false := by
  intro x hx
  cases hf : l.find? q with
  | none => simpa using List.find?_eq_none.1 hf x hx
  | some y => rw [hf] at h; simp at h

/-! ## Support test -/

/-- When `kc_vt_has_var` answers 0 the table does not depend on the variable. -/
theorem kc_vt_has_var_spec (n : Nat) (v : kc_vt) (ttId iVar : Nat) (tt : List Nat)
    (hw : v.words = kc_truth_word_num n) (htt : kc_tt_ok v.words tt)
    (hread : kc_vt_read v ttId = some tt) (hi : iVar < n) :
    ∃ b, kc_vt_has_var v ttId iVar = some b ∧ (b = false → kc_tt_indep tt iVar) := by
  by_cases h6 : iVar < 6
  · refine ⟨_, by unfold kc_vt_has_var; rw [hread]; simp only [if_pos h6]; rfl, ?_⟩
    intro hb m hm
    rw [List.any_eq_false] at hb
    unfold kc_tt_bit
    obtain ⟨h1, h2⟩ := kc_clear_bit_low m iVar h6
    rw [h1, h2]
    have hk : m / 64 < tt.length := by omega
    have hc : m % 64 < 64 := Nat.mod_lt _ (by norm_num)
    have hx := hb _ (List.getElem_mem hk)
    replace hx := of_not_not (fun h => hx (decide_eq_true h))
    rw [List.getD_eq_getElem?_getD, List.getElem?_eq_getElem hk, Option.getD_some]
    generalize tt[m / 64] = x at hx
    generalize m % 64 = c at hc
    unfold kc_clear_bit
    by_cases hbit : c.testBit iVar = true
    · rw [if_pos hbit]
      obtain ⟨h3, h4⟩ := (kc_bit_pos_facts iVar h6 c hc).1 hbit
      have h5 := congrArg (fun y => Nat.testBit y (c - 2 ^ iVar)) hx
      simp only [Nat.testBit_and, Nat.testBit_shiftRight, Nat.one_shiftLeft,
        s_Truths6Neg_testBit iVar h6, h4] at h5
      have h6 : c - 2 ^ iVar < 64 := Nat.lt_of_le_of_lt (Nat.sub_le _ _) hc
      simp only [h6, decide_True, Bool.not_false, Bool.and_self, Bool.and_true] at h5
      rw [Nat.add_sub_cancel' h3] at h5
      exact h5
    · rw [if_neg hbit]
  · have hW : v.words = 2 ^ (n - 6) := by rw [hw]; exact kc_truth_word_num_pow n (by omega)
    have he : iVar - 6 < n - 6 := by omega
    have hp : ∀ k, k ∈ kc_block_index (2 ^ (n - 6)) (2 ^ (iVar - 6)) →
        (tt[k]?).bind (fun x => (tt[2 ^ (iVar - 6) + k]?).bind
          (fun y => some (decide (x ≠ y)))) = some (decide (tt.getD k 0 ≠ tt.getD (2 ^ (iVar - 6) + k) 0)) := by
      intro k hk
      have h1 := kc_block_index_add_lt _ _ k he hk
      have h0 := Nat.two_pow_pos (iVar - 6)
      have h2 : k < tt.length := by rw [htt.1, hW]; omega
      have h3 : 2 ^ (iVar - 6) + k < tt.length := by rw [htt.1, hW]; omega
      simp only [List.getD_eq_getElem?_getD, List.getElem?_eq_getElem h2,
        List.getElem?_eq_getElem h3, Option.getD_some, Option.some_bind]
    refine ⟨_, by unfold kc_vt_has_var; rw [hread]; simp only [if_neg h6, Nat.one_shiftLeft, hW];
                  rw [kc_find_spec _ _ _ hp]; rfl, ?_⟩
    intro hb m hm
    replace hb := kc_find_none _ _ hb
    unfold kc_tt_bit
    obtain ⟨h1, h2⟩ := kc_clear_bit_high m iVar (by omega)
    rw [h1, h2]
    congr 1
    rw [htt.1, hW] at hm
    have hj : m / 64 < 2 ^ (n - 6) := by omega
    generalize m / 64 = j at hj
    by_cases hbit : j.testBit (iVar - 6) = true
    · have hmem : kc_clear_bit j (iVar - 6) ∈ kc_block_index (2 ^ (n - 6)) (2 ^ (iVar - 6)) := by
        rw [kc_block_index_mem_pow _ _ _ he]
        exact ⟨Nat.lt_of_le_of_lt (kc_clear_bit_le j _) hj, kc_clear_bit_testBit j _⟩
      have h3 := hb _ hmem
      replace h3 := of_not_not (of_decide_eq_false h3)
      rw [h3]
      congr 1
      unfold kc_clear_bit
      rw [if_pos hbit]
      have := kc_testBit_ge j _ hbit
      omega
    · unfold kc_clear_bit; rw [if_neg hbit]

/-! ## Tables of the graph -/

theorem kc_lnot_lt (l s : Nat) (h : l < 2 * s) : l ^^^ 1 < 2 * s := by
  rw [kc_xor_one_eq]; split <;> omega

theorem kc_lnot_lnot (l : Nat) : (l ^^^ 1) ^^^ 1 = l := by
  rw [Nat.xor_assoc, Nat.xor_self, Nat.xor_zero]

theorem kc_gg_tt_get (gg : kc_gg) (l : Nat) (h : l < gg.tts.ptr.length) :
    gg.tts.ptr[l]? = some (kc_gg_tt gg l) := by
  unfold kc_gg_tt
  rw [List.getD_eq_getElem?_getD, List.getElem?_eq_getElem h]; rfl

theorem kc_gg_tt_read (gg : kc_gg) (hinv : kc_gg_inv gg) (l : Nat) (h : l < 2 * gg.size) :
    kc_vt_read gg.tts l = some (kc_gg_tt gg l) :=
  kc_gg_tt_get gg l (by rw [hinv.tts_len]; exact h)

theorem kc_gg_tt_ok (gg : kc_gg) (hinv : kc_gg_inv gg) (l : Nat) (h : l < 2 * gg.size) :
    kc_tt_ok gg.tts.words (kc_gg_tt gg l) := by
  have h1 := kc_gg_tt_get gg l (by rw [hinv.tts_len]; exact h)
  exact hinv.tts_ok _ (List.getElem?_mem h1)

theorem kc_gg_tt_one (gg : kc_gg) (hinv : kc_gg_inv gg) :
    kc_gg_tt gg 1 = List.replicate gg.tts.words kc_ones := by
  have h := hinv.polar 0 (by have := hinv.size_ge; omega)
  rw [hinv.const0, kc_tt_not_zero] at h
  exact h

theorem kc_gg_tt_lnot (gg : kc_gg) (hinv : kc_gg_inv gg) (l : Nat) (h : l < 2 * gg.size) :
    kc_gg_tt gg (kc_lnot l) = (kc_gg_tt gg l).map kc_not := hinv.polar l h

theorem kc_gg_words_pos (gg : kc_gg) (hinv : kc_gg_inv gg) : 0 < gg.tts.words := by
  rw [hinv.tts_words]; exact kc_truth_word_num_pos _

theorem kc_gg_ext_refl (gg : kc_gg) : kc_gg_ext gg gg :=
  ⟨rfl, Nat.le_refl _, rfl, rfl, rfl, rfl, [], by simp⟩

theorem kc_gg_ext_trans (g1 g2 g3 : kc_gg) (h12 : kc_gg_ext g1 g2) (h23 : kc_gg_ext g2 g3) :
    kc_gg_ext g1 g3 := by
  obtain ⟨a1, a2, a3, a4, a5, a6, m1, a7⟩ := h12
  obtain ⟨b1, b2, b3, b4, b5, b6, m2, b7⟩ := h23
  exact ⟨by rw [b1, a1], by omega, by rw [b3, a3], by rw [b4, a4], by rw [b5, a5],
    by rw [b6, a6], m1 ++ m2, by rw [b7, a7, List.append_assoc]⟩

theorem kc_gg_ext_tt (gg g : kc_gg) (h : kc_gg_ext gg g) (l : Nat)
    (hl : l < gg.tts.ptr.length) : kc_gg_tt g l = kc_gg_tt gg l := by
  obtain ⟨_, _, _, _, _, _, m, hm⟩ := h
  unfold kc_gg_tt
  rw [hm, List.getD_eq_getElem?_getD, List.getD_eq_getElem?_getD, List.getElem?_append_left hl]

theorem kc_gg_eta (gg : kc_gg) : { gg with tts := { words := gg.tts.words, ptr := gg.tts.ptr } } = gg := by
  cases gg; rfl

/-! ## Hashing -/

/-- The structural stage of `kc_gg_hash_node` on a graph whose `fans` is complete. -/
theorem kc_gg_hash_struct (gg : kc_gg) (hlen : gg.fans.length = 2 * gg.size) (a b : Nat) :
    kc_find (fun i =>
      (kc_gg_fanin gg i 0).bind (fun f0 =>
        if f0 = (a : Int) then
          (kc_gg_fanin gg i 1).bind (fun f1 => some (decide (f1 = (b : Int))))
        else some false))
      (List.range' (1 + gg.nins) (gg.size - (1 + gg.nins)))
    = some ((List.range' (1 + gg.nins) (gg.size - (1 + gg.nins))).find?
        (fun i => decide (gg.fans[2 * i]? = some (a : Int) ∧ gg.fans[2 * i + 1]? = some (b : Int)))) := by
  apply kc_find_spec
  intro i hi
  rw [List.mem_range'_1] at hi
  have h0 : 2 * i < gg.fans.length := by omega
  have h1 : 2 * i + 1 < gg.fans.length := by omega
  unfold kc_gg_fanin
  simp only [Nat.add_zero, List.getElem?_eq_getElem h0, List.getElem?_eq_getElem h1,
    Option.some_bind, Option.some.injEq]
  by_cases hx : gg.fans[2 * i] = (a : Int)
  · simp [hx]
  · simp [hx]

/-- The functional stage of `kc_gg_hash_node` once table `t` has been appended. -/
theorem kc_gg_hash_func (gg : kc_gg) (hlen : gg.tts.ptr.length = 2 * gg.size) (t : List Nat) :
    kc_find (fun i => kc_vt_is_equal (kc_vt_push gg.tts t) gg.tts.ptr.length i)
      (List.range (2 * gg.size))
    = some ((List.range (2 * gg.size)).find? (fun i => decide (t = kc_gg_tt gg i))) := by
  apply kc_find_spec
  intro i hi
  rw [List.mem_range] at hi
  unfold kc_vt_is_equal kc_vt_read kc_vt_push
  simp only
  rw [List.getElem?_append_right (Nat.le_refl _), List.getElem?_append_left (by omega),
    kc_gg_tt_get gg i (by omega)]
  simp

/-- The graph with one more node, as `kc_gg_append_node` leaves it. -/
theorem kc_gg_appended_tt (gg : kc_gg) (hlen : gg.tts.ptr.length = 2 * gg.size) (a b : Nat)
    (t : List Nat) (l : Nat) :
    kc_gg_tt { gg with size := gg.size + 1
                       fans := gg.fans ++ [(a : Int), (b : Int)]
                       tids := gg.tids ++ [0]
                       tts := kc_vt_push (kc_vt_push gg.tts t) (t.map kc_not) } l
      = if l < 2 * gg.size then kc_gg_tt gg l
        else if l = 2 * gg.size then t
        else if l = 2 * gg.size + 1 then t.map kc_not else [] := by
  unfold kc_gg_tt kc_vt_push
  simp only [List.getD_eq_getElem?_getD, List.append_assoc, List.singleton_append]
  by_cases h1 : l < 2 * gg.size
  · rw [if_pos h1, List.getElem?_append_left (by omega)]
  · rw [if_neg h1, List.getElem?_append_right (by omega), hlen]
    by_cases h2 : l = 2 * gg.size
    · rw [if_pos h2, h2]; simp
    · rw [if_neg h2]
      by_cases h3 : l = 2 * gg.size + 1
      · rw [if_pos h3, h3]; simp
      · rw [if_neg h3]
        have : l - 2 * gg.size = (l - 2 * gg.size - 2) + 2 := by omega
        rw [this]; simp

theorem kc_gg_append_inv (gg : kc_gg) (hinv : kc_gg_inv gg) (a b : Nat) (t : List Nat)
    (ha : a < 2 * gg.size) (hb : b < 2 * gg.size) (hab : a ≠ b)
    (ht : kc_tt_ok gg.tts.words t)
    (hand : a < b → t = List.zipWith (· &&& ·) (kc_gg_tt gg a) (kc_gg_tt gg b))
    (hxor : b < a → t = List.zipWith (· ^^^ ·) (kc_gg_tt gg a) (kc_gg_tt gg b))
    (hstruct : ∀ w, gg.nins < w → w < gg.size →
      ¬ (gg.fans[2 * w]? = some (a : Int) ∧ gg.fans[2 * w + 1]? = some (b : Int)))
    (hfunc : ∀ l, l < 2 * gg.size → t ≠ kc_gg_tt gg l) :
    kc_gg_inv { gg with size := gg.size + 1
                        fans := gg.fans ++ [(a : Int), (b : Int)]
                        tids := gg.tids ++ [0]
                        tts := kc_vt_push (kc_vt_push gg.tts t) (t.map kc_not) } := by
  have htt := kc_gg_appended_tt gg hinv.tts_len a b t
  have hsz := hinv.size_ge
  have hfl := hinv.fans_len
  constructor
  · show 1 + gg.nins ≤ gg.size + 1
    omega
  · show (gg.fans ++ [(a : Int), (b : Int)]).length = 2 * (gg.size + 1)
    simp [hinv.fans_len]; omega
  · show (gg.tids ++ [0]).length = gg.size + 1
    simp [hinv.tids_len]
  · show (kc_vt_push (kc_vt_push gg.tts t) (t.map kc_not)).ptr.length = 2 * (gg.size + 1)
    simp [kc_vt_push, hinv.tts_len]; omega
  · exact hinv.tts_words
  · intro x hx
    simp only [kc_vt_push, List.append_assoc, List.mem_append, List.mem_singleton,
      List.mem_cons, List.singleton_append] at hx
    rcases hx with hx | hx | hx
    · exact hinv.tts_ok x hx
    · rw [hx]; exact ht
    · simp only [List.not_mem_nil, or_false] at hx
      rw [hx]; exact kc_tt_ok_not _ t ht
  · rw [htt 0, if_pos (by omega)]; exact hinv.const0
  · intro l hl
    change l < 2 * (gg.size + 1) at hl
    rw [htt l, htt (l ^^^ 1)]
    by_cases h1 : l < 2 * gg.size
    · rw [if_pos h1, if_pos (kc_lnot_lt l _ h1)]; exact hinv.polar l h1
    · have h2 := kc_xor_one_eq l
      by_cases h3 : l = 2 * gg.size
      · have h4 : l ^^^ 1 = 2 * gg.size + 1 := by rw [h2, if_pos (by omega)]; omega
        rw [h4, if_neg (by omega), if_neg (by omega), if_pos rfl, if_neg h1, if_pos h3]
      · have h4 : l ^^^ 1 = 2 * gg.size := by rw [h2, if_neg (by omega)]; omega
        rw [h4, if_neg (by omega), if_pos rfl, if_neg h1, if_neg h3, if_pos (by omega)]
        exact (kc_tt_not_not _ t ht).symm
  · intro i hi m hm
    rw [htt, if_pos (by change i < gg.nins at hi; omega)]
    exact hinv.vars i hi m hm
  · intro v hv1 hv2
    change gg.nins < v at hv1
    change v < gg.size + 1 at hv2
    by_cases hv : v < gg.size
    · obtain ⟨a', b', h1, h2, h3, h4, h5, h6, h7⟩ := hinv.node v hv1 hv
      refine ⟨a', b', ?_, ?_, h3, h4, h5, ?_, ?_⟩
      · show (gg.fans ++ _)[2 * v]? = _
        rw [List.getElem?_append_left (by omega)]; exact h1
      · show (gg.fans ++ _)[2 * v + 1]? = _
        rw [List.getElem?_append_left (by omega)]; exact h2
      · rw [htt, htt, htt, if_pos (by omega), if_pos (by omega), if_pos (by omega)]; exact h6
      · rw [htt, htt, htt, if_pos (by omega), if_pos (by omega), if_pos (by omega)]; exact h7
    · have hv3 : v = gg.size := by omega
      subst hv3
      refine ⟨a, b, ?_, ?_, hab, ha, hb, ?_, ?_⟩
      · show (gg.fans ++ _)[2 * gg.size]? = _
        rw [List.getElem?_append_right (by omega), hfl]; simp
      · show (gg.fans ++ _)[2 * gg.size + 1]? = _
        rw [List.getElem?_append_right (by omega), hfl]
        have : 2 * gg.size + 1 - 2 * gg.size = 1 := by omega
        rw [this]; rfl
      · rw [htt, htt, htt, if_neg (by omega), if_pos rfl, if_pos ha, if_pos hb]; exact hand
      · rw [htt, htt, htt, if_neg (by omega), if_pos rfl, if_pos ha, if_pos hb]; exact hxor
  · intro v w hv1 hv2 hw1 hw2 h1 h2
    change gg.nins < v at hv1
    change v < gg.size + 1 at hv2
    change gg.nins < w at hw1
    change w < gg.size + 1 at hw2
    change (gg.fans ++ _)[2 * v]? = (gg.fans ++ _)[2 * w]? at h1
    change (gg.fans ++ _)[2 * v + 1]? = (gg.fans ++ _)[2 * w + 1]? at h2
    have hnew0 : (gg.fans ++ [(a : Int), (b : Int)])[2 * gg.size]? = some (a : Int) := by
      rw [List.getElem?_append_right (by omega), hfl]; simp
    have hnew1 : (gg.fans ++ [(a : Int), (b : Int)])[2 * gg.size + 1]? = some (b : Int) := by
      rw [List.getElem?_append_right (by omega), hfl]
      have : 2 * gg.size + 1 - 2 * gg.size = 1 := by omega
      rw [this]; rfl
    by_cases hv : v < gg.size
    · by_cases hw : w < gg.size
      · rw [List.getElem?_append_left (by omega), List.getElem?_append_left (by omega)] at h1 h2
        exact hinv.struct_uniq v w hv1 hv hw1 hw h1 h2
      · have hw3 : w = gg.size := by omega
        subst hw3
        rw [hnew0, List.getElem?_append_left (by omega)] at h1
        rw [hnew1, List.getElem?_append_left (by omega)] at h2
        exact absurd ⟨h1, h2⟩ (hstruct v hv1 hv)
    · have hv3 : v = gg.size := by omega
      subst hv3
      by_cases hw : w < gg.size
      · rw [hnew0, List.getElem?_append_left (by omega)] at h1
        rw [hnew1, List.getElem?_append_left (by omega)] at h2
        exact absurd ⟨h1.symm, h2.symm⟩ (hstruct w hw1 hw)
      · omega
  · intro l m hl hm h
    change l < 2 * (gg.size + 1) at hl
    change m < 2 * (gg.size + 1) at hm
    rw [htt l, htt m] at h
    have hW := kc_gg_words_pos gg hinv
    have key : ∀ x, x < 2 * gg.size → t.map kc_not ≠ kc_gg_tt gg x := by
      intro x hx hx2
      apply hfunc (x ^^^ 1) (kc_lnot_lt x _ hx)
      rw [hinv.polar x hx, ← hx2, kc_tt_not_not _ t ht]
    by_cases h1 : l < 2 * gg.size
    · rw [if_pos h1] at h
      by_cases h2 : m < 2 * gg.size
      · rw [if_pos h2] at h; exact hinv.func_uniq l m h1 h2 h
      · rw [if_neg h2] at h
        by_cases h3 : m = 2 * gg.size
        · rw [if_pos h3] at h; exact absurd h.symm (hfunc l h1)
        · rw [if_neg h3, if_pos (by omega)] at h; exact absurd h.symm (key l h1)
    · rw [if_neg h1] at h
      by_cases h2 : m < 2 * gg.size
      · rw [if_pos h2] at h
        by_cases h3 : l = 2 * gg.size
        · rw [if_pos h3] at h; exact absurd h (hfunc m h2)
        · rw [if_neg h3, if_pos (by omega)] at h; exact absurd h (key m h2)
      · rw [if_neg h2] at h
        by_cases h3 : l = 2 * gg.size
        · by_cases h4 : m = 2 * gg.size
          · omega
          · rw [if_pos h3, if_neg h4, if_pos (by omega)] at h
            exact absurd h.symm (kc_tt_not_ne _ t ht.1 hW)
        · by_cases h4 : m = 2 * gg.size
          · rw [if_neg h3, if_pos (by omega), if_pos h4] at h
            exact absurd h (kc_tt_not_ne _ t ht.1 hW)
          · omega

theorem kc_gg_append_ext (gg : kc_gg) (a b : Nat) (t : List Nat) :
    kc_gg_ext gg { gg with size := gg.size + 1
                           fans := gg.fans ++ [(a : Int), (b : Int)]
                           tids := gg.tids ++ [0]
                           tts := kc_vt_push (kc_vt_push gg.tts t) (t.map kc_not) } :=
  ⟨rfl, Nat.le_succ _, rfl, rfl, rfl, rfl, [t, t.map kc_not], by simp [kc_vt_push]⟩

theorem kc_gg_append_node_eq (gg : kc_gg) (hlen : gg.tts.ptr.length = 2 * gg.size) (a b : Nat)
    (t : List Nat) :
    kc_gg_append_node { gg with tts := kc_vt_push gg.tts t } a b gg.tts.ptr.length
      = some ({ gg with size := gg.size + 1
                        fans := gg.fans ++ [(a : Int), (b : Int)]
                        tids := gg.tids ++ [0]
                        tts := kc_vt_push (kc_vt_push gg.tts t) (t.map kc_not) }, 2 * gg.size) := by
  have h1 : (gg.tts.ptr ++ [t])[gg.tts.ptr.length]? = some t := by
    rw [List.getElem?_append_right (Nat.le_refl _)]; simp
  unfold kc_gg_append_node kc_vt_inv kc_vt_read
  simp only [kc_vt_push, h1, List.length_append, List.length_singleton]
  rw [if_pos (by omega)]
  unfold kc_v2l
  simp only [Nat.add_zero, Option.some.injEq, Prod.mk.injEq, and_true]
  exact ⟨trivial, by omega⟩

/-- What the common tail of `kc_gg_and` and `kc_gg_xor` does once the table `t`
of the wanted node has been appended: either an existing literal with table `t`
is returned and the graph is the one before the append, or a node is appended
and no literal had table `t`. -/
theorem kc_gg_hash_or_append_spec (gg : kc_gg) (hinv : kc_gg_inv gg) (a b : Nat) (t : List Nat)
    (ha : a < 2 * gg.size) (hb : b < 2 * gg.size) (hab : a ≠ b)
    (ht : kc_tt_ok gg.tts.words t)
    (hand : a < b → t = List.zipWith (· &&& ·) (kc_gg_tt gg a) (kc_gg_tt gg b))
    (hxor : b < a → t = List.zipWith (· ^^^ ·) (kc_gg_tt gg a) (kc_gg_tt gg b)) :
    ∃ g r, kc_gg_hash_or_append { gg with tts := kc_vt_push gg.tts t } a b gg.tts.ptr.length
        = some (g, r) ∧
      kc_gg_inv g ∧ kc_gg_ext gg g ∧ r < 2 * g.size ∧ kc_gg_tt g r = t ∧
      ((g = gg ∧ r < 2 * gg.size) ∨
       (g = { gg with size := gg.size + 1
                      fans := gg.fans ++ [(a : Int), (b : Int)]
                      tids := gg.tids ++ [0]
                      tts := kc_vt_push (kc_vt_push gg.tts t) (t.map kc_not) } ∧
        r = 2 * gg.size ∧ ∀ l, l < 2 * gg.size → kc_gg_tt gg l ≠ t)) := by
  have hresize : kc_vt_resize (kc_vt_push gg.tts t) gg.tts.ptr.length = some gg.tts := by
    unfold kc_vt_resize kc_vt_push
    simp
  have hs := kc_gg_hash_struct { gg with tts := kc_vt_push gg.tts t } hinv.fans_len a b
  simp only at hs
  unfold kc_gg_hash_or_append kc_gg_hash_node
  simp only
  rw [hs]
  cases h1 : (List.range' (1 + gg.nins) (gg.size - (1 + gg.nins))).find?
      (fun i => decide (gg.fans[2 * i]? = some (a : Int) ∧ gg.fans[2 * i + 1]? = some (b : Int))) with
  | some i =>
    have hq := List.find?_some h1
    have hm := List.mem_of_find?_eq_some h1
    rw [List.mem_range'_1] at hm
    simp only [decide_eq_true_eq] at hq
    obtain ⟨a', b', n1, n2, _, _, _, n6, n7⟩ := hinv.node i (by omega) (by omega)
    have ea : a' = a := by
      have := hq.1; rw [n1] at this; exact Int.ofNat_inj.1 (Option.some.inj this)
    have eb : b' = b := by
      have := hq.2; rw [n2] at this; exact Int.ofNat_inj.1 (Option.some.inj this)
    subst ea; subst eb
    have hti : kc_gg_tt gg (2 * i) = t := by
      rcases Nat.lt_or_gt_of_ne hab with h | h
      · rw [n6 h, hand h]
      · rw [n7 h, hxor h]
    simp only [hresize]
    refine ⟨gg, kc_v2l i 0, ?_, hinv, kc_gg_ext_refl gg, ?_, ?_, Or.inl ⟨rfl, ?_⟩⟩
    · cases gg; rfl
    · unfold kc_v2l; omega
    · have : kc_v2l i 0 = 2 * i := by unfold kc_v2l; omega
      rw [this]; exact hti
    · unfold kc_v2l; omega
  | none =>
    simp only
    rw [kc_gg_hash_func gg hinv.tts_len t]
    cases h2 : (List.range (2 * gg.size)).find? (fun i => decide (t = kc_gg_tt gg i)) with
    | some i =>
      have hq := List.find?_some h2
      have hm := List.mem_of_find?_eq_some h2
      rw [List.mem_range] at hm
      simp only [decide_eq_true_eq] at hq
      simp only [hresize]
      refine ⟨gg, i, ?_, hinv, kc_gg_ext_refl gg, hm, hq.symm, Or.inl ⟨rfl, hm⟩⟩
      cases gg; rfl
    | none =>
      rw [List.find?_eq_none] at h1 h2
      have hstruct : ∀ w, gg.nins < w → w < gg.size →
          ¬ (gg.fans[2 * w]? = some (a : Int) ∧ gg.fans[2 * w + 1]? = some (b : Int)) := by
        intro w hw1 hw2
        have := h1 w (by rw [List.mem_range'_1]; omega)
        simpa using this
      have hfunc : ∀ l, l < 2 * gg.size → t ≠ kc_gg_tt gg l := by
        intro l hl
        have := h2 l (by rw [List.mem_range]; exact hl)
        simpa using this
      have hi := kc_gg_append_inv gg hinv a b t ha hb hab ht hand hxor hstruct hfunc
      refine ⟨_, 2 * gg.size, ?_, hi, kc_gg_append_ext gg a b t, ?_, ?_, Or.inr ⟨rfl, rfl, ?_⟩⟩
      · exact kc_gg_append_node_eq gg hinv.tts_len a b t
      · show 2 * gg.size < 2 * (gg.size + 1)
        omega
      · rw [kc_gg_appended_tt gg hinv.tts_len, if_neg (by omega), if_pos rfl]
      · intro l hl h; exact hfunc l hl h.symm

/-! ## The Boolean constructors -/

theorem kc_vt_and_eq (gg : kc_gg) (hinv : kc_gg_inv gg) (a b : Nat)
    (ha : a < 2 * gg.size) (hb : b < 2 * gg.size) :
    kc_vt_and gg.tts a b
      = some (kc_vt_push gg.tts (List.zipWith (· &&& ·) (kc_gg_tt gg a) (kc_gg_tt gg b)),
          gg.tts.ptr.length) := by
  unfold kc_vt_and
  rw [kc_gg_tt_read gg hinv a ha, kc_gg_tt_read gg hinv b hb]

theorem kc_vt_xor_eq (gg : kc_gg) (hinv : kc_gg_inv gg) (a b : Nat)
    (ha : a < 2 * gg.size) (hb : b < 2 * gg.size) :
    kc_vt_xor gg.tts a b
      = some (kc_vt_push gg.tts (List.zipWith (· ^^^ ·) (kc_gg_tt gg a) (kc_gg_tt gg b)),
          gg.tts.ptr.length) := by
  unfold kc_vt_xor
  rw [kc_gg_tt_read gg hinv a ha, kc_gg_tt_read gg hinv b hb]

/-- Behaviour of `kc_gg_and` on a graph that satisfies the invariant. -/
theorem kc_gg_and_spec (gg : kc_gg) (hinv : kc_gg_inv gg) (a b : Nat)
    (ha : a < 2 * gg.size) (hb : b < 2 * gg.size) :
    ∃ g r, kc_gg_and gg a b = some (g, r) ∧
      kc_gg_inv g ∧ kc_gg_ext gg g ∧ r < 2 * g.size ∧
      kc_gg_tt g r = List.zipWith (· &&& ·) (kc_gg_tt gg a) (kc_gg_tt gg b) ∧
      ((g = gg ∧ r < 2 * gg.size) ∨
       ∃ a' b' t, a' < b' ∧ a' < 2 * gg.size ∧ b' < 2 * gg.size ∧
        g = { gg with size := gg.size + 1
                      fans := gg.fans ++ [(a' : Int), (b' : Int)]
                      tids := gg.tids ++ [0]
                      tts := kc_vt_push (kc_vt_push gg.tts t) (t.map kc_not) } ∧
        r = 2 * gg.size ∧ ∀ l, l < 2 * gg.size → kc_gg_tt gg l ≠ t) := by
  have hsz := hinv.size_ge
  have hoka := kc_gg_tt_ok gg hinv a ha
  have hokb := kc_gg_tt_ok gg hinv b hb
  unfold kc_gg_and
  by_cases h1 : a = 0
  · rw [if_pos h1]
    refine ⟨gg, 0, rfl, hinv, kc_gg_ext_refl gg, by omega, ?_, Or.inl ⟨rfl, by omega⟩⟩
    rw [h1, hinv.const0, kc_tt_and_zero _ _ hokb.1]
  rw [if_neg h1]
  by_cases h2 : b = 0
  · rw [if_pos h2]
    refine ⟨gg, 0, rfl, hinv, kc_gg_ext_refl gg, by omega, ?_, Or.inl ⟨rfl, by omega⟩⟩
    rw [h2, hinv.const0, kc_tt_and_comm, kc_tt_and_zero _ _ hoka.1]
  rw [if_neg h2]
  by_cases h3 : a = 1
  · rw [if_pos h3]
    refine ⟨gg, b, rfl, hinv, kc_gg_ext_refl gg, hb, ?_, Or.inl ⟨rfl, hb⟩⟩
    rw [h3, kc_gg_tt_one gg hinv, kc_tt_and_ones _ _ hokb]
  rw [if_neg h3]
  by_cases h4 : b = 1
  · rw [if_pos h4]
    refine ⟨gg, a, rfl, hinv, kc_gg_ext_refl gg, ha, ?_, Or.inl ⟨rfl, ha⟩⟩
    rw [h4, kc_gg_tt_one gg hinv, kc_tt_and_comm, kc_tt_and_ones _ _ hoka]
  rw [if_neg h4]
  by_cases h5 : a = b
  · rw [if_pos h5]
    refine ⟨gg, a, rfl, hinv, kc_gg_ext_refl gg, ha, ?_, Or.inl ⟨rfl, ha⟩⟩
    rw [h5, kc_tt_and_self]
  rw [if_neg h5]
  by_cases h6 : a ^^^ b = 1
  · rw [if_pos h6]
    refine ⟨gg, 0, rfl, hinv, kc_gg_ext_refl gg, by omega, ?_, Or.inl ⟨rfl, by omega⟩⟩
    rw [(kc_xor_eq_one a b).1 h6, hinv.polar a ha, hinv.const0, kc_tt_and_not _ _ hoka]
  rw [if_neg h6]
  by_cases h7 : a > b
  · simp only [if_pos h7]
    rw [kc_vt_and_eq gg hinv b a hb ha]
    simp only
    obtain ⟨g, r, e1, e2, e3, e4, e5, e6⟩ := kc_gg_hash_or_append_spec gg hinv b a _ hb ha
      (Ne.symm h5) (kc_tt_ok_and _ _ _ hokb hoka) (fun _ => rfl) (fun h => by omega)
    refine ⟨g, r, e1, e2, e3, e4, by rw [e5, kc_tt_and_comm], ?_⟩
    rcases e6 with h | ⟨h8, h9, h10⟩
    · exact Or.inl h
    · exact Or.inr ⟨b, a, _, h7, hb, ha, h8, h9, h10⟩
  · simp only [if_neg h7]
    rw [if_pos (by omega), kc_vt_and_eq gg hinv a b ha hb]
    simp only
    obtain ⟨g, r, e1, e2, e3, e4, e5, e6⟩ := kc_gg_hash_or_append_spec gg hinv a b _ ha hb
      h5 (kc_tt_ok_and _ _ _ hoka hokb) (fun _ => rfl) (fun h => by omega)
    refine ⟨g, r, e1, e2, e3, e4, e5, ?_⟩
    rcases e6 with h | ⟨h8, h9, h10⟩
    · exact Or.inl h
    · exact Or.inr ⟨a, b, _, by omega, ha, hb, h8, h9, h10⟩

/-- Behaviour of `kc_gg_xor` on a graph that satisfies the invariant. -/
theorem kc_gg_xor_spec (gg : kc_gg) (hinv : kc_gg_inv gg) (a b : Nat)
    (ha : a < 2 * gg.size) (hb : b < 2 * gg.size) :
    ∃ g r, kc_gg_xor gg a b = some (g, r) ∧
      kc_gg_inv g ∧ kc_gg_ext gg g ∧ r < 2 * g.size ∧
      kc_gg_tt g r = List.zipWith (· ^^^ ·) (kc_gg_tt gg a) (kc_gg_tt gg b) ∧
      ((g = gg ∧ r < 2 * gg.size) ∨
       ∃ a' b' t, b' < a' ∧ a' < 2 * gg.size ∧ b' < 2 * gg.size ∧
        g = { gg with size := gg.size + 1
                      fans := gg.fans ++ [(a' : Int), (b' : Int)]
                      tids := gg.tids ++ [0]
                      tts := kc_vt_push (kc_vt_push gg.tts t) (t.map kc_not) } ∧
        r = 2 * gg.size ∧ ∀ l, l < 2 * gg.size → kc_gg_tt gg l ≠ t) := by
  have hsz := hinv.size_ge
  have hoka := kc_gg_tt_ok gg hinv a ha
  have hokb := kc_gg_tt_ok gg hinv b hb
  unfold kc_gg_xor
  by_cases h1 : a = 1
  · rw [if_pos h1]
    refine ⟨gg, b ^^^ 1, rfl, hinv, kc_gg_ext_refl gg, kc_lnot_lt b _ hb, ?_,
      Or.inl ⟨rfl, kc_lnot_lt b _ hb⟩⟩
    rw [h1, hinv.polar b hb, kc_gg_tt_one gg hinv, kc_tt_xor_ones _ _ hokb]
  rw [if_neg h1]
  by_cases h2 : b = 1
  · rw [if_pos h2]
    refine ⟨gg, a ^^^ 1, rfl, hinv, kc_gg_ext_refl gg, kc_lnot_lt a _ ha, ?_,
      Or.inl ⟨rfl, kc_lnot_lt a _ ha⟩⟩
    rw [h2, hinv.polar a ha, kc_gg_tt_one gg hinv, kc_tt_xor_comm, kc_tt_xor_ones _ _ hoka]
  rw [if_neg h2]
  by_cases h3 : a = 0
  · rw [if_pos h3]
    refine ⟨gg, b, rfl, hinv, kc_gg_ext_refl gg, hb, ?_, Or.inl ⟨rfl, hb⟩⟩
    rw [h3, hinv.const0, kc_tt_xor_zero _ _ hokb.1]
  rw [if_neg h3]
  by_cases h4 : b = 0
  · rw [if_pos h4]
    refine ⟨gg, a, rfl, hinv, kc_gg_ext_refl gg, ha, ?_, Or.inl ⟨rfl, ha⟩⟩
    rw [h4, hinv.const0, kc_tt_xor_comm, kc_tt_xor_zero _ _ hoka.1]
  rw [if_neg h4]
  by_cases h5 : a = b
  · rw [if_pos h5]
    refine ⟨gg, 0, rfl, hinv, kc_gg_ext_refl gg, by omega, ?_, Or.inl ⟨rfl, by omega⟩⟩
    rw [h5, kc_tt_xor_self, hinv.const0, hokb.1]
  rw [if_neg h5]
  by_cases h6 : a ^^^ b = 1
  · rw [if_pos h6]
    refine ⟨gg, 1, rfl, hinv, kc_gg_ext_refl gg, by omega, ?_, Or.inl ⟨rfl, by omega⟩⟩
    rw [(kc_xor_eq_one a b).1 h6, hinv.polar a ha, kc_gg_tt_one gg hinv, kc_tt_xor_not _ _ hoka]
  rw [if_neg h6]
  by_cases h7 : a < b
  · simp only [if_pos h7]
    rw [kc_vt_xor_eq gg hinv b a hb ha]
    simp only
    obtain ⟨g, r, e1, e2, e3, e4, e5, e6⟩ := kc_gg_hash_or_append_spec gg hinv b a _ hb ha
      (Ne.symm h5) (kc_tt_ok_xor _ _ _ hokb hoka) (fun h => by omega) (fun _ => rfl)
    refine ⟨g, r, e1, e2, e3, e4, by rw [e5, kc_tt_xor_comm], ?_⟩
    rcases e6 with h | ⟨h8, h9, h10⟩
    · exact Or.inl h
    · exact Or.inr ⟨b, a, _, h7, hb, ha, h8, h9, h10⟩
  · simp only [if_neg h7]
    rw [if_pos (by omega), kc_vt_xor_eq gg hinv a b ha hb]
    simp only
    obtain ⟨g, r, e1, e2, e3, e4, e5, e6⟩ := kc_gg_hash_or_append_spec gg hinv a b _ ha hb
      h5 (kc_tt_ok_xor _ _ _ hoka hokb) (fun h => by omega) (fun _ => rfl)
    refine ⟨g, r, e1, e2, e3, e4, e5, ?_⟩
    rcases e6 with h | ⟨h8, h9, h10⟩
    · exact Or.inl h
    · exact Or.inr ⟨a, b, _, by omega, ha, hb, h8, h9, h10⟩

theorem kc_gg_ext_lt (gg g : kc_gg) (h : kc_gg_ext gg g) (l : Nat) (hl : l < 2 * gg.size) :
    l < 2 * g.size := by
  have := h.2.1; omega

theorem kc_gg_ext_tt_inv (gg g : kc_gg) (hinv : kc_gg_inv gg) (h : kc_gg_ext gg g) (l : Nat)
    (hl : l < 2 * gg.size) : kc_gg_tt g l = kc_gg_tt gg l :=
  kc_gg_ext_tt gg g h l (by rw [hinv.tts_len]; exact hl)

/-- Behaviour of `kc_gg_or` on a graph that satisfies the invariant. -/
theorem kc_gg_or_spec (gg : kc_gg) (hinv : kc_gg_inv gg) (a b : Nat)
    (ha : a < 2 * gg.size) (hb : b < 2 * gg.size) :
    ∃ g r, kc_gg_or gg a b = some (g, r) ∧
      kc_gg_inv g ∧ kc_gg_ext gg g ∧ r < 2 * g.size ∧
      kc_gg_tt g r = List.zipWith (· ||| ·) (kc_gg_tt gg a) (kc_gg_tt gg b) := by
  obtain ⟨g, r, e1, e2, e3, e4, e5, _⟩ := kc_gg_and_spec gg hinv (kc_lnot a) (kc_lnot b)
    (kc_lnot_lt a _ ha) (kc_lnot_lt b _ hb)
  refine ⟨g, kc_lnot r, ?_, e2, e3, kc_lnot_lt r _ e4, ?_⟩
  · unfold kc_gg_or; rw [e1]
  · rw [kc_gg_tt_lnot g e2 r e4, e5, kc_gg_tt_lnot gg hinv a ha, kc_gg_tt_lnot gg hinv b hb]
    exact kc_tt_not_and_not _ _ _ (kc_gg_tt_ok gg hinv a ha) (kc_gg_tt_ok gg hinv b hb)

/-- Behaviour of `kc_gg_mux` on a graph that satisfies the invariant, for both
evaluation orders. -/
theorem kc_gg_mux_spec (ord : kc_order) (gg : kc_gg) (hinv : kc_gg_inv gg) (c t e : Nat)
    (hc : c < 2 * gg.size) (ht : t < 2 * gg.size) (he : e < 2 * gg.size) :
    ∃ g r, kc_gg_mux ord gg c t e = some (g, r) ∧
      kc_gg_inv g ∧ kc_gg_ext gg g ∧ r < 2 * g.size ∧
      kc_gg_tt g r = List.zipWith (· ||| ·)
        (List.zipWith (· &&& ·) (kc_gg_tt gg c) (kc_gg_tt gg t))
        (List.zipWith (· &&& ·) ((kc_gg_tt gg c).map kc_not) (kc_gg_tt gg e)) := by
  have hnc := kc_lnot_lt c _ hc
  unfold kc_gg_mux
  by_cases ho : ord.mux_rtl = true
  · rw [if_pos ho]
    obtain ⟨g1, y, a1, a2, a3, a4, a5, _⟩ := kc_gg_and_spec gg hinv (kc_lnot c) e hnc he
    obtain ⟨g2, x, b1, b2, b3, b4, b5, _⟩ := kc_gg_and_spec g1 a2 c t
      (kc_gg_ext_lt gg g1 a3 c hc) (kc_gg_ext_lt gg g1 a3 t ht)
    obtain ⟨g3, r, c1, c2, c3, c4, c5⟩ := kc_gg_or_spec g2 b2 x y b4 (kc_gg_ext_lt g1 g2 b3 y a4)
    refine ⟨g3, r, ?_, c2, kc_gg_ext_trans _ _ _ (kc_gg_ext_trans _ _ _ a3 b3) c3, c4, ?_⟩
    · rw [a1]; simp only; rw [b1]; simp only; exact c1
    · rw [c5, b5, kc_gg_ext_tt_inv g1 g2 a2 b3 y a4, a5, kc_gg_ext_tt_inv gg g1 hinv a3 c hc,
        kc_gg_ext_tt_inv gg g1 hinv a3 t ht, kc_gg_tt_lnot gg hinv c hc]
  · rw [if_neg ho]
    obtain ⟨g1, x, a1, a2, a3, a4, a5, _⟩ := kc_gg_and_spec gg hinv c t hc ht
    obtain ⟨g2, y, b1, b2, b3, b4, b5, _⟩ := kc_gg_and_spec g1 a2 (kc_lnot c) e
      (kc_gg_ext_lt gg g1 a3 _ hnc) (kc_gg_ext_lt gg g1 a3 e he)
    obtain ⟨g3, r, c1, c2, c3, c4, c5⟩ := kc_gg_or_spec g2 b2 x y (kc_gg_ext_lt g1 g2 b3 x a4) b4
    refine ⟨g3, r, ?_, c2, kc_gg_ext_trans _ _ _ (kc_gg_ext_trans _ _ _ a3 b3) c3, c4, ?_⟩
    · rw [a1]; simp only; rw [b1]; simp only; exact c1
    · rw [c5, b5, kc_gg_ext_tt_inv g1 g2 a2 b3 x a4, a5, kc_gg_ext_tt_inv gg g1 hinv a3 (kc_lnot c) hnc,
        kc_gg_ext_tt_inv gg g1 hinv a3 e he, kc_gg_tt_lnot gg hinv c hc]

/-- Behaviour of `kc_gg_and_xor` on a graph that satisfies the invariant. -/
theorem kc_gg_and_xor_spec (gg : kc_gg) (hinv : kc_gg_inv gg) (c t e : Nat)
    (hc : c < 2 * gg.size) (ht : t < 2 * gg.size) (he : e < 2 * gg.size) :
    ∃ g r, kc_gg_and_xor gg c t e = some (g, r) ∧
      kc_gg_inv g ∧ kc_gg_ext gg g ∧ r < 2 * g.size ∧
      kc_gg_tt g r = List.zipWith (· ^^^ ·)
        (List.zipWith (· &&& ·) (kc_gg_tt gg c) (kc_gg_tt gg t)) (kc_gg_tt gg e) := by
  unfold kc_gg_and_xor
  obtain ⟨g1, x, a1, a2, a3, a4, a5, _⟩ := kc_gg_and_spec gg hinv c t hc ht
  obtain ⟨g2, r, b1, b2, b3, b4, b5, _⟩ := kc_gg_xor_spec g1 a2 x e a4 (kc_gg_ext_lt gg g1 a3 e he)
  refine ⟨g2, r, ?_, b2, kc_gg_ext_trans _ _ _ a3 b3, b4, ?_⟩
  · rw [a1]; simp only; exact b1
  · rw [b5, a5, kc_gg_ext_tt_inv gg g1 hinv a3 e he]

/-! ## The initial graph -/

theorem kc_pow_lt_bits (n i : Nat) (hi : i < n) : 2 ^ i < 64 * kc_truth_word_num n := by
  by_cases h : n ≤ 6
  · unfold kc_truth_word_num; rw [if_pos h]
    have : (2 : Nat) ^ i < 2 ^ 6 := Nat.pow_lt_pow_right (by norm_num) (by omega)
    omega
  · rw [kc_truth_word_num_pow n (by omega), ← kc_pow_split n (by omega)]
    exact Nat.pow_lt_pow_right (by norm_num) hi

theorem kc_and_pow_ne_zero (k e : Nat) : (k &&& (1 <<< e) ≠ 0) ↔ k.testBit e = true := by
  rw [Nat.one_shiftLeft, Nat.and_two_pow]
  have := Nat.two_pow_pos e
  cases k.testBit e <;> simp

/-- Table of variable `v` as `kc_vt_start_truth` builds it before complementing. -/
theorem kc_start_base_bit (W v m : Nat) (hm : m < 64 * W) :
    kc_tt_bit (if v < 6 then (List.range W).map (fun _ => s_Truths6.getD v 0)
      else (List.range W).map (fun k => if k &&& (1 <<< (v - 6)) ≠ 0 then kc_ones else 0)) m
      = m.testBit v := by
  have hk : m / 64 < W := by omega
  have hc : m % 64 < 64 := Nat.mod_lt _ (by norm_num)
  unfold kc_tt_bit
  rw [kc_testBit_split m v]
  by_cases hv : v < 6
  · rw [if_pos hv, if_pos hv]
    have e : ((List.range W).map (fun _ => s_Truths6.getD v 0)).getD (m / 64) 0
        = s_Truths6.getD v 0 := by
      rw [List.getD_eq_getElem?_getD, List.getElem?_map, List.getElem?_range hk]; rfl
    rw [e, s_Truths6_testBit v hv]; simp [hc]
  · rw [if_neg hv, if_neg hv]
    simp only [List.getD_eq_getElem?_getD, List.getElem?_map, List.getElem?_range hk,
      Option.map_some', Option.getD_some]
    by_cases hb : (m / 64).testBit (v - 6) = true
    · rw [if_pos ((kc_and_pow_ne_zero _ _).2 hb), hb, kc_ones_testBit]; simp [hc]
    · rw [if_neg (fun h => hb ((kc_and_pow_ne_zero _ _).1 h))]
      simp only [Bool.not_eq_true] at hb
      rw [hb]; simp

theorem kc_start_base_ok (W v : Nat) :
    kc_tt_ok W (if v < 6 then (List.range W).map (fun _ => s_Truths6.getD v 0)
      else (List.range W).map (fun k => if k &&& (1 <<< (v - 6)) ≠ 0 then kc_ones else 0)) := by
  split
  · refine ⟨by simp, ?_⟩
    intro x hx
    rw [List.mem_map] at hx
    obtain ⟨_, _, rfl⟩ := hx
    exact s_Truths6_lt v
  · refine ⟨by simp, ?_⟩
    intro x hx
    rw [List.mem_map] at hx
    obtain ⟨k, _, rfl⟩ := hx
    split
    · unfold kc_ones; norm_num
    · norm_num

theorem kc_start_tt_ok (W i : Nat) : kc_tt_ok W (kc_vt_start_truth_tt W i) := by
  unfold kc_vt_start_truth_tt
  simp only
  split
  · exact kc_tt_ok_not _ _ (kc_start_base_ok W (i / 2))
  · exact kc_start_base_ok W (i / 2)

theorem kc_start_tt_bit (W i m : Nat) (hm : m < 64 * W) :
    kc_tt_bit (kc_vt_start_truth_tt W i) m = (m.testBit (i / 2) ^^ decide (i % 2 = 1)) := by
  unfold kc_vt_start_truth_tt
  simp only
  rw [Nat.and_one_is_mod]
  by_cases h : i % 2 = 1
  · rw [if_pos (by omega), kc_tt_bit_not W _ (kc_start_base_ok W (i / 2)) m hm,
      kc_start_base_bit W _ m hm]
    simp [h]
  · rw [if_neg (by omega), kc_start_base_bit W _ m hm]
    simp [h]

theorem kc_start_tt (n : Nat) (outs : kc_vt) (l : Nat) :
    kc_gg_tt (kc_gg_start n outs) l =
      if l = 0 then List.replicate (kc_truth_word_num n) 0
      else if l = 1 then List.replicate (kc_truth_word_num n) kc_ones
      else if l < 2 * (1 + n) then kc_vt_start_truth_tt (kc_truth_word_num n) (l - 2)
      else [] := by
  unfold kc_gg_tt kc_gg_start kc_vt_start_truth
  simp only [List.getD_eq_getElem?_getD]
  by_cases h0 : l = 0
  · subst h0; simp
  rw [if_neg h0]
  by_cases h1 : l = 1
  · subst h1; simp
  rw [if_neg h1]
  have e : l = (l - 2) + 2 := by omega
  by_cases h2 : l < 2 * (1 + n)
  · rw [if_pos h2]
    conv_lhs => rw [e]
    simp only [List.cons_append, List.nil_append, List.getElem?_cons_succ, List.getElem?_map]
    rw [List.getElem?_range (by omega)]
    rfl
  · rw [if_neg h2]
    conv_lhs => rw [e]
    simp only [List.cons_append, List.nil_append, List.getElem?_cons_succ]
    rw [List.getElem?_eq_none (by simp; omega)]
    rfl

/-- Value of literal `l` of the initial graph on minterm `m`: constants for the
literals 0 and 1, variable `l / 2 - 1` or its complement otherwise. -/
theorem kc_start_bit (n : Nat) (outs : kc_vt) (l m : Nat) (hl : l < 2 * (1 + n))
    (hm : m < 64 * kc_truth_word_num n) :
    kc_tt_bit (kc_gg_tt (kc_gg_start n outs) l) m
      = ((decide (2 ≤ l) && m.testBit (l / 2 - 1)) ^^ decide (l % 2 = 1)) := by
  rw [kc_start_tt]
  have hk : m / 64 < kc_truth_word_num n := by omega
  by_cases h0 : l = 0
  · subst h0
    unfold kc_tt_bit
    simp [List.getD_eq_getElem?_getD, List.getElem?_replicate, hk]
  rw [if_neg h0]
  by_cases h1 : l = 1
  · subst h1
    unfold kc_tt_bit
    have hc : m % 64 < 64 := Nat.mod_lt _ (by norm_num)
    simp [List.getD_eq_getElem?_getD, List.getElem?_replicate, hk, kc_ones_testBit, hc]
  rw [if_neg h1, if_pos hl, kc_start_tt_bit _ _ m hm]
  have e1 : (l - 2) / 2 = l / 2 - 1 := by omega
  have e2 : (l - 2) % 2 = l % 2 := by omega
  have e3 : 2 ≤ l := by omega
  rw [e1, e2]; simp [e3]

theorem kc_start_tt_ok_lit (n : Nat) (outs : kc_vt) (l : Nat) (hl : l < 2 * (1 + n)) :
    kc_tt_ok (kc_truth_word_num n) (kc_gg_tt (kc_gg_start n outs) l) := by
  rw [kc_start_tt]
  split
  · exact kc_tt_ok_replicate _ _ (by norm_num)
  · split
    · exact kc_tt_ok_replicate _ _ (by unfold kc_ones; norm_num)
    · exact kc_start_tt_ok _ _

/-- The graph made by `kc_gg_start` satisfies the invariant. -/
theorem kc_gg_start_inv (n : Nat) (outs : kc_vt) : kc_gg_inv (kc_gg_start n outs) := by
  have hW : (kc_gg_start n outs).tts.words = kc_truth_word_num n := rfl
  have hS : (kc_gg_start n outs).size = 1 + n := rfl
  have hN : (kc_gg_start n outs).nins = n := rfl
  have hlen : (kc_gg_start n outs).tts.ptr.length = 2 * (1 + n) := by
    simp [kc_gg_start, kc_vt_start_truth]; omega
  constructor
  · rw [hS, hN]
  · simp [kc_gg_start]
  · simp [kc_gg_start]
  · rw [hlen, hS]
  · rfl
  · intro t ht
    obtain ⟨l, hl⟩ := List.mem_iff_getElem?.1 ht
    have hl2 : l < (kc_gg_start n outs).tts.ptr.length := by
      by_contra hc
      rw [List.getElem?_eq_none (by omega)] at hl
      exact Option.noConfusion hl
    have h1 := kc_gg_tt_get _ l hl2
    rw [hl] at h1
    rw [Option.some.inj h1, hW]
    exact kc_start_tt_ok_lit n outs l (by omega)
  · rw [kc_start_tt, if_pos rfl]; rfl
  · intro l hl
    rw [hS] at hl
    have hl1 : l ^^^ 1 < 2 * (1 + n) := kc_lnot_lt l _ hl
    apply kc_tt_ext (kc_truth_word_num n) _ _ (kc_start_tt_ok_lit n outs _ hl1)
      (kc_tt_ok_not _ _ (kc_start_tt_ok_lit n outs l hl))
    intro m hm
    rw [kc_tt_bit_not _ _ (kc_start_tt_ok_lit n outs l hl) m hm, kc_start_bit n outs _ m hl1 hm,
      kc_start_bit n outs l m hl hm]
    have e1 := kc_xor_one_div l
    have e2 := kc_xor_one_mod l
    have e3 : (2 ≤ l ^^^ 1) ↔ (2 ≤ l) := by omega
    have e4 : ((l ^^^ 1) % 2 = 1) ↔ ¬ (l % 2 = 1) := by omega
    rw [e1]
    simp only [e3, e4]
    by_cases h : l % 2 = 1
    · simp [h]
    · simp [h]
  · intro i hi m hm
    rw [hN] at hi
    rw [hW] at hm
    rw [kc_start_bit n outs _ m (by omega) hm]
    have e1 : 2 * (i + 1) / 2 - 1 = i := by omega
    have e2 : ¬ 2 * (i + 1) % 2 = 1 := by omega
    have e3 : 2 ≤ 2 * (i + 1) := by omega
    rw [e1]; simp [e2, e3]
  · intro v hv1 hv2
    rw [hN] at hv1; rw [hS] at hv2; omega
  · intro v w hv1 hv2
    rw [hN] at hv1; rw [hS] at hv2; omega
  · intro l l' hl hl' h
    rw [hS] at hl hl'
    have hb : ∀ m, m < 64 * kc_truth_word_num n →
        ((decide (2 ≤ l) && m.testBit (l / 2 - 1)) ^^ decide (l % 2 = 1))
          = ((decide (2 ≤ l') && m.testBit (l' / 2 - 1)) ^^ decide (l' % 2 = 1)) := by
      intro m hm
      rw [← kc_start_bit n outs l m hl hm, ← kc_start_bit n outs l' m hl' hm, h]
    have hpos : 0 < 64 * kc_truth_word_num n := by
      have := kc_truth_word_num_pos n; omega
    have h0 := hb 0 hpos
    simp only [Nat.zero_testBit, Bool.and_false, Bool.false_xor, decide_eq_decide] at h0
    have key : ∀ a b : Nat, a < 2 * (1 + n) → 2 ≤ a → (a / 2 ≠ b / 2) →
        ((decide (2 ≤ a) && (2 ^ (a / 2 - 1)).testBit (a / 2 - 1)) = true) ∧
        ((decide (2 ≤ b) && (2 ^ (a / 2 - 1)).testBit (b / 2 - 1)) = false) := by
      intro a b _ ha2 hne
      constructor
      · simp [ha2, Nat.testBit_two_pow]
      · by_cases hb2 : 2 ≤ b
        · have : ¬ a / 2 - 1 = b / 2 - 1 := by omega
          simp [Nat.testBit_two_pow, this]
        · simp [hb2]
    by_contra hne
    have hdiv : l / 2 ≠ l' / 2 := by omega
    by_cases hl2 : 2 ≤ l
    · obtain ⟨k1, k2⟩ := key l l' hl hl2 hdiv
      have := hb (2 ^ (l / 2 - 1)) (kc_pow_lt_bits n _ (by omega))
      rw [k1, k2] at this
      by_cases hp : l % 2 = 1
      · have hp' : l' % 2 = 1 := h0.1 hp
        simp [hp, hp'] at this
      · have hp' : ¬ l' % 2 = 1 := fun x => hp (h0.2 x)
        simp [hp, hp'] at this
    · have hl2' : 2 ≤ l' := by omega
      obtain ⟨k1, k2⟩ := key l' l hl' hl2' (Ne.symm hdiv)
      have := hb (2 ^ (l' / 2 - 1)) (kc_pow_lt_bits n _ (by omega))
      rw [k1, k2] at this
      by_cases hp : l % 2 = 1
      · have hp' : l' % 2 = 1 := h0.1 hp
        simp [hp, hp'] at this
      · have hp' : ¬ l' % 2 = 1 := fun x => hp (h0.2 x)
        simp [hp, hp'] at this

/-! ## Reachable graphs -/

/-- Every graph reached from `kc_gg_start` by constructor calls satisfies the
invariant. -/
theorem kc_gg_reach_inv (n : Nat) (outs : kc_vt) (g : kc_gg) (h : kc_gg_reach n outs g) :
    kc_gg_inv g ∧ g.nins = n := by
  induction h with
  | start => exact ⟨kc_gg_start_inv n outs, rfl⟩
  | and_step gg g a b r _ ha hb he ih =>
    obtain ⟨g', r', e1, e2, e3, _⟩ := kc_gg_and_spec gg ih.1 a b ha hb
    rw [he] at e1
    obtain ⟨rfl, rfl⟩ := Prod.mk.inj (Option.some.inj e1)
    exact ⟨e2, by rw [e3.1, ih.2]⟩
  | xor_step gg g a b r _ ha hb he ih =>
    obtain ⟨g', r', e1, e2, e3, _⟩ := kc_gg_xor_spec gg ih.1 a b ha hb
    rw [he] at e1
    obtain ⟨rfl, rfl⟩ := Prod.mk.inj (Option.some.inj e1)
    exact ⟨e2, by rw [e3.1, ih.2]⟩
  | or_step gg g a b r _ ha hb he ih =>
    obtain ⟨g', r', e1, e2, e3, _⟩ := kc_gg_or_spec gg ih.1 a b ha hb
    rw [he] at e1
    obtain ⟨rfl, rfl⟩ := Prod.mk.inj (Option.some.inj e1)
    exact ⟨e2, by rw [e3.1, ih.2]⟩
  | mux_step ord gg g c t e r _ hc ht hee he ih =>
    obtain ⟨g', r', e1, e2, e3, _⟩ := kc_gg_mux_spec ord gg ih.1 c t e hc ht hee
    rw [he] at e1
    obtain ⟨rfl, rfl⟩ := Prod.mk.inj (Option.some.inj e1)
    exact ⟨e2, by rw [e3.1, ih.2]⟩
  | and_xor_step gg g c t e r _ hc ht hee he ih =>
    obtain ⟨g', r', e1, e2, e3, _⟩ := kc_gg_and_xor_spec gg ih.1 c t e hc ht hee
    rw [he] at e1
    obtain ⟨rfl, rfl⟩ := Prod.mk.inj (Option.some.inj e1)
    exact ⟨e2, by rw [e3.1, ih.2]⟩

/-- The invariant only looks at the inputs, the size, the fanins, the tables and
the length of the traversal marks. -/
theorem kc_gg_inv_congr (gg g : kc_gg) (hinv : kc_gg_inv gg) (h1 : g.nins = gg.nins)
    (h2 : g.size = gg.size) (h3 : g.fans = gg.fans) (h4 : g.tts = gg.tts)
    (h5 : g.tids.length = gg.tids.length) : kc_gg_inv g := by
  have ht : ∀ l, kc_gg_tt g l = kc_gg_tt gg l := fun l => by unfold kc_gg_tt; rw [h4]
  constructor
  · rw [h1, h2]; exact hinv.size_ge
  · rw [h3, h2]; exact hinv.fans_len
  · rw [h5, h2]; exact hinv.tids_len
  · rw [h4, h2]; exact hinv.tts_len
  · rw [h4, h1]; exact hinv.tts_words
  · rw [h4]; exact hinv.tts_ok
  · rw [ht, h4]; exact hinv.const0
  · intro l hl; rw [ht, ht]; exact hinv.polar l (by rw [← h2]; exact hl)
  · intro i hi m hm; rw [ht]; exact hinv.vars i (by rw [← h1]; exact hi) m (by rw [← h4]; exact hm)
  · intro v hv1 hv2
    obtain ⟨a, b, n1, n2, n3, n4, n5, n6, n7⟩ := hinv.node v (by rw [← h1]; exact hv1)
      (by rw [← h2]; exact hv2)
    exact ⟨a, b, by rw [h3]; exact n1, by rw [h3]; exact n2, n3, n4, n5,
      by rw [ht, ht, ht]; exact n6, by rw [ht, ht, ht]; exact n7⟩
  · intro v w hv1 hv2 hw1 hw2
    rw [h3]
    exact hinv.struct_uniq v w (by rw [← h1]; exact hv1) (by rw [← h2]; exact hv2)
      (by rw [← h1]; exact hw1) (by rw [← h2]; exact hw2)
  · intro l m hl hm
    rw [ht, ht]
    exact hinv.func_uniq l m (by rw [← h2]; exact hl) (by rw [← h2]; exact hm)

/-! ## Constant folding and operand order -/

theorem kc_gg_and_fold (gg : kc_gg) (a b : Nat)
    (h : a = 0 ∨ b = 0 ∨ a = 1 ∨ b = 1 ∨ a = b ∨ a ^^^ b = 1) :
    kc_gg_and gg a b = some (gg,
      if a = 0 ∨ b = 0 then 0 else if a = 1 then b else if b = 1 then a
      else if a = b then a else 0) := by
  unfold kc_gg_and
  by_cases h1 : a = 0
  · simp [h1]
  by_cases h2 : b = 0
  · simp [h1, h2]
  by_cases h3 : a = 1
  · simp [h1, h2, h3]
  by_cases h4 : b = 1
  · simp [h1, h2, h3, h4]
  by_cases h5 : a = b
  · simp [h1, h2, h3, h4, h5]
  have h6 : a ^^^ b = 1 := by tauto
  simp [h1, h2, h3, h4, h5, h6]

theorem kc_gg_xor_fold (gg : kc_gg) (a b : Nat)
    (h : a = 1 ∨ b = 1 ∨ a = 0 ∨ b = 0 ∨ a = b ∨ a ^^^ b = 1) :
    kc_gg_xor gg a b = some (gg,
      if a = 1 then b ^^^ 1 else if b = 1 then a ^^^ 1 else if a = 0 then b
      else if b = 0 then a else if a = b then 0 else 1) := by
  unfold kc_gg_xor
  by_cases h1 : a = 1
  · simp [h1]
  by_cases h2 : b = 1
  · simp [h1, h2]
  by_cases h3 : a = 0
  · simp [h1, h2, h3]
  by_cases h4 : b = 0
  · simp [h1, h2, h3, h4]
  by_cases h5 : a = b
  · simp [h1, h2, h3, h4, h5]
  have h6 : a ^^^ b = 1 := by tauto
  simp [h1, h2, h3, h4, h5, h6]

theorem kc_gg_and_comm (gg : kc_gg) (a b : Nat) : kc_gg_and gg a b = kc_gg_and gg b a := by
  by_cases h : a = 0 ∨ b = 0 ∨ a = 1 ∨ b = 1 ∨ a = b ∨ a ^^^ b = 1
  · have h' : b = 0 ∨ a = 0 ∨ b = 1 ∨ a = 1 ∨ b = a ∨ b ^^^ a = 1 := by
      rw [Nat.xor_comm b a]; tauto
    rw [kc_gg_and_fold gg a b h, kc_gg_and_fold gg b a h']
    by_cases h1 : a = 0
    · simp [h1]
    by_cases h2 : b = 0
    · simp [h1, h2]
    by_cases h3 : a = 1
    · by_cases h4 : b = 1
      · simp [h3, h4]
      · simp [h1, h2, h3, h4]
    by_cases h4 : b = 1
    · simp [h1, h2, h3, h4]
    by_cases h5 : a = b
    · simp [h5]
    · have h5' : ¬ b = a := fun x => h5 x.symm
      simp [h1, h2, h3, h4, h5, h5']
  · push_neg at h
    obtain ⟨h1, h2, h3, h4, h5, h6⟩ := h
    have h6' : ¬ b ^^^ a = 1 := by rw [Nat.xor_comm]; exact h6
    have h5' : ¬ b = a := fun x => h5 x.symm
    unfold kc_gg_and
    simp only [h1, h2, h3, h4, h5, h6, h5', h6', if_false]
    by_cases hab : a > b
    · have hba : ¬ b > a := by omega
      simp only [hab, hba, if_true, if_false]
    · have hba : b > a := by omega
      simp only [hab, hba, if_true, if_false]

theorem kc_gg_xor_comm (gg : kc_gg) (a b : Nat) : kc_gg_xor gg a b = kc_gg_xor gg b a := by
  by_cases h : a = 1 ∨ b = 1 ∨ a = 0 ∨ b = 0 ∨ a = b ∨ a ^^^ b = 1
  · have h' : b = 1 ∨ a = 1 ∨ b = 0 ∨ a = 0 ∨ b = a ∨ b ^^^ a = 1 := by
      rw [Nat.xor_comm b a]; tauto
    rw [kc_gg_xor_fold gg a b h, kc_gg_xor_fold gg b a h']
    by_cases h1 : a = 1
    · by_cases h2 : b = 1
      · simp [h1, h2]
      · simp [h1, h2]
    by_cases h2 : b = 1
    · simp [h1, h2]
    by_cases h3 : a = 0
    · by_cases h4 : b = 0
      · simp [h3, h4]
      · simp [h1, h2, h3, h4]
    by_cases h4 : b = 0
    · simp [h1, h2, h3, h4]
    by_cases h5 : a = b
    · simp [h5]
    · have h5' : ¬ b = a := fun x => h5 x.symm
      simp [h1, h2, h3, h4, h5, h5']
  · push_neg at h
    obtain ⟨h1, h2, h3, h4, h5, h6⟩ := h
    have h6' : ¬ b ^^^ a = 1 := by rw [Nat.xor_comm]; exact h6
    have h5' : ¬ b = a := fun x => h5 x.symm
    unfold kc_gg_xor
    simp only [h1, h2, h3, h4, h5, h6, h5', h6', if_false]
    by_cases hab : a < b
    · have hba : ¬ b < a := by omega
      simp only [hab, hba, if_true, if_false]
    · have hba : b < a := by omega
      simp only [hab, hba, if_true, if_false]

theorem kc_demo_and_eq : kc_gg_and (kc_gg_start 2 ⟨1, []⟩) 2 4 = some (kc_demo_and, 6) := by
  decide

theorem kc_demo_xor_eq : kc_gg_xor kc_demo_and 2 4 = some (kc_demo_xor, 8) := by
  decide

theorem kc_demo_and_reach : kc_gg_reach 2 ⟨1, []⟩ kc_demo_and :=
  kc_gg_reach.and_step (kc_gg_start 2 ⟨1, []⟩) kc_demo_and 2 4 6 kc_gg_reach.start
    (by decide) (by decide) kc_demo_and_eq

theorem kc_demo_xor_reach : kc_gg_reach 2 ⟨1, []⟩ kc_demo_xor :=
  kc_gg_reach.xor_step kc_demo_and kc_demo_xor 2 4 8 kc_demo_and_reach
    (by decide) (by decide) kc_demo_xor_eq

/-! ## The properties of the gate graph -/

/-- Claim C3: on every graph reachable from `kc_gg_start` by constructor calls and
for valid literals, each of the five constructors succeeds and the table of the
literal it returns, read in the graph after the call, is the AND, XOR, OR,
multiplexer or AND-XOR combination of the tables of its operands. -/
theorem kc_gg_constructors_sound (n : Nat) (outs : kc_vt) (gg : kc_gg)
    (hr : kc_gg_reach n outs gg) (ord : kc_order) (a b c : Nat)
    (ha : a < 2 * gg.size) (hb : b < 2 * gg.size) (hc : c < 2 * gg.size) :
    (∃ g r ta tb, kc_gg_and gg a b = some (g, r) ∧
        kc_vt_read g.tts a = some ta ∧ kc_vt_read g.tts b = some tb ∧
        kc_vt_read g.tts r = some (List.zipWith (· &&& ·) ta tb)) ∧
    (∃ g r ta tb, kc_gg_xor gg a b = some (g, r) ∧
        kc_vt_read g.tts a = some ta ∧ kc_vt_read g.tts b = some tb ∧
        kc_vt_read g.tts r = some (List.zipWith (· ^^^ ·) ta tb)) ∧
    (∃ g r ta tb, kc_gg_or gg a b = some (g, r) ∧
        kc_vt_read g.tts a = some ta ∧ kc_vt_read g.tts b = some tb ∧
        kc_vt_read g.tts r = some (List.zipWith (· ||| ·) ta tb)) ∧
    (∃ g r tc tt te, kc_gg_mux ord gg c a b = some (g, r) ∧
        kc_vt_read g.tts c = some tc ∧ kc_vt_read g.tts a = some tt ∧
        kc_vt_read g.tts b = some te ∧
        kc_vt_read g.tts r = some (List.zipWith (· ||| ·)
          (List.zipWith (· &&& ·) tc tt) (List.zipWith (· &&& ·) (tc.map kc_not) te))) ∧
    (∃ g r tc tt te, kc_gg_and_xor gg c a b = some (g, r) ∧
        kc_vt_read g.tts c = some tc ∧ kc_vt_read g.tts a = some tt ∧
        kc_vt_read g.tts b = some te ∧
        kc_vt_read g.tts r = some (List.zipWith (· ^^^ ·) (List.zipWith (· &&& ·) tc tt) te)) := by
  have hinv := (kc_gg_reach_inv n outs gg hr).1
  have rd : ∀ g, kc_gg_inv g → kc_gg_ext gg g → ∀ l, l < 2 * gg.size →
      kc_vt_read g.tts l = some (kc_gg_tt gg l) := by
    intro g hg he l hl
    rw [kc_gg_tt_read g hg l (kc_gg_ext_lt gg g he l hl), kc_gg_ext_tt_inv gg g hinv he l hl]
  refine ⟨?_, ?_, ?_, ?_, ?_⟩
  · obtain ⟨g, r, e1, e2, e3, e4, e5, _⟩ := kc_gg_and_spec gg hinv a b ha hb
    exact ⟨g, r, _, _, e1, rd g e2 e3 a ha, rd g e2 e3 b hb, by rw [kc_gg_tt_read g e2 r e4, e5]⟩
  · obtain ⟨g, r, e1, e2, e3, e4, e5, _⟩ := kc_gg_xor_spec gg hinv a b ha hb
    exact ⟨g, r, _, _, e1, rd g e2 e3 a ha, rd g e2 e3 b hb, by rw [kc_gg_tt_read g e2 r e4, e5]⟩
  · obtain ⟨g, r, e1, e2, e3, e4, e5⟩ := kc_gg_or_spec gg hinv a b ha hb
    exact ⟨g, r, _, _, e1, rd g e2 e3 a ha, rd g e2 e3 b hb, by rw [kc_gg_tt_read g e2 r e4, e5]⟩
  · obtain ⟨g, r, e1, e2, e3, e4, e5⟩ := kc_gg_mux_spec ord gg hinv c a b hc ha hb
    exact ⟨g, r, _, _, _, e1, rd g e2 e3 c hc, rd g e2 e3 a ha, rd g e2 e3 b hb,
      by rw [kc_gg_tt_read g e2 r e4, e5]⟩
  · obtain ⟨g, r, e1, e2, e3, e4, e5⟩ := kc_gg_and_xor_spec gg hinv c a b hc ha hb
    exact ⟨g, r, _, _, _, e1, rd g e2 e3 c hc, rd g e2 e3 a ha, rd g e2 e3 b hb,
      by rw [kc_gg_tt_read g e2 r e4, e5]⟩

/-- Instance of claim C3 on the graph `kc_demo_and` with the literals 6, 5 and 2. -/
theorem kc_gg_constructors_sound_witness :
    (6 < 2 * kc_demo_and.size ∧ 5 < 2 * kc_demo_and.size ∧ 2 < 2 * kc_demo_and.size) ∧
    ∃ g r ta tb, kc_gg_and kc_demo_and 6 5 = some (g, r) ∧
        kc_vt_read g.tts 6 = some ta ∧ kc_vt_read g.tts 5 = some tb ∧
        kc_vt_read g.tts r = some (List.zipWith (· &&& ·) ta tb) :=
  ⟨by decide, (kc_gg_constructors_sound 2 ⟨1, []⟩ kc_demo_and kc_demo_and_reach ⟨false, false⟩
    6 5 2 (by decide) (by decide) (by decide)).1⟩

/-- Claim C4: constant folding and idempotence.  In each of the listed cases
`kc_gg_and` and `kc_gg_xor` return the listed literal, the cases being tried in
the listed order, and the graph they return is the graph they were given. -/
theorem kc_gg_constant_folding (gg : kc_gg) (a b : Nat) :
    ((a = 0 ∨ b = 0 ∨ a = 1 ∨ b = 1 ∨ a = b ∨ a ^^^ b = 1) →
      kc_gg_and gg a b = some (gg,
        if a = 0 ∨ b = 0 then 0 else if a = 1 then b else if b = 1 then a
        else if a = b then a else 0)) ∧
    ((a = 1 ∨ b = 1 ∨ a = 0 ∨ b = 0 ∨ a = b ∨ a ^^^ b = 1) →
      kc_gg_xor gg a b = some (gg,
        if a = 1 then b ^^^ 1 else if b = 1 then a ^^^ 1 else if a = 0 then b
        else if b = 0 then a else if a = b then 0 else 1)) :=
  ⟨kc_gg_and_fold gg a b, kc_gg_xor_fold gg a b⟩

/-- Instance of claim C4: the AND and the XOR of the complementary literals 4 and 5. -/
theorem kc_gg_constant_folding_witness :
    kc_gg_and kc_demo_and 4 5 = some (kc_demo_and, 0) ∧
    kc_gg_xor kc_demo_and 4 5 = some (kc_demo_and, 1) :=
  ⟨(kc_gg_constant_folding kc_demo_and 4 5).1 (by decide),
   (kc_gg_constant_folding kc_demo_and 4 5).2 (by decide)⟩

/-- Claim C5: operand order does not matter.  From the same graph, `kc_gg_and`
with swapped operands gives the same literal and the same graph, and so does
`kc_gg_xor`. -/
theorem kc_gg_operand_order (gg : kc_gg) (a b : Nat) :
    kc_gg_and gg a b = kc_gg_and gg b a ∧ kc_gg_xor gg a b = kc_gg_xor gg b a :=
  ⟨kc_gg_and_comm gg a b, kc_gg_xor_comm gg a b⟩

/-- Claim C6: polarity invariant.  After `kc_gg_start` with 1 to 16 inputs and
after any sequence of constructor calls with valid literals, `tts` holds two
tables per object and the table of a complemented literal is the bitwise
complement of the table of the literal. -/
theorem kc_gg_polarity (n : Nat) (outs : kc_vt) (g : kc_gg) (_hn1 : 1 ≤ n) (_hn2 : n ≤ 16)
    (hr : kc_gg_reach n outs g) :
    kc_vt_size g.tts = 2 * g.size ∧
    ∀ l, l < 2 * g.size → ∃ t, kc_vt_read g.tts l = some t ∧
      kc_vt_read g.tts (l ^^^ 1) = some (t.map kc_not) := by
  have hinv := (kc_gg_reach_inv n outs g hr).1
  refine ⟨hinv.tts_len, ?_⟩
  intro l hl
  refine ⟨kc_gg_tt g l, kc_gg_tt_read g hinv l hl, ?_⟩
  rw [kc_gg_tt_read g hinv _ (kc_lnot_lt l _ hl), hinv.polar l hl]

/-- Instance of claim C6 on the graph `kc_demo_xor`. -/
theorem kc_gg_polarity_witness :
    kc_vt_size kc_demo_xor.tts = 2 * kc_demo_xor.size ∧
    ∀ l, l < 2 * kc_demo_xor.size → ∃ t, kc_vt_read kc_demo_xor.tts l = some t ∧
      kc_vt_read kc_demo_xor.tts (l ^^^ 1) = some (t.map kc_not) :=
  kc_gg_polarity 2 ⟨1, []⟩ kc_demo_xor (by decide) (by decide) kc_demo_xor_reach

/-- Claim C7: fanin order is a faithful witness of gate type.  In a reachable
graph every internal node has two different fanins; its table is the AND of the
fanin tables when the first fanin is the smaller one and their XOR when it is
the larger one.  A node appended by `kc_gg_and` has its smaller fanin first, a
node appended by `kc_gg_xor` its larger fanin first. -/
theorem kc_gg_fanin_order (n : Nat) (outs : kc_vt) (g : kc_gg) (hr : kc_gg_reach n outs g) :
    (∀ v, g.nins < v → v < g.size → ∃ (a b : Nat) (ta tb t : List Nat),
      kc_gg_fanin g v 0 = some (a : Int) ∧ kc_gg_fanin g v 1 = some (b : Int) ∧ a ≠ b ∧
      kc_vt_read g.tts a = some ta ∧ kc_vt_read g.tts b = some tb ∧
      kc_vt_read g.tts (kc_v2l v 0) = some t ∧
      (a < b → t = List.zipWith (· &&& ·) ta tb) ∧
      (b < a → t = List.zipWith (· ^^^ ·) ta tb)) ∧
    (∀ a b g1 r, a < 2 * g.size → b < 2 * g.size → kc_gg_and g a b = some (g1, r) →
      g1 = g ∨ (g1.size = g.size + 1 ∧ ∃ x y : Nat, kc_gg_fanin g1 g.size 0 = some (x : Int) ∧
        kc_gg_fanin g1 g.size 1 = some (y : Int) ∧ x < y ∧ kc_gg_is_xor g1 g.size = some false)) ∧
    (∀ a b g1 r, a < 2 * g.size → b < 2 * g.size → kc_gg_xor g a b = some (g1, r) →
      g1 = g ∨ (g1.size = g.size + 1 ∧ ∃ x y : Nat, kc_gg_fanin g1 g.size 0 = some (x : Int) ∧
        kc_gg_fanin g1 g.size 1 = some (y : Int) ∧ y < x ∧ kc_gg_is_xor g1 g.size = some true)) := by
  have hinv := (kc_gg_reach_inv n outs g hr).1
  have hfl := hinv.fans_len
  have hnew : ∀ x y : Nat, (g.fans ++ [(x : Int), (y : Int)])[2 * g.size + 0]? = some (x : Int) ∧
      (g.fans ++ [(x : Int), (y : Int)])[2 * g.size + 1]? = some (y : Int) := by
    intro x y
    constructor
    · rw [List.getElem?_append_right (by omega), hfl]; simp
    · rw [List.getElem?_append_right (by omega), hfl]
      have : 2 * g.size + 1 - 2 * g.size = 1 := by omega
      rw [this]; rfl
  refine ⟨?_, ?_, ?_⟩
  · intro v hv1 hv2
    obtain ⟨a, b, n1, n2, n3, n4, n5, n6, n7⟩ := hinv.node v hv1 hv2
    have e : kc_v2l v 0 = 2 * v := by unfold kc_v2l; omega
    exact ⟨a, b, _, _, _, n1, n2, n3, kc_gg_tt_read g hinv a (by omega),
      kc_gg_tt_read g hinv b (by omega), by rw [e]; exact kc_gg_tt_read g hinv _ (by omega),
      n6, n7⟩
  · intro a b g1 r ha hb he
    obtain ⟨g', r', e1, _, _, _, _, e6⟩ := kc_gg_and_spec g hinv a b ha hb
    rw [he] at e1
    obtain ⟨rfl, rfl⟩ := Prod.mk.inj (Option.some.inj e1)
    rcases e6 with h | ⟨x, y, t, hxy, _, _, hg, _, _⟩
    · exact Or.inl h.1
    · refine Or.inr ⟨by rw [hg], x, y, ?_, ?_, hxy, ?_⟩
      · rw [hg]; exact (hnew x y).1
      · rw [hg]; exact (hnew x y).2
      · have h0 : kc_gg_fanin g1 g.size 0 = some (x : Int) := by rw [hg]; exact (hnew x y).1
        have h1 : kc_gg_fanin g1 g.size 1 = some (y : Int) := by rw [hg]; exact (hnew x y).2
        unfold kc_gg_is_xor
        rw [h0, h1]
        simp only [Option.some.injEq, decide_eq_false_iff_not]
        omega
  · intro a b g1 r ha hb he
    obtain ⟨g', r', e1, _, _, _, _, e6⟩ := kc_gg_xor_spec g hinv a b ha hb
    rw [he] at e1
    obtain ⟨rfl, rfl⟩ := Prod.mk.inj (Option.some.inj e1)
    rcases e6 with h | ⟨x, y, t, hxy, _, _, hg, _, _⟩
    · exact Or.inl h.1
    · refine Or.inr ⟨by rw [hg], x, y, ?_, ?_, hxy, ?_⟩
      · rw [hg]; exact (hnew x y).1
      · rw [hg]; exact (hnew x y).2
      · have h0 : kc_gg_fanin g1 g.size 0 = some (x : Int) := by rw [hg]; exact (hnew x y).1
        have h1 : kc_gg_fanin g1 g.size 1 = some (y : Int) := by rw [hg]; exact (hnew x y).2
        unfold kc_gg_is_xor
        rw [h0, h1]
        simp only [Option.some.injEq, decide_eq_true_eq]
        omega

/-- Instance of claim C7 on the graph `kc_demo_xor`: its node 3, whose first fanin
is the smaller one, and its node 4, whose first fanin is the larger one. -/
theorem kc_gg_fanin_order_witness :
    (∃ (a b : Nat) (ta tb t : List Nat),
      kc_gg_fanin kc_demo_xor 3 0 = some (a : Int) ∧
      kc_gg_fanin kc_demo_xor 3 1 = some (b : Int) ∧ a ≠ b ∧
      kc_vt_read kc_demo_xor.tts a = some ta ∧ kc_vt_read kc_demo_xor.tts b = some tb ∧
      kc_vt_read kc_demo_xor.tts (kc_v2l 3 0) = some t ∧
      (a < b → t = List.zipWith (· &&& ·) ta tb) ∧
      (b < a → t = List.zipWith (· ^^^ ·) ta tb)) ∧
    (∃ (a b : Nat) (ta tb t : List Nat),
      kc_gg_fanin kc_demo_xor 4 0 = some (a : Int) ∧
      kc_gg_fanin kc_demo_xor 4 1 = some (b : Int) ∧ a ≠ b ∧
      kc_vt_read kc_demo_xor.tts a = some ta ∧ kc_vt_read kc_demo_xor.tts b = some tb ∧
      kc_vt_read kc_demo_xor.tts (kc_v2l 4 0) = some t ∧
      (a < b → t = List.zipWith (· &&& ·) ta tb) ∧
      (b < a → t = List.zipWith (· ^^^ ·) ta tb)) :=
  ⟨(kc_gg_fanin_order 2 ⟨1, []⟩ kc_demo_xor kc_demo_xor_reach).1 3 (by decide) (by decide),
   (kc_gg_fanin_order 2 ⟨1, []⟩ kc_demo_xor kc_demo_xor_reach).1 4 (by decide) (by decide)⟩

/-- Claim C8: structural uniqueness.  In a reachable graph two different internal
nodes never have the same ordered pair of fanins. -/
theorem kc_gg_structural_unique (n : Nat) (outs : kc_vt) (g : kc_gg)
    (hr : kc_gg_reach n outs g) (v w : Nat) (hv1 : g.nins < v) (hv2 : v < g.size)
    (hw1 : g.nins < w) (hw2 : w < g.size) (hne : v ≠ w) :
    ¬ (kc_gg_fanin g v 0 = kc_gg_fanin g w 0 ∧ kc_gg_fanin g v 1 = kc_gg_fanin g w 1) := by
  have hinv := (kc_gg_reach_inv n outs g hr).1
  rintro ⟨h0, h1⟩
  exact hne (hinv.struct_uniq v w hv1 hv2 hw1 hw2 h0 h1)

/-- Instance of claim C8 on the two internal nodes 3 and 4 of `kc_demo_xor`. -/
theorem kc_gg_structural_unique_witness :
    ¬ (kc_gg_fanin kc_demo_xor 3 0 = kc_gg_fanin kc_demo_xor 4 0 ∧
       kc_gg_fanin kc_demo_xor 3 1 = kc_gg_fanin kc_demo_xor 4 1) :=
  kc_gg_structural_unique 2 ⟨1, []⟩ kc_demo_xor kc_demo_xor_reach 3 4
    (by decide) (by decide) (by decide) (by decide) (by decide)

/-- Claim C9: functional uniqueness.  In a graph reachable from `kc_gg_start` with
1 to 16 inputs no two different literals have equal tables, and when `kc_gg_and`
or `kc_gg_xor` appends a node no literal of the graph before the call has the
table of the new node. -/
theorem kc_gg_functional_unique (n : Nat) (outs : kc_vt) (g : kc_gg) (_hn1 : 1 ≤ n)
    (_hn2 : n ≤ 16) (hr : kc_gg_reach n outs g) :
    (∀ l m, l < 2 * g.size → m < 2 * g.size → l ≠ m →
      kc_vt_read g.tts l ≠ kc_vt_read g.tts m) ∧
    (∀ a b g1 r, a < 2 * g.size → b < 2 * g.size → kc_gg_and g a b = some (g1, r) →
      g1 = g ∨ (g1.size = g.size + 1 ∧ r = kc_v2l g.size 0 ∧
        ∀ l, l < 2 * g.size → kc_vt_read g.tts l ≠ kc_vt_read g1.tts r)) ∧
    (∀ a b g1 r, a < 2 * g.size → b < 2 * g.size → kc_gg_xor g a b = some (g1, r) →
      g1 = g ∨ (g1.size = g.size + 1 ∧ r = kc_v2l g.size 0 ∧
        ∀ l, l < 2 * g.size → kc_vt_read g.tts l ≠ kc_vt_read g1.tts r)) := by
  have hinv := (kc_gg_reach_inv n outs g hr).1
  have e : kc_v2l g.size 0 = 2 * g.size := by unfold kc_v2l; omega
  refine ⟨?_, ?_, ?_⟩
  · intro l m hl hm hne h
    rw [kc_gg_tt_read g hinv l hl, kc_gg_tt_read g hinv m hm] at h
    exact hne (hinv.func_uniq l m hl hm (Option.some.inj h))
  · intro a b g1 r ha hb he
    obtain ⟨g', r', e1, e2, _, e4, e5, e6⟩ := kc_gg_and_spec g hinv a b ha hb
    rw [he] at e1
    obtain ⟨rfl, rfl⟩ := Prod.mk.inj (Option.some.inj e1)
    rcases e6 with h | ⟨x, y, t, _, _, _, hg, hr', hf⟩
    · exact Or.inl h.1
    · refine Or.inr ⟨by rw [hg], by rw [e]; exact hr', ?_⟩
      intro l hl h
      rw [kc_gg_tt_read g hinv l hl, kc_gg_tt_read g1 e2 r e4] at h
      have ht : kc_gg_tt g1 r = t := by
        rw [hg, hr', kc_gg_appended_tt g hinv.tts_len, if_neg (by omega), if_pos rfl]
      rw [ht] at h
      exact hf l hl (Option.some.inj h)
  · intro a b g1 r ha hb he
    obtain ⟨g', r', e1, e2, _, e4, e5, e6⟩ := kc_gg_xor_spec g hinv a b ha hb
    rw [he] at e1
    obtain ⟨rfl, rfl⟩ := Prod.mk.inj (Option.some.inj e1)
    rcases e6 with h | ⟨x, y, t, _, _, _, hg, hr', hf⟩
    · exact Or.inl h.1
    · refine Or.inr ⟨by rw [hg], by rw [e]; exact hr', ?_⟩
      intro l hl h
      rw [kc_gg_tt_read g hinv l hl, kc_gg_tt_read g1 e2 r e4] at h
      have ht : kc_gg_tt g1 r = t := by
        rw [hg, hr', kc_gg_appended_tt g hinv.tts_len, if_neg (by omega), if_pos rfl]
      rw [ht] at h
      exact hf l hl (Option.some.inj h)

/-- Instance of claim C9 on the literals 6 and 8 of `kc_demo_xor`. -/
theorem kc_gg_functional_unique_witness :
    kc_vt_read kc_demo_xor.tts 6 ≠ kc_vt_read kc_demo_xor.tts 8 :=
  (kc_gg_functional_unique 2 ⟨1, []⟩ kc_demo_xor (by decide) (by decide) kc_demo_xor_reach).1
    6 8 (by decide) (by decide) (by decide)

/-- Claim C10: cofactor semantics.  On a store of the word count of `n` variables,
for a stored table and a variable `i < n`, `kc_vt_cof0` appends a table whose
value on minterm `m` is the value of the source on `m` with bit `i` cleared,
`kc_vt_cof1` one whose value is that of the source on `m` with bit `i` set; the
tables stored before are kept. -/
theorem kc_vt_cofactor_bits (n : Nat) (v : kc_vt) (ttId i : Nat) (tt : List Nat)
    (hw : v.words = kc_truth_word_num n) (hok : kc_vt_ok v)
    (hread : kc_vt_read v ttId = some tt) (hi : i < n) :
    (∃ t0, kc_vt_cof0 v ttId i = some ({ words := v.words, ptr := v.ptr ++ [t0] }, v.ptr.length) ∧
      kc_tt_ok v.words t0 ∧
      ∀ m, m < 64 * v.words → kc_tt_bit t0 m = kc_tt_bit tt (kc_clear_bit m i)) ∧
    (∃ t1, kc_vt_cof1 v ttId i = some ({ words := v.words, ptr := v.ptr ++ [t1] }, v.ptr.length) ∧
      kc_tt_ok v.words t1 ∧
      ∀ m, m < 64 * v.words → kc_tt_bit t1 m = kc_tt_bit tt (kc_set_bit m i)) := by
  have htt : kc_tt_ok v.words tt := hok tt (List.getElem?_mem hread)
  exact ⟨kc_vt_cof0_spec n v ttId i tt hw htt hread hi, kc_vt_cof1_spec n v ttId i tt hw htt hread hi⟩

/-- Instances of claim C10 in both regimes: the cofactors of the majority of
three variables (table `E8`, stretched) with respect to variable 1, and the
cofactors of a two-word table of seven variables with respect to variable 6. -/
theorem kc_vt_cofactor_bits_witness :
    ((∃ t0, kc_vt_cof0 ⟨1, [[0xE8E8E8E8E8E8E8E8]]⟩ 0 1
        = some ({ words := 1, ptr := [[0xE8E8E8E8E8E8E8E8]] ++ [t0] }, 1) ∧
      kc_tt_ok 1 t0 ∧
      ∀ m, m < 64 * 1 → kc_tt_bit t0 m = kc_tt_bit [0xE8E8E8E8E8E8E8E8] (kc_clear_bit m 1)) ∧
    (∃ t1, kc_vt_cof1 ⟨1, [[0xE8E8E8E8E8E8E8E8]]⟩ 0 1
        = some ({ words := 1, ptr := [[0xE8E8E8E8E8E8E8E8]] ++ [t1] }, 1) ∧
      kc_tt_ok 1 t1 ∧
      ∀ m, m < 64 * 1 → kc_tt_bit t1 m = kc_tt_bit [0xE8E8E8E8E8E8E8E8] (kc_set_bit m 1))) ∧
    ((∃ t0, kc_vt_cof0 ⟨2, [[0x0123456789ABCDEF, 0xFEDCBA9876543210]]⟩ 0 6
        = some ({ words := 2, ptr := [[0x0123456789ABCDEF, 0xFEDCBA9876543210]] ++ [t0] }, 1) ∧
      kc_tt_ok 2 t0 ∧
      ∀ m, m < 64 * 2 → kc_tt_bit t0 m
        = kc_tt_bit [0x0123456789ABCDEF, 0xFEDCBA9876543210] (kc_clear_bit m 6)) ∧
    (∃ t1, kc_vt_cof1 ⟨2, [[0x0123456789ABCDEF, 0xFEDCBA9876543210]]⟩ 0 6
        = some ({ words := 2, ptr := [[0x0123456789ABCDEF, 0xFEDCBA9876543210]] ++ [t1] }, 1) ∧
      kc_tt_ok 2 t1 ∧
      ∀ m, m < 64 * 2 → kc_tt_bit t1 m
        = kc_tt_bit [0x0123456789ABCDEF, 0xFEDCBA9876543210] (kc_set_bit m 6))) :=
  ⟨kc_vt_cofactor_bits 3 ⟨1, [[0xE8E8E8E8E8E8E8E8]]⟩ 0 1 [0xE8E8E8E8E8E8E8E8]
      (by decide) (by decide) rfl (by decide),
   kc_vt_cofactor_bits 7 ⟨2, [[0x0123456789ABCDEF, 0xFEDCBA9876543210]]⟩ 0 6
      [0x0123456789ABCDEF, 0xFEDCBA9876543210] (by decide) (by decide) rfl (by decide)⟩

/-! ## Clearing and setting a bit of a minterm index -/

theorem kc_add_pow_testBit (x i j : Nat) (hx : x.testBit i = false) :
    (x + 2 ^ i).testBit j = (x.testBit j || decide (j = i)) := by
  by_cases hji : j = i
  · subst hji
    rw [Nat.add_comm, Nat.testBit_two_pow_add_eq, hx]; simp
  · simp only [hji, decide_False, Bool.or_false]
    rcases Nat.lt_or_gt_of_ne hji with h | h
    · rw [Nat.add_comm]; exact Nat.testBit_two_pow_add_gt h x
    · have hb : x % 2 ^ (i + 1) < 2 ^ i := by
        rw [Nat.pow_succ, Nat.mod_mul]
        have h1 : x / 2 ^ i % 2 = 0 := by
          rw [Nat.testBit_to_div_mod] at hx
          have := Nat.mod_lt (x / 2 ^ i) (by norm_num : 0 < 2)
          simp only [decide_eq_false_iff_not] at hx
          omega
        rw [h1]
        have := Nat.mod_lt x (Nat.two_pow_pos i)
        omega
      have hp : 2 ^ (i + 1) = 2 ^ i + 2 ^ i := by rw [Nat.pow_succ]; omega
      have e1 : x = 2 ^ (i + 1) * (x / 2 ^ (i + 1)) + x % 2 ^ (i + 1) :=
        (Nat.div_add_mod x _).symm
      have e2 : x + 2 ^ i = 2 ^ (i + 1) * (x / 2 ^ (i + 1)) + (x % 2 ^ (i + 1) + 2 ^ i) := by
        omega
      have h3 := Nat.testBit_mul_pow_two_add (x / 2 ^ (i + 1))
        (show x % 2 ^ (i + 1) + 2 ^ i < 2 ^ (i + 1) by omega) j
      have h4 := Nat.testBit_mul_pow_two_add (x / 2 ^ (i + 1))
        (Nat.mod_lt x (Nat.two_pow_pos (i + 1))) j
      rw [← e2] at h3
      rw [← e1] at h4
      rw [h3, h4, if_neg (by omega), if_neg (by omega)]

theorem kc_clear_bit_bits (m i j : Nat) :
    (kc_clear_bit m i).testBit j = (m.testBit j && !decide (j = i)) := by
  by_cases hb : m.testBit i = true
  · have hc := kc_clear_bit_testBit m i
    have hge := kc_testBit_ge m i hb
    have e : kc_clear_bit m i = m - 2 ^ i := by unfold kc_clear_bit; rw [if_pos hb]
    have h := kc_add_pow_testBit (kc_clear_bit m i) i j hc
    rw [e, Nat.sub_add_cancel hge] at h
    rw [e]
    by_cases hji : j = i
    · subst hji; rw [← e, hc]; simp
    · simp only [hji, decide_False, Bool.or_false] at h
      rw [← h]; simp [hji]
  · have e : kc_clear_bit m i = m := by unfold kc_clear_bit; rw [if_neg hb]
    rw [e]
    by_cases hji : j = i
    · subst hji; simp only [Bool.not_eq_true] at hb; simp [hb]
    · simp [hji]

theorem kc_set_bit_bits (m i j : Nat) :
    (kc_set_bit m i).testBit j = (m.testBit j || decide (j = i)) := by
  by_cases hb : m.testBit i = true
  · have e : kc_set_bit m i = m := by unfold kc_set_bit; rw [if_pos hb]
    rw [e]
    by_cases hji : j = i
    · subst hji; simp [hb]
    · simp [hji]
  · have e : kc_set_bit m i = m + 2 ^ i := by unfold kc_set_bit; rw [if_neg hb]
    rw [e]
    exact kc_add_pow_testBit m i j (by simpa using hb)

theorem kc_clear_clear (m i : Nat) : kc_clear_bit (kc_clear_bit m i) i = kc_clear_bit m i := by
  apply Nat.eq_of_testBit_eq; intro j
  simp only [kc_clear_bit_bits]
  cases m.testBit j <;> simp

theorem kc_set_clear (m i : Nat) : kc_set_bit (kc_clear_bit m i) i = kc_set_bit m i := by
  apply Nat.eq_of_testBit_eq; intro j
  simp only [kc_clear_bit_bits, kc_set_bit_bits]
  by_cases h : j = i <;> simp [h]

theorem kc_clear_comm (m i j : Nat) :
    kc_clear_bit (kc_clear_bit m j) i = kc_clear_bit (kc_clear_bit m i) j := by
  apply Nat.eq_of_testBit_eq; intro k
  simp only [kc_clear_bit_bits]
  cases m.testBit k <;> simp
  exact Bool.and_comm _ _

theorem kc_set_clear_comm (m i j : Nat) (h : i ≠ j) :
    kc_set_bit (kc_clear_bit m j) i = kc_clear_bit (kc_set_bit m i) j := by
  apply Nat.eq_of_testBit_eq; intro k
  simp only [kc_clear_bit_bits, kc_set_bit_bits]
  by_cases h1 : k = i
  · have : ¬ k = j := by omega
    simp [h1, this, h]
  · simp [h1]

theorem kc_set_bit_lt (m i N : Nat) (hm : m < 2 ^ N) (hi : i < N) : kc_set_bit m i < 2 ^ N := by
  apply Nat.lt_pow_two_of_testBit
  intro j hj
  rw [kc_set_bit_bits, Nat.testBit_lt_two_pow
    (Nat.lt_of_lt_of_le hm (Nat.pow_le_pow_right (by norm_num) hj))]
  have : ¬ j = i := by omega
  simp [this]

theorem kc_bits_pow (n : Nat) : 64 * kc_truth_word_num n = 2 ^ (max n 6) := by
  by_cases h : n ≤ 6
  · unfold kc_truth_word_num
    rw [if_pos h, Nat.max_eq_right h]; norm_num
  · rw [kc_truth_word_num_pow n (by omega), ← kc_pow_split n (by omega),
      Nat.max_eq_left (by omega)]

/-! ## Independence of a variable -/

theorem kc_indep_cof0 (W : Nat) (f f0 : List Nat) (hf : f.length = W) (hf0 : f0.length = W)
    (i : Nat) (h0 : ∀ m, m < 64 * W → kc_tt_bit f0 m = kc_tt_bit f (kc_clear_bit m i)) (j : Nat)
    (hj : j = i ∨ kc_tt_indep f j) : kc_tt_indep f0 j := by
  intro m hm
  rw [hf0] at hm
  have hc : kc_clear_bit m j < 64 * W := Nat.lt_of_le_of_lt (kc_clear_bit_le m j) hm
  rw [h0 m hm, h0 _ hc]
  rcases hj with rfl | hj
  · rw [kc_clear_clear]
  · rw [kc_clear_comm]
    exact hj _ (by rw [hf]; exact Nat.lt_of_le_of_lt (kc_clear_bit_le m i) hm)

theorem kc_indep_cof1 (n : Nat) (f f1 : List Nat) (hf : f.length = kc_truth_word_num n)
    (hf1 : f1.length = kc_truth_word_num n) (i : Nat) (hi : i < max n 6)
    (h1 : ∀ m, m < 64 * kc_truth_word_num n → kc_tt_bit f1 m = kc_tt_bit f (kc_set_bit m i))
    (j : Nat) (hj : j = i ∨ kc_tt_indep f j) : kc_tt_indep f1 j := by
  intro m hm
  rw [hf1] at hm
  have hc : kc_clear_bit m j < 64 * kc_truth_word_num n :=
    Nat.lt_of_le_of_lt (kc_clear_bit_le m j) hm
  rw [h1 m hm, h1 _ hc]
  by_cases hji : j = i
  · subst hji; rw [kc_set_clear]
  · rcases hj with hj | hj
    · exact absurd hj hji
    · rw [kc_set_clear_comm m i j (Ne.symm hji)]
      apply hj
      rw [hf, kc_bits_pow]
      exact kc_set_bit_lt m i _ (by rw [← kc_bits_pow]; exact hm) hi

theorem kc_indep_xor (a b : List Nat) (h : a.length = b.length) (j : Nat)
    (ha : kc_tt_indep a j) (hb : kc_tt_indep b j) :
    kc_tt_indep (List.zipWith (· ^^^ ·) a b) j := by
  intro m hm
  have hl : (List.zipWith (· ^^^ ·) a b).length = a.length := by simp [h]
  rw [hl] at hm
  rw [kc_tt_bit_xor a b h, kc_tt_bit_xor a b h, ha m hm, hb m (by rw [← h]; exact hm)]

/-- A table that depends on none of the variables is constant. -/
theorem kc_indep_const (N : Nat) (f : List Nat) (hf : 64 * f.length = 2 ^ N)
    (h : ∀ j, j < N → kc_tt_indep f j) (m : Nat) (hm : m < 2 ^ N) :
    kc_tt_bit f m = kc_tt_bit f 0 := by
  induction m using Nat.strong_induction_on with
  | _ m ih =>
    by_cases h0 : m = 0
    · rw [h0]
    · obtain ⟨i, hi⟩ := Nat.ne_zero_implies_bit_true h0
      have hge := kc_testBit_ge m i hi
      have hiN : i < N := by
        by_contra hc
        have : 2 ^ N ≤ 2 ^ i := Nat.pow_le_pow_right (by norm_num) (by omega)
        omega
      have hcl : kc_clear_bit m i = m - 2 ^ i := by unfold kc_clear_bit; rw [if_pos hi]
      have hlt : kc_clear_bit m i < m := by
        rw [hcl]; have := Nat.two_pow_pos i; omega
      rw [h i hiN m (by rw [hf]; exact hm)]
      exact ih _ hlt (by omega)

/-- Shannon expansion on minterms. -/
theorem kc_shannon_bit (f : List Nat) (m i : Nat) :
    (if m.testBit i then kc_tt_bit f (kc_set_bit m i) else kc_tt_bit f (kc_clear_bit m i))
      = kc_tt_bit f m := by
  by_cases hb : m.testBit i = true
  · rw [if_pos hb]; unfold kc_set_bit; rw [if_pos hb]
  · rw [if_neg hb]; unfold kc_clear_bit; rw [if_neg hb]

/-! ## Counting nodes -/

theorem kc_gg_same_refl (gg : kc_gg) : kc_gg_same gg gg :=
  ⟨rfl, rfl, rfl, rfl, rfl, rfl, rfl, rfl⟩

theorem kc_gg_same_trans (g1 g2 g3 : kc_gg) (h12 : kc_gg_same g1 g2) (h23 : kc_gg_same g2 g3) :
    kc_gg_same g1 g3 := by
  obtain ⟨a1, a2, a3, a4, a5, a6, a7, a8⟩ := h12
  obtain ⟨b1, b2, b3, b4, b5, b6, b7, b8⟩ := h23
  exact ⟨by rw [b1, a1], by rw [b2, a2], by rw [b3, a3], by rw [b4, a4], by rw [b5, a5],
    by rw [b6, a6], by rw [b7, a7], by rw [b8, a8]⟩

theorem kc_gg_same_inv (gg g : kc_gg) (h : kc_gg_same gg g) (hinv : kc_gg_inv gg) :
    kc_gg_inv g :=
  kc_gg_inv_congr gg g hinv h.1 h.2.1 h.2.2.1 h.2.2.2.1 h.2.2.2.2.2.2.2

theorem kc_gg_same_ext (gg g : kc_gg) (h : kc_gg_same gg g) : kc_gg_ext gg g := by
  obtain ⟨a1, a2, a3, a4, a5, a6, a7, a8⟩ := h
  exact ⟨a1, by omega, a7, a6, a5, by rw [a4], [], by rw [a4]; simp⟩

theorem kc_lit_of_int_cast (l : Nat) : kc_lit_of_int (l : Int) = some l := by
  unfold kc_lit_of_int
  rw [if_pos (Int.ofNat_nonneg l)]
  simp

/-- The fanins read by `kc_gg_node_count_rec` at a literal of an internal node. -/
theorem kc_gg_node_fans (gg : kc_gg) (hinv : kc_gg_inv gg) (l : Nat) (hl : l < 2 * gg.size)
    (hv : gg.nins < l / 2) :
    ∃ x y : Nat, gg.fans[l]? = some (x : Int) ∧ gg.fans[l ^^^ 1]? = some (y : Int) ∧
      x < 2 * (l / 2) ∧ y < 2 * (l / 2) := by
  obtain ⟨a, b, n1, n2, _, n4, n5, _, _⟩ := hinv.node (l / 2) hv (by omega)
  have h := kc_xor_one_eq l
  by_cases he : l % 2 = 0
  · have e1 : l = 2 * (l / 2) := by omega
    have e2 : l ^^^ 1 = 2 * (l / 2) + 1 := by rw [h, if_pos he]; omega
    refine ⟨a, b, ?_, ?_, n4, n5⟩
    · rw [← e1] at n1; exact n1
    · rw [e2]; exact n2
  · have e1 : l = 2 * (l / 2) + 1 := by omega
    have e2 : l ^^^ 1 = 2 * (l / 2) := by rw [h, if_neg he]; omega
    refine ⟨b, a, ?_, ?_, n5, n4⟩
    · rw [← e1] at n2; exact n2
    · rw [e2]; exact n1

/-- With a depth bound above the variable of the literal, `kc_gg_node_count_rec`
returns, and it changes nothing but the traversal marks. -/
theorem kc_gg_node_count_rec_spec (fuel : Nat) : ∀ (gg : kc_gg) (l : Nat), kc_gg_inv gg →
    l < 2 * gg.size → l / 2 < fuel →
    ∃ g c, kc_gg_node_count_rec fuel gg (l : Int) = some (g, c) ∧ kc_gg_same gg g ∧
      g.tid = gg.tid := by
  induction fuel with
  | zero => intro gg l _ _ h; omega
  | succ fuel ih =>
    intro gg l hinv hl hf
    unfold kc_gg_node_count_rec
    rw [kc_lit_of_int_cast]
    simp only
    have hv : kc_l2v l = l / 2 := by unfold kc_l2v; rw [Nat.shiftRight_eq_div_pow, Nat.pow_one]
    rw [hv]
    by_cases h1 : l / 2 ≤ gg.nins
    · rw [if_pos h1]; exact ⟨gg, 0, rfl, kc_gg_same_refl gg, rfl⟩
    rw [if_neg h1]
    have hlen : l / 2 < gg.tids.length := by rw [hinv.tids_len]; omega
    unfold kc_gg_tid_update kc_gg_tid_is_cur
    rw [List.getElem?_eq_getElem hlen]
    simp only
    by_cases h2 : gg.tids[l / 2] = gg.tid
    · simp only [h2, decide_True]
      exact ⟨gg, 0, rfl, kc_gg_same_refl gg, rfl⟩
    simp only [h2, decide_False]
    unfold kc_gg_tid_set_cur
    rw [if_pos hlen]
    simp only
    obtain ⟨x, y, hx, hy, hx2, hy2⟩ := kc_gg_node_fans gg hinv l hl (by omega)
    have hs1 : kc_gg_same gg { gg with tids := gg.tids.set (l / 2) gg.tid } :=
      ⟨rfl, rfl, rfl, rfl, rfl, rfl, rfl, by simp⟩
    have hinv1 := kc_gg_same_inv _ _ hs1 hinv
    rw [hx]
    simp only
    obtain ⟨g2, r0, e1, s2, t2⟩ := ih { gg with tids := gg.tids.set (l / 2) gg.tid } x hinv1
      (by show x < 2 * gg.size; omega) (by omega)
    rw [e1]
    simp only
    have hy' : g2.fans[kc_lnot l]? = some (y : Int) := by
      rw [s2.2.2.1]; exact hy
    rw [hy']
    simp only
    obtain ⟨g3, r1, e2, s3, t3⟩ := ih g2 y (kc_gg_same_inv _ _ s2 hinv1)
      (by rw [s2.2.1]; show y < 2 * gg.size; omega) (by omega)
    rw [e2]
    exact ⟨g3, 1 + r0 + r1, rfl, kc_gg_same_trans _ _ _ (kc_gg_same_trans _ _ _ hs1 s2) s3,
      by rw [t3, t2]⟩

theorem kc_gg_node_count2_spec (ord : kc_order) (gg : kc_gg) (hinv : kc_gg_inv gg)
    (l0 l1 : Nat) (h0 : l0 < 2 * gg.size) (h1 : l1 < 2 * gg.size) :
    ∃ g c, kc_gg_node_count2 ord gg (l0 : Int) (l1 : Int) = some (g, c) ∧ kc_gg_same gg g := by
  have hs0 : kc_gg_same gg (kc_gg_tid_increment gg).1 :=
    ⟨rfl, rfl, rfl, rfl, rfl, rfl, rfl, rfl⟩
  have hinv0 := kc_gg_same_inv _ _ hs0 hinv
  have hsz : (kc_gg_tid_increment gg).1.size = gg.size := rfl
  unfold kc_gg_node_count2
  simp only
  by_cases ho : ord.sum_rtl = true
  · rw [if_pos ho]
    obtain ⟨g1, r1, e1, s1, _⟩ := kc_gg_node_count_rec_spec
      (kc_gg_tid_increment gg).1.size _ l1 hinv0 (by rw [hsz]; exact h1) (by rw [hsz]; omega)
    rw [e1]
    simp only
    obtain ⟨g2, r0, e2, s2, _⟩ := kc_gg_node_count_rec_spec g1.size g1 l0
      (kc_gg_same_inv _ _ s1 hinv0) (by rw [s1.2.1, hsz]; exact h0) (by rw [s1.2.1, hsz]; omega)
    rw [e2]
    exact ⟨g2, r0 + r1, rfl, kc_gg_same_trans _ _ _ (kc_gg_same_trans _ _ _ hs0 s1) s2⟩
  · rw [if_neg ho]
    obtain ⟨g1, r0, e1, s1, _⟩ := kc_gg_node_count_rec_spec
      (kc_gg_tid_increment gg).1.size _ l0 hinv0 (by rw [hsz]; exact h0) (by rw [hsz]; omega)
    rw [e1]
    simp only
    obtain ⟨g2, r1, e2, s2, _⟩ := kc_gg_node_count_rec_spec g1.size g1 l1
      (kc_gg_same_inv _ _ s1 hinv0) (by rw [s1.2.1, hsz]; exact h1) (by rw [s1.2.1, hsz]; omega)
    rw [e2]
    exact ⟨g2, r0 + r1, rfl, kc_gg_same_trans _ _ _ (kc_gg_same_trans _ _ _ hs0 s1) s2⟩

/-! ## Recursive synthesis -/

theorem kc_gg_hash_function_eq (gg : kc_gg) (hinv : kc_gg_inv gg) (ttId : Nat) (f : List Nat)
    (hw : gg.funcs.words = gg.tts.words) (hf : gg.funcs.ptr[ttId]? = some f) :
    kc_gg_hash_function gg ttId
      = some ((List.range (2 * gg.size)).find? (fun i => decide (kc_gg_tt gg i = f))) := by
  unfold kc_gg_hash_function
  apply kc_find_spec
  intro i hi
  rw [List.mem_range] at hi
  unfold kc_vt_is_equal2 kc_vt_read
  rw [kc_gg_tt_get gg i (by rw [hinv.tts_len]; exact hi), hf]
  simp only [hw, if_true]

theorem kc_tt_bit_zero (W m : Nat) : kc_tt_bit (List.replicate W 0) m = false := by
  unfold kc_tt_bit
  rw [List.getD_eq_getElem?_getD, List.getElem?_replicate]
  split <;> simp

theorem kc_tt_bit_ones (W m : Nat) (hm : m < 64 * W) :
    kc_tt_bit (List.replicate W kc_ones) m = true := by
  unfold kc_tt_bit
  rw [List.getD_eq_getElem?_getD, List.getElem?_replicate, if_pos (by omega)]
  simp only [Option.getD_some]
  rw [kc_ones_testBit]
  have : m % 64 < 64 := Nat.mod_lt _ (by norm_num)
  simp [this]

/-- A target that depends on no variable is found by the hash lookup. -/
theorem kc_synth_hash_const (gg : kc_gg) (hinv : kc_gg_inv gg) (f : List Nat)
    (hf : kc_tt_ok gg.tts.words f) (hind : ∀ j, j < max gg.nins 6 → kc_tt_indep f j) :
    ∃ i, (List.range (2 * gg.size)).find? (fun i => decide (kc_gg_tt gg i = f)) = some i := by
  have hsz := hinv.size_ge
  have hbits : 64 * f.length = 2 ^ (max gg.nins 6) := by
    rw [hf.1, hinv.tts_words, kc_bits_pow]
  have hc := kc_indep_const _ f hbits hind
  have hW : 64 * gg.tts.words = 2 ^ (max gg.nins 6) := by rw [← hf.1]; exact hbits
  have hex : ∃ l, l < 2 * gg.size ∧ kc_gg_tt gg l = f := by
    by_cases h0 : kc_tt_bit f 0 = true
    · refine ⟨1, by omega, ?_⟩
      rw [kc_gg_tt_one gg hinv]
      apply kc_tt_ext gg.tts.words _ _ (kc_tt_ok_replicate _ _ (by unfold kc_ones; norm_num)) hf
      intro m hm
      rw [kc_tt_bit_ones _ m hm, hc m (by omega), h0]
    · refine ⟨0, by omega, ?_⟩
      rw [hinv.const0]
      apply kc_tt_ext gg.tts.words _ _ (kc_tt_ok_replicate _ _ (by norm_num)) hf
      intro m hm
      rw [kc_tt_bit_zero, hc m (by omega)]
      simpa using h0
  obtain ⟨l, hl, hlf⟩ := hex
  cases hfind : (List.range (2 * gg.size)).find? (fun i => decide (kc_gg_tt gg i = f)) with
  | some i => exact ⟨i, rfl⟩
  | none =>
    rw [List.find?_eq_none] at hfind
    have := hfind l (by rw [List.mem_range]; exact hl)
    simp [hlf] at this

theorem kc_synth_hash_hit (gg : kc_gg) (f : List Nat) (i : Nat)
    (h : (List.range (2 * gg.size)).find? (fun i => decide (kc_gg_tt gg i = f)) = some i) :
    i < 2 * gg.size ∧ kc_gg_tt gg i = f := by
  have h1 := List.mem_of_find?_eq_some h
  have h2 := List.find?_some h
  rw [List.mem_range] at h1
  exact ⟨h1, by simpa using h2⟩

theorem kc_tt_ok_or (w : Nat) (a b : List Nat) (ha : kc_tt_ok w a) (hb : kc_tt_ok w b) :
    kc_tt_ok w (List.zipWith (· ||| ·) a b) := by
  refine ⟨by simp [ha.1, hb.1], ?_⟩
  intro x hx
  obtain ⟨i, hi, rfl⟩ := List.getElem_of_mem hx
  rw [List.getElem_zipWith]
  simp only [List.length_zipWith] at hi
  exact Nat.or_lt_two_pow (kc_tt_ok_get w a ha i (by omega)) (kc_tt_ok_get w b hb i (by omega))

/-- Shannon reconstruction: `(v AND f1) OR (NOT v AND f0)` is the target. -/
theorem kc_shannon_tt (W : Nat) (tv f f0 f1 : List Nat) (hv : kc_tt_ok W tv) (hf : kc_tt_ok W f)
    (hf0 : kc_tt_ok W f0) (hf1 : kc_tt_ok W f1) (k : Nat)
    (bv : ∀ m, m < 64 * W → kc_tt_bit tv m = m.testBit k)
    (b0 : ∀ m, m < 64 * W → kc_tt_bit f0 m = kc_tt_bit f (kc_clear_bit m k))
    (b1 : ∀ m, m < 64 * W → kc_tt_bit f1 m = kc_tt_bit f (kc_set_bit m k)) :
    List.zipWith (· ||| ·) (List.zipWith (· &&& ·) tv f1)
      (List.zipWith (· &&& ·) (tv.map kc_not) f0) = f := by
  have hnv := kc_tt_ok_not W tv hv
  apply kc_tt_ext W _ _ (kc_tt_ok_or W _ _ (kc_tt_ok_and W _ _ hv hf1)
    (kc_tt_ok_and W _ _ hnv hf0)) hf
  intro m hm
  rw [kc_tt_bit_or _ _ (by simp [hv.1, hf0.1, hf1.1]), kc_tt_bit_and _ _ (by rw [hv.1, hf1.1]),
    kc_tt_bit_and _ _ (by rw [hnv.1, hf0.1]), kc_tt_bit_not W tv hv m hm, bv m hm, b0 m hm,
    b1 m hm, ← kc_shannon_bit f m k]
  cases m.testBit k <;> simp

/-- Positive Davio reconstruction: `(v AND (f0 XOR f1)) XOR f0` is the target. -/
theorem kc_davio_pos_tt (W : Nat) (tv f f0 f1 : List Nat) (hv : kc_tt_ok W tv)
    (hf : kc_tt_ok W f) (hf0 : kc_tt_ok W f0) (hf1 : kc_tt_ok W f1) (k : Nat)
    (bv : ∀ m, m < 64 * W → kc_tt_bit tv m = m.testBit k)
    (b0 : ∀ m, m < 64 * W → kc_tt_bit f0 m = kc_tt_bit f (kc_clear_bit m k))
    (b1 : ∀ m, m < 64 * W → kc_tt_bit f1 m = kc_tt_bit f (kc_set_bit m k)) :
    List.zipWith (· ^^^ ·) (List.zipWith (· &&& ·) tv (List.zipWith (· ^^^ ·) f0 f1)) f0 = f := by
  have hx := kc_tt_ok_xor W f0 f1 hf0 hf1
  apply kc_tt_ext W _ _ (kc_tt_ok_xor W _ _ (kc_tt_ok_and W _ _ hv hx) hf0) hf
  intro m hm
  rw [kc_tt_bit_xor _ _ (by rw [(kc_tt_ok_and W _ _ hv hx).1, hf0.1]),
    kc_tt_bit_and _ _ (by rw [hv.1, hx.1]), kc_tt_bit_xor _ _ (by rw [hf0.1, hf1.1]),
    bv m hm, b0 m hm, b1 m hm, ← kc_shannon_bit f m k]
  cases m.testBit k <;> cases kc_tt_bit f (kc_clear_bit m k) <;>
    cases kc_tt_bit f (kc_set_bit m k) <;> rfl

/-- Negative Davio reconstruction: `(NOT v AND (f0 XOR f1)) XOR f1` is the target. -/
theorem kc_davio_neg_tt (W : Nat) (tv f f0 f1 : List Nat) (hv : kc_tt_ok W tv)
    (hf : kc_tt_ok W f) (hf0 : kc_tt_ok W f0) (hf1 : kc_tt_ok W f1) (k : Nat)
    (bv : ∀ m, m < 64 * W → kc_tt_bit tv m = m.testBit k)
    (b0 : ∀ m, m < 64 * W → kc_tt_bit f0 m = kc_tt_bit f (kc_clear_bit m k))
    (b1 : ∀ m, m < 64 * W → kc_tt_bit f1 m = kc_tt_bit f (kc_set_bit m k)) :
    List.zipWith (· ^^^ ·)
      (List.zipWith (· &&& ·) (tv.map kc_not) (List.zipWith (· ^^^ ·) f0 f1)) f1 = f := by
  have hx := kc_tt_ok_xor W f0 f1 hf0 hf1
  have hnv := kc_tt_ok_not W tv hv
  apply kc_tt_ext W _ _ (kc_tt_ok_xor W _ _ (kc_tt_ok_and W _ _ hnv hx) hf1) hf
  intro m hm
  rw [kc_tt_bit_xor _ _ (by rw [(kc_tt_ok_and W _ _ hnv hx).1, hf1.1]),
    kc_tt_bit_and _ _ (by rw [hnv.1, hx.1]), kc_tt_bit_xor _ _ (by rw [hf0.1, hf1.1]),
    kc_tt_bit_not W tv hv m hm, bv m hm, b0 m hm, b1 m hm, ← kc_shannon_bit f m k]
  cases m.testBit k <;> cases kc_tt_bit f (kc_clear_bit m k) <;>
    cases kc_tt_bit f (kc_set_bit m k) <;> rfl

theorem kc_v2l_var (k : Nat) : kc_v2l (1 + k) 0 = 2 * (k + 1) ∧ kc_v2l (1 + k) 1 = (2 * (k + 1)) ^^^ 1 := by
  unfold kc_v2l
  have h := kc_xor_one_eq (2 * (k + 1))
  rw [if_pos (by omega)] at h
  omega

/-- The Shannon branch of the synthesizers. -/
theorem kc_synth_shannon (ord : kc_order) (g : kc_gg) (hinv : kc_gg_inv g) (f f0 f1 : List Nat)
    (k l0 l1 : Nat) (hk : k < g.nins) (hf : kc_tt_ok g.tts.words f)
    (hf0 : kc_tt_ok g.tts.words f0) (hf1 : kc_tt_ok g.tts.words f1)
    (b0 : ∀ m, m < 64 * g.tts.words → kc_tt_bit f0 m = kc_tt_bit f (kc_clear_bit m k))
    (b1 : ∀ m, m < 64 * g.tts.words → kc_tt_bit f1 m = kc_tt_bit f (kc_set_bit m k))
    (hl0 : l0 < 2 * g.size) (hl1 : l1 < 2 * g.size)
    (t0 : kc_gg_tt g l0 = f0) (t1 : kc_gg_tt g l1 = f1) :
    ∃ g' r, kc_gg_mux ord g (kc_v2l (1 + k) 0) l1 l0 = some (g', r) ∧ kc_gg_inv g' ∧
      kc_gg_ext g g' ∧ r < 2 * g'.size ∧ kc_gg_tt g' r = f := by
  have hsz := hinv.size_ge
  rw [(kc_v2l_var k).1]
  have hv : 2 * (k + 1) < 2 * g.size := by omega
  obtain ⟨g', r, e1, e2, e3, e4, e5⟩ := kc_gg_mux_spec ord g hinv _ l1 l0 hv hl1 hl0
  refine ⟨g', r, e1, e2, e3, e4, ?_⟩
  rw [e5, t0, t1]
  exact kc_shannon_tt g.tts.words _ f f0 f1 (kc_gg_tt_ok g hinv _ hv) hf hf0 hf1 k
    (hinv.vars k hk) b0 b1

/-- The positive Davio branch of `synthesis_xor_rec`. -/
theorem kc_synth_davio_pos (g : kc_gg) (hinv : kc_gg_inv g) (f f0 f1 : List Nat)
    (k l0 l2 : Nat) (hk : k < g.nins) (hf : kc_tt_ok g.tts.words f)
    (hf0 : kc_tt_ok g.tts.words f0) (hf1 : kc_tt_ok g.tts.words f1)
    (b0 : ∀ m, m < 64 * g.tts.words → kc_tt_bit f0 m = kc_tt_bit f (kc_clear_bit m k))
    (b1 : ∀ m, m < 64 * g.tts.words → kc_tt_bit f1 m = kc_tt_bit f (kc_set_bit m k))
    (hl0 : l0 < 2 * g.size) (hl2 : l2 < 2 * g.size)
    (t0 : kc_gg_tt g l0 = f0) (t2 : kc_gg_tt g l2 = List.zipWith (· ^^^ ·) f0 f1) :
    ∃ g' r, kc_gg_and_xor g (kc_v2l (1 + k) 0) l2 l0 = some (g', r) ∧ kc_gg_inv g' ∧
      kc_gg_ext g g' ∧ r < 2 * g'.size ∧ kc_gg_tt g' r = f := by
  have hsz := hinv.size_ge
  rw [(kc_v2l_var k).1]
  have hv : 2 * (k + 1) < 2 * g.size := by omega
  obtain ⟨g', r, e1, e2, e3, e4, e5⟩ := kc_gg_and_xor_spec g hinv _ l2 l0 hv hl2 hl0
  refine ⟨g', r, e1, e2, e3, e4, ?_⟩
  rw [e5, t0, t2]
  exact kc_davio_pos_tt g.tts.words _ f f0 f1 (kc_gg_tt_ok g hinv _ hv) hf hf0 hf1 k
    (hinv.vars k hk) b0 b1

/-- The negative Davio branch of `synthesis_xor_rec`. -/
theorem kc_synth_davio_neg (g : kc_gg) (hinv : kc_gg_inv g) (f f0 f1 : List Nat)
    (k l1 l2 : Nat) (hk : k < g.nins) (hf : kc_tt_ok g.tts.words f)
    (hf0 : kc_tt_ok g.tts.words f0) (hf1 : kc_tt_ok g.tts.words f1)
    (b0 : ∀ m, m < 64 * g.tts.words → kc_tt_bit f0 m = kc_tt_bit f (kc_clear_bit m k))
    (b1 : ∀ m, m < 64 * g.tts.words → kc_tt_bit f1 m = kc_tt_bit f (kc_set_bit m k))
    (hl1 : l1 < 2 * g.size) (hl2 : l2 < 2 * g.size)
    (t1 : kc_gg_tt g l1 = f1) (t2 : kc_gg_tt g l2 = List.zipWith (· ^^^ ·) f0 f1) :
    ∃ g' r, kc_gg_and_xor g (kc_v2l (1 + k) 1) l2 l1 = some (g', r) ∧ kc_gg_inv g' ∧
      kc_gg_ext g g' ∧ r < 2 * g'.size ∧ kc_gg_tt g' r = f := by
  have hsz := hinv.size_ge
  rw [(kc_v2l_var k).2]
  have hv : 2 * (k + 1) < 2 * g.size := by omega
  obtain ⟨g', r, e1, e2, e3, e4, e5⟩ := kc_gg_and_xor_spec g hinv _ l2 l1
    (kc_lnot_lt _ _ hv) hl2 hl1
  refine ⟨g', r, e1, e2, e3, e4, ?_⟩
  rw [e5, t1, t2, hinv.polar _ hv]
  exact kc_davio_neg_tt g.tts.words _ f f0 f1 (kc_gg_tt_ok g hinv _ hv) hf hf0 hf1 k
    (hinv.vars k hk) b0 b1

/-- The two cofactors taken by the synthesizers at a variable of the support. -/
theorem kc_synth_cofs (gg : kc_gg) (k ttId : Nat) (f : List Nat)
    (pre : kc_synth_pre gg (k + 1) ttId f) :
    ∃ f0 f1, kc_vt_cof0 gg.funcs ttId k = some (kc_vt_push gg.funcs f0, gg.funcs.ptr.length) ∧
      kc_vt_cof1 (kc_vt_push gg.funcs f0) ttId k
        = some (kc_vt_push (kc_vt_push gg.funcs f0) f1, gg.funcs.ptr.length + 1) ∧
      kc_tt_ok gg.tts.words f0 ∧ kc_tt_ok gg.tts.words f1 ∧
      (∀ m, m < 64 * gg.tts.words → kc_tt_bit f0 m = kc_tt_bit f (kc_clear_bit m k)) ∧
      (∀ m, m < 64 * gg.tts.words → kc_tt_bit f1 m = kc_tt_bit f (kc_set_bit m k)) ∧
      (∀ j, k ≤ j → j < max gg.nins 6 → kc_tt_indep f0 j ∧ kc_tt_indep f1 j) := by
  obtain ⟨hinv, hk, hw, hok, hf, hind⟩ := pre
  have hfo : kc_tt_ok gg.funcs.words f := hok f (List.getElem?_mem hf)
  have hwn : gg.funcs.words = kc_truth_word_num gg.nins := by rw [hw, hinv.tts_words]
  obtain ⟨f0, c1, c2, c3⟩ := kc_vt_cof0_spec gg.nins gg.funcs ttId k f hwn hfo hf (by omega)
  have hlen : ttId < gg.funcs.ptr.length := by
    by_contra hc
    rw [List.getElem?_eq_none (by omega)] at hf
    exact Option.noConfusion hf
  have hf' : kc_vt_read (kc_vt_push gg.funcs f0) ttId = some f := by
    unfold kc_vt_read kc_vt_push
    simp only
    rw [List.getElem?_append_left hlen]; exact hf
  obtain ⟨f1, d1, d2, d3⟩ := kc_vt_cof1_spec gg.nins (kc_vt_push gg.funcs f0) ttId k f hwn hfo hf'
    (by omega)
  rw [hw] at c2 c3 hfo
  have hpw : (kc_vt_push gg.funcs f0).words = gg.tts.words := hw
  rw [hpw] at d2 d3
  refine ⟨f0, f1, c1, ?_, c2, d2, c3, d3, ?_⟩
  · rw [d1]; simp [kc_vt_push]
  · intro j hj1 hj2
    have hji : j = k ∨ kc_tt_indep f j := by
      by_cases h : j = k
      · exact Or.inl h
      · exact Or.inr (hind j (by omega) hj2)
    constructor
    · exact kc_indep_cof0 gg.tts.words f f0 hfo.1 c2.1 k c3 j hji
    · rw [hinv.tts_words] at hfo d2 d3
      exact kc_indep_cof1 gg.nins f f1 hfo.1 d2.1 k (by omega) d3 j hji

theorem kc_gg_inv_funcs (g : kc_gg) (fs : kc_vt) (hinv : kc_gg_inv g) :
    kc_gg_inv { g with funcs := fs } :=
  kc_gg_inv_congr g _ hinv rfl rfl rfl rfl rfl

theorem kc_gg_ext_of_funcs (gg g : kc_gg) (fs : kc_vt)
    (h : kc_gg_ext { gg with funcs := fs } g) : kc_gg_ext gg { g with funcs := gg.funcs } := by
  obtain ⟨a1, a2, a3, a4, _, a6, m, a7⟩ := h
  exact ⟨a1, a2, a3, a4, rfl, a6, m, a7⟩

theorem kc_vt_shrink_push2 (v : kc_vt) (a b : List Nat) :
    kc_vt_shrink (kc_vt_push (kc_vt_push v a) b) 2 = some v := by
  unfold kc_vt_shrink kc_vt_push
  simp only [List.length_append, List.length_singleton]
  rw [if_pos (by omega)]
  have : v.ptr.length + 1 + 1 - 2 = v.ptr.length := by omega
  rw [this, List.append_assoc, List.take_left]

theorem kc_vt_shrink_push3 (v : kc_vt) (a b c : List Nat) :
    kc_vt_shrink (kc_vt_push (kc_vt_push (kc_vt_push v a) b) c) 3 = some v := by
  unfold kc_vt_shrink kc_vt_push
  simp only [List.length_append, List.length_singleton]
  rw [if_pos (by omega)]
  have : v.ptr.length + 1 + 1 + 1 - 3 = v.ptr.length := by omega
  rw [this, List.append_assoc, List.append_assoc, List.take_left]

theorem kc_vt_ok_push (v : kc_vt) (t : List Nat) (hv : kc_vt_ok v) (ht : kc_tt_ok v.words t) :
    kc_vt_ok (kc_vt_push v t) := by
  intro x hx
  simp only [kc_vt_push, List.mem_append, List.mem_singleton] at hx
  rcases hx with hx | hx
  · exact hv x hx
  · rw [hx]; exact ht

/-- The body of `synthesis_and_rec` returns a literal of the target function. -/
theorem synthesis_and_go_spec (ord : kc_order) (k : Nat) : ∀ (gg : kc_gg) (ttId : Nat)
    (f : List Nat), kc_synth_pre gg k ttId f →
    kc_synth_post gg f (synthesis_and_go ord k gg ttId) := by
  induction k with
  | zero =>
    intro gg ttId f pre
    obtain ⟨hinv, hk, hw, hok, hf, hind⟩ := pre
    have hfo : kc_tt_ok gg.tts.words f := by rw [← hw]; exact hok f (List.getElem?_mem hf)
    obtain ⟨i, hi⟩ := kc_synth_hash_const gg hinv f hfo (fun j hj => hind j (Nat.zero_le _) hj)
    obtain ⟨h1, h2⟩ := kc_synth_hash_hit gg f i hi
    unfold synthesis_and_go
    rw [kc_gg_hash_function_eq gg hinv ttId f hw hf, hi]
    exact ⟨gg, i, rfl, hinv, kc_gg_ext_refl gg, h1, h2⟩
  | succ k ih =>
    intro gg ttId f pre
    have pre' := pre
    obtain ⟨hinv, hk, hw, hok, hf, hind⟩ := pre
    have hfo : kc_tt_ok gg.tts.words f := by rw [← hw]; exact hok f (List.getElem?_mem hf)
    unfold synthesis_and_go
    rw [kc_gg_hash_function_eq gg hinv ttId f hw hf]
    cases hfind : (List.range (2 * gg.size)).find? (fun i => decide (kc_gg_tt gg i = f)) with
    | some i =>
      obtain ⟨h1, h2⟩ := kc_synth_hash_hit gg f i hfind
      exact ⟨gg, i, rfl, hinv, kc_gg_ext_refl gg, h1, h2⟩
    | none =>
      simp only
      obtain ⟨b, hb1, hb2⟩ := kc_vt_has_var_spec gg.nins gg.funcs ttId k f
        (by rw [hw, hinv.tts_words]) (by rw [hw]; exact hfo) hf (by omega)
      rw [hb1]
      cases b with
      | false =>
        simp only
        refine ih gg ttId f ⟨hinv, by omega, hw, hok, hf, ?_⟩
        intro j hj1 hj2
        by_cases hjk : j = k
        · rw [hjk]; exact hb2 rfl
        · exact hind j (by omega) hj2
      | true =>
        simp only
        obtain ⟨f0, f1, c1, c2, o0, o1, b0, b1, hind01⟩ := kc_synth_cofs gg k ttId f pre'
        rw [c1]
        simp only
        rw [c2]
        simp only
        have hok1 : kc_vt_ok (kc_vt_push (kc_vt_push gg.funcs f0) f1) :=
          kc_vt_ok_push _ f1 (kc_vt_ok_push _ f0 hok (by rw [hw]; exact o0))
            (by show kc_tt_ok gg.funcs.words f1; rw [hw]; exact o1)
        have pre0 : kc_synth_pre { gg with funcs := kc_vt_push (kc_vt_push gg.funcs f0) f1 } k
            gg.funcs.ptr.length f0 := by
          refine ⟨kc_gg_inv_funcs gg _ hinv, by show k ≤ gg.nins; omega, hw, hok1, ?_,
            fun j hj1 hj2 => (hind01 j hj1 hj2).1⟩
          show (gg.funcs.ptr ++ [f0] ++ [f1])[gg.funcs.ptr.length]? = some f0
          rw [List.append_assoc, List.getElem?_append_right (Nat.le_refl _)]; simp
        obtain ⟨g0, l0, e0, i0, x0, lt0, t0⟩ := ih _ _ f0 pre0
        rw [e0]
        simp only
        have hfu0 : g0.funcs = kc_vt_push (kc_vt_push gg.funcs f0) f1 := x0.2.2.2.2.1
        have hn0 : g0.nins = gg.nins := x0.1
        have hw0 : g0.tts.words = gg.tts.words := x0.2.2.2.2.2.1
        have pre1 : kc_synth_pre g0 k (gg.funcs.ptr.length + 1) f1 := by
          refine ⟨i0, by rw [hn0]; omega, by rw [hfu0, hw0]; exact hw, by rw [hfu0]; exact hok1,
            ?_, fun j hj1 hj2 => (hind01 j hj1 (by rw [← hn0]; exact hj2)).2⟩
          rw [hfu0]
          show (gg.funcs.ptr ++ [f0] ++ [f1])[gg.funcs.ptr.length + 1]? = some f1
          rw [List.getElem?_append_right (by simp)]; simp
        obtain ⟨g1, l1, e1, i1, x1, lt1, t1⟩ := ih _ _ f1 pre1
        rw [e1]
        simp only
        have hfu1 : g1.funcs = kc_vt_push (kc_vt_push gg.funcs f0) f1 := by
          rw [x1.2.2.2.2.1, hfu0]
        rw [hfu1, kc_vt_shrink_push2]
        simp only
        rw [kc_lit_of_int_cast, kc_lit_of_int_cast]
        simp only
        have x01 := kc_gg_ext_trans _ _ _ x0 x1
        have hn1 : g1.nins = gg.nins := x01.1
        have hw1 : g1.tts.words = gg.tts.words := x01.2.2.2.2.2.1
        have t0' : kc_gg_tt g1 l0 = f0 := by rw [kc_gg_ext_tt_inv g0 g1 i0 x1 l0 lt0, t0]
        obtain ⟨g, r, m1, m2, m3, m4, m5⟩ := kc_synth_shannon ord { g1 with funcs := gg.funcs }
          (kc_gg_inv_funcs g1 _ i1) f f0 f1 k l0 l1 (by show k < g1.nins; omega)
          (by show kc_tt_ok g1.tts.words f; rw [hw1]; exact hfo)
          (by show kc_tt_ok g1.tts.words f0; rw [hw1]; exact o0)
          (by show kc_tt_ok g1.tts.words f1; rw [hw1]; exact o1)
          (by show ∀ m, m < 64 * g1.tts.words → _; rw [hw1]; exact b0)
          (by show ∀ m, m < 64 * g1.tts.words → _; rw [hw1]; exact b1)
          (kc_gg_ext_lt g0 g1 x1 l0 lt0) lt1 t0' t1
        rw [m1]
        exact ⟨g, r, rfl, m2, kc_gg_ext_trans _ _ _ (kc_gg_ext_of_funcs gg g1 _ x01) m3, m4, m5⟩

theorem kc_min3_cases (a b c : Nat) :
    Nat.min a (Nat.min b c) = a ∨ Nat.min a (Nat.min b c) = b ∨ Nat.min a (Nat.min b c) = c := by
  simp only [Nat.min_def]
  split_ifs <;> simp

/-- The selection at the end of `synthesis_xor_rec`: one of the three candidates is
the minimum, so one of the first three branches is taken. -/
theorem kc_select_min (P : Option (kc_gg × Int) → Prop) (n01 n02 n12 : Nat)
    (A B C D : Option (kc_gg × Int)) (hA : P A) (hB : P B) (hC : P C) :
    P (if Nat.min n01 (Nat.min n02 n12) = n01 then A
       else if Nat.min n01 (Nat.min n02 n12) = n02 then B
       else if Nat.min n01 (Nat.min n02 n12) = n12 then C else D) := by
  split_ifs with q1 q2 q3
  · exact hA
  · exact hB
  · exact hC
  · exfalso
    rcases kc_min3_cases n01 n02 n12 with h | h | h
    · exact q1 h
    · exact q2 h
    · exact q3 h

theorem kc_gg_same_tt (gg g : kc_gg) (h : kc_gg_same gg g) (l : Nat) :
    kc_gg_tt g l = kc_gg_tt gg l := by
  unfold kc_gg_tt; rw [h.2.2.2.1]

/-- The body of `synthesis_xor_rec` returns a literal of the target function; in
particular it never returns `-1`. -/
theorem synthesis_xor_go_spec (ord : kc_order) (k : Nat) : ∀ (gg : kc_gg) (ttId : Nat)
    (f : List Nat), kc_synth_pre gg k ttId f →
    kc_synth_post gg f (synthesis_xor_go ord k gg ttId) := by
  induction k with
  | zero =>
    intro gg ttId f pre
    obtain ⟨hinv, hk, hw, hok, hf, hind⟩ := pre
    have hfo : kc_tt_ok gg.tts.words f := by rw [← hw]; exact hok f (List.getElem?_mem hf)
    obtain ⟨i, hi⟩ := kc_synth_hash_const gg hinv f hfo (fun j hj => hind j (Nat.zero_le _) hj)
    obtain ⟨h1, h2⟩ := kc_synth_hash_hit gg f i hi
    unfold synthesis_xor_go
    rw [kc_gg_hash_function_eq gg hinv ttId f hw hf, hi]
    exact ⟨gg, i, rfl, hinv, kc_gg_ext_refl gg, h1, h2⟩
  | succ k ih =>
    intro gg ttId f pre
    have pre' := pre
    obtain ⟨hinv, hk, hw, hok, hf, hind⟩ := pre
    have hfo : kc_tt_ok gg.tts.words f := by rw [← hw]; exact hok f (List.getElem?_mem hf)
    unfold synthesis_xor_go
    rw [kc_gg_hash_function_eq gg hinv ttId f hw hf]
    cases hfind : (List.range (2 * gg.size)).find? (fun i => decide (kc_gg_tt gg i = f)) with
    | some i =>
      obtain ⟨h1, h2⟩ := kc_synth_hash_hit gg f i hfind
      exact ⟨gg, i, rfl, hinv, kc_gg_ext_refl gg, h1, h2⟩
    | none =>
      simp only
      obtain ⟨b, hb1, hb2⟩ := kc_vt_has_var_spec gg.nins gg.funcs ttId k f
        (by rw [hw, hinv.tts_words]) (by rw [hw]; exact hfo) hf (by omega)
      rw [hb1]
      cases b with
      | false =>
        simp only
        refine ih gg ttId f ⟨hinv, by omega, hw, hok, hf, ?_⟩
        intro j hj1 hj2
        by_cases hjk : j = k
        · rw [hjk]; exact hb2 rfl
        · exact hind j (by omega) hj2
      | true =>
        simp only
        obtain ⟨f0, f1, c1, c2, o0, o1, b0, b1, hind01⟩ := kc_synth_cofs gg k ttId f pre'
        rw [c1]
        simp only
        rw [c2]
        simp only
        have o2 := kc_tt_ok_xor _ f0 f1 o0 o1
        have hx : kc_vt_xor (kc_vt_push (kc_vt_push gg.funcs f0) f1) gg.funcs.ptr.length
            (gg.funcs.ptr.length + 1)
            = some (kc_vt_push (kc_vt_push (kc_vt_push gg.funcs f0) f1)
                (List.zipWith (· ^^^ ·) f0 f1), gg.funcs.ptr.length + 2) := by
          have r0 : (gg.funcs.ptr ++ [f0] ++ [f1])[gg.funcs.ptr.length]? = some f0 := by
            rw [List.append_assoc, List.getElem?_append_right (Nat.le_refl _)]; simp
          have r1 : (gg.funcs.ptr ++ [f0] ++ [f1])[gg.funcs.ptr.length + 1]? = some f1 := by
            rw [List.getElem?_append_right (by simp)]; simp
          unfold kc_vt_xor kc_vt_read
          simp only [kc_vt_push, r0, r1, List.length_append, List.length_singleton]
        rw [hx]
        simp only
        have hokp : kc_vt_ok (kc_vt_push (kc_vt_push (kc_vt_push gg.funcs f0) f1)
            (List.zipWith (· ^^^ ·) f0 f1)) :=
          kc_vt_ok_push _ _ (kc_vt_ok_push _ f1 (kc_vt_ok_push _ f0 hok (by rw [hw]; exact o0))
            (by show kc_tt_ok gg.funcs.words f1; rw [hw]; exact o1))
            (by show kc_tt_ok gg.funcs.words _; rw [hw]; exact o2)
        have rd0 : (gg.funcs.ptr ++ [f0] ++ [f1] ++ [List.zipWith (· ^^^ ·) f0 f1])[
            gg.funcs.ptr.length]? = some f0 := by
          rw [List.append_assoc, List.append_assoc,
            List.getElem?_append_right (Nat.le_refl _)]; simp
        have rd1 : (gg.funcs.ptr ++ [f0] ++ [f1] ++ [List.zipWith (· ^^^ ·) f0 f1])[
            gg.funcs.ptr.length + 1]? = some f1 := by
          rw [List.append_assoc, List.getElem?_append_right (by simp)]; simp
        have rd2 : (gg.funcs.ptr ++ [f0] ++ [f1] ++ [List.zipWith (· ^^^ ·) f0 f1])[
            gg.funcs.ptr.length + 2]? = some (List.zipWith (· ^^^ ·) f0 f1) := by
          rw [List.getElem?_append_right (by simp)]; simp
        have pre0 : kc_synth_pre { gg with funcs := (kc_vt_push (kc_vt_push
            (kc_vt_push gg.funcs f0) f1) (List.zipWith (· ^^^ ·) f0 f1)) } k
            gg.funcs.ptr.length f0 :=
          ⟨kc_gg_inv_funcs gg _ hinv, by show k ≤ gg.nins; omega, hw, hokp, rd0,
            fun j hj1 hj2 => (hind01 j hj1 hj2).1⟩
        obtain ⟨g0, l0, e0, i0, x0, lt0, t0⟩ := ih _ _ f0 pre0
        rw [e0]
        simp only
        have hfu0 : g0.funcs = kc_vt_push (kc_vt_push (kc_vt_push gg.funcs f0) f1)
            (List.zipWith (· ^^^ ·) f0 f1) := x0.2.2.2.2.1
        have hn0 : g0.nins = gg.nins := x0.1
        have hw0 : g0.tts.words = gg.tts.words := x0.2.2.2.2.2.1
        have pre1 : kc_synth_pre g0 k (gg.funcs.ptr.length + 1) f1 :=
          ⟨i0, by rw [hn0]; omega, by rw [hfu0, hw0]; exact hw, by rw [hfu0]; exact hokp,
            by rw [hfu0]; exact rd1,
            fun j hj1 hj2 => (hind01 j hj1 (by rw [← hn0]; exact hj2)).2⟩
        obtain ⟨g1, l1, e1, i1, x1, lt1, t1⟩ := ih _ _ f1 pre1
        rw [e1]
        simp only
        have x01 := kc_gg_ext_trans _ _ _ x0 x1
        have hfu1 : g1.funcs = kc_vt_push (kc_vt_push (kc_vt_push gg.funcs f0) f1)
            (List.zipWith (· ^^^ ·) f0 f1) := x01.2.2.2.2.1
        have hn1 : g1.nins = gg.nins := x01.1
        have hw1 : g1.tts.words = gg.tts.words := x01.2.2.2.2.2.1
        have pre2 : kc_synth_pre g1 k (gg.funcs.ptr.length + 2) (List.zipWith (· ^^^ ·) f0 f1) :=
          ⟨i1, by rw [hn1]; omega, by rw [hfu1, hw1]; exact hw, by rw [hfu1]; exact hokp,
            by rw [hfu1]; exact rd2,
            fun j hj1 hj2 => kc_indep_xor f0 f1 (by rw [o0.1, o1.1]) j
              (hind01 j hj1 (by rw [← hn1]; exact hj2)).1
              (hind01 j hj1 (by rw [← hn1]; exact hj2)).2⟩
        obtain ⟨g2, l2, e2, i2, x2, lt2, t2⟩ := ih _ _ _ pre2
        rw [e2]
        simp only
        have x02 := kc_gg_ext_trans _ _ _ x01 x2
        have hfu2 : g2.funcs = kc_vt_push (kc_vt_push (kc_vt_push gg.funcs f0) f1)
            (List.zipWith (· ^^^ ·) f0 f1) := x02.2.2.2.2.1
        have hn2 : g2.nins = gg.nins := x02.1
        have hw2 : g2.tts.words = gg.tts.words := x02.2.2.2.2.2.1
        rw [hfu2, kc_vt_shrink_push3]
        simp only
        have lt0' : l0 < 2 * g2.size := kc_gg_ext_lt g1 g2 x2 l0 (kc_gg_ext_lt g0 g1 x1 l0 lt0)
        have lt1' : l1 < 2 * g2.size := kc_gg_ext_lt g1 g2 x2 l1 lt1
        have t0' : kc_gg_tt g2 l0 = f0 := by
          rw [kc_gg_ext_tt_inv g1 g2 i1 x2 l0 (kc_gg_ext_lt g0 g1 x1 l0 lt0),
            kc_gg_ext_tt_inv g0 g1 i0 x1 l0 lt0, t0]
        have t1' : kc_gg_tt g2 l1 = f1 := by rw [kc_gg_ext_tt_inv g1 g2 i1 x2 l1 lt1, t1]
        have i2' := kc_gg_inv_funcs g2 gg.funcs i2
        obtain ⟨g3, c01, n1, s3⟩ := kc_gg_node_count2_spec ord _ i2' l0 l1 lt0' lt1'
        rw [n1]
        simp only
        have i3 := kc_gg_same_inv _ _ s3 i2'
        have sz3 : g3.size = g2.size := s3.2.1
        obtain ⟨g4, c02, n2, s4⟩ := kc_gg_node_count2_spec ord g3 i3 l0 l2
          (by rw [sz3]; exact lt0') (by rw [sz3]; exact lt2)
        rw [n2]
        simp only
        have i4 := kc_gg_same_inv _ _ s4 i3
        have sz4 : g4.size = g2.size := by rw [s4.2.1, sz3]
        obtain ⟨g5, c12, n3, s5⟩ := kc_gg_node_count2_spec ord g4 i4 l1 l2
          (by rw [sz4]; exact lt1') (by rw [sz4]; exact lt2)
        rw [n3]
        simp only
        have s25 := kc_gg_same_trans _ _ _ (kc_gg_same_trans _ _ _ s3 s4) s5
        have i5 := kc_gg_same_inv _ _ s5 i4
        have sz5 : g5.size = g2.size := s25.2.1
        have hn5 : g5.nins = gg.nins := by rw [s25.1]; exact hn2
        have hw5 : g5.tts.words = gg.tts.words := by rw [s25.2.2.2.1]; exact hw2
        have u0 : kc_gg_tt g5 l0 = f0 := by rw [kc_gg_same_tt _ _ s25]; exact t0'
        have u1 : kc_gg_tt g5 l1 = f1 := by rw [kc_gg_same_tt _ _ s25]; exact t1'
        have u2 : kc_gg_tt g5 l2 = List.zipWith (· ^^^ ·) f0 f1 := by
          rw [kc_gg_same_tt _ _ s25]; exact t2
        have xg5 : kc_gg_ext gg g5 :=
          kc_gg_ext_trans _ _ _ (kc_gg_ext_of_funcs gg g2 _ x02) (kc_gg_same_ext _ _ s25)
        have a5 : kc_tt_ok g5.tts.words f := by rw [hw5]; exact hfo
        have a50 : kc_tt_ok g5.tts.words f0 := by rw [hw5]; exact o0
        have a51 : kc_tt_ok g5.tts.words f1 := by rw [hw5]; exact o1
        have b50 : ∀ m, m < 64 * g5.tts.words → kc_tt_bit f0 m = kc_tt_bit f (kc_clear_bit m k) := by
          rw [hw5]; exact b0
        have b51 : ∀ m, m < 64 * g5.tts.words → kc_tt_bit f1 m = kc_tt_bit f (kc_set_bit m k) := by
          rw [hw5]; exact b1
        rw [kc_lit_of_int_cast, kc_lit_of_int_cast, kc_lit_of_int_cast]
        simp only
        apply kc_select_min (kc_synth_post gg f)
        · obtain ⟨g, r, m1, m2, m3, m4, m5⟩ := kc_synth_shannon ord g5 i5 f f0 f1 k l0 l1
            (by omega) a5 a50 a51 b50 b51 (by rw [sz5]; exact lt0') (by rw [sz5]; exact lt1') u0 u1
          rw [m1]
          exact ⟨g, r, rfl, m2, kc_gg_ext_trans _ _ _ xg5 m3, m4, m5⟩
        · obtain ⟨g, r, m1, m2, m3, m4, m5⟩ := kc_synth_davio_pos g5 i5 f f0 f1 k l0 l2
            (by omega) a5 a50 a51 b50 b51 (by rw [sz5]; exact lt0') (by rw [sz5]; exact lt2) u0 u2
          rw [m1]
          exact ⟨g, r, rfl, m2, kc_gg_ext_trans _ _ _ xg5 m3, m4, m5⟩
        · obtain ⟨g, r, m1, m2, m3, m4, m5⟩ := kc_synth_davio_neg g5 i5 f f0 f1 k l1 l2
            (by omega) a5 a50 a51 b50 b51 (by rw [sz5]; exact lt1') (by rw [sz5]; exact lt2) u1 u2
          rw [m1]
          exact ⟨g, r, rfl, m2, kc_gg_ext_trans _ _ _ xg5 m3, m4, m5⟩

/-! ## Top level -/

/-- A loop over `0 .. N - 1` whose body keeps an invariant runs to the end. -/
theorem kc_foldlM_range_inv {σ : Type} (step : σ → Nat → Option σ) (I : Nat → σ → Prop)
    (N : Nat) (s0 : σ) (h0 : I 0 s0)
    (hstep : ∀ j s, j < N → I j s → ∃ s', step s j = some s' ∧ I (j + 1) s') :
    ∃ s, (List.range N).foldlM step s0 = some s ∧ I N s := by
  have key : ∀ j, j ≤ N → ∃ s, (List.range j).foldlM step s0 = some s ∧ I j s := by
    intro j
    induction j with
    | zero => intro _; exact ⟨s0, rfl, h0⟩
    | succ j ih =>
      intro hj
      obtain ⟨s, hs, hI⟩ := ih (by omega)
      obtain ⟨s', hs', hI'⟩ := hstep j s (by omega) hI
      refine ⟨s', ?_, hI'⟩
      rw [List.range_succ, List.foldlM_append, hs]
      simp only [Option.bind_eq_bind, Option.some_bind, List.foldlM_cons, List.foldlM_nil]
      rw [hs']; rfl
  exact key N (Nat.le_refl N)

theorem kc_toNat_var (n : Nat) : ((n : Int) - 1 + 1).toNat = n := by
  have : (n : Int) - 1 + 1 = (n : Int) := by omega
  rw [this]; simp

/-- One output of `kc_top_level_call_one`: with the output table as the only
table of the scratch store, either synthesizer returns a literal of it. -/
theorem kc_top_level_step (ord : kc_order) (n : Nat) (outs : kc_vt) (and_only : Bool)
    (hok : kc_outs_ok n outs) (j : Nat) (g : kc_gg)
    (hI : kc_tops_ok n outs j g) (t : List Nat) (ht : outs.ptr[j]? = some t) :
    kc_synth_post { g with funcs := { words := g.funcs.words, ptr := [t] } } t
      (if and_only then
        synthesis_and_rec ord { g with funcs := { words := g.funcs.words, ptr := [t] } } 0
          ((n : Int) - 1)
       else
        synthesis_xor_rec ord { g with funcs := { words := g.funcs.words, ptr := [t] } } 0
          ((n : Int) - 1)) := by
  obtain ⟨hinv, hn, ho, hw, hlen, htops⟩ := hI
  obtain ⟨k1, k2, k3⟩ := hok
  have htm : t ∈ outs.ptr := List.getElem?_mem ht
  have pre : kc_synth_pre { g with funcs := { words := g.funcs.words, ptr := [t] } } n 0 t := by
    refine ⟨kc_gg_inv_funcs g _ hinv, by show n ≤ g.nins; omega, ?_, ?_, rfl, ?_⟩
    · show g.funcs.words = g.tts.words
      rw [hw, hinv.tts_words, hn]
    · intro x hx
      simp only [List.mem_singleton] at hx
      rw [hx]
      show kc_tt_ok g.funcs.words t
      rw [hw, ← k1]; exact k2 t htm
    · intro i hi1 hi2
      show kc_tt_indep t i
      have hi3 : i < max n 6 := by rw [← hn]; exact hi2
      exact k3 t htm i (by omega) hi1
  unfold synthesis_and_rec synthesis_xor_rec
  rw [kc_toNat_var]
  cases and_only with
  | true => exact synthesis_and_go_spec ord n _ 0 t pre
  | false => exact synthesis_xor_go_spec ord n _ 0 t pre

/-- The graph returned by `kc_top_level_call_one` has `tops` that realize the outputs. -/
theorem kc_top_level_call_one_spec (ord : kc_order) (n : Nat) (outs : kc_vt) (and_only : Bool)
    (hok : kc_outs_ok n outs) :
    ∃ g, kc_top_level_call_one ord n outs and_only = some g ∧
      kc_tops_ok n outs outs.ptr.length g := by
  unfold kc_top_level_call_one
  apply kc_foldlM_range_inv _ (kc_tops_ok n outs)
  · exact ⟨kc_gg_start_inv n outs, rfl, rfl, rfl, rfl, fun i hi => by omega⟩
  · intro j g hj hI
    have hI' := hI
    obtain ⟨hinv, hn, ho, hw, hlen, htops⟩ := hI
    have hrs : kc_vt_resize g.funcs 0 = some { words := g.funcs.words, ptr := [] } := by
      unfold kc_vt_resize; simp
    have ht : outs.ptr[j]? = some outs.ptr[j] := List.getElem?_eq_getElem hj
    have hmv : kc_vt_move { words := g.funcs.words, ptr := [] } g.outs j
        = some { words := g.funcs.words, ptr := [outs.ptr[j]] } := by
      unfold kc_vt_move kc_vt_read kc_vt_push
      rw [ho, ht]
      simp only [List.nil_append]
      rw [if_pos (by rw [hw, hok.1])]
    obtain ⟨g', r, e1, e2, e3, e4, e5⟩ := kc_top_level_step ord n outs and_only hok j g hI' _ ht
    simp only [hrs, hmv]
    rw [e1]
    simp only
    refine ⟨_, rfl, kc_gg_inv_congr g' _ e2 rfl rfl rfl rfl rfl, ?_, ?_, ?_, ?_, ?_⟩
    · show g'.nins = n
      rw [e3.1]; exact hn
    · show g'.outs = outs
      rw [e3.2.2.1]; exact ho
    · show g'.funcs.words = kc_truth_word_num n
      rw [e3.2.2.2.2.1]; exact hw
    · show (g'.tops ++ [(r : Int)]).length = j + 1
      rw [List.length_append, e3.2.2.2.1]
      show g.tops.length + 1 = j + 1
      rw [hlen]
    · intro i hi
      have htp : g'.tops = g.tops := e3.2.2.2.1
      by_cases hij : i < j
      · obtain ⟨top, p1, p2, p3⟩ := htops i hij
        refine ⟨top, ?_, kc_gg_ext_lt _ g' e3 top p2, ?_⟩
        · show (g'.tops ++ [(r : Int)])[i]? = some (top : Int)
          rw [htp, List.getElem?_append_left (by omega)]; exact p1
        · rw [p3]
          congr 1
          exact (kc_gg_ext_tt_inv _ g' (kc_gg_inv_funcs g _ hinv) e3 top p2).symm
      · have hij' : i = j := by omega
        subst hij'
        refine ⟨r, ?_, e4, ?_⟩
        · show (g'.tops ++ [(r : Int)])[i]? = some (r : Int)
          rw [htp, List.getElem?_append_right (by omega), hlen]; simp
        · rw [ht]
          congr 1
          exact e5.symm

/-! ## Correctness of synthesis -/

/-- Claim C1: AND-only synthesis is correct.  For 1 to 16 inputs and output
tables of the word count of `n` variables that depend on the variables
`0 .. n-1` only, `kc_top_level_call_one` with `and_only = 1` returns a graph
with one entry of `tops` per output, and the table of the literal `tops[i]`
equals the output table `i` in every word. -/
theorem kc_and_synthesis_correct (ord : kc_order) (n : Nat) (outs : kc_vt) (_hn1 : 1 ≤ n)
    (_hn2 : n ≤ 16) (hok : kc_outs_ok n outs) :
    ∃ g, kc_top_level_call_one ord n outs true = some g ∧
      g.tops.length = kc_vt_size outs ∧
      ∀ i, i < kc_vt_size outs → ∃ (top : Nat) (t : List Nat),
        g.tops[i]? = some (top : Int) ∧ kc_vt_read outs i = some t ∧
        kc_vt_read g.tts top = some t := by
  obtain ⟨g, h1, hinv, _, _, _, hlen, htops⟩ := kc_top_level_call_one_spec ord n outs true hok
  refine ⟨g, h1, hlen, ?_⟩
  intro i hi
  obtain ⟨top, p1, p2, p3⟩ := htops i hi
  exact ⟨top, _, p1, p3, kc_gg_tt_read g hinv top p2⟩

/-- Instance of claim C1: the two outputs AND (`8`) and XOR (`6`) of two inputs,
both stretched to a word, for both evaluation orders of the operands. -/
theorem kc_and_synthesis_correct_witness :
    (∃ g, kc_top_level_call_one ⟨false, false⟩ 2
        ⟨1, [[0x8888888888888888], [0x6666666666666666]]⟩ true = some g ∧
      g.tops.length = kc_vt_size ⟨1, [[0x8888888888888888], [0x6666666666666666]]⟩ ∧
      ∀ i, i < kc_vt_size ⟨1, [[0x8888888888888888], [0x6666666666666666]]⟩ →
        ∃ (top : Nat) (t : List Nat), g.tops[i]? = some (top : Int) ∧
          kc_vt_read ⟨1, [[0x8888888888888888], [0x6666666666666666]]⟩ i = some t ∧
          kc_vt_read g.tts top = some t) ∧
    (∃ g, kc_top_level_call_one ⟨true, true⟩ 2
        ⟨1, [[0x8888888888888888], [0x6666666666666666]]⟩ true = some g ∧
      g.tops.length = kc_vt_size ⟨1, [[0x8888888888888888], [0x6666666666666666]]⟩ ∧
      ∀ i, i < kc_vt_size ⟨1, [[0x8888888888888888], [0x6666666666666666]]⟩ →
        ∃ (top : Nat) (t : List Nat), g.tops[i]? = some (top : Int) ∧
          kc_vt_read ⟨1, [[0x8888888888888888], [0x6666666666666666]]⟩ i = some t ∧
          kc_vt_read g.tts top = some t) :=
  ⟨kc_and_synthesis_correct ⟨false, false⟩ 2 ⟨1, [[0x8888888888888888], [0x6666666666666666]]⟩
      (by decide) (by decide) (by decide),
   kc_and_synthesis_correct ⟨true, true⟩ 2 ⟨1, [[0x8888888888888888], [0x6666666666666666]]⟩
      (by decide) (by decide) (by decide)⟩

/-- Claim C2: AND+XOR synthesis is correct.  For 1 to 16 inputs and output tables
that depend on the variables `0 .. n-1` only, `kc_top_level_call_one` with
`and_only = 0` returns a graph in which the table of `tops[i]` equals output
table `i`, and no entry of `tops` is `-1`.  More generally every call of
`synthesis_xor_rec` whose target depends on no variable above `varId` returns a
literal (never `-1`) whose table is the target, whichever of the Shannon,
positive Davio or negative Davio reconstructions it selects. -/
theorem kc_xor_synthesis_correct (ord : kc_order) (n : Nat) (outs : kc_vt) (_hn1 : 1 ≤ n)
    (_hn2 : n ≤ 16) (hok : kc_outs_ok n outs) :
    (∃ g, kc_top_level_call_one ord n outs false = some g ∧
      g.tops.length = kc_vt_size outs ∧ (∀ x, x ∈ g.tops → x ≠ -1) ∧
      ∀ i, i < kc_vt_size outs → ∃ (top : Nat) (t : List Nat),
        g.tops[i]? = some (top : Int) ∧ kc_vt_read outs i = some t ∧
        kc_vt_read g.tts top = some t) ∧
    (∀ (gg : kc_gg) (ttId k : Nat) (f : List Nat), kc_synth_pre gg k ttId f →
      ∃ (g : kc_gg) (r : Nat), synthesis_xor_rec ord gg ttId ((k : Int) - 1) = some (g, (r : Int)) ∧
        kc_vt_read g.tts r = some f) := by
  constructor
  · obtain ⟨g, h1, hinv, _, _, _, hlen, htops⟩ := kc_top_level_call_one_spec ord n outs false hok
    refine ⟨g, h1, hlen, ?_, ?_⟩
    · intro x hx
      obtain ⟨i, hi⟩ := List.mem_iff_getElem?.1 hx
      have hi2 : i < outs.ptr.length := by
        by_contra hc
        rw [List.getElem?_eq_none (by omega)] at hi
        exact Option.noConfusion hi
      obtain ⟨top, p1, _, _⟩ := htops i hi2
      rw [hi] at p1
      rw [Option.some.inj p1]
      omega
    · intro i hi
      obtain ⟨top, p1, p2, p3⟩ := htops i hi
      exact ⟨top, _, p1, p3, kc_gg_tt_read g hinv top p2⟩
  · intro gg ttId k f pre
    obtain ⟨g, r, e1, e2, _, e4, e5⟩ := synthesis_xor_go_spec ord k gg ttId f pre
    refine ⟨g, r, ?_, ?_⟩
    · unfold synthesis_xor_rec; rw [kc_toNat_var]; exact e1
    · rw [kc_gg_tt_read g e2 r e4, e5]

/-- Instance of claim C2: the two outputs AND (`8`) and XOR (`6`) of two inputs,
both stretched to a word, for both evaluation orders of the operands. -/
theorem kc_xor_synthesis_correct_witness :
    (∃ g, kc_top_level_call_one ⟨false, false⟩ 2
        ⟨1, [[0x8888888888888888], [0x6666666666666666]]⟩ false = some g ∧
      g.tops.length = kc_vt_size ⟨1, [[0x8888888888888888], [0x6666666666666666]]⟩ ∧
      (∀ x, x ∈ g.tops → x ≠ -1) ∧
      ∀ i, i < kc_vt_size ⟨1, [[0x8888888888888888], [0x6666666666666666]]⟩ →
        ∃ (top : Nat) (t : List Nat), g.tops[i]? = some (top : Int) ∧
          kc_vt_read ⟨1, [[0x8888888888888888], [0x6666666666666666]]⟩ i = some t ∧
          kc_vt_read g.tts top = some t) ∧
    (∃ g, kc_top_level_call_one ⟨true, true⟩ 2
        ⟨1, [[0x8888888888888888], [0x6666666666666666]]⟩ false = some g ∧
      g.tops.length = kc_vt_size ⟨1, [[0x8888888888888888], [0x6666666666666666]]⟩ ∧
      (∀ x, x ∈ g.tops → x ≠ -1) ∧
      ∀ i, i < kc_vt_size ⟨1, [[0x8888888888888888], [0x6666666666666666]]⟩ →
        ∃ (top : Nat) (t : List Nat), g.tops[i]? = some (top : Int) ∧
          kc_vt_read ⟨1, [[0x8888888888888888], [0x6666666666666666]]⟩ i = some t ∧
          kc_vt_read g.tts top = some t) :=
  ⟨(kc_xor_synthesis_correct ⟨false, false⟩ 2
      ⟨1, [[0x8888888888888888], [0x6666666666666666]]⟩ (by decide) (by decide) (by decide)).1,
   (kc_xor_synthesis_correct ⟨true, true⟩ 2
      ⟨1, [[0x8888888888888888], [0x6666666666666666]]⟩ (by decide) (by decide) (by decide)).1⟩

/-! ## Exchanging two bits of a minterm index -/

theorem kc_put_bit_bits (m i : Nat) (b : Bool) (k : Nat) :
    (kc_put_bit m i b).testBit k = if k = i then b else m.testBit k := by
  unfold kc_put_bit
  cases b
  · simp only [Bool.false_eq_true, if_false, kc_clear_bit_bits]
    by_cases h : k = i <;> simp [h]
  · simp only [if_true, kc_set_bit_bits]
    by_cases h : k = i <;> simp [h]

theorem kc_swap_bits_bits (m i j k : Nat) :
    (kc_swap_bits m i j).testBit k
      = m.testBit (if k = i then j else if k = j then i else k) := by
  unfold kc_swap_bits
  rw [kc_put_bit_bits, kc_put_bit_bits]
  by_cases h1 : k = j
  · subst h1
    by_cases h2 : k = i
    · subst h2; simp
    · simp [h2]
  · by_cases h2 : k = i
    · subst h2; simp [h1]
    · simp [h1, h2]

theorem kc_swap_bits_self (m i : Nat) : kc_swap_bits m i i = m := by
  apply Nat.eq_of_testBit_eq; intro k
  rw [kc_swap_bits_bits]
  by_cases h : k = i
  · subst h; simp
  · simp [h]

theorem kc_swap_bits_comm (m i j : Nat) : kc_swap_bits m i j = kc_swap_bits m j i := by
  apply Nat.eq_of_testBit_eq; intro k
  rw [kc_swap_bits_bits, kc_swap_bits_bits]
  by_cases h1 : k = i
  · subst h1
    by_cases h2 : k = j
    · subst h2; simp
    · simp [h2]
  · by_cases h2 : k = j
    · subst h2; simp [h1]
    · simp [h1, h2]

theorem kc_swap_bits_swap (m i j : Nat) : kc_swap_bits (kc_swap_bits m i j) i j = m := by
  apply Nat.eq_of_testBit_eq; intro k
  rw [kc_swap_bits_bits, kc_swap_bits_bits]
  by_cases h1 : k = i
  · subst h1
    by_cases h2 : k = j
    · subst h2; simp
    · have h3 : ¬ j = k := fun h => h2 h.symm
      simp [h2, h3]
  · by_cases h2 : k = j
    · subst h2
      have h3 : ¬ i = k := fun h => h1 h.symm
      simp [h1, h3]
    · simp [h1, h2]

theorem kc_swap_bits_lt (m i j N : Nat) (hm : m < 2 ^ N) (hi : i < N) (hj : j < N) :
    kc_swap_bits m i j < 2 ^ N := by
  apply Nat.lt_pow_two_of_testBit
  intro k hk
  rw [kc_swap_bits_bits]
  have h1 : ¬ k = i := by omega
  have h2 : ¬ k = j := by omega
  rw [if_neg h1, if_neg h2]
  exact Nat.testBit_lt_two_pow (Nat.lt_of_lt_of_le hm (Nat.pow_le_pow_right (by norm_num) hk))

/-- A minterm index is determined by its word index and its position in the word. -/
theorem kc_split_ext (a w c : Nat) (hc : c < 64)
    (h : ∀ k, a.testBit k = if k < 6 then c.testBit k else w.testBit (k - 6)) :
    a / 64 = w ∧ a % 64 = c := by
  have e : a = 2 ^ 6 * w + c := by
    apply Nat.eq_of_testBit_eq; intro k
    rw [h k, Nat.testBit_mul_pow_two_add w (by simpa using hc) k]
  norm_num at e
  omega

theorem kc_put_bit_lt (m i N : Nat) (b : Bool) (hm : m < 2 ^ N) (hi : i < N) :
    kc_put_bit m i b < 2 ^ N := by
  apply Nat.lt_pow_two_of_testBit
  intro k hk
  rw [kc_put_bit_bits]
  have h1 : ¬ k = i := by omega
  rw [if_neg h1]
  exact Nat.testBit_lt_two_pow (Nat.lt_of_lt_of_le hm (Nat.pow_le_pow_right (by norm_num) hk))

/-- Exchange of two variables inside the word: the word index stays. -/
theorem kc_swap_split_low (m i j : Nat) (hi : i < 6) (hj : j < 6) :
    kc_swap_bits m i j / 64 = m / 64 ∧ kc_swap_bits m i j % 64 = kc_swap_bits (m % 64) i j := by
  have hc : m % 64 < 2 ^ 6 := Nat.mod_lt _ (by norm_num)
  apply kc_split_ext _ _ _ (kc_swap_bits_lt _ i j 6 hc hi hj)
  intro k
  rw [kc_swap_bits_bits, kc_swap_bits_bits, kc_testBit_split m]
  by_cases hk : k < 6
  · have h2 : (if k = i then j else if k = j then i else k) < 6 := by split_ifs <;> omega
    rw [if_pos h2, if_pos hk]
  · have h1 : ¬ k = i := by omega
    have h2 : ¬ k = j := by omega
    rw [if_neg h1, if_neg h2, if_neg hk]

/-- Exchange of a variable inside the word with one outside: the position in the
word receives the bit of the word index and the word index that of the
position. -/
theorem kc_swap_split_mixed (m i j : Nat) (hi : i < 6) (hj : 6 ≤ j) :
    kc_swap_bits m i j / 64 = kc_put_bit (m / 64) (j - 6) ((m % 64).testBit i) ∧
    kc_swap_bits m i j % 64 = kc_put_bit (m % 64) i ((m / 64).testBit (j - 6)) := by
  have hc : m % 64 < 2 ^ 6 := Nat.mod_lt _ (by norm_num)
  apply kc_split_ext _ _ _ (kc_put_bit_lt _ i 6 _ hc hi)
  intro k
  rw [kc_swap_bits_bits, kc_put_bit_bits, kc_put_bit_bits]
  by_cases hk : k < 6
  · rw [if_pos hk]
    have h2 : ¬ k = j := by omega
    by_cases h1 : k = i
    · subst h1
      rw [if_pos rfl, if_pos rfl, kc_testBit_split m j, if_neg (by omega)]
    · rw [if_neg h1, if_neg h2, if_neg h1, kc_testBit_split m k, if_pos hk]
  · rw [if_neg hk]
    have h1 : ¬ k = i := by omega
    rw [if_neg h1]
    by_cases h2 : k = j
    · subst h2
      rw [if_pos rfl, if_pos rfl, kc_testBit_split m i, if_pos hi]
    · have h3 : ¬ k - 6 = j - 6 := by omega
      rw [if_neg h2, if_neg h3, kc_testBit_split m k, if_neg hk]

/-- Exchange of two variables outside the word: the position in the word stays. -/
theorem kc_swap_split_high (m i j : Nat) (hi : 6 ≤ i) (hj : 6 ≤ j) :
    kc_swap_bits m i j / 64 = kc_swap_bits (m / 64) (i - 6) (j - 6) ∧
    kc_swap_bits m i j % 64 = m % 64 := by
  apply kc_split_ext _ _ _ (Nat.mod_lt _ (by norm_num))
  intro k
  rw [kc_swap_bits_bits, kc_swap_bits_bits]
  by_cases hk : k < 6
  · have h1 : ¬ k = i := by omega
    have h2 : ¬ k = j := by omega
    rw [if_neg h1, if_neg h2, if_pos hk, kc_testBit_split m k, if_pos hk]
  · rw [if_neg hk]
    by_cases h1 : k = i
    · subst h1
      rw [if_pos rfl, if_pos rfl, kc_testBit_split m j, if_neg (by omega)]
    · have h1' : ¬ k - 6 = i - 6 := by omega
      rw [if_neg h1, if_neg h1']
      by_cases h2 : k = j
      · subst h2
        rw [if_pos rfl, if_pos rfl, kc_testBit_split m i, if_neg (by omega)]
      · have h2' : ¬ k - 6 = j - 6 := by omega
        rw [if_neg h2, if_neg h2', kc_testBit_split m k, if_neg hk]

/-! ## Exchange of two variables inside a word -/

set_option maxRecDepth 1000000 in
theorem kc_pp_mask_facts (i j c : Nat) (hij : i < j) (hj : j < 6) (hc : c < 64) :
    kc_pp_split i j c := by
  have h : ∀ j, j < 6 → ∀ i, i < j → ∀ c, c < 64 → kc_pp_split i j c := by decide
  exact h j hj i hij c hc

theorem kc_pp_mask_lt (i j k : Nat) (hij : i < j) (hj : j < 6) (hk : k < 3) :
    kc_pp_mask i j k < 2 ^ 64 := by
  have h : ∀ j, j < 6 → ∀ i, i < j → ∀ k, k < 3 → kc_pp_mask i j k < 2 ^ 64 := by decide
  exact h j hj i hij k hk

/-- Word of the exchange of two variables inside the word: bit `c` is the bit of
`x` at `c` with bits `i` and `j` exchanged. -/
theorem kc_swap_word (x i j c : Nat) (hij : i < j) (hj : j < 6) (hc : c < 64) :
    ((x &&& kc_pp_mask i j 0) ||| kc_shl (x &&& kc_pp_mask i j 1) ((1 <<< j) - (1 <<< i))
        ||| ((x &&& kc_pp_mask i j 2) >>> ((1 <<< j) - (1 <<< i)))).testBit c
      = x.testBit (kc_swap_bits c i j) := by
  unfold kc_shl
  rw [Nat.one_shiftLeft, Nat.one_shiftLeft, Nat.testBit_or, Nat.testBit_or,
    Nat.testBit_mod_two_pow, Nat.testBit_shiftLeft, Nat.testBit_shiftRight,
    Nat.testBit_and, Nat.testBit_and, Nat.testBit_and]
  rcases kc_pp_mask_facts i j c hij hj hc with ⟨a0, a1, a2, e⟩ | ⟨a0, a1, a2, e⟩ | ⟨a0, a1, a2, e⟩
  · rw [e, a0, a2]
    simp only [Bool.and_eq_false_imp, decide_eq_true_eq] at a1
    by_cases hs : 2 ^ j - 2 ^ i ≤ c
    · simp [a1 hs, hc]
    · simp [hs, hc]
  · rw [e, a0, a2]
    simp only [Bool.and_eq_true, decide_eq_true_eq] at a1
    simp [a1.1, a1.2, hc]
  · rw [e, a0, a2]
    simp only [Bool.and_eq_false_imp, decide_eq_true_eq] at a1
    by_cases hs : 2 ^ j - 2 ^ i ≤ c
    · simp [a1 hs, hc]
    · simp [hs, hc]

/-! ## Loops that update pairs of words in place -/

theorem kc_getD_set_ne (t : List Nat) (a b x : Nat) (h : a ≠ b) :
    (t.set a x).getD b 0 = t.getD b 0 := by
  rw [List.getD_eq_getElem?_getD, List.getD_eq_getElem?_getD, List.getElem?_set_ne h]

theorem kc_getD_set_self (t : List Nat) (a x : Nat) (h : a < t.length) :
    (t.set a x).getD a 0 = x := by
  rw [List.getD_eq_getElem?_getD, List.getElem?_set_self h]; rfl

/-- A loop whose turn `k` replaces the words at `p k` and `q k` by functions of
these two words, with the pairs of different turns disjoint, computes every pair
from the words before the loop and leaves the other words alone. -/
theorem kc_fold_pairs (f : List Nat → Nat → Option (List Nat)) (p q : Nat → Nat)
    (F G : Nat → Nat → Nat) (W : Nat) (idx : List Nat)
    (hf : ∀ t k, t.length = W → k ∈ idx →
      f t k = some ((t.set (p k) (F (t.getD (p k) 0) (t.getD (q k) 0))).set (q k)
        (G (t.getD (p k) 0) (t.getD (q k) 0))))
    (hlt : ∀ k, k ∈ idx → p k < W ∧ q k < W ∧ p k ≠ q k)
    (hdis : idx.Pairwise (fun k k' => p k ≠ p k' ∧ p k ≠ q k' ∧ q k ≠ p k' ∧ q k ≠ q k'))
    (t : List Nat) (ht : t.length = W) :
    ∃ r, idx.foldlM f t = some r ∧ r.length = W ∧
      (∀ k, k ∈ idx → r.getD (p k) 0 = F (t.getD (p k) 0) (t.getD (q k) 0) ∧
        r.getD (q k) 0 = G (t.getD (p k) 0) (t.getD (q k) 0)) ∧
      (∀ w, (∀ k, k ∈ idx → w ≠ p k ∧ w ≠ q k) → r.getD w 0 = t.getD w 0) := by
  induction idx generalizing t with
  | nil => exact ⟨t, rfl, ht, fun k hk => by simp at hk, fun w _ => rfl⟩
  | cons k rest ih =>
    obtain ⟨hk1, hk2, hk3⟩ := hlt k (List.mem_cons_self _ _)
    rw [List.pairwise_cons] at hdis
    obtain ⟨hd1, hd2⟩ := hdis
    have hstep := hf t k ht (List.mem_cons_self _ _)
    generalize ht1 : (t.set (p k) (F (t.getD (p k) 0) (t.getD (q k) 0))).set (q k)
        (G (t.getD (p k) 0) (t.getD (q k) 0)) = t1 at hstep
    have hl1 : t1.length = W := by rw [← ht1]; simp [ht]
    have hp1 : t1.getD (p k) 0 = F (t.getD (p k) 0) (t.getD (q k) 0) := by
      rw [← ht1, kc_getD_set_ne _ _ _ _ (Ne.symm hk3), kc_getD_set_self _ _ _ (by omega)]
    have hq1 : t1.getD (q k) 0 = G (t.getD (p k) 0) (t.getD (q k) 0) := by
      rw [← ht1, kc_getD_set_self _ _ _ (by rw [List.length_set]; omega)]
    have hother : ∀ w, w ≠ p k → w ≠ q k → t1.getD w 0 = t.getD w 0 := by
      intro w h1 h2
      rw [← ht1, kc_getD_set_ne _ _ _ _ (Ne.symm h2), kc_getD_set_ne _ _ _ _ (Ne.symm h1)]
    obtain ⟨r, hr1, hr2, hr3, hr4⟩ := ih
      (fun t k hl hk => hf t k hl (List.mem_cons_of_mem _ hk))
      (fun k hk => hlt k (List.mem_cons_of_mem _ hk)) hd2 t1 hl1
    refine ⟨r, ?_, hr2, ?_, ?_⟩
    · rw [List.foldlM_cons, hstep]; exact hr1
    · intro k' hk'
      rcases List.mem_cons.1 hk' with h | h
      · subst h
        rw [hr4 (p k') (fun x hx => ⟨(hd1 x hx).1, (hd1 x hx).2.1⟩),
          hr4 (q k') (fun x hx => ⟨(hd1 x hx).2.2.1, (hd1 x hx).2.2.2⟩)]
        exact ⟨hp1, hq1⟩
      · obtain ⟨a1, a2, a3, a4⟩ := hd1 k' h
        obtain ⟨b1, b2⟩ := hr3 k' h
        rw [hother (p k') (Ne.symm a1) (Ne.symm a3), hother (q k') (Ne.symm a2) (Ne.symm a4)] at b1 b2
        exact ⟨b1, b2⟩
    · intro w hw
      obtain ⟨w1, w2⟩ := hw k (List.mem_cons_self _ _)
      rw [hr4 w (fun x hx => hw x (List.mem_cons_of_mem _ hx)), hother w w1 w2]

/-- The word indices of the double loop come in increasing order. -/
theorem kc_block_index_sorted (W S : Nat) : (kc_block_index W S).Pairwise (· < ·) := by
  unfold kc_block_index
  rw [List.pairwise_flatMap]
  constructor
  · intro b _
    rw [List.pairwise_map]
    exact (List.pairwise_lt_range S).imp (fun h => by omega)
  · apply (List.pairwise_lt_range _).imp
    intro b1 b2 hb x hx y hy
    rw [List.mem_map] at hx hy
    obtain ⟨i1, hi1, rfl⟩ := hx
    obtain ⟨i2, _, rfl⟩ := hy
    rw [List.mem_range] at hi1
    have : 2 * S * (b1 + 1) ≤ 2 * S * b2 := Nat.mul_le_mul_left _ hb
    rw [Nat.mul_add, Nat.mul_one] at this
    omega

theorem kc_lt_of_bit_clear (x n : Nat) (hx : x < 2 ^ (n + 1)) (hb : x.testBit n = false) :
    x < 2 ^ n := by
  apply Nat.lt_pow_two_of_testBit
  intro i hi
  by_cases h : i = n
  · subst h; exact hb
  · exact Nat.testBit_lt_two_pow
      (Nat.lt_of_lt_of_le hx (Nat.pow_le_pow_right (by norm_num) (by omega)))

/-- With `2 ^ (ej + 1)` dividing the word count, the loops for two variables
outside the word visit exactly the offsets below the word count whose bits `ei`
and `ej` are clear. -/
theorem kc_swap_index_mem_pow (d ei ej k : Nat) (h1 : ei < ej) (h2 : ej < d) :
    k ∈ kc_swap_index (2 ^ d) (2 ^ ei) (2 ^ ej) ↔
      k < 2 ^ d ∧ k.testBit ei = false ∧ k.testBit ej = false := by
  unfold kc_swap_index
  obtain ⟨c1, c2⟩ := kc_block_count d ej h2
  simp only [List.mem_flatMap, List.mem_range, List.mem_map, c1, kc_block_index_mem_pow ej ei _ h1]
  have hp : 2 * 2 ^ ej = 2 ^ (ej + 1) := by rw [Nat.pow_succ]; omega
  rw [hp] at c2 ⊢
  constructor
  · rintro ⟨b, hb, k0, ⟨hk0, hbit⟩, rfl⟩
    have hk1 : k0 < 2 ^ (ej + 1) := by rw [← hp]; omega
    refine ⟨?_, ?_, ?_⟩
    · have : 2 ^ (ej + 1) * (b + 1) ≤ 2 ^ (ej + 1) * 2 ^ (d - ej - 1) := Nat.mul_le_mul_left _ hb
      rw [Nat.mul_add, Nat.mul_one] at this
      omega
    · rw [Nat.testBit_mul_pow_two_add b hk1, if_pos (by omega)]; exact hbit
    · rw [Nat.testBit_mul_pow_two_add b hk1, if_pos (by omega)]
      exact Nat.testBit_lt_two_pow hk0
  · rintro ⟨hk, hb1, hb2⟩
    have hpos : 0 < 2 ^ (ej + 1) := Nat.two_pow_pos _
    refine ⟨k / 2 ^ (ej + 1), ?_, k % 2 ^ (ej + 1), ⟨?_, ?_⟩, ?_⟩
    · rw [Nat.div_lt_iff_lt_mul hpos, Nat.mul_comm]; rw [← c2]; exact hk
    · apply kc_lt_of_bit_clear _ _ (Nat.mod_lt _ hpos)
      rw [Nat.testBit_mod_two_pow, hb2]; simp
    · rw [Nat.testBit_mod_two_pow, hb1]; simp
    · exact Nat.div_add_mod k _

theorem kc_swap_index_sorted (d ei ej : Nat) (h1 : ei < ej) :
    (kc_swap_index (2 ^ d) (2 ^ ei) (2 ^ ej)).Pairwise (· < ·) := by
  unfold kc_swap_index
  rw [List.pairwise_flatMap]
  constructor
  · intro b _
    rw [List.pairwise_map]
    exact (kc_block_index_sorted _ _).imp (fun h => by omega)
  · apply (List.pairwise_lt_range _).imp
    intro b1 b2 hb x hx y hy
    rw [List.mem_map] at hx hy
    obtain ⟨i1, hi1, rfl⟩ := hx
    obtain ⟨i2, _, rfl⟩ := hy
    have := ((kc_block_index_mem_pow ej ei i1 h1).1 hi1).1
    have : 2 * 2 ^ ej * (b1 + 1) ≤ 2 * 2 ^ ej * b2 := Nat.mul_le_mul_left _ hb
    rw [Nat.mul_add, Nat.mul_one] at this
    omega

/-- Adding `2 ^ e` to an index whose bit `e` is clear sets that bit. -/
theorem kc_pow_add_bits (k e x : Nat) (hk : k.testBit e = false) :
    (2 ^ e + k).testBit x = (k.testBit x || decide (x = e)) := by
  rw [Nat.add_comm]; exact kc_add_pow_testBit k e x hk

theorem kc_pow_add_lt (k e d : Nat) (hk : k < 2 ^ d) (he : e < d) (hb : k.testBit e = false) :
    2 ^ e + k < 2 ^ d := by
  apply Nat.lt_pow_two_of_testBit
  intro x hx
  rw [kc_pow_add_bits k e x hb,
    Nat.testBit_lt_two_pow (Nat.lt_of_lt_of_le hk (Nat.pow_le_pow_right (by norm_num) hx))]
  have : ¬ x = e := by omega
  simp [this]

theorem kc_put_clear_set (w e f : Nat) (h1 : w.testBit e = true) (h2 : w.testBit f = false) :
    kc_swap_bits w e f = 2 ^ f + (w - 2 ^ e) ∧ (w - 2 ^ e).testBit e = false ∧
      (w - 2 ^ e).testBit f = false ∧ 2 ^ e + (w - 2 ^ e) = w := by
  have hne : e ≠ f := by intro h; subst h; rw [h1] at h2; exact Bool.noConfusion h2
  have hc : kc_clear_bit w e = w - 2 ^ e := by unfold kc_clear_bit; rw [if_pos h1]
  have hb1 := kc_clear_bit_testBit w e
  have hb2 : (kc_clear_bit w e).testBit f = false := by
    rw [kc_clear_bit_bits, h2]; rfl
  rw [hc] at hb1 hb2
  refine ⟨?_, hb1, hb2, ?_⟩
  · unfold kc_swap_bits kc_put_bit
    simp only [h1, h2, if_true, Bool.false_eq_true, if_false]
    rw [hc]
    unfold kc_set_bit
    rw [if_neg (by rw [hb2]; exact Bool.false_ne_true)]
    exact Nat.add_comm _ _
  · have := kc_testBit_ge w e h1
    omega

/-- The loops of `kc_vt_swap_vars` for two variables outside the word: word `w`
of the result is the word of the source whose index is `w` with bits `ei` and
`ej` exchanged. -/
theorem kc_swap_high_loop (d ei ej : Nat) (h1 : ei < ej) (h2 : ej < d) (tt : List Nat)
    (htt : kc_tt_ok (2 ^ d) tt) :
    ∃ r, (kc_swap_index (2 ^ d) (2 ^ ei) (2 ^ ej)).foldlM (fun t k =>
          (t[2 ^ ei + k]?).bind (fun a =>
            (t[2 ^ ej + k]?).bind (fun b =>
              (kc_write t (2 ^ ei + k) b).bind (fun t1 =>
                kc_write t1 (2 ^ ej + k) a)))) tt = some r ∧
      r.length = 2 ^ d ∧
      ∀ w, w < 2 ^ d → r.getD w 0 = tt.getD (kc_swap_bits w ei ej) 0 := by
  have hmem := fun k => kc_swap_index_mem_pow d ei ej k h1 h2
  have hne : ei ≠ ej := by omega
  have hlt : ∀ k, k ∈ kc_swap_index (2 ^ d) (2 ^ ei) (2 ^ ej) →
      2 ^ ei + k < 2 ^ d ∧ 2 ^ ej + k < 2 ^ d ∧ 2 ^ ei + k ≠ 2 ^ ej + k := by
    intro k hk
    obtain ⟨a1, a2, a3⟩ := (hmem k).1 hk
    refine ⟨kc_pow_add_lt k ei d a1 (by omega) a2, kc_pow_add_lt k ej d a1 h2 a3, ?_⟩
    intro h
    have := congrArg (fun y => Nat.testBit y ei) h
    simp only [kc_pow_add_bits k ei ei a2, kc_pow_add_bits k ej ei a3, a2] at this
    simp [hne] at this
  obtain ⟨r, hr1, hr2, hr3, hr4⟩ := kc_fold_pairs (fun t k =>
          (t[2 ^ ei + k]?).bind (fun a =>
            (t[2 ^ ej + k]?).bind (fun b =>
              (kc_write t (2 ^ ei + k) b).bind (fun t1 =>
                kc_write t1 (2 ^ ej + k) a))))
      (fun k => 2 ^ ei + k) (fun k => 2 ^ ej + k) (fun _ b => b) (fun a _ => a) (2 ^ d)
      (kc_swap_index (2 ^ d) (2 ^ ei) (2 ^ ej))
      (by
        intro t k hl hk
        obtain ⟨b1, b2, _⟩ := hlt k hk
        have c1 : 2 ^ ei + k < t.length := by omega
        have c2 : 2 ^ ej + k < t.length := by omega
        simp only [List.getElem?_eq_getElem c1, List.getElem?_eq_getElem c2, Option.some_bind,
          kc_write, if_pos c1, List.length_set, if_pos c2, List.getD_eq_getElem?_getD,
          Option.getD_some])
      hlt
      (by
        apply (kc_swap_index_sorted d ei ej h1).imp_of_mem
        intro a b ha hb hab
        obtain ⟨_, a2, a3⟩ := (hmem a).1 ha
        obtain ⟨_, b2, b3⟩ := (hmem b).1 hb
        refine ⟨by beta_reduce; omega, ?_, ?_, by beta_reduce; omega⟩
        · intro h
          have := congrArg (fun y => Nat.testBit y ei) h
          simp only [kc_pow_add_bits a ei ei a2, kc_pow_add_bits b ej ei b3, b2] at this
          simp [hne] at this
        · intro h
          have := congrArg (fun y => Nat.testBit y ei) h
          simp only [kc_pow_add_bits a ej ei a3, kc_pow_add_bits b ei ei b2, a2] at this
          simp [hne] at this)
      tt htt.1
  refine ⟨r, hr1, hr2, ?_⟩
  intro w hw
  by_cases hb1 : w.testBit ei = true
  · by_cases hb2 : w.testBit ej = true
    · have hs : kc_swap_bits w ei ej = w := by
        apply Nat.eq_of_testBit_eq; intro x
        rw [kc_swap_bits_bits]
        by_cases x1 : x = ei
        · subst x1; rw [if_pos rfl, hb1, hb2]
        · by_cases x2 : x = ej
          · subst x2; rw [if_neg x1, if_pos rfl, hb1, hb2]
          · rw [if_neg x1, if_neg x2]
      rw [hs]
      apply hr4
      intro k hk
      obtain ⟨_, a2, a3⟩ := (hmem k).1 hk
      constructor
      · intro h
        have := congrArg (fun y => Nat.testBit y ej) h
        simp only [kc_pow_add_bits k ei ej a2, hb2, a3] at this
        simp [Ne.symm hne] at this
      · intro h
        have := congrArg (fun y => Nat.testBit y ei) h
        simp only [kc_pow_add_bits k ej ei a3, hb1, a2] at this
        simp [hne] at this
    · have hb2' : w.testBit ej = false := by simpa using hb2
      obtain ⟨e1, e2, e3, e4⟩ := kc_put_clear_set w ei ej hb1 hb2'
      have hk : w - 2 ^ ei ∈ kc_swap_index (2 ^ d) (2 ^ ei) (2 ^ ej) :=
        (hmem _).2 ⟨Nat.lt_of_le_of_lt (Nat.sub_le _ _) hw, e2, e3⟩
      have := (hr3 _ hk).1
      simp only [e4] at this
      rw [this, e1]
  · have hb1' : w.testBit ei = false := by simpa using hb1
    by_cases hb2 : w.testBit ej = true
    · obtain ⟨e1, e2, e3, e4⟩ := kc_put_clear_set w ej ei hb2 hb1'
      have hk : w - 2 ^ ej ∈ kc_swap_index (2 ^ d) (2 ^ ei) (2 ^ ej) :=
        (hmem _).2 ⟨Nat.lt_of_le_of_lt (Nat.sub_le _ _) hw, e3, e2⟩
      have := (hr3 _ hk).2
      simp only [e4] at this
      rw [this, kc_swap_bits_comm, e1]
    · have hb2' : w.testBit ej = false := by simpa using hb2
      have hs : kc_swap_bits w ei ej = w := by
        apply Nat.eq_of_testBit_eq; intro x
        rw [kc_swap_bits_bits]
        by_cases x1 : x = ei
        · subst x1; rw [if_pos rfl, hb1', hb2']
        · by_cases x2 : x = ej
          · subst x2; rw [if_neg x1, if_pos rfl, hb1', hb2']
          · rw [if_neg x1, if_neg x2]
      rw [hs]
      apply hr4
      intro k hk
      obtain ⟨_, a2, a3⟩ := (hmem k).1 hk
      constructor
      · intro h
        have := congrArg (fun y => Nat.testBit y ei) h
        simp only [kc_pow_add_bits k ei ei a2, hb1'] at this
        simp at this
      · intro h
        have := congrArg (fun y => Nat.testBit y ej) h
        simp only [kc_pow_add_bits k ej ej a3, hb2'] at this
        simp at this

/-! ## Exchange of a variable inside the word with one outside -/

/-- Low word of a pair: the positions with bit `i` set receive the bits of the
high word from `2 ^ i` below. -/
theorem kc_swap_lo_word (lo hi i c : Nat) (hi6 : i < 6) (hc : c < 64) :
    ((lo &&& kc_not (s_Truths6.getD i 0))
        ||| (kc_shl hi (1 <<< i) &&& s_Truths6.getD i 0)).testBit c
      = if c.testBit i = true then hi.testBit (kc_clear_bit c i) else lo.testBit c := by
  unfold kc_shl kc_clear_bit
  rw [Nat.one_shiftLeft, Nat.testBit_or, Nat.testBit_and, Nat.testBit_and,
    kc_not_testBit _ (s_Truths6_lt i), Nat.testBit_mod_two_pow, Nat.testBit_shiftLeft,
    s_Truths6_testBit i hi6]
  obtain ⟨h1, h2⟩ := kc_bit_pos_facts i hi6 c hc
  by_cases hb : c.testBit i = true
  · obtain ⟨h3, _⟩ := h1 hb
    simp [hb, hc, h3]
  · have hb2 : c.testBit i = false := by simpa using hb
    simp [hb2, hc]

/-- High word of a pair: the positions with bit `i` clear receive the bits of the
low word from `2 ^ i` above. -/
theorem kc_swap_hi_word (lo hi i c : Nat) (hi6 : i < 6) (hc : c < 64) :
    ((hi &&& s_Truths6.getD i 0)
        ||| ((lo &&& s_Truths6.getD i 0) >>> (1 <<< i))).testBit c
      = if c.testBit i = true then hi.testBit c else lo.testBit (kc_set_bit c i) := by
  unfold kc_set_bit
  rw [Nat.one_shiftLeft, Nat.testBit_or, Nat.testBit_and, Nat.testBit_shiftRight,
    Nat.testBit_and, s_Truths6_testBit i hi6, s_Truths6_testBit i hi6]
  obtain ⟨h1, h2⟩ := kc_bit_pos_facts i hi6 c hc
  by_cases hb : c.testBit i = true
  · have h3 : (2 ^ i + c).testBit i = false := by
      rw [Nat.testBit_two_pow_add_eq, hb]; rfl
    simp [hb, hc, h3]
  · have hb2 : c.testBit i = false := by simpa using hb
    obtain ⟨h4, h5, _⟩ := h2 hb2
    rw [Nat.add_comm] at h4 h5
    simp only [hb2, hc, h4, h5, decide_True, Bool.true_and, Bool.and_false, Bool.false_or,
      Bool.and_true, Bool.false_eq_true, if_false]
    rw [Nat.add_comm]

/-- The loop of `kc_vt_swap_vars` for a variable `i` inside the word and a
variable outside it (bit `e` of the word index): bit `c` of word `w` of the
result is the bit of the source at the word index `w` with bit `e` replaced by
bit `i` of `c` and the position `c` with bit `i` replaced by bit `e` of `w`. -/
theorem kc_swap_mixed_loop (d e i : Nat) (he : e < d) (hi6 : i < 6) (tt : List Nat)
    (htt : kc_tt_ok (2 ^ d) tt) :
    ∃ r, (kc_block_index (2 ^ d) (2 ^ e)).foldlM (fun t k =>
          (t[k]?).bind (fun lo =>
            (t[k + 2 ^ e]?).bind (fun hi =>
              (kc_write t k ((lo &&& kc_not (s_Truths6.getD i 0))
                  ||| (kc_shl hi (1 <<< i) &&& s_Truths6.getD i 0))).bind (fun t1 =>
                (t1[k + 2 ^ e]?).bind (fun hi1 =>
                  kc_write t1 (k + 2 ^ e) ((hi1 &&& s_Truths6.getD i 0)
                    ||| ((lo &&& s_Truths6.getD i 0) >>> (1 <<< i)))))))) tt = some r ∧
      kc_tt_ok (2 ^ d) r ∧
      ∀ w, w < 2 ^ d → ∀ c, c < 64 → (r.getD w 0).testBit c
        = (tt.getD (kc_put_bit w e (c.testBit i)) 0).testBit (kc_put_bit c i (w.testBit e)) := by
  have hpos := Nat.two_pow_pos e
  have hmem := fun k => kc_block_index_mem_pow d e k he
  have hlt : ∀ k, k ∈ kc_block_index (2 ^ d) (2 ^ e) →
      k < 2 ^ d ∧ k + 2 ^ e < 2 ^ d ∧ k ≠ k + 2 ^ e := by
    intro k hk
    have := kc_block_index_add_lt d e k he hk
    exact ⟨by omega, this, by omega⟩
  have hbit : ∀ k, k.testBit e = false → (k + 2 ^ e).testBit e = true := by
    intro k hk
    rw [kc_add_pow_testBit k e e hk]; simp
  obtain ⟨r, hr1, hr2, hr3, hr4⟩ := kc_fold_pairs (fun t k =>
          (t[k]?).bind (fun lo =>
            (t[k + 2 ^ e]?).bind (fun hi =>
              (kc_write t k ((lo &&& kc_not (s_Truths6.getD i 0))
                  ||| (kc_shl hi (1 <<< i) &&& s_Truths6.getD i 0))).bind (fun t1 =>
                (t1[k + 2 ^ e]?).bind (fun hi1 =>
                  kc_write t1 (k + 2 ^ e) ((hi1 &&& s_Truths6.getD i 0)
                    ||| ((lo &&& s_Truths6.getD i 0) >>> (1 <<< i))))))))
      (fun k => k) (fun k => k + 2 ^ e)
      (fun lo hi => (lo &&& kc_not (s_Truths6.getD i 0))
                  ||| (kc_shl hi (1 <<< i) &&& s_Truths6.getD i 0))
      (fun lo hi => (hi &&& s_Truths6.getD i 0)
                    ||| ((lo &&& s_Truths6.getD i 0) >>> (1 <<< i)))
      (2 ^ d) (kc_block_index (2 ^ d) (2 ^ e))
      (by
        intro t k hl hk
        obtain ⟨b1, b2, _⟩ := hlt k hk
        have c1 : k < t.length := by omega
        have c2 : k + 2 ^ e < t.length := by omega
        have c4 : k ≠ k + 2 ^ e := by omega
        simp only [List.getElem?_eq_getElem c1, List.getElem?_eq_getElem c2, Option.some_bind,
          kc_write, if_pos c1, List.length_set, if_pos c2, List.getD_eq_getElem?_getD,
          Option.getD_some, List.getElem?_set_ne c4])
      hlt
      (by
        apply (kc_block_index_sorted _ _).imp_of_mem
        intro a b ha hb hab
        have a2 := ((hmem a).1 ha).2
        have b2 := ((hmem b).1 hb).2
        refine ⟨by beta_reduce; omega, ?_, ?_, by beta_reduce; omega⟩
        · intro h
          have := congrArg (fun y => Nat.testBit y e) h
          simp only [hbit b b2, a2] at this
          exact Bool.false_ne_true this
        · intro h
          have := congrArg (fun y => Nat.testBit y e) h
          simp only [hbit a a2, b2] at this
          exact Bool.false_ne_true this.symm)
      tt htt.1
  have hword : ∀ w, w < 2 ^ d → tt.getD w 0 < 2 ^ 64 := by
    intro w hw
    have hl : w < tt.length := by rw [htt.1]; exact hw
    rw [List.getD_eq_getElem?_getD, List.getElem?_eq_getElem hl, Option.getD_some]
    exact htt.2 _ (List.getElem_mem hl)
  have hcases : ∀ w, w < 2 ^ d →
      (w.testBit e = false ∧ w + 2 ^ e < 2 ^ d ∧
        r.getD w 0 = (tt.getD w 0 &&& kc_not (s_Truths6.getD i 0))
                  ||| (kc_shl (tt.getD (w + 2 ^ e) 0) (1 <<< i) &&& s_Truths6.getD i 0)) ∨
      (w.testBit e = true ∧ 2 ^ e ≤ w ∧
        r.getD w 0 = (tt.getD w 0 &&& s_Truths6.getD i 0)
                    ||| ((tt.getD (w - 2 ^ e) 0 &&& s_Truths6.getD i 0) >>> (1 <<< i))) := by
    intro w hw
    by_cases hb : w.testBit e = true
    · right
      have hge := kc_testBit_ge w e hb
      have hcl := kc_clear_bit_testBit w e
      have hc : kc_clear_bit w e = w - 2 ^ e := by unfold kc_clear_bit; rw [if_pos hb]
      rw [hc] at hcl
      have hk : w - 2 ^ e ∈ kc_block_index (2 ^ d) (2 ^ e) :=
        (hmem _).2 ⟨Nat.lt_of_le_of_lt (Nat.sub_le _ _) hw, hcl⟩
      have := (hr3 _ hk).2
      simp only [Nat.sub_add_cancel hge] at this
      exact ⟨hb, hge, this⟩
    · left
      have hb2 : w.testBit e = false := by simpa using hb
      have hk : w ∈ kc_block_index (2 ^ d) (2 ^ e) := (hmem _).2 ⟨hw, hb2⟩
      exact ⟨hb2, (hlt w hk).2.1, (hr3 _ hk).1⟩
  refine ⟨r, hr1, ⟨hr2, ?_⟩, ?_⟩
  · intro x hx
    obtain ⟨w, hw, rfl⟩ := List.getElem_of_mem hx
    have e1 : r[w] = r.getD w 0 := by
      rw [List.getD_eq_getElem?_getD, List.getElem?_eq_getElem hw, Option.getD_some]
    rw [e1]
    rcases hcases w (by omega) with ⟨_, _, h⟩ | ⟨_, _, h⟩
    · rw [h]
      exact Nat.or_lt_two_pow (Nat.and_lt_two_pow _ (kc_not_lt _))
        (Nat.and_lt_two_pow _ (s_Truths6_lt i))
    · rw [h]
      apply Nat.or_lt_two_pow (Nat.and_lt_two_pow _ (s_Truths6_lt i))
      rw [Nat.shiftRight_eq_div_pow]
      exact Nat.lt_of_le_of_lt (Nat.div_le_self _ _) (Nat.and_lt_two_pow _ (s_Truths6_lt i))
  · intro w hw c hc
    rcases hcases w hw with ⟨hb, _, h⟩ | ⟨hb, hge, h⟩
    · rw [h, kc_swap_lo_word _ _ i c hi6 hc, hb]
      have hcl : kc_clear_bit w e = w := by unfold kc_clear_bit; rw [if_neg (by simp [hb])]
      have hst : kc_set_bit w e = w + 2 ^ e := by unfold kc_set_bit; rw [if_neg (by simp [hb])]
      by_cases hci : c.testBit i = true
      · rw [if_pos hci, hci]
        unfold kc_put_bit
        simp only [if_true, Bool.false_eq_true, if_false, hst]
      · rw [if_neg hci]
        have hci2 : c.testBit i = false := by simpa using hci
        have hcc : kc_clear_bit c i = c := by unfold kc_clear_bit; rw [if_neg hci]
        rw [hci2]
        unfold kc_put_bit
        simp only [Bool.false_eq_true, if_false, hcl, hcc]
    · rw [h, kc_swap_hi_word _ _ i c hi6 hc, hb]
      have hcl : kc_clear_bit w e = w - 2 ^ e := by unfold kc_clear_bit; rw [if_pos hb]
      have hst : kc_set_bit w e = w := by unfold kc_set_bit; rw [if_pos hb]
      by_cases hci : c.testBit i = true
      · rw [if_pos hci, hci]
        have hcs : kc_set_bit c i = c := by unfold kc_set_bit; rw [if_pos hci]
        unfold kc_put_bit
        simp only [if_true, hst, hcs]
      · rw [if_neg hci]
        have hci2 : c.testBit i = false := by simpa using hci
        rw [hci2]
        unfold kc_put_bit
        simp only [Bool.false_eq_true, if_false, if_true, hcl]

/-! ## Exchange of two variables of a table -/

theorem kc_set_self {α : Type} (l : List α) (i : Nat) (x : α) (h : l[i]? = some x) :
    l.set i x = l := by
  apply List.ext_getElem?
  intro k
  by_cases hk : i = k
  · subst hk
    have hlt : i < l.length := by
      by_contra hc
      rw [List.getElem?_eq_none (by omega)] at h
      exact Option.noConfusion h
    rw [List.getElem?_set_self hlt, h]
  · rw [List.getElem?_set_ne hk]

theorem kc_truth_word_num_mono (a b : Nat) (h : a ≤ b) :
    kc_truth_word_num a ≤ kc_truth_word_num b := by
  by_cases ha : a ≤ 6
  · have : kc_truth_word_num a = 1 := by unfold kc_truth_word_num; rw [if_pos ha]
    rw [this]; exact kc_truth_word_num_pos b
  · rw [kc_truth_word_num_pow a (by omega), kc_truth_word_num_pow b (by omega)]
    exact Nat.pow_le_pow_right (by norm_num) (by omega)

theorem kc_swap_low_ok (w : Nat) (t : List Nat) (ht : kc_tt_ok w t) (i j : Nat)
    (hij : i < j) (hj : j < 6) :
    kc_tt_ok w (t.map (fun x =>
      (x &&& kc_pp_mask i j 0) ||| kc_shl (x &&& kc_pp_mask i j 1) ((1 <<< j) - (1 <<< i))
        ||| ((x &&& kc_pp_mask i j 2) >>> ((1 <<< j) - (1 <<< i))))) := by
  refine ⟨by simp [ht.1], ?_⟩
  intro y hy
  rw [List.mem_map] at hy
  obtain ⟨x, _, rfl⟩ := hy
  apply Nat.or_lt_two_pow (Nat.or_lt_two_pow ?_ ?_) ?_
  · exact Nat.and_lt_two_pow _ (kc_pp_mask_lt i j 0 hij hj (by norm_num))
  · unfold kc_shl; exact Nat.mod_lt _ (by norm_num)
  · rw [Nat.shiftRight_eq_div_pow]
    exact Nat.lt_of_le_of_lt (Nat.div_le_self _ _)
      (Nat.and_lt_two_pow _ (kc_pp_mask_lt i j 2 hij hj (by norm_num)))

theorem kc_swap_low_bits (t : List Nat) (i j : Nat) (hij : i < j) (hj : j < 6) (m : Nat) :
    kc_tt_bit (t.map (fun x =>
      (x &&& kc_pp_mask i j 0) ||| kc_shl (x &&& kc_pp_mask i j 1) ((1 <<< j) - (1 <<< i))
        ||| ((x &&& kc_pp_mask i j 2) >>> ((1 <<< j) - (1 <<< i))))) m
      = kc_tt_bit t (kc_swap_bits m i j) := by
  rw [kc_tt_bit_map _ (by simp [kc_shl])]
  rw [kc_swap_word _ i j _ hij hj (Nat.mod_lt _ (by norm_num))]
  unfold kc_tt_bit
  obtain ⟨h1, h2⟩ := kc_swap_split_low m i j (by omega) hj
  rw [h1, h2]

/-- The exchange of two different variables `i < j` of a table of the width of
`n` variables: the call succeeds, writes table `ttId` only, and the new table
has on minterm `m` the value of the old one on `m` with bits `i` and `j`
exchanged. -/
theorem kc_vt_swap_vars_lt (n : Nat) (v : kc_vt) (ttId i j : Nat) (tt : List Nat)
    (hw : v.words = kc_truth_word_num n) (htt : kc_tt_ok v.words tt)
    (hread : kc_vt_read v ttId = some tt) (hij : i < j) (hj : j < n) :
    ∃ ttNew, kc_vt_swap_vars v ttId i j = some { v with ptr := v.ptr.set ttId ttNew } ∧
      kc_vt_swap_vars v ttId j i = some { v with ptr := v.ptr.set ttId ttNew } ∧
      kc_tt_ok v.words ttNew ∧
      ∀ m, m < 64 * v.words → kc_tt_bit ttNew m = kc_tt_bit tt (kc_swap_bits m i j) := by
  have hne : ¬ i = j := by omega
  have hne' : ¬ j = i := by omega
  have hnlt : ¬ j < i := by omega
  have hassert : kc_truth_word_num (i + 1) ≤ v.words ∧ kc_truth_word_num (j + 1) ≤ v.words := by
    rw [hw]
    exact ⟨kc_truth_word_num_mono _ _ (by omega), kc_truth_word_num_mono _ _ (by omega)⟩
  have hassert' : kc_truth_word_num (i + 1) ≤ 2 ^ (n - 6) ∧
      kc_truth_word_num (j + 1) ≤ 2 ^ (n - 6) ↔ True := by
    by_cases h6 : 6 ≤ n
    · have := kc_truth_word_num_pow n h6
      rw [hw, this] at hassert
      exact iff_true_intro hassert
    · have e1 : kc_truth_word_num (i + 1) = 1 := by
        unfold kc_truth_word_num; rw [if_pos (by omega)]
      have e2 : kc_truth_word_num (j + 1) = 1 := by
        unfold kc_truth_word_num; rw [if_pos (by omega)]
      rw [e1, e2]
      exact iff_true_intro ⟨Nat.one_le_two_pow, Nat.one_le_two_pow⟩
  by_cases h5 : j ≤ 5
  · refine ⟨_, ?_, ?_, kc_swap_low_ok v.words tt htt i j hij (by omega),
      fun m _ => kc_swap_low_bits tt i j hij (by omega) m⟩
    · unfold kc_vt_swap_vars
      simp only [if_neg hne, if_neg hnlt, if_pos hassert, hread, if_pos h5]
    · unfold kc_vt_swap_vars
      simp only [if_neg hne', if_pos hij, if_pos hassert, hread, if_pos h5]
  · have hW : v.words = 2 ^ (n - 6) := by rw [hw]; exact kc_truth_word_num_pow n (by omega)
    have hS : kc_truth_word_num j = 2 ^ (j - 6) := kc_truth_word_num_pow j (by omega)
    rw [hW] at htt
    by_cases hi5 : i ≤ 5
    · obtain ⟨r, hr1, hr2, hr3⟩ := kc_swap_mixed_loop (n - 6) (j - 6) i (by omega) (by omega) tt htt
      have hc : i ≤ 5 ∧ j > 5 := ⟨hi5, by omega⟩
      refine ⟨r, ?_, ?_, by rw [hW]; exact hr2, ?_⟩
      · unfold kc_vt_swap_vars
        simp only [if_neg hne, if_neg hnlt, if_pos hassert, hread, if_neg h5, if_pos hc, hS, hW, hassert', if_true]
        rw [hr1]
      · unfold kc_vt_swap_vars
        simp only [if_neg hne', if_pos hij, if_pos hassert, hread, if_neg h5, if_pos hc, hS, hW, hassert', if_true]
        rw [hr1]
      · intro m hm
        rw [hW] at hm
        unfold kc_tt_bit
        obtain ⟨h1, h2⟩ := kc_swap_split_mixed m i j (by omega) (by omega)
        rw [h1, h2, hr3 _ (by omega) _ (Nat.mod_lt _ (by norm_num))]
    · obtain ⟨r, hr1, hr2, hr3⟩ := kc_swap_high_loop (n - 6) (i - 6) (j - 6) (by omega) (by omega) tt htt
      have hSi : kc_truth_word_num i = 2 ^ (i - 6) := kc_truth_word_num_pow i (by omega)
      have hc : ¬ (i ≤ 5 ∧ j > 5) := fun h => hi5 h.1
      have hok : kc_tt_ok (2 ^ (n - 6)) r := by
        refine ⟨hr2, ?_⟩
        intro x hx
        obtain ⟨w, hwl, rfl⟩ := List.getElem_of_mem hx
        have e1 : r[w] = r.getD w 0 := by
          rw [List.getD_eq_getElem?_getD, List.getElem?_eq_getElem hwl, Option.getD_some]
        have hs := kc_swap_bits_lt w (i - 6) (j - 6) (n - 6) (by omega) (by omega) (by omega)
        have hl : kc_swap_bits w (i - 6) (j - 6) < tt.length := by rw [htt.1]; exact hs
        rw [e1, hr3 w (by omega), List.getD_eq_getElem?_getD, List.getElem?_eq_getElem hl,
          Option.getD_some]
        exact htt.2 _ (List.getElem_mem hl)
      refine ⟨r, ?_, ?_, by rw [hW]; exact hok, ?_⟩
      · unfold kc_vt_swap_vars
        simp only [if_neg hne, if_neg hnlt, if_pos hassert, hread, if_neg h5, if_neg hc, hS, hSi, hW, hassert', if_true]
        rw [hr1]
      · unfold kc_vt_swap_vars
        simp only [if_neg hne', if_pos hij, if_pos hassert, hread, if_neg h5, if_neg hc, hS, hSi, hW, hassert', if_true]
        rw [hr1]
      · intro m hm
        rw [hW] at hm
        unfold kc_tt_bit
        obtain ⟨h1, h2⟩ := kc_swap_split_high m i j (by omega) (by omega)
        rw [h1, h2, hr3 _ (by omega)]

/-- The exchange of two variables of a table of the width of `n` variables, for
all `i` and `j` below `n`. -/
theorem kc_vt_swap_vars_spec (n : Nat) (v : kc_vt) (ttId i j : Nat) (tt : List Nat)
    (hw : v.words = kc_truth_word_num n) (htt : kc_tt_ok v.words tt)
    (hread : kc_vt_read v ttId = some tt) (hi : i < n) (hj : j < n) :
    ∃ ttNew, kc_vt_swap_vars v ttId i j = some { v with ptr := v.ptr.set ttId ttNew } ∧
      kc_tt_ok v.words ttNew ∧
      ∀ m, m < 64 * v.words → kc_tt_bit ttNew m = kc_tt_bit tt (kc_swap_bits m i j) := by
  rcases Nat.lt_trichotomy i j with h | h | h
  · obtain ⟨t, h1, _, h3, h4⟩ := kc_vt_swap_vars_lt n v ttId i j tt hw htt hread h hj
    exact ⟨t, h1, h3, h4⟩
  · subst h
    refine ⟨tt, ?_, htt, fun m _ => by rw [kc_swap_bits_self]⟩
    unfold kc_vt_swap_vars
    rw [if_pos rfl]
    rw [kc_set_self v.ptr ttId tt hread]
  · obtain ⟨t, _, h2, h3, h4⟩ := kc_vt_swap_vars_lt n v ttId j i tt hw htt hread h hi
    refine ⟨t, h2, h3, ?_⟩
    intro m hm
    rw [kc_swap_bits_comm]
    exact h4 m hm

/-! ## Support test and cofactors -/

/-- A table that does not depend on a variable passes none of the word tests of
`kc_vt_has_var`, so the answer is 0. -/
theorem kc_vt_has_var_indep (n : Nat) (v : kc_vt) (ttId iVar : Nat) (tt : List Nat)
    (hw : v.words = kc_truth_word_num n) (htt : kc_tt_ok v.words tt)
    (hread : kc_vt_read v ttId = some tt) (hi : iVar < n) (hind : kc_tt_indep tt iVar) :
    kc_vt_has_var v ttId iVar = some false := by
  by_cases h6 : iVar < 6
  · unfold kc_vt_has_var
    rw [hread]
    simp only [if_pos h6]
    congr 1
    rw [List.any_eq_false]
    intro x hx
    obtain ⟨w, hwl, rfl⟩ := List.getElem_of_mem hx
    have hxlt : tt[w] < 2 ^ 64 := htt.2 _ hx
    intro hne
    apply of_decide_eq_true hne
    apply Nat.eq_of_testBit_eq
    intro c
    rw [Nat.testBit_and, Nat.testBit_and, Nat.testBit_shiftRight, Nat.one_shiftLeft,
      s_Truths6Neg_testBit iVar h6]
    by_cases hc : c < 64
    · by_cases hb : c.testBit iVar = true
      · simp [hb]
      · have hb2 : c.testBit iVar = false := by simpa using hb
        obtain ⟨h4, h5, _⟩ := (kc_bit_pos_facts iVar h6 c hc).2 hb2
        have hm := hind (64 * w + (c + 2 ^ iVar)) (by generalize 2 ^ iVar = p at *; omega)
        unfold kc_tt_bit at hm
        obtain ⟨e1, e2⟩ := kc_clear_bit_low (64 * w + (c + 2 ^ iVar)) iVar h6
        rw [e1, e2] at hm
        have d1 : (64 * w + (c + 2 ^ iVar)) / 64 = w := by
          generalize 2 ^ iVar = p at *; omega
        have d2 : (64 * w + (c + 2 ^ iVar)) % 64 = c + 2 ^ iVar := by
          generalize 2 ^ iVar = p at *; omega
        rw [d1, d2] at hm
        have d3 : kc_clear_bit (c + 2 ^ iVar) iVar = c := by
          unfold kc_clear_bit; rw [if_pos h5]; exact Nat.add_sub_cancel _ _
        rw [d3, List.getD_eq_getElem?_getD, List.getElem?_eq_getElem hwl, Option.getD_some] at hm
        rw [Nat.add_comm (2 ^ iVar) c, hm]
    · simp [hc]
  · have hW : v.words = 2 ^ (n - 6) := by rw [hw]; exact kc_truth_word_num_pow n (by omega)
    have he : iVar - 6 < n - 6 := by omega
    have hp : ∀ k, k ∈ kc_block_index (2 ^ (n - 6)) (2 ^ (iVar - 6)) →
        (tt[k]?).bind (fun x => (tt[2 ^ (iVar - 6) + k]?).bind
          (fun y => some (decide (x ≠ y)))) = some false := by
      intro k hk
      have h1 := kc_block_index_add_lt _ _ k he hk
      have h0 := Nat.two_pow_pos (iVar - 6)
      have h2 : k < tt.length := by rw [htt.1, hW]; omega
      have h3 : 2 ^ (iVar - 6) + k < tt.length := by rw [htt.1, hW]; omega
      have hbit := ((kc_block_index_mem_pow _ _ k he).1 hk).2
      simp only [List.getElem?_eq_getElem h2, List.getElem?_eq_getElem h3, Option.some_bind]
      congr 1
      rw [decide_eq_false_iff_not, not_not]
      apply kc_word_ext _ _ (htt.2 _ (List.getElem_mem h2)) (htt.2 _ (List.getElem_mem h3))
      intro c hc
      have hm := hind (64 * (2 ^ (iVar - 6) + k) + c) (by omega)
      unfold kc_tt_bit at hm
      obtain ⟨e1, e2⟩ := kc_clear_bit_high (64 * (2 ^ (iVar - 6) + k) + c) iVar (by omega)
      rw [e1, e2] at hm
      have d1 : (64 * (2 ^ (iVar - 6) + k) + c) / 64 = 2 ^ (iVar - 6) + k := by omega
      have d2 : (64 * (2 ^ (iVar - 6) + k) + c) % 64 = c := by omega
      rw [d1, d2] at hm
      have hb1 : (2 ^ (iVar - 6) + k).testBit (iVar - 6) = true := by
        rw [Nat.testBit_two_pow_add_eq, hbit]; rfl
      have d3 : kc_clear_bit (2 ^ (iVar - 6) + k) (iVar - 6) = k := by
        unfold kc_clear_bit; rw [if_pos hb1]; omega
      rw [d3, List.getD_eq_getElem?_getD, List.getD_eq_getElem?_getD,
        List.getElem?_eq_getElem h2, List.getElem?_eq_getElem h3,
        Option.getD_some, Option.getD_some] at hm
      exact hm.symm
    unfold kc_vt_has_var
    rw [hread]
    simp only [if_neg h6, Nat.one_shiftLeft, hW]
    rw [kc_find_spec _ (fun _ => false) _ hp]
    simp

/-- The answer of `kc_vt_has_var` is 0 exactly when the table does not depend on
the variable. -/
theorem kc_vt_has_var_iff (n : Nat) (v : kc_vt) (ttId iVar : Nat) (tt : List Nat)
    (hw : v.words = kc_truth_word_num n) (htt : kc_tt_ok v.words tt)
    (hread : kc_vt_read v ttId = some tt) (hi : iVar < n) :
    ∃ b, kc_vt_has_var v ttId iVar = some b ∧ (b = false ↔ kc_tt_indep tt iVar) := by
  obtain ⟨b, hb1, hb2⟩ := kc_vt_has_var_spec n v ttId iVar tt hw htt hread hi
  refine ⟨b, hb1, hb2, ?_⟩
  intro hind
  have h := kc_vt_has_var_indep n v ttId iVar tt hw htt hread hi hind
  rw [hb1] at h
  exact Option.some.inj h

theorem kc_clear_set (m i : Nat) : kc_clear_bit (kc_set_bit m i) i = kc_clear_bit m i := by
  by_cases hb : m.testBit i = true
  · have hs : kc_set_bit m i = m := by unfold kc_set_bit; rw [if_pos hb]
    rw [hs]
  · have hs : kc_set_bit m i = m + 2 ^ i := by unfold kc_set_bit; rw [if_neg hb]
    have hb2 : m.testBit i = false := by simpa using hb
    have h2 : (m + 2 ^ i).testBit i = true := by
      rw [Nat.add_comm, Nat.testBit_two_pow_add_eq, hb2]; rfl
    rw [hs]
    unfold kc_clear_bit
    rw [if_pos h2, if_neg hb]
    exact Nat.add_sub_cancel _ _

/-- Two cofactor tables are equal exactly when the source table does not depend
on the variable. -/
theorem kc_cof_eq_iff_indep (W N : Nat) (tt t0 t1 : List Nat) (i : Nat)
    (hN : 64 * W = 2 ^ N) (hi : i < N)
    (htt : tt.length = W) (h0 : kc_tt_ok W t0) (h1 : kc_tt_ok W t1)
    (hc0 : ∀ m, m < 64 * W → kc_tt_bit t0 m = kc_tt_bit tt (kc_clear_bit m i))
    (hc1 : ∀ m, m < 64 * W → kc_tt_bit t1 m = kc_tt_bit tt (kc_set_bit m i)) :
    t0 = t1 ↔ kc_tt_indep tt i := by
  constructor
  · intro h m hm
    rw [htt] at hm
    by_cases hb : m.testBit i = true
    · have e := hc1 m hm
      rw [← h, hc0 m hm] at e
      have hs : kc_set_bit m i = m := by unfold kc_set_bit; rw [if_pos hb]
      rw [hs] at e
      exact e.symm
    · have hcl : kc_clear_bit m i = m := by unfold kc_clear_bit; rw [if_neg hb]
      rw [hcl]
  · intro hind
    apply kc_tt_ext W t0 t1 h0 h1
    intro m hm
    rw [hc0 m hm, hc1 m hm]
    have hlt : kc_set_bit m i < 64 * W := by
      rw [hN]; exact kc_set_bit_lt m i N (by rw [← hN]; exact hm) hi
    have := hind (kc_set_bit m i) (by rw [htt]; exact hlt)
    rw [kc_clear_set] at this
    exact this.symm

theorem kc_vt_swap_vars_comm (v : kc_vt) (ttId i j : Nat) :
    kc_vt_swap_vars v ttId i j = kc_vt_swap_vars v ttId j i := by
  by_cases h : i = j
  · subst h; rfl
  · have h' : ¬ j = i := fun e => h e.symm
    unfold kc_vt_swap_vars
    rcases Nat.lt_or_gt_of_ne h with h1 | h1
    · have h2 : ¬ j < i := by omega
      simp only [if_neg h, if_neg h', if_pos h1, if_neg h2]
    · have h2 : ¬ i < j := by omega
      simp only [if_neg h, if_neg h', if_pos h1, if_neg h2]

/-! ## The properties of the truth-table store -/

/-- Claim C11: the support test.  For a table of the width of `n` variables and a
variable `i < n`, `kc_vt_has_var` returns an answer, and the answer is non-zero
exactly when the table appended by `kc_vt_cof0` differs from the table appended
by `kc_vt_cof1`.  The test only reads table `ttId`: it is a function of the store
whose sole result is the answer, so nothing is appended and no table is
modified. -/
theorem kc_vt_has_var_support (n : Nat) (v : kc_vt) (ttId i : Nat) (tt : List Nat)
    (hw : v.words = kc_truth_word_num n) (htt : kc_tt_ok v.words tt)
    (hread : kc_vt_read v ttId = some tt) (hi : i < n) :
    ∃ b t0 t1, kc_vt_has_var v ttId i = some b ∧
      kc_vt_cof0 v ttId i = some (kc_vt_push v t0, v.ptr.length) ∧
      kc_vt_read (kc_vt_push v t0) v.ptr.length = some t0 ∧
      kc_vt_cof1 v ttId i = some (kc_vt_push v t1, v.ptr.length) ∧
      kc_vt_read (kc_vt_push v t1) v.ptr.length = some t1 ∧
      (b = true ↔ t0 ≠ t1) := by
  obtain ⟨b, hb1, hb2⟩ := kc_vt_has_var_iff n v ttId i tt hw htt hread hi
  obtain ⟨t0, h01, h02, h03⟩ := kc_vt_cof0_spec n v ttId i tt hw htt hread hi
  obtain ⟨t1, h11, h12, h13⟩ := kc_vt_cof1_spec n v ttId i tt hw htt hread hi
  have hN : 64 * v.words = 2 ^ (max n 6) := by rw [hw]; exact kc_bits_pow n
  have hiff := kc_cof_eq_iff_indep v.words (max n 6) tt t0 t1 i hN
    (Nat.lt_of_lt_of_le hi (Nat.le_max_left _ _)) htt.1 h02 h12 h03 h13
  refine ⟨b, t0, t1, hb1, h01, by simp [kc_vt_read, kc_vt_push], h11,
    by simp [kc_vt_read, kc_vt_push], ?_⟩
  rw [Ne, hiff, ← hb2]
  cases b <;> simp

/-- Instance of claim C11: the majority of three variables depends on variable 1
and the projection on variable 0 does not. -/
theorem kc_vt_has_var_support_witness :
    (∃ b t0 t1, kc_vt_has_var ⟨1, [[0xE8E8E8E8E8E8E8E8], [0xAAAAAAAAAAAAAAAA]]⟩ 0 1 = some b ∧
      kc_vt_cof0 ⟨1, [[0xE8E8E8E8E8E8E8E8], [0xAAAAAAAAAAAAAAAA]]⟩ 0 1
        = some (kc_vt_push ⟨1, [[0xE8E8E8E8E8E8E8E8], [0xAAAAAAAAAAAAAAAA]]⟩ t0, 2) ∧
      kc_vt_read (kc_vt_push ⟨1, [[0xE8E8E8E8E8E8E8E8], [0xAAAAAAAAAAAAAAAA]]⟩ t0) 2 = some t0 ∧
      kc_vt_cof1 ⟨1, [[0xE8E8E8E8E8E8E8E8], [0xAAAAAAAAAAAAAAAA]]⟩ 0 1
        = some (kc_vt_push ⟨1, [[0xE8E8E8E8E8E8E8E8], [0xAAAAAAAAAAAAAAAA]]⟩ t1, 2) ∧
      kc_vt_read (kc_vt_push ⟨1, [[0xE8E8E8E8E8E8E8E8], [0xAAAAAAAAAAAAAAAA]]⟩ t1) 2 = some t1 ∧
      (b = true ↔ t0 ≠ t1)) ∧
    kc_vt_has_var ⟨1, [[0xE8E8E8E8E8E8E8E8], [0xAAAAAAAAAAAAAAAA]]⟩ 0 1 = some true ∧
    kc_vt_has_var ⟨1, [[0xE8E8E8E8E8E8E8E8], [0xAAAAAAAAAAAAAAAA]]⟩ 1 1 = some false :=
  ⟨kc_vt_has_var_support 3 ⟨1, [[0xE8E8E8E8E8E8E8E8], [0xAAAAAAAAAAAAAAAA]]⟩ 0 1
      [0xE8E8E8E8E8E8E8E8] (by decide) (by decide) rfl (by decide),
   by decide, by decide⟩

/-- Claim C12: variable swap semantics.  For a table of the width of `n`
variables and variables `i`, `j` below `n`, `kc_vt_swap_vars` succeeds and bit `m`
of table `ttId` after the call is bit `m'` of the table before the call, where
`m'` is `m` with its bits at positions `i` and `j` exchanged; this covers the
three regimes of the source, the two orders of the arguments give the same
store, `i = j` changes nothing, and the word count, the number of tables and
every other table of the store are unchanged. -/
theorem kc_vt_swap_vars_semantics (n : Nat) (v : kc_vt) (ttId i j : Nat) (tt : List Nat)
    (hw : v.words = kc_truth_word_num n) (htt : kc_tt_ok v.words tt)
    (hread : kc_vt_read v ttId = some tt) (hi : i < n) (hj : j < n) :
    ∃ v1 ttNew, kc_vt_swap_vars v ttId i j = some v1 ∧
      kc_vt_swap_vars v ttId j i = some v1 ∧
      kc_vt_read v1 ttId = some ttNew ∧ kc_tt_ok v.words ttNew ∧
      (∀ m, m < 64 * v.words → kc_tt_bit ttNew m = kc_tt_bit tt (kc_swap_bits m i j)) ∧
      (∀ m k, (kc_swap_bits m i j).testBit k
        = m.testBit (if k = i then j else if k = j then i else k)) ∧
      (i = j → v1 = v) ∧
      v1.words = v.words ∧ kc_vt_size v1 = kc_vt_size v ∧
      ∀ t, t ≠ ttId → kc_vt_read v1 t = kc_vt_read v t := by
  obtain ⟨ttNew, h1, h2, h3⟩ := kc_vt_swap_vars_spec n v ttId i j tt hw htt hread hi hj
  have hlt : ttId < v.ptr.length := by
    by_contra hc
    unfold kc_vt_read at hread
    rw [List.getElem?_eq_none (by omega)] at hread
    exact Option.noConfusion hread
  refine ⟨_, ttNew, h1, by rw [kc_vt_swap_vars_comm]; exact h1, ?_, h2, h3,
    fun m k => kc_swap_bits_bits m i j k, ?_, rfl, by simp [kc_vt_size], ?_⟩
  · simp only [kc_vt_read]
    exact List.getElem?_set_self hlt
  · intro hij
    have h4 : kc_vt_swap_vars v ttId i j = some v := by
      unfold kc_vt_swap_vars; rw [if_pos hij]
    rw [h1] at h4
    exact Option.some.inj h4
  · intro t ht
    simp only [kc_vt_read]
    exact List.getElem?_set_ne (Ne.symm ht)

/-- Instance of claim C12 in the three regimes of the source: variables 0 and 1
of a one-word table, variables 0 and 6 and variables 6 and 7 of a four-word
table. -/
theorem kc_vt_swap_vars_semantics_witness :
    (∃ v1 ttNew, kc_vt_swap_vars ⟨1, [[0xAAAAAAAAAAAAAAAA]]⟩ 0 0 1 = some v1 ∧
      kc_vt_swap_vars ⟨1, [[0xAAAAAAAAAAAAAAAA]]⟩ 0 1 0 = some v1 ∧
      kc_vt_read v1 0 = some ttNew ∧ kc_tt_ok 1 ttNew ∧
      (∀ m, m < 64 * 1 → kc_tt_bit ttNew m
        = kc_tt_bit [0xAAAAAAAAAAAAAAAA] (kc_swap_bits m 0 1)) ∧
      (∀ m k, (kc_swap_bits m 0 1).testBit k
        = m.testBit (if k = 0 then 1 else if k = 1 then 0 else k)) ∧
      (0 = 1 → v1 = ⟨1, [[0xAAAAAAAAAAAAAAAA]]⟩) ∧
      v1.words = 1 ∧ kc_vt_size v1 = kc_vt_size ⟨1, [[0xAAAAAAAAAAAAAAAA]]⟩ ∧
      ∀ t, t ≠ 0 → kc_vt_read v1 t = kc_vt_read ⟨1, [[0xAAAAAAAAAAAAAAAA]]⟩ t) ∧
    kc_vt_swap_vars ⟨1, [[0xAAAAAAAAAAAAAAAA]]⟩ 0 0 1 = some ⟨1, [[0xCCCCCCCCCCCCCCCC]]⟩ ∧
    kc_vt_swap_vars ⟨4, [[0xAAAAAAAAAAAAAAAA, 0xAAAAAAAAAAAAAAAA, 0, 0], [1, 2, 3, 4]]⟩ 0 0 6
      = some ⟨4, [[0, 0xFFFFFFFFFFFFFFFF, 0, 0], [1, 2, 3, 4]]⟩ ∧
    kc_vt_swap_vars ⟨4, [[5, 6, 7, 8], [1, 2, 3, 4]]⟩ 1 7 6
      = some ⟨4, [[5, 6, 7, 8], [1, 3, 2, 4]]⟩ :=
  ⟨kc_vt_swap_vars_semantics 2 ⟨1, [[0xAAAAAAAAAAAAAAAA]]⟩ 0 0 1 [0xAAAAAAAAAAAAAAAA]
      (by decide) (by decide) rfl (by decide) (by decide),
   by decide, by decide, by decide⟩

/-- Claim C13: variable swap is an involution.  For a table of the width of `n`
variables and variables `i`, `j` below `n`, two calls of `kc_vt_swap_vars` with
the same arguments succeed and give back the store they started from, so every
word of the table has its original value. -/
theorem kc_vt_swap_vars_involution (n : Nat) (v : kc_vt) (ttId i j : Nat) (tt : List Nat)
    (hw : v.words = kc_truth_word_num n) (htt : kc_tt_ok v.words tt)
    (hread : kc_vt_read v ttId = some tt) (hi : i < n) (hj : j < n) :
    ∃ v1, kc_vt_swap_vars v ttId i j = some v1 ∧ kc_vt_swap_vars v1 ttId i j = some v ∧
      kc_vt_read v ttId = some tt := by
  obtain ⟨t1, h1, h2, h3⟩ := kc_vt_swap_vars_spec n v ttId i j tt hw htt hread hi hj
  have hlt : ttId < v.ptr.length := by
    by_contra hc
    unfold kc_vt_read at hread
    rw [List.getElem?_eq_none (by omega)] at hread
    exact Option.noConfusion hread
  have hread1 : kc_vt_read { v with ptr := v.ptr.set ttId t1 } ttId = some t1 := by
    simp only [kc_vt_read]; exact List.getElem?_set_self hlt
  obtain ⟨t2, g1, g2, g3⟩ := kc_vt_swap_vars_spec n { v with ptr := v.ptr.set ttId t1 } ttId i j
    t1 hw h2 hread1 hi hj
  have hN : 64 * v.words = 2 ^ (max n 6) := by rw [hw]; exact kc_bits_pow n
  have e : t2 = tt := by
    apply kc_tt_ext v.words t2 tt g2 htt
    intro m hm
    have hs : kc_swap_bits m i j < 64 * v.words := by
      rw [hN]
      exact kc_swap_bits_lt m i j _ (by rw [← hN]; exact hm)
        (Nat.lt_of_lt_of_le hi (Nat.le_max_left _ _))
        (Nat.lt_of_lt_of_le hj (Nat.le_max_left _ _))
    rw [g3 m hm, h3 _ hs, kc_swap_bits_swap]
  refine ⟨_, h1, ?_, hread⟩
  rw [g1, e]
  simp only [List.set_set]
  rw [kc_set_self v.ptr ttId tt hread]

/-- Instance of claim C13 on a four-word table, variables 2 and 7. -/
theorem kc_vt_swap_vars_involution_witness :
    ∃ v1, kc_vt_swap_vars ⟨4, [[5, 6, 7, 8]]⟩ 0 2 7 = some v1 ∧
      kc_vt_swap_vars v1 0 2 7 = some ⟨4, [[5, 6, 7, 8]]⟩ ∧
      kc_vt_read ⟨4, [[5, 6, 7, 8]]⟩ 0 = some [5, 6, 7, 8] :=
  kc_vt_swap_vars_involution 8 ⟨4, [[5, 6, 7, 8]]⟩ 0 2 7 [5, 6, 7, 8]
    (by decide) (by decide) rfl (by decide) (by decide)

/-! ## Variable-length integers of the AIGER writer -/

theorem kc_mask_testBit (i : Nat) : (0xFFFFFF80 : Nat).testBit i = decide (7 ≤ i ∧ i < 32) := by
  by_cases hi : i < 32
  · have h : ∀ i, i < 32 → (0xFFFFFF80 : Nat).testBit i = decide (7 ≤ i ∧ i < 32) := by decide
    exact h i hi
  · have h2 : (0xFFFFFF80 : Nat) < 2 ^ i :=
      Nat.lt_of_lt_of_le (by norm_num) (Nat.pow_le_pow_right (by norm_num) (Nat.le_of_not_lt hi))
    rw [Nat.testBit_lt_two_pow h2]
    simp [hi]

/-- The loop test `x & ~0x7f` of an `unsigned` value is non-zero exactly from 128 on. -/
theorem kc_mask_ne_zero (x : Nat) (hx : x < 2 ^ 32) : x &&& 0xFFFFFF80 ≠ 0 ↔ 128 ≤ x := by
  constructor
  · intro h
    by_contra hlt
    apply h
    apply Nat.eq_of_testBit_eq
    intro i
    rw [Nat.testBit_and, kc_mask_testBit, Nat.zero_testBit]
    by_cases hi : 7 ≤ i
    · have h2 : x < 2 ^ i :=
        Nat.lt_of_lt_of_le (by omega) (Nat.pow_le_pow_right (by norm_num) hi)
      rw [Nat.testBit_lt_two_pow h2]; rfl
    · simp [hi]
  · intro h hz
    have hq : x >>> 7 ≠ 0 := by
      rw [Nat.shiftRight_eq_div_pow]
      have : 1 ≤ x / 2 ^ 7 := (Nat.le_div_iff_mul_le (by norm_num)).2 (by omega)
      omega
    obtain ⟨j, hj⟩ := Nat.ne_zero_implies_bit_true hq
    rw [Nat.testBit_shiftRight] at hj
    have hlt : 7 + j < 32 := by
      by_contra hge
      have h2 : x < 2 ^ (7 + j) :=
        Nat.lt_of_lt_of_le hx (Nat.pow_le_pow_right (by norm_num) (by omega))
      rw [Nat.testBit_lt_two_pow h2] at hj
      exact Bool.false_ne_true hj
    have h3 := congrArg (fun y => Nat.testBit y (7 + j)) hz
    simp only [Nat.testBit_and, kc_mask_testBit, hj, Nat.zero_testBit] at h3
    simp [hlt] at h3

/-- The continuation byte made from the low 7 bits `r` of the value. -/
theorem kc_varint_byte (r : Nat) (hr : r < 128) :
    ((r ||| 0x80) % 256) &&& 0x7F = r ∧ ((r ||| 0x80) % 256).testBit 7 = true ∧
      (r ||| 0x80) % 256 < 256 := by
  have h : ∀ r, r < 128 → ((r ||| 0x80) % 256) &&& 0x7F = r ∧
      ((r ||| 0x80) % 256).testBit 7 = true ∧ (r ||| 0x80) % 256 < 256 := by decide
  exact h r hr

/-- The terminator byte of a value below 128. -/
theorem kc_varint_last (x : Nat) (hx : x < 128) :
    (x % 256) &&& 0x7F = x ∧ (x % 256).testBit 7 = false := by
  have h : ∀ x, x < 128 → (x % 256) &&& 0x7F = x ∧ (x % 256).testBit 7 = false := by decide
  exact h x hx

theorem kc_aiger_write_uint_spec (x : Nat) (hx : x < 2 ^ 32) :
    kc_aiger_write_uint x ≠ [] ∧
    (∀ b ∈ kc_aiger_write_uint x, b < 256) ∧
    (∀ i, i + 1 < (kc_aiger_write_uint x).length →
      ((kc_aiger_write_uint x).getD i 0).testBit 7 = true) ∧
    ((kc_aiger_write_uint x).getD ((kc_aiger_write_uint x).length - 1) 0).testBit 7 = false ∧
    kc_varint_value (kc_aiger_write_uint x) = x := by
  induction x using Nat.strong_induction_on with
  | _ x ih =>
    rw [kc_aiger_write_uint]
    by_cases hc : x &&& 0xFFFFFF80 ≠ 0
    · rw [dif_pos hc]
      have h128 := (kc_mask_ne_zero x hx).1 hc
      have hlt : x >>> 7 < x := by
        rw [Nat.shiftRight_eq_div_pow]
        exact Nat.div_lt_self (by omega) (by norm_num)
      obtain ⟨i1, i2, i3, i4, i5⟩ := ih (x >>> 7) hlt (by omega)
      have hr : x &&& 0x7f = x % 128 := Nat.and_pow_two_sub_one_eq_mod x 7
      obtain ⟨b1, b2, b3⟩ := kc_varint_byte (x % 128) (Nat.mod_lt _ (by norm_num))
      rw [hr]
      generalize hrest : kc_aiger_write_uint (x >>> 7) = rest at *
      have hpos : 0 < rest.length := List.length_pos.2 i1
      refine ⟨by simp, ?_, ?_, ?_, ?_⟩
      · intro b hb
        rcases List.mem_cons.1 hb with h | h
        · rw [h]; exact b3
        · exact i2 b h
      · intro i hi
        cases i with
        | zero => simpa using b2
        | succ k =>
          simp only [List.length_cons] at hi
          have := i3 k (by omega)
          simpa using this
      · have e : (((x % 128 ||| 0x80) % 256) :: rest).length - 1 = (rest.length - 1) + 1 := by
          simp only [List.length_cons]; omega
        rw [e]
        simpa using i4
      · unfold kc_varint_value
        rw [b1, i5, Nat.shiftRight_eq_div_pow]
        have := Nat.mod_add_div x 128
        omega
    · rw [dif_neg hc]
      have h128 : x < 128 := by
        by_contra h
        exact hc ((kc_mask_ne_zero x hx).2 (by omega))
      obtain ⟨l1, l2⟩ := kc_varint_last x h128
      refine ⟨by simp, ?_, ?_, ?_, ?_⟩
      · intro b hb
        rw [List.mem_singleton] at hb
        rw [hb]; exact Nat.mod_lt _ (by norm_num)
      · intro i hi; simp at hi
      · simpa using l2
      · unfold kc_varint_value kc_varint_value
        rw [l1]; rfl

/-- Claim C20: the variable-length encoding of the AIGER writer round-trips.  For
every `unsigned` 32-bit `x` the bytes emitted by `kc_aiger_write_uint` are a
non-empty sequence of 8-bit values, every byte except the last has bit 7 set,
the last byte has bit 7 clear, and the sum of `(b_k AND 0x7F) * 2 ^ (7 k)` over
the bytes is `x`. -/
theorem kc_aiger_varint_roundtrip (x : Nat) (hx : x < 2 ^ 32) :
    kc_aiger_write_uint x ≠ [] ∧
    (∀ b ∈ kc_aiger_write_uint x, b < 256) ∧
    (∀ i, i + 1 < (kc_aiger_write_uint x).length →
      ((kc_aiger_write_uint x).getD i 0).testBit 7 = true) ∧
    ((kc_aiger_write_uint x).getD ((kc_aiger_write_uint x).length - 1) 0).testBit 7 = false ∧
    kc_varint_value (kc_aiger_write_uint x) = x :=
  kc_aiger_write_uint_spec x hx

theorem kc_aiger_write_uint_300 : kc_aiger_write_uint 300 = [172, 2] := by
  rw [kc_aiger_write_uint, dif_pos (by decide), kc_aiger_write_uint, dif_neg (by decide)]
  decide

/-- Instance of claim C20: the value 300 is written as the bytes `0xAC 0x02`. -/
theorem kc_aiger_varint_roundtrip_witness :
    kc_aiger_write_uint 300 = [172, 2] ∧
    (kc_aiger_write_uint 300 ≠ [] ∧
    (∀ b ∈ kc_aiger_write_uint 300, b < 256) ∧
    (∀ i, i + 1 < (kc_aiger_write_uint 300).length →
      ((kc_aiger_write_uint 300).getD i 0).testBit 7 = true) ∧
    ((kc_aiger_write_uint 300).getD ((kc_aiger_write_uint 300).length - 1) 0).testBit 7 = false ∧
    kc_varint_value (kc_aiger_write_uint 300) = 300) :=
  ⟨kc_aiger_write_uint_300, kc_aiger_varint_roundtrip 300 (by norm_num)⟩

/-! ## The loops of the permutation generator -/

theorem kc_arr_read_nat (a : List Int) (k : Nat) : kc_arr_read a (k : Int) = a[k]? := by
  unfold kc_arr_read
  rw [if_pos (Int.ofNat_nonneg k), Int.toNat_ofNat]

theorem kc_arr_read_pred (a : List Int) (k : Nat) :
    kc_arr_read a (((k + 1 : Nat) : Int) - 1) = a[k]? := by
  have : ((k + 1 : Nat) : Int) - 1 = (k : Int) := by push_cast; ring
  rw [this, kc_arr_read_nat]

theorem kc_get_mid (a b c : List Int) (k : Nat) (hk : k < b.length) :
    (a ++ b ++ c)[a.length + k]? = b[k]? := by
  rw [List.getElem?_append_left (by simp; omega), List.getElem?_append_right (by omega)]
  congr 1; omega

theorem kc_get_at (a b : List Int) (x : Int) : (a ++ x :: b)[a.length]? = some x := by
  rw [List.getElem?_append_right (Nat.le_refl _)]; simp

/-- The first loop stops at the last ascent: with a weakly descending `suf` behind
an element `x` smaller than its head, the loop started anywhere in `suf` ends
with `i` at the head of `suf`. -/
theorem kc_perm_scan_i_spec (pre suf z : List Int) (x : Int)
    (hdesc : suf.Pairwise (· ≥ ·)) (hx : ∀ h, suf[0]? = some h → x < h) (m : Nat)
    (hm : m < suf.length) :
    kc_perm_scan_i (pre ++ x :: suf ++ z) (pre.length + 1 + m + 1)
      = some ((pre.length + 1 : Nat) : Int) := by
  have harr : pre ++ x :: suf ++ z = (pre ++ [x]) ++ suf ++ z := by simp
  have hget : ∀ k, k < suf.length → (pre ++ x :: suf ++ z)[pre.length + 1 + k]? = suf[k]? := by
    intro k hk
    rw [harr]
    have := kc_get_mid (pre ++ [x]) suf z k hk
    simpa using this
  have hgetx : (pre ++ x :: suf ++ z)[pre.length]? = some x := by
    rw [List.append_assoc]; exact kc_get_at pre _ x
  induction m with
  | zero =>
    unfold kc_perm_scan_i
    rw [kc_arr_read_pred, kc_arr_read_nat, hgetx, hget 0 hm, List.getElem?_eq_getElem hm]
    have := hx _ (List.getElem?_eq_getElem hm)
    simp only
    rw [if_neg (by omega)]
  | succ m ih =>
    unfold kc_perm_scan_i
    have e : pre.length + 1 + (m + 1) = (pre.length + 1 + m) + 1 := by omega
    rw [e, kc_arr_read_pred, kc_arr_read_nat, hget m (by omega), ← e, hget (m + 1) hm,
      List.getElem?_eq_getElem (by omega), List.getElem?_eq_getElem hm]
    have := List.pairwise_iff_getElem.1 hdesc m (m + 1) (by omega) hm (by omega)
    simp only
    rw [if_pos this]
    exact ih (by omega)

/-- On a weakly descending array segment the first loop runs down to index 0 and
then reads the element before the array. -/
theorem kc_perm_scan_i_desc (l z : List Int) (hdesc : l.Pairwise (· ≥ ·)) (m : Nat)
    (hm : m < l.length) : kc_perm_scan_i (l ++ z) (m + 1) = none := by
  induction m with
  | zero =>
    unfold kc_perm_scan_i
    have : kc_arr_read (l ++ z) (((0 : Nat) : Int) - 1) = none := by
      unfold kc_arr_read; rw [if_neg (by norm_num)]
    rw [this]
  | succ m ih =>
    unfold kc_perm_scan_i
    have h1 : (l ++ z)[m]? = some l[m] := by
      rw [List.getElem?_append_left (by omega), List.getElem?_eq_getElem]
    have h2 : (l ++ z)[m + 1]? = some l[m + 1] := by
      rw [List.getElem?_append_left (by omega), List.getElem?_eq_getElem]
    rw [kc_arr_read_pred, kc_arr_read_nat, h1, h2]
    have := List.pairwise_iff_getElem.1 hdesc m (m + 1) (by omega) hm (by omega)
    simp only
    rw [if_pos this]
    exact ih (by omega)

/-- The second loop stops at the last element larger than the pivot `x`. -/
theorem kc_perm_scan_j_spec (pre s1 s2 z : List Int) (x y : Int) (hxy : x < y)
    (hs2 : ∀ w, w ∈ s2 → w ≤ x) (m : Nat) (hm : m ≤ s2.length) :
    kc_perm_scan_j (pre ++ x :: (s1 ++ y :: s2) ++ z) ((pre.length + 1 : Nat) : Int)
        (pre.length + 1 + s1.length + m + 1)
      = some (pre.length + 1 + s1.length + 1) := by
  have harr : pre ++ x :: (s1 ++ y :: s2) ++ z = (pre ++ x :: s1 ++ [y]) ++ s2 ++ z := by simp
  have hlen : (pre ++ x :: s1 ++ [y]).length = pre.length + 1 + s1.length + 1 := by
    simp only [List.length_append, List.length_cons, List.length_nil]; omega
  have hget : ∀ k, k < s2.length →
      (pre ++ x :: (s1 ++ y :: s2) ++ z)[pre.length + 1 + s1.length + 1 + k]? = s2[k]? := by
    intro k hk
    rw [harr, ← hlen]
    exact kc_get_mid (pre ++ x :: s1 ++ [y]) s2 z k hk
  have hgetx : (pre ++ x :: (s1 ++ y :: s2) ++ z)[pre.length]? = some x := by
    rw [List.append_assoc]; exact kc_get_at pre _ x
  have hgety : (pre ++ x :: (s1 ++ y :: s2) ++ z)[pre.length + 1 + s1.length]? = some y := by
    have e : pre ++ x :: (s1 ++ y :: s2) ++ z = (pre ++ x :: s1) ++ y :: (s2 ++ z) := by simp
    have hl : (pre ++ x :: s1).length = pre.length + 1 + s1.length := by
      simp only [List.length_append, List.length_cons]; omega
    rw [e, ← hl]
    exact kc_get_at (pre ++ x :: s1) (s2 ++ z) y
  have hi : kc_arr_read (pre ++ x :: (s1 ++ y :: s2) ++ z) (((pre.length + 1 : Nat) : Int) - 1)
      = some x := by rw [kc_arr_read_pred, hgetx]
  induction m with
  | zero =>
    unfold kc_perm_scan_j
    rw [if_pos (by push_cast; omega), kc_arr_read_nat, hgety, hi]
    simp only
    rw [if_neg (by omega)]
  | succ m ih =>
    unfold kc_perm_scan_j
    have e : pre.length + 1 + s1.length + (m + 1) = pre.length + 1 + s1.length + 1 + m := by omega
    rw [if_pos (by push_cast; omega), kc_arr_read_nat, e, hget m (by omega), hi,
      List.getElem?_eq_getElem (by omega)]
    simp only
    rw [if_pos (hs2 _ (List.getElem_mem _))]
    have e2 : pre.length + 1 + s1.length + 1 + m = pre.length + 1 + s1.length + m + 1 := by omega
    rw [e2]
    exact ih (by omega)

/-- One exchange of two array cells, without tables. -/
theorem kc_perm_swap_none (A M B : List Int) (u w : Int) :
    kc_perm_swap (A ++ u :: (M ++ w :: B)) none (A.length : Int)
        ((A.length + 1 + M.length : Nat) : Int)
      = some (A ++ w :: (M ++ u :: B), none) := by
  unfold kc_perm_swap
  have h1 : (A ++ u :: (M ++ w :: B))[A.length]? = some u := kc_get_at A _ u
  have h2 : (A ++ u :: (M ++ w :: B))[A.length + 1 + M.length]? = some w := by
    have e : A ++ u :: (M ++ w :: B) = (A ++ u :: M) ++ w :: B := by simp
    have hl : (A ++ u :: M).length = A.length + 1 + M.length := by
      simp only [List.length_append, List.length_cons]; omega
    rw [e, ← hl]
    exact kc_get_at _ _ w
  rw [kc_arr_read_nat, kc_arr_read_nat, h1, h2]
  simp only [Int.toNat_ofNat]
  congr 2
  rw [List.set_append_right _ _ (Nat.le_refl _), Nat.sub_self, List.set_cons_zero,
    List.set_append_right _ _ (by omega)]
  have e : A.length + 1 + M.length - A.length = M.length + 1 := by omega
  rw [e, List.set_cons_succ, List.set_append_right _ _ (Nat.le_refl _), Nat.sub_self,
    List.set_cons_zero]

/-- The last loop reverses the array segment between its two indices. -/
theorem kc_perm_reverse_none (fuel : Nat) : ∀ (A mid B : List Int), mid.length ≤ 2 * fuel + 1 →
    kc_perm_reverse fuel (A ++ mid ++ B) none ((A.length + 1 : Nat) : Int)
        ((A.length + mid.length : Nat) : Int)
      = some (A ++ mid.reverse ++ B, none) := by
  induction fuel with
  | zero =>
    intro A mid B hm
    unfold kc_perm_reverse
    rw [if_neg (by push_cast; omega)]
    match mid, hm with
    | [], _ => rfl
    | [a], _ => rfl
  | succ fuel ih =>
    intro A mid B hm
    unfold kc_perm_reverse
    by_cases hlen : mid.length ≤ 1
    · rw [if_neg (by push_cast; omega)]
      match mid, hlen with
      | [], _ => rfl
      | [a], _ => rfl
    · rw [if_pos (by push_cast; omega)]
      obtain ⟨u, rest, rfl⟩ := List.exists_cons_of_ne_nil (l := mid) (by
        intro h; rw [h] at hlen; simp at hlen)
      have hrest : rest ≠ [] := by
        intro h; rw [h] at hlen; simp at hlen
      obtain ⟨M, w, rfl⟩ : ∃ M w, rest = M ++ [w] :=
        ⟨rest.dropLast, rest.getLast hrest, (List.dropLast_append_getLast hrest).symm⟩
      have e1 : A ++ u :: (M ++ [w]) ++ B = A ++ u :: (M ++ w :: B) := by simp
      have i1 : ((A.length + 1 : Nat) : Int) - 1 = (A.length : Int) := by push_cast; ring
      have j1 : ((A.length + (u :: (M ++ [w])).length : Nat) : Int) - 1
          = ((A.length + 1 + M.length : Nat) : Int) := by
        simp only [List.length_cons, List.length_append, List.length_nil]
        push_cast; ring
      rw [i1, j1, e1, kc_perm_swap_none]
      simp only
      have e2 : A ++ w :: (M ++ u :: B) = (A ++ [w]) ++ M ++ (u :: B) := by simp
      have i2 : ((A.length + 1 : Nat) : Int) + 1 = (((A ++ [w]).length + 1 : Nat) : Int) := by
        simp only [List.length_append, List.length_cons, List.length_nil]; push_cast; ring
      have j2 : ((A.length + 1 + M.length : Nat) : Int) = (((A ++ [w]).length + M.length : Nat) : Int) := by
        simp only [List.length_append, List.length_cons, List.length_nil]
      rw [i2, j2, e2, ih (A ++ [w]) M (u :: B) (by
        simp only [List.length_cons, List.length_append, List.length_nil] at hm; omega)]
      simp

/-- One call of `kc_get_next_perm` without tables on an array that holds, in its
first `nVars` cells, `pre`, the pivot `x`, and a weakly descending rest in which
`y` is the last element larger than `x`: the pivot and `y` are exchanged and the
rest is reversed; the cells behind are not touched. -/
theorem kc_get_next_perm_step (pre s1 s2 z : List Int) (x y : Int)
    (hdesc : (s1 ++ y :: s2).Pairwise (· ≥ ·)) (hxy : x < y) (hs2 : ∀ w, w ∈ s2 → w ≤ x) :
    kc_get_next_perm (pre ++ x :: (s1 ++ y :: s2) ++ z)
        (pre.length + 1 + (s1.length + 1 + s2.length)) none
      = some (pre ++ y :: (s1 ++ x :: s2).reverse ++ z, none) := by
  unfold kc_get_next_perm
  have hhead : ∀ h, (s1 ++ y :: s2)[0]? = some h → x < h := by
    intro h hh
    cases s1 with
    | nil => simp at hh; omega
    | cons a s1' =>
      simp only [List.cons_append, List.getElem?_cons_zero, Option.some.injEq] at hh
      rw [List.cons_append, List.pairwise_cons] at hdesc
      have := hdesc.1 y (by simp)
      omega
  have e1 : pre.length + 1 + (s1.length + 1 + s2.length)
      = pre.length + 1 + (s1.length + s2.length) + 1 := by omega
  have h1 := kc_perm_scan_i_spec pre (s1 ++ y :: s2) z x hdesc hhead (s1.length + s2.length)
    (by simp)
  rw [e1, h1]
  simp only
  rw [if_pos (by push_cast; omega)]
  have e2 : pre.length + 1 + (s1.length + s2.length) + 1
      = pre.length + 1 + s1.length + s2.length + 1 := by omega
  rw [e2, kc_perm_scan_j_spec pre s1 s2 z x y hxy hs2 s2.length (Nat.le_refl _)]
  simp only
  have i1 : ((pre.length + 1 : Nat) : Int) - 1 = (pre.length : Int) := by push_cast; ring
  have j1 : ((pre.length + 1 + s1.length + 1 : Nat) : Int) - 1
      = ((pre.length + 1 + s1.length : Nat) : Int) := by push_cast; ring
  have earr : pre ++ x :: (s1 ++ y :: s2) ++ z = pre ++ x :: (s1 ++ y :: (s2 ++ z)) := by simp
  rw [i1, j1, earr, kc_perm_swap_none]
  simp only
  have e3 : pre ++ y :: (s1 ++ x :: (s2 ++ z)) = (pre ++ [y]) ++ (s1 ++ x :: s2) ++ z := by simp
  have i2 : ((pre.length + 1 : Nat) : Int) + 1 = (((pre ++ [y]).length + 1 : Nat) : Int) := by
    simp only [List.length_append, List.length_cons, List.length_nil]; push_cast; ring
  have j2 : ((pre.length + 1 + s1.length + s2.length + 1 : Nat) : Int)
      = (((pre ++ [y]).length + (s1 ++ x :: s2).length : Nat) : Int) := by
    simp only [List.length_append, List.length_cons, List.length_nil]
    push_cast; ring
  rw [i2, j2, e3, kc_perm_reverse_none _ _ _ _ (by
    simp only [List.length_append, List.length_cons]; omega)]
  simp

/-! ## Rank of an ordering -/

theorem kc_perm_rank_lt (l : List Int) : kc_perm_rank l < l.length.factorial := by
  induction l with
  | nil => simp [kc_perm_rank]
  | cons x r ih =>
    unfold kc_perm_rank
    have hc : r.countP (fun w => decide (w < x)) ≤ r.length := List.countP_le_length _
    rw [List.length_cons, Nat.factorial_succ]
    have := Nat.mul_le_mul_right r.length.factorial hc
    rw [Nat.add_mul, Nat.one_mul]
    omega

/-- A strictly descending ordering has the largest rank. -/
theorem kc_perm_rank_desc (l : List Int) (h : l.Pairwise (· > ·)) :
    kc_perm_rank l + 1 = l.length.factorial := by
  induction l with
  | nil => simp [kc_perm_rank]
  | cons x r ih =>
    rw [List.pairwise_cons] at h
    unfold kc_perm_rank
    have hc : r.countP (fun w => decide (w < x)) = r.length := by
      rw [List.countP_eq_length]
      intro a ha
      simpa using h.1 a ha
    rw [hc, List.length_cons, Nat.factorial_succ, Nat.add_mul, Nat.one_mul]
    have := ih h.2
    omega

/-- A strictly ascending ordering has rank 0. -/
theorem kc_perm_rank_asc (l : List Int) (h : l.Pairwise (· < ·)) : kc_perm_rank l = 0 := by
  induction l with
  | nil => rfl
  | cons x r ih =>
    rw [List.pairwise_cons] at h
    unfold kc_perm_rank
    have hc : r.countP (fun w => decide (w < x)) = 0 := by
      rw [List.countP_eq_zero]
      intro a ha
      have := h.1 a ha
      simp only [decide_eq_true_eq]
      omega
    rw [hc, ih h.2]
    simp

/-- Only a strictly descending ordering has the largest rank. -/
theorem kc_perm_rank_max (l : List Int) (h : kc_perm_rank l + 1 = l.length.factorial) :
    l.Pairwise (· > ·) := by
  induction l with
  | nil => exact List.Pairwise.nil
  | cons x r ih =>
    unfold kc_perm_rank at h
    rw [List.length_cons, Nat.factorial_succ, Nat.add_mul, Nat.one_mul] at h
    have hc : r.countP (fun w => decide (w < x)) ≤ r.length := List.countP_le_length _
    have hr := kc_perm_rank_lt r
    have hpos : 0 < r.length.factorial := Nat.factorial_pos _
    have hceq : r.countP (fun w => decide (w < x)) = r.length := by
      by_contra hne
      have h2 : r.countP (fun w => decide (w < x)) + 1 ≤ r.length := by omega
      have := Nat.mul_le_mul_right r.length.factorial h2
      rw [Nat.add_mul, Nat.one_mul] at this
      omega
    rw [hceq] at h
    rw [List.pairwise_cons]
    refine ⟨?_, ih (by omega)⟩
    intro a ha
    have := (List.countP_eq_length.1 hceq) a ha
    simpa using this

/-- The rank of an ordering behind a fixed prefix: exchanging the part behind the
prefix for a rearrangement of it changes the rank by the difference of the ranks
of the two parts. -/
theorem kc_perm_rank_append (pre l1 l2 : List Int) (hp : l1.Perm l2) :
    kc_perm_rank (pre ++ l1) + kc_perm_rank l2 = kc_perm_rank (pre ++ l2) + kc_perm_rank l1 := by
  induction pre with
  | nil => simp [Nat.add_comm]
  | cons a pre ih =>
    rw [List.cons_append, List.cons_append, kc_perm_rank, kc_perm_rank]
    have h1 : (pre ++ l1).Perm (pre ++ l2) := List.Perm.append_left _ hp
    rw [h1.countP_eq, h1.length_eq]
    omega

theorem kc_desc_append (s1 s2 : List Int) (y : Int) (h : (s1 ++ y :: s2).Pairwise (· > ·)) :
    s1.Pairwise (· > ·) ∧ s2.Pairwise (· > ·) ∧ (∀ a, a ∈ s1 → a > y) ∧
      (∀ b, b ∈ s2 → y > b) ∧ (∀ a, a ∈ s1 → ∀ b, b ∈ s2 → a > b) := by
  rw [List.pairwise_append, List.pairwise_cons] at h
  obtain ⟨h1, ⟨h2, h3⟩, h4⟩ := h
  exact ⟨h1, h3, fun a ha => h4 a ha y (List.mem_cons_self _ _), h2,
    fun a ha b hb => h4 a ha b (List.mem_cons_of_mem _ hb)⟩

/-- One step of the enumeration raises the rank by one. -/
theorem kc_perm_rank_step (pre s1 s2 : List Int) (x y : Int)
    (hdesc : (s1 ++ y :: s2).Pairwise (· > ·)) (hxy : x < y) (hs2 : ∀ w, w ∈ s2 → w < x) :
    kc_perm_rank (pre ++ y :: (s1 ++ x :: s2).reverse)
      = kc_perm_rank (pre ++ x :: (s1 ++ y :: s2)) + 1 := by
  obtain ⟨d1, d2, d3, d4, d5⟩ := kc_desc_append s1 s2 y hdesc
  have hperm : (x :: (s1 ++ y :: s2)).Perm (y :: (s1 ++ x :: s2).reverse) := by
    have p1 : (x :: (s1 ++ y :: s2)).Perm (x :: y :: (s1 ++ s2)) :=
      List.Perm.cons _ List.perm_middle
    have p2 : (x :: y :: (s1 ++ s2)).Perm (y :: x :: (s1 ++ s2)) := List.Perm.swap _ _ _
    have p3 : (y :: x :: (s1 ++ s2)).Perm (y :: (s1 ++ x :: s2)) :=
      List.Perm.cons _ List.perm_middle.symm
    have p4 : (y :: (s1 ++ x :: s2)).Perm (y :: (s1 ++ x :: s2).reverse) :=
      List.Perm.cons _ (List.reverse_perm _).symm
    exact p1.trans (p2.trans (p3.trans p4))
  have happ := kc_perm_rank_append pre _ _ hperm
  have hdesc2 : (s1 ++ x :: s2).Pairwise (· > ·) := by
    rw [List.pairwise_append, List.pairwise_cons]
    refine ⟨d1, ⟨fun b hb => hs2 b hb, d2⟩, ?_⟩
    intro a ha b hb
    rcases List.mem_cons.1 hb with h | h
    · rw [h]; have := d3 a ha; omega
    · exact d5 a ha b h
  have hasc : (s1 ++ x :: s2).reverse.Pairwise (· < ·) := by
    rw [List.pairwise_reverse]; exact hdesc2
  have r1 : kc_perm_rank (x :: (s1 ++ y :: s2))
      = s2.length * (s1 ++ y :: s2).length.factorial + kc_perm_rank (s1 ++ y :: s2) := by
    rw [kc_perm_rank]
    congr 2
    rw [List.countP_append, List.countP_cons]
    have c1 : s1.countP (fun w => decide (w < x)) = 0 := by
      rw [List.countP_eq_zero]
      intro a ha
      have := d3 a ha
      simp only [decide_eq_true_eq]; omega
    have c2 : s2.countP (fun w => decide (w < x)) = s2.length := by
      rw [List.countP_eq_length]
      intro a ha
      simpa using hs2 a ha
    have c3 : ¬ y < x := by omega
    rw [c1, c2]
    simp [c3]
  have r2 : kc_perm_rank (y :: (s1 ++ x :: s2).reverse)
      = (s2.length + 1) * (s1 ++ y :: s2).length.factorial := by
    have hl : (s1 ++ x :: s2).reverse.length = (s1 ++ y :: s2).length := by
      simp only [List.length_reverse, List.length_append, List.length_cons]
    rw [kc_perm_rank, kc_perm_rank_asc _ hasc, hl, (List.reverse_perm _).countP_eq,
      List.countP_append, List.countP_cons]
    have c1 : s1.countP (fun w => decide (w < y)) = 0 := by
      rw [List.countP_eq_zero]
      intro a ha
      have := d3 a ha
      simp only [decide_eq_true_eq]; omega
    have c2 : s2.countP (fun w => decide (w < y)) = s2.length := by
      rw [List.countP_eq_length]
      intro a ha
      have := d4 a ha
      simp only [decide_eq_true_eq]; omega
    rw [c1, c2]
    simp [hxy]
  have r3 := kc_perm_rank_desc _ hdesc
  rw [r1, r2] at happ
  rw [Nat.add_mul, Nat.one_mul] at happ
  omega

/-- The last element of a list larger than `a`, when there is one. -/
theorem kc_last_greater (r : List Int) (a : Int) (h : ∃ w, w ∈ r ∧ a < w) :
    ∃ s1 y s2, r = s1 ++ y :: s2 ∧ a < y ∧ ∀ w, w ∈ s2 → w ≤ a := by
  induction r with
  | nil => obtain ⟨w, hw, _⟩ := h; simp at hw
  | cons b r ih =>
    by_cases hr : ∃ w, w ∈ r ∧ a < w
    · obtain ⟨s1, y, s2, e, h1, h2⟩ := ih hr
      exact ⟨b :: s1, y, s2, by rw [e]; rfl, h1, h2⟩
    · have hall : ∀ w, w ∈ r → w ≤ a := by
        intro w hw
        by_contra hc
        exact hr ⟨w, hw, by omega⟩
      obtain ⟨w, hw, hlt⟩ := h
      rcases List.mem_cons.1 hw with e | e
      · subst e
        exact ⟨[], w, r, rfl, hlt, hall⟩
      · exact absurd (hall w e) (by omega)

/-- An ordering that is not weakly descending has a last ascent: a pivot `x`
followed by a weakly descending rest in which `y` is the last element larger
than `x`. -/
theorem kc_perm_decomp (l : List Int) (h : ¬ l.Pairwise (· ≥ ·)) :
    ∃ pre x s1 y s2, l = pre ++ x :: (s1 ++ y :: s2) ∧ (s1 ++ y :: s2).Pairwise (· ≥ ·) ∧
      x < y ∧ ∀ w, w ∈ s2 → w ≤ x := by
  induction l with
  | nil => exact absurd List.Pairwise.nil h
  | cons a r ih =>
    by_cases hr : r.Pairwise (· ≥ ·)
    · have hex : ∃ w, w ∈ r ∧ a < w := by
        by_contra hc
        apply h
        rw [List.pairwise_cons]
        refine ⟨?_, hr⟩
        intro w hw
        by_contra hlt
        exact hc ⟨w, hw, by omega⟩
      obtain ⟨s1, y, s2, e, h1, h2⟩ := kc_last_greater r a hex
      exact ⟨[], a, s1, y, s2, by rw [e]; rfl, by rw [← e]; exact hr, h1, h2⟩
    · obtain ⟨pre, x, s1, y, s2, e, h1, h2, h3⟩ := ih hr
      exact ⟨a :: pre, x, s1, y, s2, by rw [e]; rfl, h1, h2, h3⟩

/-- One call of `kc_get_next_perm` on an ordering of distinct elements that is not
the last one: the call succeeds, leaves the cells behind the ordering alone, and
gives an ordering of the same elements that is the next larger one in
lexicographic order (its rank is one more). -/
theorem kc_get_next_perm_next (o z : List Int) (hnd : o.Nodup)
    (hr : kc_perm_rank o + 1 < o.length.factorial) :
    ∃ o1, kc_get_next_perm (o ++ z) o.length none = some (o1 ++ z, none) ∧
      o1.Perm o ∧ kc_perm_rank o1 = kc_perm_rank o + 1 ∧ List.Lex (· < ·) o o1 := by
  have hnot : ¬ o.Pairwise (· ≥ ·) := by
    intro hp
    have hs : o.Pairwise (· > ·) := by
      have := hp.and hnd
      exact this.imp (fun h => by
        obtain ⟨h1, h2⟩ := h
        omega)
    have := kc_perm_rank_desc o hs
    omega
  obtain ⟨pre, x, s1, y, s2, e, h1, h2, h3⟩ := kc_perm_decomp o hnot
  subst e
  have hnd2 : (x :: (s1 ++ y :: s2)).Nodup := (List.nodup_append.1 hnd).2.1
  rw [List.nodup_cons] at hnd2
  have hs1 : (s1 ++ y :: s2).Pairwise (· > ·) := by
    have := h1.and hnd2.2
    exact this.imp (fun h => by
      obtain ⟨a1, a2⟩ := h
      omega)
  have hs2 : ∀ w, w ∈ s2 → w < x := by
    intro w hw
    have := h3 w hw
    have hne : w ≠ x := by
      intro e
      apply hnd2.1
      rw [← e]
      exact List.mem_append_right _ (List.mem_cons_of_mem _ hw)
    omega
  refine ⟨pre ++ y :: (s1 ++ x :: s2).reverse, ?_, ?_, kc_perm_rank_step pre s1 s2 x y hs1 h2 hs2, ?_⟩
  · have hl : (pre ++ x :: (s1 ++ y :: s2)).length
        = pre.length + 1 + (s1.length + 1 + s2.length) := by
      simp only [List.length_append, List.length_cons]; omega
    rw [hl]
    exact kc_get_next_perm_step pre s1 s2 z x y h1 h2 h3
  · apply List.Perm.append_left
    have p1 : (x :: (s1 ++ y :: s2)).Perm (x :: y :: (s1 ++ s2)) :=
      List.Perm.cons _ List.perm_middle
    have p2 : (x :: y :: (s1 ++ s2)).Perm (y :: x :: (s1 ++ s2)) := List.Perm.swap _ _ _
    have p3 : (y :: x :: (s1 ++ s2)).Perm (y :: (s1 ++ x :: s2)) :=
      List.Perm.cons _ List.perm_middle.symm
    have p4 : (y :: (s1 ++ x :: s2)).Perm (y :: (s1 ++ x :: s2).reverse) :=
      List.Perm.cons _ (List.reverse_perm _).symm
    exact (p1.trans (p2.trans (p3.trans p4))).symm
  · exact List.Lex.append_left _ (List.Lex.rel h2) _

/-! ## The enumeration of the orderings -/

set_option maxRecDepth 100000 in
theorem kc_perm_init_eq (n : Nat) (hn : n ≤ 16) :
    kc_perm_init n = some (kc_perm_id n ++ List.replicate (16 - n) 0) := by
  have h : ∀ n, n ≤ 16 → kc_perm_init n
      = some (kc_perm_id n ++ List.replicate (16 - n) 0) := by decide
  exact h n hn

theorem kc_perm_id_sorted (n : Nat) : (kc_perm_id n).Pairwise (· < ·) := by
  unfold kc_perm_id
  rw [List.pairwise_map]
  exact (List.pairwise_lt_range n).imp (fun h => by exact_mod_cast h)

theorem kc_perm_id_nodup (n : Nat) : (kc_perm_id n).Nodup :=
  (kc_perm_id_sorted n).imp (fun h => by omega)

theorem kc_perm_id_length (n : Nat) : (kc_perm_id n).length = n := by
  unfold kc_perm_id; simp

/-- The array after `k` calls, for `k` below `n!`: its first `n` cells hold an
ordering of `0 .. n - 1` of rank `k`, larger in lexicographic order than the
orderings after fewer calls, and the cells behind are the zeros of the start. -/
theorem kc_perm_iter_spec (n : Nat) (hn : n ≤ 16) (k : Nat) (hk : k < n.factorial) :
    ∃ o, kc_perm_iter n k = some (o ++ List.replicate (16 - n) 0) ∧
      o.Perm (kc_perm_id n) ∧ kc_perm_rank o = k ∧
      ∀ k1, k1 < k → ∀ o1, kc_perm_iter n k1 = some (o1 ++ List.replicate (16 - n) 0) →
        List.Lex (· < ·) o1 o := by
  induction k with
  | zero =>
    refine ⟨_, ?_, List.Perm.refl _, kc_perm_rank_asc _ (kc_perm_id_sorted n), ?_⟩
    · unfold kc_perm_iter; exact kc_perm_init_eq n hn
    · intro k1 hk1; omega
  | succ k ih =>
    obtain ⟨o, h1, h2, h3, h4⟩ := ih (by omega)
    have hlen : o.length = n := by rw [h2.length_eq]; exact kc_perm_id_length n
    have hnd : o.Nodup := h2.nodup_iff.2 (kc_perm_id_nodup n)
    obtain ⟨o1, g1, g2, g3, g4⟩ := kc_get_next_perm_next o (List.replicate (16 - n) 0) hnd
      (by rw [hlen, h3]; exact hk)
    rw [hlen] at g1
    refine ⟨o1, ?_, g2.trans h2, by rw [g3, h3], ?_⟩
    · rw [kc_perm_iter, h1]
      simp only
      rw [g1]
    · intro k1 hk1 o' ho'
      by_cases e : k1 = k
      · subst e
        rw [h1] at ho'
        have := List.append_cancel_right (Option.some.inj ho')
        rw [← this]; exact g4
      · exact trans_of (List.Lex (· < ·)) (h4 k1 (by omega) o' ho') g4

/-- Claim C14: permutation enumeration.  For `1 <= n <= 16`, starting from the
array set up by the callers (the identity ordering in the first `n` cells) and
calling `kc_get_next_perm` repeatedly, the call number `k` succeeds for every
`k` below `n!`; the orderings held before call 1 and after the calls
`1 .. n! - 1` are permutations of `0 .. n - 1`, any later one is larger in
lexicographic order than any earlier one, so the `n!` orderings are pairwise
distinct, and the last of them is the reverse ordering `n - 1, ..., 1, 0`. -/
theorem kc_get_next_perm_enumerates (n : Nat) (_hn1 : 1 ≤ n) (hn2 : n ≤ 16) :
    (∀ k, k < n.factorial → ∃ p, kc_perm_iter n k = some p ∧
      (p.take n).Perm (kc_perm_id n)) ∧
    (∀ k1 k2 p1 p2, k1 < k2 → k2 < n.factorial → kc_perm_iter n k1 = some p1 →
      kc_perm_iter n k2 = some p2 →
      List.Lex (· < ·) (p1.take n) (p2.take n) ∧ p1.take n ≠ p2.take n) ∧
    (∃ p, kc_perm_iter n (n.factorial - 1) = some p ∧ p.take n = (kc_perm_id n).reverse) := by
  have htake : ∀ o : List Int, o.Perm (kc_perm_id n) →
      (o ++ List.replicate (16 - n) 0).take n = o := by
    intro o ho
    have hlen : o.length = n := by rw [ho.length_eq]; exact kc_perm_id_length n
    rw [← hlen]; exact List.take_left' rfl
  refine ⟨?_, ?_, ?_⟩
  · intro k hk
    obtain ⟨o, h1, h2, _, _⟩ := kc_perm_iter_spec n hn2 k hk
    exact ⟨_, h1, by rw [htake o h2]; exact h2⟩
  · intro k1 k2 p1 p2 h12 hk2 e1 e2
    obtain ⟨o1, a1, a2, _, _⟩ := kc_perm_iter_spec n hn2 k1 (by omega)
    obtain ⟨o2, b1, b2, _, b4⟩ := kc_perm_iter_spec n hn2 k2 hk2
    rw [a1] at e1
    rw [b1] at e2
    rw [← Option.some.inj e1, ← Option.some.inj e2, htake o1 a2, htake o2 b2]
    have hlex := b4 k1 h12 o1 a1
    refine ⟨hlex, ?_⟩
    intro e
    rw [e] at hlex
    exact irrefl_of (List.Lex (· < ·)) o2 hlex
  · have hpos : 0 < n.factorial := Nat.factorial_pos n
    obtain ⟨o, h1, h2, h3, _⟩ := kc_perm_iter_spec n hn2 (n.factorial - 1) (by omega)
    refine ⟨_, h1, ?_⟩
    rw [htake o h2]
    have hlen : o.length = n := by rw [h2.length_eq]; exact kc_perm_id_length n
    have hdesc : o.Pairwise (· > ·) := kc_perm_rank_max o (by rw [h3, hlen]; omega)
    have hrev : (kc_perm_id n).reverse.Pairwise (· > ·) := by
      rw [List.pairwise_reverse]; exact kc_perm_id_sorted n
    exact List.Perm.eq_of_sorted (fun a b _ _ h1 h2 => by omega) hdesc hrev
      (h2.trans (List.reverse_perm _).symm)

/-- Instance of claim C14 for three variables: the six orderings in the order of
the enumeration. -/
theorem kc_get_next_perm_enumerates_witness :
    ((∀ k, k < (3 : Nat).factorial → ∃ p, kc_perm_iter 3 k = some p ∧
      (p.take 3).Perm (kc_perm_id 3)) ∧
    (∀ k1 k2 p1 p2, k1 < k2 → k2 < (3 : Nat).factorial → kc_perm_iter 3 k1 = some p1 →
      kc_perm_iter 3 k2 = some p2 →
      List.Lex (· < ·) (p1.take 3) (p2.take 3) ∧ p1.take 3 ≠ p2.take 3) ∧
    (∃ p, kc_perm_iter 3 ((3 : Nat).factorial - 1) = some p ∧
      p.take 3 = (kc_perm_id 3).reverse)) ∧
    (List.range 6).map (fun k => (kc_perm_iter 3 k).map (fun p => p.take 3))
      = [some [0, 1, 2], some [0, 2, 1], some [1, 0, 2], some [1, 2, 0],
         some [2, 0, 1], some [2, 1, 0]] :=
  ⟨kc_get_next_perm_enumerates 3 (by decide) (by decide), by decide⟩

/-! ## Loops with an invariant -/

/-- A loop whose body keeps a property of the state keeps it to the end. -/
theorem kc_foldlM_keeps {σ α : Type} (step : σ → α → Option σ) (J : σ → Prop) (l : List α)
    (h : ∀ s a s', a ∈ l → J s → step s a = some s' → J s') :
    ∀ s0 s, J s0 → l.foldlM step s0 = some s → J s := by
  induction l with
  | nil =>
    intro s0 s h0 hs
    simp only [List.foldlM_nil] at hs
    have e : s0 = s := Option.some.inj hs
    rw [← e]; exact h0
  | cons a l ih =>
    intro s0 s h0 hs
    rw [List.foldlM_cons] at hs
    cases hst : step s0 a with
    | none => rw [hst] at hs; exact Option.noConfusion hs
    | some s1 =>
      rw [hst] at hs
      exact ih (fun s a s' ha => h s a s' (List.mem_cons_of_mem _ ha)) s1 s
        (h s0 a s1 (List.mem_cons_self _ _) h0 hst) hs

/-- A loop over `a .. a + n - 1` whose body keeps an invariant runs to the end. -/
theorem kc_foldlM_range'_inv {σ : Type} (step : σ → Nat → Option σ) (I : Nat → σ → Prop)
    (a n : Nat) (s0 : σ) (h0 : I a s0)
    (hstep : ∀ j s, a ≤ j → j < a + n → I j s → ∃ s', step s j = some s' ∧ I (j + 1) s') :
    ∃ s, (List.range' a n).foldlM step s0 = some s ∧ I (a + n) s := by
  induction n generalizing a s0 with
  | zero => exact ⟨s0, rfl, h0⟩
  | succ n ih =>
    obtain ⟨s1, hs1, hI1⟩ := hstep a s0 (Nat.le_refl _) (by omega) h0
    obtain ⟨s, hs, hI⟩ := ih (a + 1) s1 hI1 (fun j s hj1 hj2 => hstep j s (by omega) (by omega))
    refine ⟨s, ?_, by rw [show a + (n + 1) = a + 1 + n by omega]; exact hI⟩
    rw [List.range'_succ, List.foldlM_cons, hs1]
    exact hs

/-! ## Graphs of AND nodes -/

theorem kc_gg_start_and_only (n : Nat) (outs : kc_vt) : kc_gg_and_only (kc_gg_start n outs) := by
  intro v h1 h2
  simp only [kc_gg_start] at h1 h2
  omega

/-- The AND constructor keeps a graph of AND nodes. -/
theorem kc_gg_and_and_only (gg : kc_gg) (hinv : kc_gg_inv gg) (hao : kc_gg_and_only gg)
    (a b : Nat) (ha : a < 2 * gg.size) (hb : b < 2 * gg.size) :
    ∃ g r, kc_gg_and gg a b = some (g, r) ∧ kc_gg_inv g ∧ kc_gg_ext gg g ∧ r < 2 * g.size ∧
      kc_gg_and_only g := by
  obtain ⟨g, r, h1, h2, h3, h4, _, h6⟩ := kc_gg_and_spec gg hinv a b ha hb
  refine ⟨g, r, h1, h2, h3, h4, ?_⟩
  rcases h6 with ⟨e, _⟩ | ⟨a', b', t, hab, _, _, e, _, _⟩
  · rw [e]; exact hao
  · rw [e]
    intro v hv1 hv2
    simp only at hv1 hv2 ⊢
    by_cases hv : v < gg.size
    · obtain ⟨x, y, f1, f2, f3⟩ := hao v hv1 hv
      refine ⟨x, y, ?_, ?_, f3⟩
      · rw [List.getElem?_append_left (by rw [hinv.fans_len]; omega)]; exact f1
      · rw [List.getElem?_append_left (by rw [hinv.fans_len]; omega)]; exact f2
    · have e : v = gg.size := by omega
      subst e
      refine ⟨a', b', ?_, ?_, hab⟩
      · rw [List.getElem?_append_right (by rw [hinv.fans_len]), hinv.fans_len]; simp
      · rw [List.getElem?_append_right (by rw [hinv.fans_len]; omega), hinv.fans_len]
        have : 2 * gg.size + 1 - 2 * gg.size = 1 := by omega
        rw [this]; rfl

/-- The multiplexer, built from three AND constructors, keeps a graph of AND
nodes. -/
theorem kc_gg_mux_and_only (ord : kc_order) (gg : kc_gg) (hinv : kc_gg_inv gg)
    (hao : kc_gg_and_only gg) (c t e : Nat)
    (hc : c < 2 * gg.size) (ht : t < 2 * gg.size) (he : e < 2 * gg.size) :
    ∃ g r, kc_gg_mux ord gg c t e = some (g, r) ∧ kc_gg_inv g ∧ kc_gg_ext gg g ∧
      r < 2 * g.size ∧ kc_gg_and_only g := by
  have hnc : kc_lnot c < 2 * gg.size := kc_lnot_lt c gg.size hc
  unfold kc_gg_mux
  by_cases hord : ord.mux_rtl = true
  · rw [if_pos hord]
    obtain ⟨g1, r1, a1, a2, a3, a4, a5⟩ := kc_gg_and_and_only gg hinv hao (kc_lnot c) e hnc he
    obtain ⟨g2, r2, b1, b2, b3, b4, b5⟩ := kc_gg_and_and_only g1 a2 a5 c t
      (kc_gg_ext_lt gg g1 a3 c hc) (kc_gg_ext_lt gg g1 a3 t ht)
    obtain ⟨g3, r3, c1, c2, c3, c4, c5⟩ := kc_gg_and_and_only g2 b2 b5 (kc_lnot r2) (kc_lnot r1)
      (kc_lnot_lt _ _ b4) (kc_lnot_lt _ _ (kc_gg_ext_lt g1 g2 b3 r1 a4))
    refine ⟨g3, kc_lnot r3, ?_, c2, kc_gg_ext_trans _ _ _ (kc_gg_ext_trans _ _ _ a3 b3) c3,
      kc_lnot_lt _ _ c4, c5⟩
    rw [a1]; simp only
    rw [b1]; simp only
    unfold kc_gg_or
    rw [c1]
  · rw [if_neg hord]
    obtain ⟨g1, r1, a1, a2, a3, a4, a5⟩ := kc_gg_and_and_only gg hinv hao c t hc ht
    obtain ⟨g2, r2, b1, b2, b3, b4, b5⟩ := kc_gg_and_and_only g1 a2 a5 (kc_lnot c) e
      (kc_gg_ext_lt gg g1 a3 _ hnc) (kc_gg_ext_lt gg g1 a3 e he)
    obtain ⟨g3, r3, c1, c2, c3, c4, c5⟩ := kc_gg_and_and_only g2 b2 b5 (kc_lnot r1) (kc_lnot r2)
      (kc_lnot_lt _ _ (kc_gg_ext_lt g1 g2 b3 r1 a4)) (kc_lnot_lt _ _ b4)
    refine ⟨g3, kc_lnot r3, ?_, c2, kc_gg_ext_trans _ _ _ (kc_gg_ext_trans _ _ _ a3 b3) c3,
      kc_lnot_lt _ _ c4, c5⟩
    rw [a1]; simp only
    rw [b1]; simp only
    unfold kc_gg_or
    rw [c1]

theorem kc_write_mem (t : List Nat) (k x : Nat) (t' : List Nat) (h : kc_write t k x = some t')
    (y : Nat) (hy : y ∈ t') : y ∈ t ∨ y = x := by
  unfold kc_write at h
  split at h
  · have e := Option.some.inj h
    rw [← e] at hy
    exact List.mem_or_eq_of_mem_set hy
  · exact Option.noConfusion h

theorem kc_write_length (t : List Nat) (k x : Nat) (t' : List Nat)
    (h : kc_write t k x = some t') : t'.length = t.length := by
  unfold kc_write at h
  split at h
  · rw [← Option.some.inj h]; exact List.length_set _ _ _
  · exact Option.noConfusion h

/-- Result of one turn of the loop of `kc_gg_dup`: nothing for an unmarked node;
for a marked node the new graph and literal come from one constructor applied
to two entries of `pCopy`, and the two literals of the node are entered. -/
theorem kc_gg_dup_node_cases (ord : kc_order) (gg : kc_gg) (only_and : Bool)
    (st st' : kc_gg × List Nat) (i : Nat)
    (h : kc_gg_dup_node ord gg only_and st i = some st') :
    (kc_gg_tid_is_cur gg i = some false ∧ st' = st) ∨
    (kc_gg_tid_is_cur gg i = some true ∧
      ∃ (lit0 lit1 : Int) (l0 l1 c0 c1 r : Nat) (isx : Bool) (g : kc_gg) (p1 : List Nat),
        kc_gg_fanin gg i 0 = some lit0 ∧ kc_gg_fanin gg i 1 = some lit1 ∧
        kc_gg_is_xor gg i = some isx ∧
        kc_lit_of_int lit0 = some l0 ∧ kc_lit_of_int lit1 = some l1 ∧
        st.2[l0]? = some c0 ∧ st.2[l1]? = some c1 ∧
        (if !isx then kc_gg_and st.1 c0 c1
         else if only_and then kc_gg_mux ord st.1 c0 (kc_lnot c1) c1
         else kc_gg_xor st.1 c0 c1) = some (g, r) ∧
        kc_write st.2 (2 * i) r = some p1 ∧
        kc_write p1 (2 * i + 1) (kc_lnot r) = some st'.2 ∧ st'.1 = g) := by
  unfold kc_gg_dup_node at h
  cases h1 : kc_gg_tid_is_cur gg i with
  | none => rw [h1] at h; exact Option.noConfusion h
  | some b =>
    rw [h1] at h
    cases b with
    | false =>
      left
      exact ⟨rfl, (Option.some.inj h).symm⟩
    | true =>
      right
      refine ⟨rfl, ?_⟩
      simp only at h
      cases f0 : kc_gg_fanin gg i 0 with
      | none => rw [f0] at h; exact Option.noConfusion h
      | some lit0 =>
        cases f1 : kc_gg_fanin gg i 1 with
        | none => rw [f0, f1] at h; exact Option.noConfusion h
        | some lit1 =>
          cases fx : kc_gg_is_xor gg i with
          | none => rw [f0, f1, fx] at h; exact Option.noConfusion h
          | some isx =>
            rw [f0, f1, fx] at h
            simp only at h
            cases q0 : kc_lit_of_int lit0 with
            | none => rw [q0] at h; exact Option.noConfusion h
            | some l0 =>
              cases q1 : kc_lit_of_int lit1 with
              | none =>
                rw [q0, q1] at h
                simp only [Option.some_bind, Option.none_bind] at h
                split at h <;> simp_all
              | some l1 =>
                rw [q0, q1] at h
                simp only [Option.some_bind] at h
                cases e0 : st.2[l0]? with
                | none => rw [e0] at h; exact Option.noConfusion h
                | some c0 =>
                  cases e1 : st.2[l1]? with
                  | none => rw [e0, e1] at h; exact Option.noConfusion h
                  | some c1 =>
                    rw [e0, e1] at h
                    simp only at h
                    cases hop : (if !isx then kc_gg_and st.1 c0 c1
                        else if only_and then kc_gg_mux ord st.1 c0 (kc_lnot c1) c1
                        else kc_gg_xor st.1 c0 c1) with
                    | none => rw [hop] at h; exact Option.noConfusion h
                    | some gr =>
                      obtain ⟨g, r⟩ := gr
                      rw [hop] at h
                      simp only at h
                      cases w1 : kc_write st.2 (2 * i) r with
                      | none => rw [w1] at h; exact Option.noConfusion h
                      | some p1 =>
                        rw [w1] at h
                        simp only at h
                        cases w2 : kc_write p1 (2 * i + 1) (kc_lnot r) with
                        | none => rw [w2] at h; exact Option.noConfusion h
                        | some p2 =>
                          rw [w2] at h
                          have e := Option.some.inj h
                          refine ⟨lit0, lit1, l0, l1, c0, c1, r, isx, g, p1, rfl, rfl, rfl, q0, q1,
                            e0, e1, hop, w1, ?_, ?_⟩
                          · rw [← e]; exact w2
                          · rw [← e]

/-! ## Duplication into AND nodes -/

theorem kc_gg_dup_init_lt (gg : kc_gg) (p : List Nat) (h : kc_gg_dup_init gg = some p) :
    ∀ x, x ∈ p → x < 2 * (1 + gg.nins) := by
  unfold kc_gg_dup_init at h
  apply kc_foldlM_keeps (fun (p : List Nat) i => kc_write p i i)
    (fun p => ∀ x, x ∈ p → x < 2 * (1 + gg.nins)) _ _ _ _ _ h
  · intro s a s' ha hJ hs x hx
    rcases kc_write_mem s a a s' hs x hx with h1 | h1
    · exact hJ x h1
    · rw [h1]; exact List.mem_range.1 ha
  · intro x hx
    rw [List.mem_replicate] at hx
    omega

/-- One turn of the loop of `kc_gg_dup` with `only_and` keeps the new graph a
well-formed graph of AND nodes and the entries of `pCopy` literals of it. -/
theorem kc_gg_dup_node_and_only (ord : kc_order) (gg : kc_gg) (st st' : kc_gg × List Nat)
    (i : Nat) (hinv : kc_gg_inv st.1) (hao : kc_gg_and_only st.1)
    (hval : ∀ x, x ∈ st.2 → x < 2 * st.1.size)
    (h : kc_gg_dup_node ord gg true st i = some st') :
    kc_gg_inv st'.1 ∧ kc_gg_and_only st'.1 ∧ ∀ x, x ∈ st'.2 → x < 2 * st'.1.size := by
  rcases kc_gg_dup_node_cases ord gg true st st' i h with ⟨_, e⟩ |
    ⟨_, lit0, lit1, l0, l1, c0, c1, r, isx, g, p1, _, _, _, _, _, e0, e1, hop, w1, w2, eg⟩
  · rw [e]; exact ⟨hinv, hao, hval⟩
  · have hc0 : c0 < 2 * st.1.size := hval c0 (List.getElem?_mem e0)
    have hc1 : c1 < 2 * st.1.size := hval c1 (List.getElem?_mem e1)
    have hres : kc_gg_inv g ∧ kc_gg_ext st.1 g ∧ r < 2 * g.size ∧ kc_gg_and_only g := by
      cases isx with
      | false =>
        simp only [Bool.not_false, if_true] at hop
        obtain ⟨g2, r2, a1, a2, a3, a4, a5⟩ := kc_gg_and_and_only st.1 hinv hao c0 c1 hc0 hc1
        rw [a1] at hop
        have e := Option.some.inj hop
        rw [Prod.mk.injEq] at e
        rw [← e.1, ← e.2]
        exact ⟨a2, a3, a4, a5⟩
      | true =>
        simp only [Bool.not_true, Bool.false_eq_true, if_false, if_true] at hop
        obtain ⟨g2, r2, a1, a2, a3, a4, a5⟩ := kc_gg_mux_and_only ord st.1 hinv hao c0
          (kc_lnot c1) c1 hc0 (kc_lnot_lt _ _ hc1) hc1
        rw [a1] at hop
        have e := Option.some.inj hop
        rw [Prod.mk.injEq] at e
        rw [← e.1, ← e.2]
        exact ⟨a2, a3, a4, a5⟩
    obtain ⟨r1, r2, r3, r4⟩ := hres
    rw [eg]
    refine ⟨r1, r4, ?_⟩
    intro x hx
    rcases kc_write_mem _ _ _ _ w2 x hx with h1 | h1
    · rcases kc_write_mem _ _ _ _ w1 x h1 with h2 | h2
      · exact Nat.lt_of_lt_of_le (hval x h2) (Nat.mul_le_mul_left 2 r2.2.1)
      · rw [h2]; exact r3
    · rw [h1]; exact kc_lnot_lt _ _ r3

theorem kc_gg_dup_tops_same (gg : kc_gg) (pCopy : List Nat) (g1 g : kc_gg)
    (h : kc_gg_dup_tops gg pCopy g1 = some g) :
    g.nins = g1.nins ∧ g.size = g1.size ∧ g.fans = g1.fans ∧ g.tts = g1.tts ∧
      g.tids = g1.tids ∧ g.tid = g1.tid := by
  unfold kc_gg_dup_tops at h
  apply kc_foldlM_keeps _ (fun (g : kc_gg) => g.nins = g1.nins ∧ g.size = g1.size ∧
    g.fans = g1.fans ∧ g.tts = g1.tts ∧ g.tids = g1.tids ∧ g.tid = g1.tid) _ _ _ _ _ h
  · intro s a s' _ hJ hs
    simp only at hs
    split at hs
    · exact Option.noConfusion hs
    · rw [← Option.some.inj hs]; exact hJ
  · exact ⟨rfl, rfl, rfl, rfl, rfl, rfl⟩

/-- The graph returned by `kc_gg_dup` with `only_and` is a well-formed graph of
AND nodes, whatever the source graph. -/
theorem kc_gg_dup_and_only (ord : kc_order) (gg g : kc_gg)
    (h : kc_gg_dup ord gg true = some g) :
    ∃ g1, kc_gg_inv g1 ∧ kc_gg_and_only g1 ∧ g.nins = g1.nins ∧ g.size = g1.size ∧
      g.fans = g1.fans := by
  unfold kc_gg_dup at h
  cases hi : kc_gg_dup_init gg with
  | none => rw [hi] at h; exact Option.noConfusion h
  | some p0 =>
    rw [hi] at h
    simp only at h
    cases hl : (List.range' (1 + gg.nins) (gg.size - (1 + gg.nins))).foldlM
        (kc_gg_dup_node ord gg true) (kc_gg_start gg.nins gg.outs, p0) with
    | none => rw [hl] at h; exact Option.noConfusion h
    | some st =>
      rw [hl] at h
      obtain ⟨g1, pc⟩ := st
      simp only at h
      have hJ := kc_foldlM_keeps (kc_gg_dup_node ord gg true)
        (fun st => kc_gg_inv st.1 ∧ kc_gg_and_only st.1 ∧ ∀ x, x ∈ st.2 → x < 2 * st.1.size)
        _ (fun s a s' _ hJ hs => kc_gg_dup_node_and_only ord gg s s' a hJ.1 hJ.2.1 hJ.2.2 hs)
        _ _ ⟨kc_gg_start_inv _ _, kc_gg_start_and_only _ _, kc_gg_dup_init_lt gg p0 hi⟩ hl
      obtain ⟨t1, t2, t3, _, _, _⟩ := kc_gg_dup_tops_same gg pc g1 g h
      exact ⟨g1, hJ.1, hJ.2.1, t1, t2, t3⟩

/-! ## Duplication keeps the functions -/

/-- The tables of the constant and of the inputs are the same in all well-formed
graphs with the same number of inputs. -/
theorem kc_gg_base_tt (g1 g2 : kc_gg) (h1 : kc_gg_inv g1) (h2 : kc_gg_inv g2)
    (hn : g1.nins = g2.nins) (l : Nat) (hl : l < 2 * (1 + g1.nins)) :
    kc_gg_tt g1 l = kc_gg_tt g2 l := by
  have hw : g1.tts.words = g2.tts.words := by rw [h1.tts_words, h2.tts_words, hn]
  have hs1 := h1.size_ge
  have hs2 := h2.size_ge
  have heven : ∀ v, v < 1 + g1.nins → kc_gg_tt g1 (2 * v) = kc_gg_tt g2 (2 * v) := by
    intro v hv
    cases v with
    | zero => rw [Nat.mul_zero, h1.const0, h2.const0, hw]
    | succ i =>
      apply kc_tt_ext g1.tts.words _ _ (kc_gg_tt_ok g1 h1 _ (by omega))
        (by rw [hw]; exact kc_gg_tt_ok g2 h2 _ (by omega))
      intro m hm
      rw [h1.vars i (by omega) m hm, h2.vars i (by omega) m (by rw [← hw]; exact hm)]
  by_cases hp : l % 2 = 0
  · have e : l = 2 * (l / 2) := by omega
    rw [e]; exact heven (l / 2) (by omega)
  · have e : l = (2 * (l / 2)) ^^^ 1 := by
      rw [kc_xor_one_eq]; rw [if_pos (by omega)]; omega
    rw [e, h1.polar _ (by omega), h2.polar _ (by omega), heven (l / 2) (by omega)]

/-- The expansion of an XOR into AND nodes: the multiplexer with control `a` and
data `NOT b`, `b` has the table of `a XOR b`. -/
theorem kc_mux_xor_tt (W : Nat) (A B : List Nat) (hA : kc_tt_ok W A) (hB : kc_tt_ok W B) :
    List.zipWith (· ||| ·) (List.zipWith (· &&& ·) A (B.map kc_not))
        (List.zipWith (· &&& ·) (A.map kc_not) B)
      = List.zipWith (· ^^^ ·) A B := by
  have hnA := kc_tt_ok_not W A hA
  have hnB := kc_tt_ok_not W B hB
  apply kc_tt_ext W _ _ (kc_tt_ok_or W _ _ (kc_tt_ok_and W _ _ hA hnB) (kc_tt_ok_and W _ _ hnA hB))
    (kc_tt_ok_xor W _ _ hA hB)
  intro m hm
  rw [kc_tt_bit_or _ _ (by rw [(kc_tt_ok_and W _ _ hA hnB).1, (kc_tt_ok_and W _ _ hnA hB).1]),
    kc_tt_bit_and _ _ (by rw [hA.1, hnB.1]), kc_tt_bit_and _ _ (by rw [hnA.1, hB.1]),
    kc_tt_bit_xor _ _ (by rw [hA.1, hB.1]), kc_tt_bit_not W A hA m hm, kc_tt_bit_not W B hB m hm]
  cases kc_tt_bit A m <;> cases kc_tt_bit B m <;> rfl

theorem kc_gg_dup_init_spec (gg : kc_gg) (hs : 1 + gg.nins ≤ gg.size) :
    ∃ p, kc_gg_dup_init gg = some p ∧ p.length = 2 * gg.size ∧
      (∀ l, l < 2 * (1 + gg.nins) → p[l]? = some l) := by
  unfold kc_gg_dup_init
  obtain ⟨p, h1, h2, h3⟩ := kc_foldlM_range_inv (fun (p : List Nat) i => kc_write p i i)
    (fun j p => p.length = 2 * gg.size ∧ ∀ l, l < j → p[l]? = some l)
    (2 * (1 + gg.nins)) (List.replicate (2 * gg.size) 0)
    ⟨by simp, fun l hl => by omega⟩
    (by
      intro j s hj hI
      refine ⟨s.set j j, ?_, by rw [List.length_set]; exact hI.1, ?_⟩
      · simp only [kc_write]; rw [if_pos (by rw [hI.1]; omega)]
      · intro l hl
        by_cases e : l = j
        · subst e; exact List.getElem?_set_self (by rw [hI.1]; omega)
        · rw [List.getElem?_set_ne (Ne.symm e)]; exact hI.2 l (by omega))
  exact ⟨p, h1, h2, h3⟩

/-- The constructor chosen by `kc_gg_dup` for a node builds the AND or the XOR
of the two copies, also when the XOR is expanded into AND nodes. -/
theorem kc_gg_dup_op_spec (ord : kc_order) (g0 : kc_gg) (hinv : kc_gg_inv g0)
    (only_and isx : Bool) (c0 c1 : Nat) (h0 : c0 < 2 * g0.size) (h1 : c1 < 2 * g0.size) :
    ∃ g r, (if !isx then kc_gg_and g0 c0 c1
        else if only_and then kc_gg_mux ord g0 c0 (kc_lnot c1) c1
        else kc_gg_xor g0 c0 c1) = some (g, r) ∧
      kc_gg_inv g ∧ kc_gg_ext g0 g ∧ r < 2 * g.size ∧
      kc_gg_tt g r = (if isx then List.zipWith (· ^^^ ·) (kc_gg_tt g0 c0) (kc_gg_tt g0 c1)
        else List.zipWith (· &&& ·) (kc_gg_tt g0 c0) (kc_gg_tt g0 c1)) := by
  cases isx with
  | false =>
    obtain ⟨g, r, a1, a2, a3, a4, a5, _⟩ := kc_gg_and_spec g0 hinv c0 c1 h0 h1
    exact ⟨g, r, by simpa using a1, a2, a3, a4, by simpa using a5⟩
  | true =>
    cases only_and with
    | false =>
      obtain ⟨g, r, a1, a2, a3, a4, a5, _⟩ := kc_gg_xor_spec g0 hinv c0 c1 h0 h1
      exact ⟨g, r, by simpa using a1, a2, a3, a4, by simpa using a5⟩
    | true =>
      obtain ⟨g, r, a1, a2, a3, a4, a5⟩ := kc_gg_mux_spec ord g0 hinv c0 (kc_lnot c1) c1 h0
        (kc_lnot_lt _ _ h1) h1
      refine ⟨g, r, by simpa using a1, a2, a3, a4, ?_⟩
      have e : kc_gg_tt g0 (kc_lnot c1) = (kc_gg_tt g0 c1).map kc_not :=
        kc_gg_tt_lnot g0 hinv c1 h1
      rw [a5, e]
      simp only [if_true]
      exact kc_mux_xor_tt g0.tts.words _ _ (kc_gg_tt_ok g0 hinv c0 h0) (kc_gg_tt_ok g0 hinv c1 h1)

/-- The turn of the loop of `kc_gg_dup` from its parts. -/
theorem kc_gg_dup_node_eq (ord : kc_order) (gg : kc_gg) (only_and : Bool)
    (st : kc_gg × List Nat) (i : Nat) (lit0 lit1 : Int) (l0 l1 c0 c1 r : Nat) (isx : Bool)
    (g : kc_gg) (p1 p2 : List Nat)
    (h1 : kc_gg_tid_is_cur gg i = some true)
    (f0 : kc_gg_fanin gg i 0 = some lit0) (f1 : kc_gg_fanin gg i 1 = some lit1)
    (fx : kc_gg_is_xor gg i = some isx)
    (q0 : kc_lit_of_int lit0 = some l0) (q1 : kc_lit_of_int lit1 = some l1)
    (e0 : st.2[l0]? = some c0) (e1 : st.2[l1]? = some c1)
    (hop : (if !isx then kc_gg_and st.1 c0 c1
         else if only_and then kc_gg_mux ord st.1 c0 (kc_lnot c1) c1
         else kc_gg_xor st.1 c0 c1) = some (g, r))
    (w1 : kc_write st.2 (2 * i) r = some p1)
    (w2 : kc_write p1 (2 * i + 1) (kc_lnot r) = some p2) :
    kc_gg_dup_node ord gg only_and st i = some (g, p2) := by
  unfold kc_gg_dup_node
  rw [h1]
  simp only
  rw [f0, f1, fx]
  simp only
  rw [q0, q1]
  simp only [Option.some_bind]
  rw [e0, e1]
  simp only
  rw [hop]
  simp only
  rw [w1]
  simp only
  rw [w2]

/-- One turn of the loop of `kc_gg_dup` succeeds and keeps `kc_gg_dup_inv`, for
a set `G` of marked nodes that is closed under fanins. -/
theorem kc_gg_dup_node_inv (ord : kc_order) (gg : kc_gg) (only_and : Bool) (G : Nat → Prop)
    (hinv : kc_gg_inv gg)
    (hG : ∀ v, G v → gg.nins < v → v < gg.size → gg.tids[v]? = some gg.tid ∧
      ∀ c a : Nat, c < 2 → gg.fans[2 * v + c]? = some (a : Int) → (a / 2 ≤ gg.nins ∨ G (a / 2)))
    (i : Nat) (st : kc_gg × List Nat) (hi1 : gg.nins < i) (hi2 : i < gg.size)
    (hI : kc_gg_dup_inv gg G i st) :
    ∃ st', kc_gg_dup_node ord gg only_and st i = some st' ∧ kc_gg_dup_inv gg G (i + 1) st' := by
  obtain ⟨jinv, jn, jt, jlen, jval, jtab⟩ := hI
  have htl : i < gg.tids.length := by rw [hinv.tids_len]; exact hi2
  by_cases hcur : gg.tids[i] = gg.tid
  · -- a marked node
    have h1 : kc_gg_tid_is_cur gg i = some true := by
      unfold kc_gg_tid_is_cur
      rw [List.getElem?_eq_getElem htl]
      simp only [hcur, decide_True]
    obtain ⟨a, b, fa, fb, hab, ha, hb, hand, hxor⟩ := hinv.node i hi1 hi2
    have f0 : kc_gg_fanin gg i 0 = some (a : Int) := fa
    have f1 : kc_gg_fanin gg i 1 = some (b : Int) := fb
    have fx : kc_gg_is_xor gg i = some (decide ((a : Int) > (b : Int))) := by
      unfold kc_gg_is_xor
      rw [f0, f1]
    have hla : a < st.2.length := by rw [jlen]; omega
    have hlb : b < st.2.length := by rw [jlen]; omega
    have e0 : st.2[a]? = some st.2[a] := List.getElem?_eq_getElem hla
    have e1 : st.2[b]? = some st.2[b] := List.getElem?_eq_getElem hlb
    have hc0 : st.2[a] < 2 * st.1.size := jval _ (List.getElem_mem hla)
    have hc1 : st.2[b] < 2 * st.1.size := jval _ (List.getElem_mem hlb)
    obtain ⟨g, r, hop, ginv, gext, gr, gtt⟩ := kc_gg_dup_op_spec ord st.1 jinv only_and
      (decide ((a : Int) > (b : Int))) st.2[a] st.2[b] hc0 hc1
    have w1 : kc_write st.2 (2 * i) r = some (st.2.set (2 * i) r) := by
      unfold kc_write; rw [if_pos (by rw [jlen]; omega)]
    have w2 : kc_write (st.2.set (2 * i) r) (2 * i + 1) (kc_lnot r)
        = some ((st.2.set (2 * i) r).set (2 * i + 1) (kc_lnot r)) := by
      unfold kc_write; rw [if_pos (by rw [List.length_set, jlen]; omega)]
    refine ⟨(g, (st.2.set (2 * i) r).set (2 * i + 1) (kc_lnot r)),
      kc_gg_dup_node_eq ord gg only_and st i a b a b st.2[a] st.2[b] r _ g _ _ h1 f0 f1 fx
        (kc_lit_of_int_cast a) (kc_lit_of_int_cast b) e0 e1 hop w1 w2, ?_⟩
    refine ⟨ginv, by rw [gext.1, jn], by rw [gext.2.2.2.1, jt],
      by rw [List.length_set, List.length_set, jlen], ?_, ?_⟩
    · intro x hx
      rcases kc_write_mem _ _ _ _ w2 x hx with h | h
      · rcases kc_write_mem _ _ _ _ w1 x h with h' | h'
        · exact kc_gg_ext_lt _ _ gext x (jval x h')
        · rw [h']; exact gr
      · rw [h]; exact kc_lnot_lt _ _ gr
    · intro l hl hc
      by_cases hlt : l < 2 * i
      · obtain ⟨c, hc1', hc2⟩ := jtab l hlt hc
        refine ⟨c, ?_, ?_⟩
        · simp only
          rw [List.getElem?_set_ne (by omega), List.getElem?_set_ne (by omega)]
          exact hc1'
        · simp only
          rw [kc_gg_ext_tt_inv _ _ jinv gext c (jval c (List.getElem?_mem hc1'))]
          exact hc2
      · have hli : l / 2 = i := by omega
        have hGi : G i := by
          rcases hc with h | h
          · omega
          · rw [hli] at h; exact h
        obtain ⟨_, hclos⟩ := hG i hGi hi1 hi2
        obtain ⟨ca, hca1, hca2⟩ := jtab a ha (hclos 0 a (by omega) fa)
        obtain ⟨cb, hcb1, hcb2⟩ := jtab b hb (hclos 1 b (by omega) fb)
        rw [e0] at hca1
        rw [e1] at hcb1
        have ea := Option.some.inj hca1
        have eb := Option.some.inj hcb1
        rw [ea, eb, hca2, hcb2] at gtt
        have hr : kc_gg_tt g r = kc_gg_tt gg (2 * i) := by
          rw [gtt]
          by_cases hlt' : a < b
          · rw [if_neg (by simp; omega)]
            exact (hand hlt').symm
          · rw [if_pos (by simp; omega)]
            exact (hxor (by omega)).symm
        by_cases hev : l = 2 * i
        · refine ⟨r, ?_, ?_⟩
          · simp only
            rw [hev, List.getElem?_set_ne (by omega)]
            exact List.getElem?_set_self (by rw [jlen]; omega)
          · rw [hev]; exact hr
        · have hodd : l = 2 * i + 1 := by omega
          refine ⟨kc_lnot r, ?_, ?_⟩
          · simp only
            rw [hodd]
            exact List.getElem?_set_self (by rw [List.length_set, jlen]; omega)
          · simp only
            rw [kc_gg_tt_lnot g ginv r gr, hr, hodd, ← hinv.polar (2 * i) (by omega)]
            have e : (2 * i) ^^^ 1 = 2 * i + 1 := by
              rw [kc_xor_one_eq, if_pos (by omega)]
            rw [e]
  · -- an unmarked node is skipped
    have h1 : kc_gg_tid_is_cur gg i = some false := by
      unfold kc_gg_tid_is_cur
      rw [List.getElem?_eq_getElem htl]
      simp only [hcur, decide_False]
    refine ⟨st, ?_, jinv, jn, jt, jlen, jval, ?_⟩
    · unfold kc_gg_dup_node
      rw [h1]
    · intro l hl hc
      by_cases hlt : l < 2 * i
      · exact jtab l hlt hc
      · have hli : l / 2 = i := by omega
        rcases hc with h | h
        · omega
        · rw [hli] at h
          have := (hG i h hi1 hi2).1
          rw [List.getElem?_eq_getElem htl] at this
          exact absurd (Option.some.inj this) hcur

/-- A loop whose body is a total function of the state and the element. -/
theorem kc_foldlM_total {σ α : Type} (step : σ → α → Option σ) (f : σ → α → σ) (l : List α)
    (h : ∀ s a, a ∈ l → step s a = some (f s a)) (s0 : σ) :
    l.foldlM step s0 = some (l.foldl f s0) := by
  induction l generalizing s0 with
  | nil => rfl
  | cons a l ih =>
    rw [List.foldlM_cons, h s0 a (List.mem_cons_self _ _)]
    exact ih (fun s b hb => h s b (List.mem_cons_of_mem _ hb)) (f s0 a)

theorem kc_foldl_push_tops (pc : List Nat) (ts : List Int) (g1 : kc_gg) :
    ts.foldl (fun (g : kc_gg) top =>
        { g with tops := g.tops ++ [((pc.getD top.toNat 0 : Nat) : Int)] }) g1
      = { g1 with tops := g1.tops ++ ts.map (fun top => ((pc.getD top.toNat 0 : Nat) : Int)) } := by
  induction ts generalizing g1 with
  | nil => simp
  | cons a l ih =>
    rw [List.foldl_cons, ih]
    simp

/-- The last loop of `kc_gg_dup` appends the entries of `pCopy` at the output
literals of the source graph. -/
theorem kc_gg_dup_tops_spec (gg : kc_gg) (pc : List Nat) (g1 : kc_gg)
    (h : ∀ top, top ∈ gg.tops → ∃ l : Nat, top = (l : Int) ∧ l < pc.length) :
    kc_gg_dup_tops gg pc g1 = some { g1 with tops := (g1.tops ++
      gg.tops.map (fun top => ((pc.getD top.toNat 0 : Nat) : Int))) } := by
  unfold kc_gg_dup_tops
  rw [← kc_foldl_push_tops]
  apply kc_foldlM_total
  intro s a ha
  obtain ⟨l, e, hl⟩ := h a ha
  rw [e, kc_lit_of_int_cast]
  simp only [Option.some_bind, Int.toNat_ofNat]
  rw [List.getElem?_eq_getElem hl, List.getD_eq_getElem?_getD, List.getElem?_eq_getElem hl]
  rfl

/-- Nodes in the fanin cones of the outputs are objects of the graph. -/
theorem kc_gg_cone_lt (gg : kc_gg) (hinv : kc_gg_inv gg)
    (htops : ∀ top, top ∈ gg.tops → ∃ l : Nat, top = (l : Int) ∧ l < 2 * gg.size)
    (v : Nat) (h : kc_gg_cone gg v) : v < gg.size := by
  induction h with
  | top l hl =>
    obtain ⟨l', e, hl'⟩ := htops _ hl
    have : l = l' := Int.ofNat_inj.1 e
    omega
  | fanin v a c _ hv hc hf ih =>
    obtain ⟨a', b', fa, fb, _, ha, hb, _, _⟩ := hinv.node v hv ih
    have hc' : c = 0 ∨ c = 1 := by omega
    rcases hc' with e | e
    · subst e
      rw [show 2 * v + 0 = 2 * v from rfl, fa] at hf
      have : a' = a := Int.ofNat_inj.1 (Option.some.inj hf)
      omega
    · subst e
      rw [fb] at hf
      have : b' = a := Int.ofNat_inj.1 (Option.some.inj hf)
      omega

/-- The loops of `kc_gg_dup` run to the end on a well-formed graph in which a
set `G` of nodes, closed under fanins and holding the nodes of the outputs, is
marked; the entries of `pCopy` at the literals of `G` have the tables of the
source. -/
theorem kc_gg_dup_spec (ord : kc_order) (gg : kc_gg) (only_and : Bool) (G : Nat → Prop)
    (hinv : kc_gg_inv gg)
    (hG : ∀ v, G v → gg.nins < v → v < gg.size → gg.tids[v]? = some gg.tid ∧
      ∀ c a : Nat, c < 2 → gg.fans[2 * v + c]? = some (a : Int) → (a / 2 ≤ gg.nins ∨ G (a / 2)))
    (htops : ∀ top, top ∈ gg.tops → ∃ l : Nat, top = (l : Int) ∧ l < 2 * gg.size) :
    ∃ g1 pc, kc_gg_dup_inv gg G gg.size (g1, pc) ∧
      kc_gg_dup ord gg only_and = some { g1 with tops :=
        (gg.tops.map (fun top => ((pc.getD top.toNat 0 : Nat) : Int))) } := by
  have hs := hinv.size_ge
  obtain ⟨p0, hp0, hlen0, hid0⟩ := kc_gg_dup_init_spec gg hs
  have hval0 := kc_gg_dup_init_lt gg p0 hp0
  have h0 : kc_gg_dup_inv gg G (1 + gg.nins) (kc_gg_start gg.nins gg.outs, p0) := by
    refine ⟨kc_gg_start_inv _ _, rfl, rfl, hlen0, hval0, ?_⟩
    intro l hl _
    refine ⟨l, hid0 l hl, ?_⟩
    exact kc_gg_base_tt _ _ (kc_gg_start_inv _ _) hinv rfl l hl
  obtain ⟨st, hloop, hI⟩ := kc_foldlM_range'_inv (kc_gg_dup_node ord gg only_and)
    (kc_gg_dup_inv gg G) (1 + gg.nins) (gg.size - (1 + gg.nins)) _ h0
    (fun j s hj1 hj2 hIj => kc_gg_dup_node_inv ord gg only_and G hinv hG j s (by omega)
      (by omega) hIj)
  rw [show 1 + gg.nins + (gg.size - (1 + gg.nins)) = gg.size by omega] at hI
  obtain ⟨g1, pc⟩ := st
  refine ⟨g1, pc, hI, ?_⟩
  unfold kc_gg_dup
  rw [hp0]
  simp only
  rw [hloop]
  simp only
  rw [kc_gg_dup_tops_spec gg pc g1 (fun top ht => by
    obtain ⟨l, e, hl⟩ := htops top ht
    exact ⟨l, e, by rw [hI.2.2.2.1]; exact hl⟩)]
  have e : g1.tops = [] := hI.2.2.1
  rw [e, List.nil_append]

theorem kc_demo_marked_count :
    kc_gg_node_count { kc_demo_xor with tops := [9] } = some (kc_demo_marked, 1) := by
  decide

theorem kc_demo_marked_inv : kc_gg_inv kc_demo_marked :=
  kc_gg_inv_congr kc_demo_xor kc_demo_marked (kc_gg_reach_inv 2 ⟨1, []⟩ _ kc_demo_xor_reach).1
    rfl rfl rfl rfl rfl

theorem kc_demo_marked_tops :
    ∀ top, top ∈ kc_demo_marked.tops → ∃ l : Nat, top = (l : Int) ∧ l < 2 * kc_demo_marked.size := by
  intro top h
  have e : top = 9 := by simpa [kc_demo_marked] using h
  exact ⟨9, e, by decide⟩

theorem kc_demo_marked_cone :
    ∀ v, kc_gg_cone kc_demo_marked v → kc_demo_marked.nins < v →
      kc_demo_marked.tids[v]? = some kc_demo_marked.tid := by
  have key : ∀ v, kc_gg_cone kc_demo_marked v → v = 4 ∨ v ≤ 2 := by
    intro v h
    induction h with
    | top l hl =>
      have e : (l : Int) = 9 := by simpa [kc_demo_marked] using hl
      have : l = 9 := by omega
      subst this
      left; rfl
    | fanin v a c _ hv hc hf ih =>
      have hv' : 2 < v := hv
      have e4 : v = 4 := by omega
      subst e4
      have hc' : c = 0 ∨ c = 1 := by omega
      rcases hc' with e | e
      · subst e
        have : (4 : Int) = (a : Int) := Option.some.inj hf
        right; omega
      · subst e
        have : (2 : Int) = (a : Int) := Option.some.inj hf
        right; omega
  intro v h hv
  have hv' : 2 < v := hv
  rcases key v h with e | e
  · subst e; rfl
  · omega

theorem kc_demo_dup_eq : kc_gg_dup ⟨false, false⟩ kc_demo_marked true = some kc_demo_dup := by
  decide

/-- Claim C17: duplication preserves the output functions.  For a well-formed
graph (`kc_gg_inv`, which every graph built by synthesis satisfies) whose outputs
are literals of the graph and in which every internal node in the fanin cones of
the outputs carries the current traversal mark, `kc_gg_dup` returns, with either
value of `only_and`, a graph with as many outputs as the source, and output `i`
of the copy has the table of output `i` of the source.  In particular the
expansion `mux(c0, NOT c1, c1)` of an XOR has the table of `c0 XOR c1`. -/
theorem kc_gg_dup_preserves_outputs (ord : kc_order) (gg : kc_gg) (only_and : Bool)
    (hinv : kc_gg_inv gg)
    (htops : ∀ top, top ∈ gg.tops → ∃ l : Nat, top = (l : Int) ∧ l < 2 * gg.size)
    (hmark : ∀ v, kc_gg_cone gg v → gg.nins < v → gg.tids[v]? = some gg.tid) :
    (∃ g', kc_gg_dup ord gg only_and = some g' ∧ g'.tops.length = gg.tops.length ∧
      ∀ i, i < gg.tops.length → ∃ (top top' : Nat) (t : List Nat),
        gg.tops[i]? = some (top : Int) ∧ g'.tops[i]? = some (top' : Int) ∧
        kc_vt_read gg.tts top = some t ∧ kc_vt_read g'.tts top' = some t) ∧
    ∀ c0 c1, c0 < 2 * gg.size → c1 < 2 * gg.size →
      ∃ g2 r, kc_gg_mux ord gg c0 (kc_lnot c1) c1 = some (g2, r) ∧
        kc_vt_read g2.tts r
          = some (List.zipWith (· ^^^ ·) (kc_gg_tt gg c0) (kc_gg_tt gg c1)) := by
  constructor
  · obtain ⟨g1, pc, hI, hdup⟩ := kc_gg_dup_spec ord gg only_and (kc_gg_cone gg) hinv
      (fun v hv h1 _ => ⟨hmark v hv h1, fun c a hc hf => Or.inr (kc_gg_cone.fanin v a c hv h1 hc hf)⟩)
      htops
    obtain ⟨jinv, jn, jt, jlen, jval, jtab⟩ := hI
    refine ⟨_, hdup, by simp, ?_⟩
    intro i hi
    obtain ⟨l, e, hl⟩ := htops _ (List.getElem_mem hi)
    have hcone : kc_gg_cone gg (l / 2) := kc_gg_cone.top l (by rw [← e]; exact List.getElem_mem hi)
    obtain ⟨c, hc1, hc2⟩ := jtab l hl (Or.inr hcone)
    have hcv : c < 2 * g1.size := jval c (List.getElem?_mem hc1)
    refine ⟨l, c, kc_gg_tt gg l, ?_, ?_, kc_gg_tt_read gg hinv l hl, ?_⟩
    · rw [List.getElem?_eq_getElem hi, e]
    · simp only [List.getElem?_map, List.getElem?_eq_getElem hi, Option.map_some']
      rw [e, Int.toNat_ofNat, List.getD_eq_getElem?_getD, hc1]
      rfl
    · simp only
      rw [kc_gg_tt_read g1 jinv c hcv, hc2]
  · intro c0 c1 h0 h1
    obtain ⟨g, r, a1, a2, a3, a4, a5⟩ := kc_gg_dup_op_spec ord gg hinv true true c0 c1 h0 h1
    refine ⟨g, r, by simpa using a1, ?_⟩
    rw [kc_gg_tt_read g a2 r a4, a5]
    simp

/-- Instance of claim C17 on the graph `kc_demo_marked`, whose XOR node is
expanded into AND nodes. -/
theorem kc_gg_dup_preserves_outputs_witness :
    ∃ g', kc_gg_dup ⟨false, false⟩ kc_demo_marked true = some g' ∧
      g'.tops.length = kc_demo_marked.tops.length ∧
      ∀ i, i < kc_demo_marked.tops.length → ∃ (top top' : Nat) (t : List Nat),
        kc_demo_marked.tops[i]? = some (top : Int) ∧ g'.tops[i]? = some (top' : Int) ∧
        kc_vt_read kc_demo_marked.tts top = some t ∧ kc_vt_read g'.tts top' = some t :=
  (kc_gg_dup_preserves_outputs ⟨false, false⟩ kc_demo_marked true kc_demo_marked_inv
    kc_demo_marked_tops kc_demo_marked_cone).1

/-- Claim C18: after AND-only duplication the graph is a legal AIGER and-graph.
Whatever the source graph, every internal node `v` of a graph returned by
`kc_gg_dup` with `only_and` has fanins `0 <= fans[2v] < fans[2v+1] < 2v`, so it is
no XOR node and the two differences written by `kc_aiger_write` are positive;
and the call returns a graph for every well-formed source graph whose outputs
are literals of it. -/
theorem kc_gg_dup_and_graph (ord : kc_order) (gg : kc_gg) :
    (∀ g', kc_gg_dup ord gg true = some g' → ∀ v, g'.nins < v → v < g'.size →
      ∃ f0 f1 : Int, kc_gg_fanin g' v 0 = some f0 ∧ kc_gg_fanin g' v 1 = some f1 ∧
        0 ≤ f0 ∧ f0 < f1 ∧ f1 < 2 * (v : Int) ∧ kc_gg_is_xor g' v = some false ∧
        0 < 2 * (v : Int) - f1 ∧ 0 < f1 - f0) ∧
    (kc_gg_inv gg →
      (∀ top, top ∈ gg.tops → ∃ l : Nat, top = (l : Int) ∧ l < 2 * gg.size) →
      ∃ g', kc_gg_dup ord gg true = some g') := by
  constructor
  · intro g' h v hv1 hv2
    obtain ⟨g1, ginv, gao, e1, e2, e3⟩ := kc_gg_dup_and_only ord gg g' h
    rw [e1] at hv1
    rw [e2] at hv2
    obtain ⟨a, b, fa, fb, hab⟩ := gao v hv1 hv2
    obtain ⟨a', b', fa', fb', _, _, hb', _, _⟩ := ginv.node v hv1 hv2
    rw [fb] at fb'
    have eb : b = b' := Int.ofNat_inj.1 (Option.some.inj fb')
    have f0 : kc_gg_fanin g' v 0 = some (a : Int) := by
      unfold kc_gg_fanin; rw [e3]; exact fa
    have f1 : kc_gg_fanin g' v 1 = some (b : Int) := by
      unfold kc_gg_fanin; rw [e3]; exact fb
    refine ⟨a, b, f0, f1, by omega, by omega, by omega, ?_, by omega, by omega⟩
    unfold kc_gg_is_xor
    rw [f0, f1]
    simp only [Option.some.injEq, decide_eq_false_iff_not]
    omega
  · intro hinv htops
    obtain ⟨g1, pc, _, hdup⟩ := kc_gg_dup_spec ord gg true (fun _ => False) hinv
      (fun v hv _ _ => False.elim hv) htops
    exact ⟨_, hdup⟩

/-- Instance of claim C18 on the copy of `kc_demo_marked`: its last node 5 has
the fanins 7 and 9. -/
theorem kc_gg_dup_and_graph_witness :
    kc_gg_dup ⟨false, false⟩ kc_demo_marked true = some kc_demo_dup ∧
    ∃ f0 f1 : Int, kc_gg_fanin kc_demo_dup 5 0 = some f0 ∧ kc_gg_fanin kc_demo_dup 5 1 = some f1 ∧
      0 ≤ f0 ∧ f0 < f1 ∧ f1 < 2 * ((5 : Nat) : Int) ∧ kc_gg_is_xor kc_demo_dup 5 = some false ∧
      0 < 2 * ((5 : Nat) : Int) - f1 ∧ 0 < f1 - f0 :=
  ⟨kc_demo_dup_eq, (kc_gg_dup_and_graph ⟨false, false⟩ kc_demo_marked).1 kc_demo_dup
    kc_demo_dup_eq 5 (by decide) (by decide)⟩

/-! ## Marks left by the node count -/

/-- Switching a predicate on at one element of a list without repetitions adds
one to the count. -/
theorem kc_countP_flip (L : List Nat) (p q : Nat → Bool) (v : Nat) (hn : L.Nodup) (hv : v ∈ L)
    (hp : p v = false) (hq : q v = true) (hpq : ∀ i, i ≠ v → q i = p i) :
    L.countP q = L.countP p + 1 := by
  induction L with
  | nil => exact absurd hv (List.not_mem_nil _)
  | cons x xs ih =>
    rw [List.nodup_cons] at hn
    by_cases hx : x = v
    · subst hx
      have e : xs.countP q = xs.countP p := by
        apply List.countP_congr
        intro i hi
        have : i ≠ x := fun e => hn.1 (e ▸ hi)
        rw [hpq i this]
      rw [List.countP_cons_of_pos _ _ hq, List.countP_cons_of_neg _ _ (by rw [hp]; simp), e]
    · have hv' : v ∈ xs := by
        rcases List.mem_cons.1 hv with h | h
        · exact absurd h.symm hx
        · exact h
      have := ih hn.2 hv'
      by_cases hpx : p x = true
      · rw [List.countP_cons_of_pos _ _ hpx, List.countP_cons_of_pos _ _ (by rw [hpq x hx]; exact hpx),
          this]
      · rw [List.countP_cons_of_neg _ _ hpx, List.countP_cons_of_neg _ _ (by rw [hpq x hx]; exact hpx),
          this]

/-- Marking an unmarked internal node adds one to the number of marked nodes. -/
theorem kc_gg_marked_below_set (gg : kc_gg) (v : Nat) (h1 : gg.nins < v) (h2 : v < gg.size)
    (hl : v < gg.tids.length) (hne : gg.tids[v] ≠ gg.tid) :
    kc_gg_marked_below { gg with tids := gg.tids.set v gg.tid } gg.size
      = kc_gg_marked_below gg gg.size + 1 := by
  unfold kc_gg_marked_below
  apply kc_countP_flip _ _ _ v (List.nodup_range' _ _)
  · rw [List.mem_range'_1]; dsimp only; omega
  · simp only [List.getElem?_eq_getElem hl, Option.some.injEq, decide_eq_false_iff_not]
    exact hne
  · simp only [decide_eq_true_eq]
    exact List.getElem?_set_self hl
  · intro i hi
    simp only
    rw [List.getElem?_set_ne (Ne.symm hi)]

/-- The next marked-below count. -/
theorem kc_gg_marked_below_succ (gg : kc_gg) (i : Nat) (hi : gg.nins < i) :
    kc_gg_marked_below gg (i + 1)
      = kc_gg_marked_below gg i + (if gg.tids[i]? = some gg.tid then 1 else 0) := by
  unfold kc_gg_marked_below
  have e : i + 1 - (1 + gg.nins) = (i - (1 + gg.nins)) + 1 := by omega
  rw [e, List.range'_1_concat, List.countP_append]
  have e2 : 1 + gg.nins + (i - (1 + gg.nins)) = i := by omega
  rw [e2]
  by_cases h : gg.tids[i]? = some gg.tid
  · rw [if_pos h, List.countP_cons_of_pos _ _ (by simpa using h)]
    rfl
  · rw [if_neg h, List.countP_cons_of_neg _ _ (by simpa using h)]
    rfl

theorem kc_gg_marked_below_mono (gg : kc_gg) (i j : Nat) (hi : gg.nins < i) (hij : i ≤ j) :
    kc_gg_marked_below gg i ≤ kc_gg_marked_below gg j := by
  induction j with
  | zero => omega
  | succ j ih =>
    by_cases h : i = j + 1
    · rw [h]
    · have := ih (by omega)
      rw [kc_gg_marked_below_succ gg j (by omega)]
      omega

theorem kc_gg_marks_post_refl (gg : kc_gg) (root : Nat)
    (h : root ≤ gg.nins ∨ gg.tids[root]? = some gg.tid) : kc_gg_marks_post gg gg root 0 :=
  ⟨kc_gg_same_refl gg, rfl, fun _ hv => hv, h, fun _ hv => absurd rfl hv, rfl⟩

/-- The two fanin slots of a node are the slot of a literal of the node and the
slot of its complement. -/
theorem kc_slot_cases (l k : Nat) (hk : k < 2) :
    2 * (l / 2) + k = l ∨ 2 * (l / 2) + k = l ^^^ 1 := by
  have h := kc_xor_one_eq l
  by_cases he : l % 2 = 0
  · rw [if_pos he] at h; omega
  · rw [if_neg he] at h; omega

theorem kc_slot_of (l : Nat) : ∃ k, k < 2 ∧ 2 * (l / 2) + k = l :=
  ⟨l % 2, Nat.mod_lt _ (by decide), by omega⟩

theorem kc_slot_of_not (l : Nat) : ∃ k, k < 2 ∧ 2 * (l / 2) + k = l ^^^ 1 := by
  have h := kc_xor_one_eq l
  by_cases he : l % 2 = 0
  · rw [if_pos he] at h; exact ⟨1, by decide, by omega⟩
  · rw [if_neg he] at h; exact ⟨0, by decide, by omega⟩

/-- With a depth bound above the variable of the literal, `kc_gg_node_count_rec`
returns, and it marks and counts the unmarked nodes it reaches. -/
theorem kc_gg_node_count_rec_marks (fuel : Nat) : ∀ (gg : kc_gg) (l : Nat), kc_gg_inv gg →
    l < 2 * gg.size → l / 2 < fuel →
    ∃ g c, kc_gg_node_count_rec fuel gg (l : Int) = some (g, c) ∧
      kc_gg_marks_post gg g (l / 2) c := by
  induction fuel with
  | zero => intro gg l _ _ h; omega
  | succ fuel ih =>
    intro gg l hinv hl hf
    unfold kc_gg_node_count_rec
    rw [kc_lit_of_int_cast]
    simp only
    have hv : kc_l2v l = l / 2 := by unfold kc_l2v; rw [Nat.shiftRight_eq_div_pow, Nat.pow_one]
    rw [hv]
    by_cases h1 : l / 2 ≤ gg.nins
    · rw [if_pos h1]; exact ⟨gg, 0, rfl, kc_gg_marks_post_refl gg _ (Or.inl h1)⟩
    rw [if_neg h1]
    have hlen : l / 2 < gg.tids.length := by rw [hinv.tids_len]; omega
    unfold kc_gg_tid_update kc_gg_tid_is_cur
    rw [List.getElem?_eq_getElem hlen]
    simp only
    by_cases h2 : gg.tids[l / 2] = gg.tid
    · simp only [h2, decide_True]
      refine ⟨gg, 0, rfl, kc_gg_marks_post_refl gg _ (Or.inr ?_)⟩
      rw [List.getElem?_eq_getElem hlen, h2]
    simp only [h2, decide_False]
    unfold kc_gg_tid_set_cur
    rw [if_pos hlen]
    simp only
    obtain ⟨x, y, hx, hy, hx2, hy2⟩ := kc_gg_node_fans gg hinv l hl (by omega)
    have hs1 : kc_gg_same gg { gg with tids := gg.tids.set (l / 2) gg.tid } :=
      ⟨rfl, rfl, rfl, rfl, rfl, rfl, rfl, by simp⟩
    have hinv1 := kc_gg_same_inv _ _ hs1 hinv
    rw [hx]
    simp only
    obtain ⟨g2, r0, e1, p2⟩ := ih { gg with tids := gg.tids.set (l / 2) gg.tid } x hinv1
      (by show x < 2 * gg.size; omega) (by omega)
    obtain ⟨s2, t2, m2, q2, c2, n2⟩ := p2
    rw [e1]
    simp only
    have hy' : g2.fans[kc_lnot l]? = some (y : Int) := by
      rw [s2.2.2.1]; exact hy
    rw [hy']
    simp only
    obtain ⟨g3, r1, e2, p3⟩ := ih g2 y (kc_gg_same_inv _ _ s2 hinv1)
      (by rw [s2.2.1]; show y < 2 * gg.size; omega) (by omega)
    obtain ⟨s3, t3, m3, q3, c3, n3⟩ := p3
    rw [e2]
    -- the facts about the intermediate graphs, in terms of `gg`
    have ht2 : g2.tid = gg.tid := t2
    have hn2 : g2.nins = gg.nins := s2.1
    have hf2 : g2.fans = gg.fans := s2.2.2.1
    have hz2 : g2.size = gg.size := s2.2.1
    have hz3 : g3.size = gg.size := by rw [s3.2.1, hz2]
    rw [ht2] at m3 q3 c3
    rw [hn2] at q3 c3
    rw [hf2] at c3
    simp only at m2 q2 c2 n2
    have hroot1 : ∀ v : Nat, (gg.tids.set (l / 2) gg.tid)[v]? ≠ gg.tids[v]? → v = l / 2 := by
      intro v hv
      by_contra hne
      exact hv (List.getElem?_set_ne (fun e => hne e.symm))
    have hmark1 : (gg.tids.set (l / 2) gg.tid)[l / 2]? = some gg.tid :=
      List.getElem?_set_self hlen
    obtain ⟨kx, hkx1, hkx2⟩ := kc_slot_of l
    obtain ⟨ky, hky1, hky2⟩ := kc_slot_of_not l
    refine ⟨g3, 1 + r0 + r1, rfl, kc_gg_same_trans _ _ _ (kc_gg_same_trans _ _ _ hs1 s2) s3,
      by rw [t3, t2], ?_, ?_, ?_, ?_⟩
    · intro v hv
      apply m3; apply m2
      by_cases e : v = l / 2
      · rw [e]; exact hmark1
      · rw [List.getElem?_set_ne (fun e' => e e'.symm)]; exact hv
    · exact Or.inr (m3 _ (m2 _ hmark1))
    · intro v hv
      by_cases h32 : g3.tids[v]? = g2.tids[v]?
      · by_cases h21 : g2.tids[v]? = (gg.tids.set (l / 2) gg.tid)[v]?
        · have e : v = l / 2 := hroot1 v (by rw [← h21, ← h32]; exact hv)
          subst e
          refine ⟨by omega, m3 _ (m2 _ hmark1), ?_, fun C hC _ => hC⟩
          intro k a hk hf
          rcases kc_slot_cases l k hk with e | e
          · rw [e, hx] at hf
            have ea : x = a := Int.ofNat_inj.1 (Option.some.inj hf)
            rw [← ea]
            rcases q2 with h | h
            · exact Or.inl h
            · exact Or.inr (m3 _ h)
          · rw [e, hy] at hf
            have ea : y = a := Int.ofNat_inj.1 (Option.some.inj hf)
            rw [← ea]
            exact q3
        · obtain ⟨d1, d2, d3, d4⟩ := c2 v h21
          refine ⟨d1, m3 _ d2, ?_, ?_⟩
          · intro k a hk hf
            rcases d3 k a hk hf with h | h
            · exact Or.inl h
            · exact Or.inr (m3 _ h)
          · intro C hC hclosed
            exact d4 C (by have := hclosed (l / 2) x kx hC (by omega) hkx1 (by rw [hkx2]; exact hx)
                           exact this) hclosed
      · obtain ⟨d1, d2, d3, d4⟩ := c3 v h32
        refine ⟨d1, d2, d3, ?_⟩
        intro C hC hclosed
        exact d4 C (hclosed (l / 2) y ky hC (by omega) hky1 (by rw [hky2]; exact hy)) hclosed
    · rw [n3, n2]
      have := kc_gg_marked_below_set gg (l / 2) (by omega) (by omega) hlen h2
      rw [this]
      omega

/-- A loop over a list whose body keeps an invariant indexed by the number of
elements done runs to the end. -/
theorem kc_foldlM_index_inv {σ α : Type} (step : σ → α → Option σ) (l : List α) :
    ∀ (I : Nat → σ → Prop) (s0 : σ), I 0 s0 →
      (∀ j (hj : j < l.length) s, I j s → ∃ s', step s l[j] = some s' ∧ I (j + 1) s') →
      ∃ s, l.foldlM step s0 = some s ∧ I l.length s := by
  induction l with
  | nil => intro I s0 h0 _; exact ⟨s0, rfl, h0⟩
  | cons a l ih =>
    intro I s0 h0 hstep
    obtain ⟨s1, e1, h1⟩ := hstep 0 (by simp) s0 h0
    obtain ⟨s, e, h⟩ := ih (fun j s => I (j + 1) s) s1 h1
      (fun j hj s hI => hstep (j + 1) (by simp; omega) s hI)
    refine ⟨s, ?_, h⟩
    rw [List.foldlM_cons]
    simp only [List.getElem_cons_zero] at e1
    rw [e1]
    exact e

/-- The node count returns; it leaves marked exactly the internal nodes in the
fanin cones of the outputs, and it returns their number. -/
theorem kc_gg_node_count_spec (gg : kc_gg) (hinv : kc_gg_inv gg)
    (htops : ∀ top, top ∈ gg.tops → ∃ l : Nat, top = (l : Int) ∧ l < 2 * gg.size)
    (hq : ∀ t, t ∈ gg.tids → t ≤ gg.tid) :
    ∃ gm cnt, kc_gg_node_count gg = some (gm, cnt) ∧ kc_gg_same gg gm ∧ gm.tid = gg.tid + 1 ∧
      (∀ v : Nat, gm.tids[v]? = some gm.tid →
        gg.nins < v ∧ kc_gg_cone gg v ∧
        ∀ k a : Nat, k < 2 → gg.fans[2 * v + k]? = some (a : Int) →
          a / 2 ≤ gg.nins ∨ gm.tids[a / 2]? = some gm.tid) ∧
      (∀ v, kc_gg_cone gg v → v ≤ gg.nins ∨ gm.tids[v]? = some gm.tid) ∧
      cnt = kc_gg_marked_below gm gm.size := by
  have hs0 : kc_gg_same gg (kc_gg_tid_increment gg).1 :=
    ⟨rfl, rfl, rfl, rfl, rfl, rfl, rfl, rfl⟩
  have hnone : ∀ v : Nat, gg.tids[v]? ≠ some (gg.tid + 1) := by
    intro v hv
    have := hq _ (List.getElem?_mem hv)
    omega
  have h0 : kc_gg_count_inv gg 0 ((kc_gg_tid_increment gg).1, 0) := by
    refine ⟨hs0, rfl, fun v hv => absurd hv (hnone v), fun i hi => by omega, ?_⟩
    symm
    unfold kc_gg_marked_below
    rw [List.countP_eq_zero]
    intro i _
    simp only [decide_eq_true_eq]
    exact hnone i
  have hloop : ∃ s, kc_gg_node_count gg = some s ∧ kc_gg_count_inv gg gg.tops.length s := by
    unfold kc_gg_node_count
    apply kc_foldlM_index_inv _ _ (kc_gg_count_inv gg) _ h0
    intro j hj s hI
    obtain ⟨js, jt, jm, jp, jc⟩ := hI
    have hj' : j < gg.tops.length := hj
    obtain ⟨l, el, hl⟩ := htops gg.tops[j] (List.getElem_mem hj')
    have sinv := kc_gg_same_inv _ _ js hinv
    obtain ⟨g, c, e, ps, pt, pm, pr, pc, pn⟩ := kc_gg_node_count_rec_marks s.1.size s.1 l sinv
      (by rw [js.2.1]; exact hl) (by rw [js.2.1]; omega)
    have etop : (kc_gg_tid_increment gg).1.tops[j] = (l : Int) := el
    rw [jt] at pm pr pc
    rw [js.1] at pr pc
    rw [js.2.2.1] at pc
    refine ⟨(g, s.2 + c), ?_, kc_gg_same_trans _ _ _ js ps, by rw [pt, jt], ?_, ?_, ?_⟩
    · rw [etop, e]
    · intro v hv
      simp only at hv
      by_cases hch : g.tids[v]? = s.1.tids[v]?
      · rw [hch] at hv
        obtain ⟨d1, d2, d3⟩ := jm v hv
        refine ⟨d1, d2, ?_⟩
        intro k a hk hf
        rcases d3 k a hk hf with h | h
        · exact Or.inl h
        · exact Or.inr (pm _ h)
      · obtain ⟨d1, _, d3, d4⟩ := pc v hch
        refine ⟨d1, ?_, d3⟩
        apply d4 (kc_gg_cone gg)
        · exact kc_gg_cone.top l (by rw [← el]; exact List.getElem_mem hj')
        · intro w a k hw hw1 hk hf
          exact kc_gg_cone.fanin w a k hw hw1 hk hf
    · intro i hi
      by_cases hij : i < j
      · obtain ⟨l', e1, e2⟩ := jp i hij
        refine ⟨l', e1, ?_⟩
        rcases e2 with h | h
        · exact Or.inl h
        · exact Or.inr (pm _ h)
      · have e : i = j := by omega
        subst e
        exact ⟨l, by rw [List.getElem?_eq_getElem hj', el], pr⟩
    · simp only
      rw [jc, pn]
  obtain ⟨⟨gm, cnt⟩, e, js, jt, jm, jp, jc⟩ := hloop
  simp only at js jt jm jp jc
  refine ⟨gm, cnt, e, js, jt, ?_, ?_, jc⟩
  · rw [jt]; exact jm
  · intro v hv
    rw [jt]
    induction hv with
    | top l hl =>
      obtain ⟨i, hi, e⟩ := List.getElem_of_mem hl
      obtain ⟨l', e1, e2⟩ := jp i hi
      rw [List.getElem?_eq_getElem hi, e] at e1
      have : l = l' := Int.ofNat_inj.1 (Option.some.inj e1)
      rw [this]; exact e2
    | fanin v a k _ hv1 hk hf ih =>
      rcases ih with h | h
      · omega
      · exact (jm v h).2.2 k a hk hf

/-! ## Marks never run ahead of the traversal counter -/

theorem kc_gg_append_node_tids (gg : kc_gg) (a b t : Nat) (g : kc_gg) (r : Nat)
    (h : kc_gg_append_node gg a b t = some (g, r)) (hq : kc_gg_tids_ok gg) : kc_gg_tids_ok g := by
  unfold kc_gg_append_node at h
  split at h
  · exact Option.noConfusion h
  · split at h
    · have e := (Prod.mk.inj (Option.some.inj h)).1
      rw [← e]
      refine ⟨hq.1, ?_⟩
      intro x hx
      simp only [List.mem_append, List.mem_singleton] at hx
      rcases hx with hx | hx
      · exact hq.2 x hx
      · rw [hx]; exact hq.1
    · exact Option.noConfusion h

theorem kc_gg_hash_or_append_tids (gg : kc_gg) (a b t : Nat) (g : kc_gg) (r : Nat)
    (h : kc_gg_hash_or_append gg a b t = some (g, r)) (hq : kc_gg_tids_ok gg) :
    kc_gg_tids_ok g := by
  unfold kc_gg_hash_or_append at h
  split at h
  · exact Option.noConfusion h
  · exact kc_gg_append_node_tids gg a b t g r h hq
  · split at h
    · exact Option.noConfusion h
    · have e := (Prod.mk.inj (Option.some.inj h)).1
      rw [← e]; exact hq

theorem kc_gg_and_tids (gg : kc_gg) (a b : Nat) (g : kc_gg) (r : Nat)
    (h : kc_gg_and gg a b = some (g, r)) (hq : kc_gg_tids_ok gg) : kc_gg_tids_ok g := by
  unfold kc_gg_and at h
  have key : ∀ x : Nat, some (gg, x) = some (g, r) → kc_gg_tids_ok g := by
    intro x e
    rw [← (Prod.mk.inj (Option.some.inj e)).1]; exact hq
  split at h
  · exact key _ h
  split at h
  · exact key _ h
  split at h
  · exact key _ h
  split at h
  · exact key _ h
  split at h
  · exact key _ h
  split at h
  · exact key _ h
  simp only at h
  repeat' (split at h)
  all_goals first
    | exact Option.noConfusion h
    | exact kc_gg_hash_or_append_tids _ _ _ _ g r h hq

theorem kc_gg_xor_tids (gg : kc_gg) (a b : Nat) (g : kc_gg) (r : Nat)
    (h : kc_gg_xor gg a b = some (g, r)) (hq : kc_gg_tids_ok gg) : kc_gg_tids_ok g := by
  unfold kc_gg_xor at h
  have key : ∀ x : Nat, some (gg, x) = some (g, r) → kc_gg_tids_ok g := by
    intro x e
    rw [← (Prod.mk.inj (Option.some.inj e)).1]; exact hq
  split at h
  · exact key _ h
  split at h
  · exact key _ h
  split at h
  · exact key _ h
  split at h
  · exact key _ h
  split at h
  · exact key _ h
  split at h
  · exact key _ h
  simp only at h
  repeat' (split at h)
  all_goals first
    | exact Option.noConfusion h
    | exact kc_gg_hash_or_append_tids _ _ _ _ g r h hq

theorem kc_gg_or_tids (gg : kc_gg) (a b : Nat) (g : kc_gg) (r : Nat)
    (h : kc_gg_or gg a b = some (g, r)) (hq : kc_gg_tids_ok gg) : kc_gg_tids_ok g := by
  unfold kc_gg_or at h
  split at h
  · exact Option.noConfusion h
  · rename_i g1 r1 e1
    rw [← (Prod.mk.inj (Option.some.inj h)).1]
    exact kc_gg_and_tids _ _ _ _ _ e1 hq

theorem kc_gg_mux_tids (ord : kc_order) (gg : kc_gg) (c t e : Nat) (g : kc_gg) (r : Nat)
    (h : kc_gg_mux ord gg c t e = some (g, r)) (hq : kc_gg_tids_ok gg) : kc_gg_tids_ok g := by
  unfold kc_gg_mux at h
  split at h
  · split at h
    · exact Option.noConfusion h
    · rename_i g1 r1 e1
      split at h
      · exact Option.noConfusion h
      · rename_i g2 r2 e2
        exact kc_gg_or_tids _ _ _ _ _ h (kc_gg_and_tids _ _ _ _ _ e2 (kc_gg_and_tids _ _ _ _ _ e1 hq))
  · split at h
    · exact Option.noConfusion h
    · rename_i g1 r1 e1
      split at h
      · exact Option.noConfusion h
      · rename_i g2 r2 e2
        exact kc_gg_or_tids _ _ _ _ _ h (kc_gg_and_tids _ _ _ _ _ e2 (kc_gg_and_tids _ _ _ _ _ e1 hq))

theorem kc_gg_and_xor_tids (gg : kc_gg) (c t e : Nat) (g : kc_gg) (r : Nat)
    (h : kc_gg_and_xor gg c t e = some (g, r)) (hq : kc_gg_tids_ok gg) : kc_gg_tids_ok g := by
  unfold kc_gg_and_xor at h
  split at h
  · exact Option.noConfusion h
  · rename_i g1 r1 e1
    exact kc_gg_xor_tids _ _ _ _ _ h (kc_gg_and_tids _ _ _ _ _ e1 hq)

theorem kc_gg_funcs_tids (gg : kc_gg) (fs : kc_vt) (hq : kc_gg_tids_ok gg) :
    kc_gg_tids_ok { gg with funcs := fs } := hq

theorem kc_gg_node_count_rec_tids (fuel : Nat) : ∀ (gg : kc_gg) (lit : Int) (g : kc_gg) (c : Nat),
    kc_gg_node_count_rec fuel gg lit = some (g, c) → kc_gg_tids_ok gg → kc_gg_tids_ok g := by
  induction fuel with
  | zero => intro gg lit g c h; exact Option.noConfusion h
  | succ fuel ih =>
    intro gg lit g c h hq
    unfold kc_gg_node_count_rec at h
    split at h
    · exact Option.noConfusion h
    split at h
    · rw [← (Prod.mk.inj (Option.some.inj h)).1]; exact hq
    split at h
    · exact Option.noConfusion h
    · rename_i gg1 hu
      rw [← (Prod.mk.inj (Option.some.inj h)).1]
      unfold kc_gg_tid_update at hu
      split at hu
      · exact Option.noConfusion hu
      · rw [← (Prod.mk.inj (Option.some.inj hu)).1]; exact hq
      · unfold kc_gg_tid_set_cur at hu
        split at hu
        all_goals first
          | exact Option.noConfusion hu
          | exact absurd (Prod.mk.inj (Option.some.inj hu)).2 (by decide)
    · rename_i gg1 hu
      have hq1 : kc_gg_tids_ok gg1 := by
        unfold kc_gg_tid_update at hu
        split at hu
        · exact Option.noConfusion hu
        · rw [← (Prod.mk.inj (Option.some.inj hu)).1]; exact hq
        · unfold kc_gg_tid_set_cur at hu
          split at hu
          · rw [← (Prod.mk.inj (Option.some.inj hu)).1]
            refine ⟨hq.1, ?_⟩
            intro x hx
            rcases List.mem_or_eq_of_mem_set hx with h1 | h1
            · exact hq.2 x h1
            · rw [h1]
          · exact Option.noConfusion hu
      split at h
      · exact Option.noConfusion h
      split at h
      · exact Option.noConfusion h
      rename_i f0 _ gg2 r0 e0
      split at h
      · exact Option.noConfusion h
      split at h
      · exact Option.noConfusion h
      rename_i f1 _ gg3 r1 e1
      rw [← (Prod.mk.inj (Option.some.inj h)).1]
      exact ih _ _ _ _ e1 (ih _ _ _ _ e0 hq1)

theorem kc_gg_node_count2_tids (ord : kc_order) (gg : kc_gg) (l0 l1 : Int) (g : kc_gg) (c : Nat)
    (h : kc_gg_node_count2 ord gg l0 l1 = some (g, c)) (hq : kc_gg_tids_ok gg) :
    kc_gg_tids_ok g := by
  have hq0 : kc_gg_tids_ok (kc_gg_tid_increment gg).1 := by
    refine ⟨?_, ?_⟩
    · show 0 ≤ gg.tid + 1
      have := hq.1; omega
    · intro t ht
      show t ≤ gg.tid + 1
      have := hq.2 t ht; omega
  unfold kc_gg_node_count2 at h
  simp only at h
  split at h
  · split at h
    · exact Option.noConfusion h
    rename_i g1 r1 e1
    split at h
    · exact Option.noConfusion h
    rename_i g2 r2 e2
    rw [← (Prod.mk.inj (Option.some.inj h)).1]
    exact kc_gg_node_count_rec_tids _ _ _ _ _ e2 (kc_gg_node_count_rec_tids _ _ _ _ _ e1 hq0)
  · split at h
    · exact Option.noConfusion h
    rename_i g1 r1 e1
    split at h
    · exact Option.noConfusion h
    rename_i g2 r2 e2
    rw [← (Prod.mk.inj (Option.some.inj h)).1]
    exact kc_gg_node_count_rec_tids _ _ _ _ _ e2 (kc_gg_node_count_rec_tids _ _ _ _ _ e1 hq0)

theorem synthesis_and_go_tids (ord : kc_order) (k : Nat) : ∀ (gg : kc_gg) (ttId : Nat)
    (g : kc_gg) (r : Int), synthesis_and_go ord k gg ttId = some (g, r) →
    kc_gg_tids_ok gg → kc_gg_tids_ok g := by
  induction k with
  | zero =>
    intro gg ttId g r h hq
    unfold synthesis_and_go at h
    split at h
    · exact Option.noConfusion h
    · rw [← (Prod.mk.inj (Option.some.inj h)).1]; exact hq
    · exact Option.noConfusion h
  | succ k ih =>
    intro gg ttId g r h hq
    unfold synthesis_and_go at h
    split at h
    · exact Option.noConfusion h
    · rw [← (Prod.mk.inj (Option.some.inj h)).1]; exact hq
    split at h
    · exact Option.noConfusion h
    · exact ih _ _ _ _ h hq
    split at h
    · exact Option.noConfusion h
    split at h
    · exact Option.noConfusion h
    split at h
    · exact Option.noConfusion h
    rename_i gg0 lit0 e0
    split at h
    · exact Option.noConfusion h
    rename_i gg1 lit1 e1
    have q1 : kc_gg_tids_ok gg1 := ih _ _ _ _ e1 (ih _ _ _ _ e0 hq)
    split at h
    · exact Option.noConfusion h
    split at h
    · split at h
      · exact Option.noConfusion h
      · rename_i g2 r2 e2
        rw [← (Prod.mk.inj (Option.some.inj h)).1]
        exact kc_gg_mux_tids _ _ _ _ _ _ _ e2 q1
    · exact Option.noConfusion h

theorem synthesis_xor_go_tids (ord : kc_order) (k : Nat) : ∀ (gg : kc_gg) (ttId : Nat)
    (g : kc_gg) (r : Int), synthesis_xor_go ord k gg ttId = some (g, r) →
    kc_gg_tids_ok gg → kc_gg_tids_ok g := by
  induction k with
  | zero =>
    intro gg ttId g r h hq
    unfold synthesis_xor_go at h
    split at h
    · exact Option.noConfusion h
    · rw [← (Prod.mk.inj (Option.some.inj h)).1]; exact hq
    · exact Option.noConfusion h
  | succ k ih =>
    intro gg ttId g r h hq
    unfold synthesis_xor_go at h
    split at h
    · exact Option.noConfusion h
    · rw [← (Prod.mk.inj (Option.some.inj h)).1]; exact hq
    split at h
    · exact Option.noConfusion h
    · exact ih _ _ _ _ h hq
    split at h
    · exact Option.noConfusion h
    split at h
    · exact Option.noConfusion h
    split at h
    · exact Option.noConfusion h
    split at h
    · exact Option.noConfusion h
    rename_i gg0 lit0 e0
    split at h
    · exact Option.noConfusion h
    rename_i gg1 lit1 e1
    split at h
    · exact Option.noConfusion h
    rename_i gg2 lit2 e2
    have q2 : kc_gg_tids_ok gg2 := ih _ _ _ _ e2 (ih _ _ _ _ e1 (ih _ _ _ _ e0 hq))
    split at h
    · exact Option.noConfusion h
    simp only at h
    split at h
    · exact Option.noConfusion h
    rename_i g3 c01 e3
    split at h
    · exact Option.noConfusion h
    rename_i g4 c02 e4
    split at h
    · exact Option.noConfusion h
    rename_i g5 c12 e5
    have q5 : kc_gg_tids_ok g5 :=
      kc_gg_node_count2_tids _ _ _ _ _ _ e5 (kc_gg_node_count2_tids _ _ _ _ _ _ e4
        (kc_gg_node_count2_tids _ _ _ _ _ _ e3 q2))
    repeat' (split at h)
    all_goals first
      | exact Option.noConfusion h
      | (rw [← (Prod.mk.inj (Option.some.inj h)).1]
         first
           | exact q5
           | exact kc_gg_mux_tids _ _ _ _ _ _ _ (by assumption) q5
           | exact kc_gg_and_xor_tids _ _ _ _ _ _ (by assumption) q5)

theorem kc_gg_start_tids (n : Nat) (outs : kc_vt) : kc_gg_tids_ok (kc_gg_start n outs) := by
  refine ⟨by show (0 : Int) ≤ 1; decide, ?_⟩
  intro t ht
  have e : t = 0 := by
    simp only [kc_gg_start, List.mem_replicate] at ht
    exact ht.2
  rw [e]
  show (0 : Int) ≤ 1
  decide

/-- In a graph built by `kc_top_level_call_one` no mark is ahead of the
traversal counter. -/
theorem kc_top_level_call_one_tids (ord : kc_order) (n : Nat) (outs : kc_vt) (and_only : Bool)
    (g : kc_gg) (h : kc_top_level_call_one ord n outs and_only = some g) : kc_gg_tids_ok g := by
  unfold kc_top_level_call_one at h
  apply kc_foldlM_keeps _ kc_gg_tids_ok _ _ _ _ (kc_gg_start_tids n outs) h
  intro s a s' _ hq hs
  simp only at hs
  split at hs
  · exact Option.noConfusion hs
  split at hs
  · exact Option.noConfusion hs
  split at hs
  · exact Option.noConfusion hs
  rename_i fs0 _ fs1 _ g1 top e
  rw [← Option.some.inj hs]
  show kc_gg_tids_ok g1
  cases and_only with
  | true =>
    simp only [if_true] at e
    exact synthesis_and_go_tids _ _ _ _ _ _ e hq
  | false =>
    simp only [Bool.false_eq_true, if_false] at e
    exact synthesis_xor_go_tids _ _ _ _ _ _ e hq

/-! ## Duplication without expansion -/

theorem kc_gg_tid_is_cur_true (gg : kc_gg) (i : Nat) (h : kc_gg_tid_is_cur gg i = some true) :
    gg.tids[i]? = some gg.tid := by
  unfold kc_gg_tid_is_cur at h
  split at h
  · rename_i t e
    have := Option.some.inj h
    simp only [decide_eq_true_eq] at this
    rw [e, this]
  · exact Option.noConfusion h

theorem kc_gg_tid_is_cur_false (gg : kc_gg) (i : Nat) (h : kc_gg_tid_is_cur gg i = some false) :
    gg.tids[i]? ≠ some gg.tid := by
  unfold kc_gg_tid_is_cur at h
  split at h
  · rename_i t e
    have := Option.some.inj h
    simp only [decide_eq_false_iff_not] at this
    rw [e]
    intro e'
    exact this (Option.some.inj e')
  · exact Option.noConfusion h

/-- Appending fanins does not change the type of the nodes before. -/
theorem kc_gg_is_xor_append (g g' : kc_gg) (more : List Int) (h : g'.fans = g.fans ++ more)
    (w : Nat) (hw : 2 * w + 1 < g.fans.length) : kc_gg_is_xor g' w = kc_gg_is_xor g w := by
  unfold kc_gg_is_xor kc_gg_fanin
  rw [h, List.getElem?_append_left (by omega), List.getElem?_append_left hw]

/-- A constructor of `kc_gg_dup` that returns a literal whose table is not in
the graph before has appended one node, and the node has the type asked for. -/
theorem kc_gg_dup_op_new (ord : kc_order) (g0 : kc_gg) (hinv : kc_gg_inv g0) (isx : Bool)
    (c0 c1 : Nat) (h0 : c0 < 2 * g0.size) (h1 : c1 < 2 * g0.size) (g : kc_gg) (r : Nat)
    (hop : (if !isx then kc_gg_and g0 c0 c1
        else if false then kc_gg_mux ord g0 c0 (kc_lnot c1) c1
        else kc_gg_xor g0 c0 c1) = some (g, r))
    (hnew : ∀ l, l < 2 * g0.size → kc_gg_tt g0 l ≠ kc_gg_tt g r) :
    g.size = g0.size + 1 ∧ r = 2 * g0.size ∧ g.nins = g0.nins ∧
      (∃ more, g.fans = g0.fans ++ more) ∧ kc_gg_is_xor g g0.size = some isx := by
  have key : ∀ a' b' : Nat, ∀ t : List Nat, decide ((a' : Int) > (b' : Int)) = isx →
      g = { g0 with size := g0.size + 1
                    fans := g0.fans ++ [(a' : Int), (b' : Int)]
                    tids := g0.tids ++ [0]
                    tts := kc_vt_push (kc_vt_push g0.tts t) (t.map kc_not) } →
      r = 2 * g0.size →
      g.size = g0.size + 1 ∧ r = 2 * g0.size ∧ g.nins = g0.nins ∧
        (∃ more, g.fans = g0.fans ++ more) ∧ kc_gg_is_xor g g0.size = some isx := by
    intro a' b' t hd eg er
    refine ⟨by rw [eg], er, by rw [eg], ⟨_, by rw [eg]⟩, ?_⟩
    rw [eg]
    unfold kc_gg_is_xor kc_gg_fanin
    simp only
    rw [List.getElem?_append_right (by rw [hinv.fans_len]; omega),
      List.getElem?_append_right (by rw [hinv.fans_len]; omega), hinv.fans_len]
    have e1 : 2 * g0.size + 0 - 2 * g0.size = 0 := by omega
    have e2 : 2 * g0.size + 1 - 2 * g0.size = 1 := by omega
    rw [e1, e2]
    simp only [List.getElem?_cons_zero, List.getElem?_cons_succ]
    rw [hd]
  cases isx with
  | false =>
    simp only [Bool.not_false, if_true] at hop
    obtain ⟨g2, r2, a1, a2, a3, a4, a5, a6⟩ := kc_gg_and_spec g0 hinv c0 c1 h0 h1
    rw [a1] at hop
    obtain ⟨eg, er⟩ := Prod.mk.inj (Option.some.inj hop)
    subst eg; subst er
    rcases a6 with ⟨e, hr⟩ | ⟨a', b', t, hab, _, _, e, er, _⟩
    · exfalso
      apply hnew r2 (by omega)
      rw [e]
    · exact key a' b' t (by simp only [gt_iff_lt, decide_eq_false_iff_not]; omega) e er
  | true =>
    simp only [Bool.not_true, Bool.false_eq_true, if_false] at hop
    obtain ⟨g2, r2, a1, a2, a3, a4, a5, a6⟩ := kc_gg_xor_spec g0 hinv c0 c1 h0 h1
    rw [a1] at hop
    obtain ⟨eg, er⟩ := Prod.mk.inj (Option.some.inj hop)
    subst eg; subst er
    rcases a6 with ⟨e, hr⟩ | ⟨a', b', t, hab, _, _, e, er, _⟩
    · exfalso
      apply hnew r2 (by omega)
      rw [e]
    · exact key a' b' t (by simp only [gt_iff_lt, decide_eq_true_eq]; omega) e er

/-- One turn of the loop of `kc_gg_dup` without expansion keeps
`kc_gg_copy_inv`: a marked node becomes one new node of the same type. -/
theorem kc_gg_dup_node_copy (ord : kc_order) (gg : kc_gg) (hinv : kc_gg_inv gg)
    (hG : ∀ v : Nat, gg.tids[v]? = some gg.tid → gg.nins < v → v < gg.size →
      ∀ c a : Nat, c < 2 → gg.fans[2 * v + c]? = some (a : Int) →
        (a / 2 ≤ gg.nins ∨ gg.tids[a / 2]? = some gg.tid))
    (i : Nat) (st : kc_gg × List Nat) (hi1 : gg.nins < i) (hi2 : i < gg.size)
    (hK : kc_gg_copy_inv gg i st) :
    ∃ st', kc_gg_dup_node ord gg false st i = some st' ∧ kc_gg_copy_inv gg (i + 1) st' := by
  obtain ⟨k1, k2, k3, k4⟩ := hK
  obtain ⟨st', hst, k1'⟩ := kc_gg_dup_node_inv ord gg false (fun v => gg.tids[v]? = some gg.tid)
    hinv (fun v hv h1 h2 => ⟨hv, hG v hv h1 h2⟩) i st hi1 hi2 k1
  refine ⟨st', hst, ?_⟩
  have hsucc := kc_gg_marked_below_succ gg i hi1
  rcases kc_gg_dup_node_cases ord gg false st st' i hst with ⟨hc, e⟩ |
    ⟨hc, lit0, lit1, l0, l1, c0, c1, r, isx, g, p1, f0, f1, fx, q0, q1, e0, e1, hop, w1, w2, eg⟩
  · -- an unmarked node
    have hnm := kc_gg_tid_is_cur_false gg i hc
    rw [if_neg hnm, Nat.add_zero] at hsucc
    refine ⟨k1', by rw [e, hsucc]; exact k2, ?_, ?_⟩
    · intro v hv1 hv2 hv3
      have hne : v ≠ i := fun h => hnm (h ▸ hv3)
      rw [e]
      exact k3 v hv1 (by omega) hv3
    · intro m hm
      rw [e] at hm ⊢
      obtain ⟨l, h1, h2, h3⟩ := k4 m hm
      exact ⟨l, by omega, h2, h3⟩
  · -- a marked node
    have hm := kc_gg_tid_is_cur_true gg i hc
    rw [if_pos hm] at hsucc
    obtain ⟨jinv, jn, jt, jlen, jval, jtab⟩ := k1
    obtain ⟨a, b, fa, fb, hab, ha, hb, _, _⟩ := hinv.node i hi1 hi2
    have ea : lit0 = (a : Int) := by
      have : kc_gg_fanin gg i 0 = some (a : Int) := fa
      rw [f0] at this; exact Option.some.inj this
    have eb : lit1 = (b : Int) := by
      have : kc_gg_fanin gg i 1 = some (b : Int) := fb
      rw [f1] at this; exact Option.some.inj this
    rw [ea, kc_lit_of_int_cast] at q0
    rw [eb, kc_lit_of_int_cast] at q1
    have el0 : a = l0 := Option.some.inj q0
    have el1 : b = l1 := Option.some.inj q1
    subst el0; subst el1
    have hc0 : c0 < 2 * st.1.size := jval c0 (List.getElem?_mem e0)
    have hc1 : c1 < 2 * st.1.size := jval c1 (List.getElem?_mem e1)
    have hp1 : p1 = st.2.set (2 * i) r := by
      unfold kc_write at w1
      split at w1
      · exact (Option.some.inj w1).symm
      · exact Option.noConfusion w1
    have hp2 : st'.2 = (st.2.set (2 * i) r).set (2 * i + 1) (kc_lnot r) := by
      unfold kc_write at w2
      split at w2
      · rw [← Option.some.inj w2, hp1]
      · exact Option.noConfusion w2
    have hr0 : st'.2[2 * i]? = some r := by
      rw [hp2, List.getElem?_set_ne (by omega)]
      exact List.getElem?_set_self (by rw [jlen]; omega)
    have hr1 : st'.2[2 * i + 1]? = some (kc_lnot r) := by
      rw [hp2]
      exact List.getElem?_set_self (by rw [List.length_set, jlen]; omega)
    have hold : ∀ l, l < 2 * i → st'.2[l]? = st.2[l]? := by
      intro l hl
      rw [hp2, List.getElem?_set_ne (by omega), List.getElem?_set_ne (by omega)]
    -- the table of the new literal is the table of the node
    have htab : kc_gg_tt g r = kc_gg_tt gg (2 * i) := by
      obtain ⟨c, h1, h2⟩ := k1'.2.2.2.2.2 (2 * i) (by omega)
        (Or.inr (by rw [show 2 * i / 2 = i by omega]; exact hm))
      rw [hr0] at h1
      rw [← Option.some.inj h1, eg] at h2
      exact h2
    -- so it is a new table
    have hnew : ∀ l, l < 2 * st.1.size → kc_gg_tt st.1 l ≠ kc_gg_tt g r := by
      intro m hm' hcon
      obtain ⟨l, h1, h2, h3⟩ := k4 m hm'
      obtain ⟨c, h4, h5⟩ := jtab l h1 h2
      rw [h3] at h4
      rw [← Option.some.inj h4, hcon, htab] at h5
      have := hinv.func_uniq (2 * i) l (by omega) (by omega) h5
      omega
    obtain ⟨n1, n2, n3, ⟨more, n4⟩, n5⟩ := kc_gg_dup_op_new ord st.1 jinv isx c0 c1 hc0 hc1 g r
      hop hnew
    have hsz : st'.1.size = st.1.size + 1 := by rw [eg]; exact n1
    refine ⟨k1', by rw [hsz, k2, hsucc]; omega, ?_, ?_⟩
    · intro v hv1 hv2 hv3
      by_cases hvi : v = i
      · subst hvi
        refine ⟨by rw [hr0, n2, k2], ?_⟩
        rw [eg, ← k2, n5, fx]
      · have hv2' : v < i := by omega
        obtain ⟨h1, h2⟩ := k3 v hv1 hv2' hv3
        refine ⟨by rw [hold _ (by omega)]; exact h1, ?_⟩
        rw [eg, kc_gg_is_xor_append st.1 g more n4 _ ?_]
        · exact h2
        · have hmono := kc_gg_marked_below_mono gg (v + 1) i (by omega) (by omega)
          rw [kc_gg_marked_below_succ gg v hv1, if_pos hv3] at hmono
          rw [jinv.fans_len, k2]
          omega
    · intro m hm'
      rw [hsz] at hm'
      by_cases h1 : m < 2 * st.1.size
      · obtain ⟨l, h2, h3, h4⟩ := k4 m h1
        exact ⟨l, by omega, h3, by rw [hold l h2]; exact h4⟩
      · by_cases h2 : m = 2 * st.1.size
        · refine ⟨2 * i, by omega, Or.inr (by rw [show 2 * i / 2 = i by omega]; exact hm), ?_⟩
          rw [hr0, n2, h2]
        · refine ⟨2 * i + 1, by omega,
            Or.inr (by rw [show (2 * i + 1) / 2 = i by omega]; exact hm), ?_⟩
          rw [hr1, n2]
          have : kc_lnot (2 * st.1.size) = 2 * st.1.size + 1 := by
            unfold kc_lnot
            rw [kc_xor_one_eq, if_pos (by omega)]
          rw [this]
          congr 1
          omega

/-- The loops of `kc_gg_dup` without expansion on a well-formed graph whose
marked nodes are closed under fanins: the copy holds one node for every marked
node. -/
theorem kc_gg_dup_copy_spec (ord : kc_order) (gg : kc_gg) (hinv : kc_gg_inv gg)
    (hG : ∀ v : Nat, gg.tids[v]? = some gg.tid → gg.nins < v → v < gg.size →
      ∀ c a : Nat, c < 2 → gg.fans[2 * v + c]? = some (a : Int) →
        (a / 2 ≤ gg.nins ∨ gg.tids[a / 2]? = some gg.tid))
    (htops : ∀ top, top ∈ gg.tops → ∃ l : Nat, top = (l : Int) ∧ l < 2 * gg.size) :
    ∃ g1 pc, kc_gg_copy_inv gg gg.size (g1, pc) ∧
      kc_gg_dup ord gg false = some { g1 with tops :=
        (gg.tops.map (fun top => ((pc.getD top.toNat 0 : Nat) : Int))) } := by
  have hs := hinv.size_ge
  obtain ⟨p0, hp0, hlen0, hid0⟩ := kc_gg_dup_init_spec gg hs
  have hval0 := kc_gg_dup_init_lt gg p0 hp0
  have h0 : kc_gg_copy_inv gg (1 + gg.nins) (kc_gg_start gg.nins gg.outs, p0) := by
    refine ⟨⟨kc_gg_start_inv _ _, rfl, rfl, hlen0, hval0, ?_⟩, ?_, ?_, ?_⟩
    · intro l hl _
      exact ⟨l, hid0 l hl, kc_gg_base_tt _ _ (kc_gg_start_inv _ _) hinv rfl l hl⟩
    · show 1 + gg.nins = 1 + gg.nins + kc_gg_marked_below gg (1 + gg.nins)
      unfold kc_gg_marked_below
      simp
    · intro v h1 h2 _
      omega
    · intro m hm
      have hm' : m < 2 * (1 + gg.nins) := hm
      exact ⟨m, hm', Or.inl (by omega), hid0 m hm'⟩
  obtain ⟨st, hloop, hI⟩ := kc_foldlM_range'_inv (kc_gg_dup_node ord gg false)
    (kc_gg_copy_inv gg) (1 + gg.nins) (gg.size - (1 + gg.nins)) _ h0
    (fun j s hj1 hj2 hIj => kc_gg_dup_node_copy ord gg hinv hG j s (by omega) (by omega) hIj)
  rw [show 1 + gg.nins + (gg.size - (1 + gg.nins)) = gg.size by omega] at hI
  obtain ⟨g1, pc⟩ := st
  refine ⟨g1, pc, hI, ?_⟩
  unfold kc_gg_dup
  rw [hp0]
  simp only
  rw [hloop]
  simp only
  rw [kc_gg_dup_tops_spec gg pc g1 (fun top ht => by
    obtain ⟨l, e, hl⟩ := htops top ht
    exact ⟨l, e, by rw [hI.1.2.2.2.1]; exact hl⟩)]
  have e : g1.tops = [] := hI.1.2.2.1
  rw [e, List.nil_append]

/-- Claim C19: duplication without XOR expansion keeps the node count.  For
valid output tables, `kc_top_level_call_one` returns a graph `gg`,
`kc_gg_node_count` on it returns a count `cnt` and leaves the graph `gm`, and
`kc_gg_dup` of `gm` without expansion returns a graph `g'` with exactly `cnt`
internal nodes.  The count is the number of marked nodes of `gm`, which are the
internal nodes in the fanin cones of the outputs of `gg`.  The marked node `v`
is translated to the new node `1 + nins + (number of marked nodes below v)`, so
different marked nodes go to different new nodes; that node has the gate type
and the table of `v`. -/
theorem kc_gg_dup_keeps_node_count (ord : kc_order) (n : Nat) (outs : kc_vt) (and_only : Bool)
    (hok : kc_outs_ok n outs) :
    ∃ gg gm cnt g', kc_top_level_call_one ord n outs and_only = some gg ∧
      kc_gg_node_count gg = some (gm, cnt) ∧
      kc_gg_dup ord gm false = some g' ∧
      kc_gg_node_num g' = cnt ∧
      cnt = kc_gg_marked_below gm gm.size ∧
      (∀ v : Nat, gg.nins < v → (gm.tids[v]? = some gm.tid ↔ kc_gg_cone gg v)) ∧
      ∀ v : Nat, gm.nins < v → gm.tids[v]? = some gm.tid →
        g'.nins < 1 + gm.nins + kc_gg_marked_below gm v ∧
        1 + gm.nins + kc_gg_marked_below gm v < g'.size ∧
        kc_gg_is_xor g' (1 + gm.nins + kc_gg_marked_below gm v) = kc_gg_is_xor gm v ∧
        kc_gg_tt g' (2 * (1 + gm.nins + kc_gg_marked_below gm v)) = kc_gg_tt gm (2 * v) ∧
        ∀ v' : Nat, v < v' → kc_gg_marked_below gm v < kc_gg_marked_below gm v' := by
  obtain ⟨gg, hgg, hinv, hn, _, _, _, htops0⟩ := kc_top_level_call_one_spec ord n outs and_only hok
  have hq := kc_top_level_call_one_tids ord n outs and_only gg hgg
  have htops : ∀ top, top ∈ gg.tops → ∃ l : Nat, top = (l : Int) ∧ l < 2 * gg.size := by
    intro top ht
    obtain ⟨i, hi, e⟩ := List.getElem_of_mem ht
    obtain ⟨l, h1, h2, _⟩ := htops0 i (by omega)
    rw [List.getElem?_eq_getElem hi, e] at h1
    exact ⟨l, Option.some.inj h1, h2⟩
  obtain ⟨gm, cnt, hcnt, hsame, htid, hmk, hcone, hnum⟩ := kc_gg_node_count_spec gg hinv htops hq.2
  have minv := kc_gg_same_inv gg gm hsame hinv
  have mn : gm.nins = gg.nins := hsame.1
  have mz : gm.size = gg.size := hsame.2.1
  have mf : gm.fans = gg.fans := hsame.2.2.1
  have mt : gm.tops = gg.tops := hsame.2.2.2.2.2.1
  have hG : ∀ v : Nat, gm.tids[v]? = some gm.tid → gm.nins < v → v < gm.size →
      ∀ c a : Nat, c < 2 → gm.fans[2 * v + c]? = some (a : Int) →
        (a / 2 ≤ gm.nins ∨ gm.tids[a / 2]? = some gm.tid) := by
    intro v hv _ _ c a hc hf
    rw [mn]
    rw [mf] at hf
    exact (hmk v hv).2.2 c a hc hf
  obtain ⟨g1, pc, ⟨k1, k2, k3, k4⟩, hdup⟩ := kc_gg_dup_copy_spec ord gm minv hG
    (by rw [mt, mz]; exact htops)
  obtain ⟨jinv, jn, jt, jlen, jval, jtab⟩ := k1
  simp only at k2 k3 jinv jn jtab jval
  refine ⟨gg, gm, cnt, _, hgg, hcnt, hdup, ?_, hnum, ?_, ?_⟩
  · show g1.size - 1 - g1.nins = cnt
    rw [k2, jn, hnum]
    omega
  · intro v hv
    constructor
    · intro h; exact (hmk v h).2.1
    · intro h
      rcases hcone v h with h' | h'
      · omega
      · exact h'
  · intro v hv1 hv3
    have hv2 : v < gm.size := by
      have := (List.getElem?_eq_some.1 hv3).1
      rw [minv.tids_len] at this
      exact this
    obtain ⟨h1, h2⟩ := k3 v hv1 hv2 hv3
    have hmono := kc_gg_marked_below_mono gm (v + 1) gm.size (by omega) (by omega)
    rw [kc_gg_marked_below_succ gm v hv1, if_pos hv3] at hmono
    refine ⟨by show g1.nins < _; rw [jn]; omega, by show _ < g1.size; rw [k2]; omega, h2, ?_, ?_⟩
    · obtain ⟨c, h3, h4⟩ := jtab (2 * v) (by omega)
        (Or.inr (by rw [show 2 * v / 2 = v by omega]; exact hv3))
      rw [h1] at h3
      rw [← Option.some.inj h3] at h4
      exact h4
    · intro v' hvv
      have hm2 := kc_gg_marked_below_mono gm (v + 1) v' (by omega) (by omega)
      rw [kc_gg_marked_below_succ gm v hv1, if_pos hv3] at hm2
      omega

/-- Instance of claim C19 on the two-input function with table
`0x6666666666666666`, the XOR of the two inputs, synthesized with XOR nodes. -/
theorem kc_gg_dup_keeps_node_count_witness :
    kc_outs_ok 2 ⟨1, [[0x6666666666666666]]⟩ ∧
    ∃ gg gm cnt g', kc_top_level_call_one ⟨false, false⟩ 2 ⟨1, [[0x6666666666666666]]⟩ false
        = some gg ∧
      kc_gg_node_count gg = some (gm, cnt) ∧
      kc_gg_dup ⟨false, false⟩ gm false = some g' ∧
      kc_gg_node_num g' = cnt ∧
      cnt = kc_gg_marked_below gm gm.size ∧
      (∀ v : Nat, gg.nins < v → (gm.tids[v]? = some gm.tid ↔ kc_gg_cone gg v)) ∧
      ∀ v : Nat, gm.nins < v → gm.tids[v]? = some gm.tid →
        g'.nins < 1 + gm.nins + kc_gg_marked_below gm v ∧
        1 + gm.nins + kc_gg_marked_below gm v < g'.size ∧
        kc_gg_is_xor g' (1 + gm.nins + kc_gg_marked_below gm v) = kc_gg_is_xor gm v ∧
        kc_gg_tt g' (2 * (1 + gm.nins + kc_gg_marked_below gm v)) = kc_gg_tt gm (2 * v) ∧
        ∀ v' : Nat, v < v' → kc_gg_marked_below gm v < kc_gg_marked_below gm v' :=
  ⟨by decide, kc_gg_dup_keeps_node_count ⟨false, false⟩ 2 ⟨1, [[0x6666666666666666]]⟩ false
    (by decide)⟩

/-! ## Permutation and tables in lock-step -/

/-- The exchange of two positions as a function on positions. -/
theorem kc_range_swap_perm (n x y : Nat) (hx : x < n) (hy : y < n) :
    ((List.range n).map (fun k => if k = x then y else if k = y then x else k)).Perm
      (List.range n) := by
  have hinj : Function.Injective (fun k : Nat => if k = x then y else if k = y then x else k) := by
    intro a b h
    simp only at h
    split_ifs at h <;> omega
  apply (List.perm_ext_iff_of_nodup ((List.nodup_range n).map hinj) (List.nodup_range n)).2
  intro a
  simp only [List.mem_map, List.mem_range]
  constructor
  · rintro ⟨k, hk, e⟩
    split_ifs at e <;> omega
  · intro ha
    refine ⟨if a = x then y else if a = y then x else a, ?_, ?_⟩
    · split_ifs <;> omega
    · split_ifs <;> omega

/-- Exchanging two entries of `currPerm` amounts to exchanging the two bits of the
minterm. -/
theorem kc_perm_index_swap (p : List Int) (n m x y : Nat) (hx : x < n) (hy : y < n)
    (hn : n ≤ p.length) :
    kc_perm_index ((p.set x (p.getD y 0)).set y (p.getD x 0)) n m
      = kc_perm_index p n (kc_swap_bits m x y) := by
  unfold kc_perm_index
  have hp := kc_range_swap_perm n x y hx hy
  have h2 := (hp.map (fun k => if (kc_swap_bits m x y).testBit k
    then 2 ^ (p.getD k 0).toNat else 0)).sum_eq
  rw [← h2, List.map_map]
  congr 1
  apply List.map_congr_left
  intro k hk
  simp only [Function.comp]
  rw [kc_swap_bits_bits]
  have hlx : x < p.length := by omega
  have hly : y < p.length := by omega
  by_cases h1 : k = x
  · subst h1
    by_cases h2 : k = y
    · subst h2
      simp [List.getD_eq_getElem?_getD, List.getElem?_set_self, hlx]
    · simp [List.getD_eq_getElem?_getD, List.getElem?_set_ne, List.getElem?_set_self, hlx, h2,
        Ne.symm h2]
  · by_cases h2 : k = y
    · subst h2
      simp [List.getD_eq_getElem?_getD, List.getElem?_set_self, hly, h1]
    · simp [List.getD_eq_getElem?_getD, List.getElem?_set_ne, h1, h2, Ne.symm h1, Ne.symm h2]

theorem kc_pow_le_words (n : Nat) : 2 ^ n ≤ 64 * kc_truth_word_num n := by
  unfold kc_truth_word_num
  by_cases h : n ≤ 6
  · rw [if_pos h]
    calc 2 ^ n ≤ 2 ^ 6 := Nat.pow_le_pow_right (by norm_num) h
      _ = 64 * 1 := by norm_num
  · rw [if_neg h, Nat.shiftLeft_eq, Nat.one_mul]
    have e : n = 6 + (n - 6) := by omega
    have e2 : 2 ^ n = 64 * 2 ^ (n - 6) := by
      calc 2 ^ n = 2 ^ (6 + (n - 6)) := by rw [← e]
        _ = 64 * 2 ^ (n - 6) := by rw [Nat.pow_add]
    rw [e2]

/-- The loop `for (t = 0; t < tts->size; t++) kc_vt_swap_vars(tts, t, x, y)`
exchanges the two variables in every table of the store. -/
theorem kc_swap_all (n : Nat) (v : kc_vt) (x y : Nat) (hx : x < n) (hy : y < n)
    (hw : v.words = kc_truth_word_num n) (hok : kc_vt_ok v) :
    ∃ w, (List.range v.ptr.length).foldlM (fun w t => kc_vt_swap_vars w t x y) v = some w ∧
      w.words = v.words ∧ kc_vt_ok w ∧ w.ptr.length = v.ptr.length ∧
      ∀ t m, m < 64 * v.words →
        kc_tt_bit (w.ptr.getD t []) m = kc_tt_bit (v.ptr.getD t []) (kc_swap_bits m x y) := by
  obtain ⟨w, h1, h2, h3, h4, h5, h6⟩ := kc_foldlM_range_inv
    (fun w t => kc_vt_swap_vars w t x y)
    (fun j w => w.words = v.words ∧ kc_vt_ok w ∧ w.ptr.length = v.ptr.length ∧
      (∀ t, t < j → ∀ m, m < 64 * v.words →
        kc_tt_bit (w.ptr.getD t []) m = kc_tt_bit (v.ptr.getD t []) (kc_swap_bits m x y)) ∧
      (∀ t, j ≤ t → w.ptr[t]? = v.ptr[t]?))
    v.ptr.length v ⟨rfl, hok, rfl, fun t ht => by omega, fun _ _ => rfl⟩
    (by
      intro j s hj ⟨i1, i2, i3, i4, i5⟩
      have hjs : j < s.ptr.length := by rw [i3]; exact hj
      have hread : kc_vt_read s j = some s.ptr[j] := List.getElem?_eq_getElem hjs
      obtain ⟨ttNew, e1, e2, e3⟩ := kc_vt_swap_vars_spec n s j x y s.ptr[j] (by rw [i1, hw])
        (i2 _ (List.getElem_mem hjs)) hread hx hy
      refine ⟨_, e1, i1, ?_, by simp only [List.length_set]; exact i3, ?_, ?_⟩
      · intro t ht
        rcases List.mem_or_eq_of_mem_set ht with h | h
        · exact i2 t h
        · rw [h]; exact e2
      · intro t ht m hm
        simp only
        by_cases e : t = j
        · subst e
          rw [List.getD_eq_getElem?_getD, List.getElem?_set_self hjs, Option.getD_some,
            e3 m (by rw [i1]; exact hm)]
          have := i5 t (Nat.le_refl _)
          rw [List.getElem?_eq_getElem hjs] at this
          rw [List.getD_eq_getElem?_getD, ← this, Option.getD_some]
        · rw [List.getD_eq_getElem?_getD, List.getElem?_set_ne (fun e' => e e'.symm),
            ← List.getD_eq_getElem?_getD]
          exact i4 t (by omega) m hm
      · intro t ht
        simp only
        rw [List.getElem?_set_ne (by omega)]
        exact i5 t (by omega))
  refine ⟨w, h1, h2, h3, h4, ?_⟩
  intro t m hm
  by_cases ht : t < v.ptr.length
  · exact h5 t ht m hm
  · rw [List.getD_eq_getElem?_getD, List.getD_eq_getElem?_getD,
      List.getElem?_eq_none (by omega), List.getElem?_eq_none (by omega)]
    simp [kc_tt_bit]

/-- One exchange of `kc_get_next_perm` with positions inside the ordering keeps
permutation and tables in relation. -/
theorem kc_perm_swap_store (n : Nat) (p : List Int) (v orig : kc_vt) (x y : Nat)
    (hx : x < n) (hy : y < n) (hn : n ≤ p.length)
    (hw : v.words = kc_truth_word_num n) (hok : kc_vt_ok v) (hR : kc_perm_rel p n orig v) :
    ∃ q w, kc_perm_swap p (some v) (x : Int) (y : Int) = some (q, some w) ∧
      kc_perm_swap p none (x : Int) (y : Int) = some (q, none) ∧
      q.length = p.length ∧ w.words = v.words ∧ kc_vt_ok w ∧ kc_perm_rel q n orig w := by
  obtain ⟨w, h1, h2, h3, h4, h5⟩ := kc_swap_all n v x y hx hy hw hok
  have hlx : x < p.length := by omega
  have hly : y < p.length := by omega
  have ex : p[x]? = some (p.getD x 0) := by
    rw [List.getD_eq_getElem?_getD, List.getElem?_eq_getElem hlx]; rfl
  have ey : p[y]? = some (p.getD y 0) := by
    rw [List.getD_eq_getElem?_getD, List.getElem?_eq_getElem hly]; rfl
  refine ⟨(p.set x (p.getD y 0)).set y (p.getD x 0), w, ?_, ?_, by simp, h2, h3, ?_⟩
  · unfold kc_perm_swap
    rw [kc_arr_read_nat, kc_arr_read_nat, ex, ey]
    simp only [Int.toNat_ofNat]
    rw [h1]
  · unfold kc_perm_swap
    rw [kc_arr_read_nat, kc_arr_read_nat, ex, ey]
    simp only [Int.toNat_ofNat]
  · refine ⟨by rw [h4]; exact hR.1, ?_⟩
    intro t m hm
    have hm' : m < 64 * v.words := by
      rw [hw]; exact Nat.lt_of_lt_of_le hm (kc_pow_le_words n)
    rw [h5 t m hm', hR.2 t _ (kc_swap_bits_lt m x y n hm hx hy),
      kc_perm_index_swap p n m x y hx hy hn]

/-- The last loop of `kc_get_next_perm` with both ends inside the ordering keeps
permutation and tables in relation, and changes the permutation as it does
without a store. -/
theorem kc_perm_reverse_store (n : Nat) (orig : kc_vt) (fuel : Nat) :
    ∀ (p : List Int) (v : kc_vt) (a b : Nat), 1 ≤ a → b ≤ n → n ≤ p.length →
      b ≤ a + 2 * fuel → v.words = kc_truth_word_num n → kc_vt_ok v → kc_perm_rel p n orig v →
      ∃ q w, kc_perm_reverse fuel p (some v) (a : Int) (b : Int) = some (q, some w) ∧
        kc_perm_reverse fuel p none (a : Int) (b : Int) = some (q, none) ∧
        w.words = v.words ∧ kc_vt_ok w ∧ kc_perm_rel q n orig w := by
  induction fuel with
  | zero =>
    intro p v a b _ _ _ hf hw hok hR
    have hnlt : ¬ (a : Int) < (b : Int) := by omega
    refine ⟨p, v, ?_, ?_, rfl, hok, hR⟩
    · unfold kc_perm_reverse; rw [if_neg hnlt]
    · unfold kc_perm_reverse; rw [if_neg hnlt]
  | succ fuel ih =>
    intro p v a b ha hb hn hf hw hok hR
    by_cases hlt : a < b
    · have hlt' : (a : Int) < (b : Int) := by omega
      have ea : (a : Int) - 1 = ((a - 1 : Nat) : Int) := by omega
      have eb : (b : Int) - 1 = ((b - 1 : Nat) : Int) := by omega
      obtain ⟨q1, w1, s1, s2, s3, s4, s5, s6⟩ := kc_perm_swap_store n p v orig (a - 1) (b - 1)
        (by omega) (by omega) hn hw hok hR
      obtain ⟨q, w, r1, r2, r3, r4, r5⟩ := ih q1 w1 (a + 1) (b - 1) (by omega) (by omega)
        (by rw [s3]; exact hn) (by omega) (by rw [s4]; exact hw) s5 s6
      have ea1 : (a : Int) + 1 = ((a + 1 : Nat) : Int) := by omega
      refine ⟨q, w, ?_, ?_, by rw [r3, s4], r4, r5⟩
      · unfold kc_perm_reverse
        rw [if_pos hlt', ea, eb, s1]
        simp only
        rw [ea1]
        exact r1
      · unfold kc_perm_reverse
        rw [if_pos hlt', ea, eb, s2]
        simp only
        rw [ea1]
        exact r2
    · have hnlt : ¬ (a : Int) < (b : Int) := by omega
      refine ⟨p, v, ?_, ?_, rfl, hok, hR⟩
      · unfold kc_perm_reverse; rw [if_neg hnlt]
      · unfold kc_perm_reverse; rw [if_neg hnlt]

/-- Where the first loop of `kc_get_next_perm` ends when it ends inside the
array. -/
theorem kc_perm_scan_i_range (p : List Int) (k : Nat) (i : Int)
    (h : kc_perm_scan_i p k = some i) : i = -1 ∨ ∃ a : Nat, i = (a : Int) ∧ 1 ≤ a ∧ a < k := by
  induction k with
  | zero =>
    unfold kc_perm_scan_i at h
    exact Or.inl (Option.some.inj h).symm
  | succ k ih =>
    unfold kc_perm_scan_i at h
    split at h
    · rename_i a b e1 e2
      split at h
      · rcases ih h with h' | ⟨c, h1, h2, h3⟩
        · exact Or.inl h'
        · exact Or.inr ⟨c, h1, h2, by omega⟩
      · right
        refine ⟨k, (Option.some.inj h).symm, ?_, by omega⟩
        unfold kc_arr_read at e1
        split at e1
        · omega
        · exact Option.noConfusion e1
    · exact Option.noConfusion h

/-- The second loop of `kc_get_next_perm` ends between the pivot and the end of
the ordering. -/
theorem kc_perm_scan_j_range (p : List Int) (a : Nat) (ha : 1 ≤ a) (k : Nat) (hak : a ≤ k)
    (hk : k ≤ p.length) :
    ∃ j, kc_perm_scan_j p (a : Int) k = some j ∧ a ≤ j ∧ j ≤ k := by
  induction k with
  | zero => omega
  | succ k ih =>
    unfold kc_perm_scan_j
    by_cases hgt : ((k + 1 : Nat) : Int) > (a : Int)
    · rw [if_pos hgt]
      have hlk : k < p.length := by omega
      have hla : a - 1 < p.length := by omega
      have e1 : kc_arr_read p (k : Int) = some (p.getD k 0) := by
        rw [kc_arr_read_nat, List.getD_eq_getElem?_getD, List.getElem?_eq_getElem hlk]; rfl
      have ea : (a : Int) - 1 = ((a - 1 : Nat) : Int) := by omega
      have e2 : kc_arr_read p ((a : Int) - 1) = some (p.getD (a - 1) 0) := by
        rw [ea, kc_arr_read_nat, List.getD_eq_getElem?_getD, List.getElem?_eq_getElem hla]; rfl
      rw [e1, e2]
      simp only
      by_cases hle : p.getD k 0 ≤ p.getD (a - 1) 0
      · rw [if_pos hle]
        obtain ⟨j, h1, h2, h3⟩ := ih (by omega) (by omega)
        exact ⟨j, h1, h2, by omega⟩
      · rw [if_neg hle]
        exact ⟨k + 1, rfl, by omega, Nat.le_refl _⟩
    · rw [if_neg hgt]
      exact ⟨k + 1, rfl, by omega, Nat.le_refl _⟩

/-- When the first loop of `kc_get_next_perm` ends inside the array, the call
returns, it changes the permutation as it does without a store, and it keeps
permutation and tables in relation. -/
theorem kc_get_next_perm_store (n : Nat) (p : List Int) (v orig : kc_vt) (i : Int)
    (hn : n ≤ p.length) (hscan : kc_perm_scan_i p n = some i)
    (hw : v.words = kc_truth_word_num n) (hok : kc_vt_ok v) (hR : kc_perm_rel p n orig v) :
    ∃ q w, kc_get_next_perm p n (some v) = some (q, some w) ∧
      kc_get_next_perm p n none = some (q, none) ∧
      w.words = v.words ∧ kc_vt_ok w ∧ kc_perm_rel q n orig w := by
  unfold kc_get_next_perm
  rw [hscan]
  simp only
  rcases kc_perm_scan_i_range p n i hscan with h | ⟨a, h1, h2, h3⟩
  · have hneg : ¬ i ≥ 0 := by omega
    rw [if_neg hneg, if_neg hneg]
    exact ⟨p, v, rfl, rfl, rfl, hok, hR⟩
  · subst h1
    have hpos : (a : Int) ≥ 0 := by omega
    rw [if_pos hpos, if_pos hpos]
    obtain ⟨j, j1, j2, j3⟩ := kc_perm_scan_j_range p a h2 n (by omega) hn
    rw [j1]
    simp only
    have ea : (a : Int) - 1 = ((a - 1 : Nat) : Int) := by omega
    have ej : (j : Int) - 1 = ((j - 1 : Nat) : Int) := by omega
    obtain ⟨q1, w1, s1, s2, s3, s4, s5, s6⟩ := kc_perm_swap_store n p v orig (a - 1) (j - 1)
      (by omega) (by omega) hn hw hok hR
    rw [ea, ej, s1, s2]
    simp only
    have ea1 : (a : Int) + 1 = ((a + 1 : Nat) : Int) := by omega
    obtain ⟨q, w, r1, r2, r3, r4, r5⟩ := kc_perm_reverse_store n orig n q1 w1 (a + 1) n
      (by omega) (Nat.le_refl _) (by rw [s3]; exact hn) (by omega) (by rw [s4]; exact hw) s5 s6
    rw [ea1]
    exact ⟨q, w, r1, r2, by rw [r3, s4], r4, r5⟩

theorem kc_mod_pow_succ (m n : Nat) :
    m % 2 ^ (n + 1) = m % 2 ^ n + (if m.testBit n then 2 ^ n else 0) := by
  rw [Nat.mod_pow_succ, Nat.testBit_to_div_mod]
  have h : m / 2 ^ n % 2 = 0 ∨ m / 2 ^ n % 2 = 1 := by omega
  rcases h with h | h
  · rw [h]; simp
  · rw [h]; simp

/-- For the identity ordering every minterm stands for itself. -/
theorem kc_perm_index_id (n : Nat) (z : List Int) (m : Nat) (hm : m < 2 ^ n) :
    kc_perm_index (kc_perm_id n ++ z) n m = m := by
  have key : ∀ k, k ≤ n →
      ((List.range k).map (fun p => if m.testBit p
        then 2 ^ ((kc_perm_id n ++ z).getD p 0).toNat else 0)).sum = m % 2 ^ k := by
    intro k
    induction k with
    | zero => intro _; simp [Nat.mod_one]
    | succ k ih =>
      intro hk
      rw [List.range_succ, List.map_append, List.sum_append, ih (by omega), kc_mod_pow_succ]
      congr 1
      have hlen : k < (kc_perm_id n).length := by rw [kc_perm_id_length]; omega
      have e : (kc_perm_id n ++ z)[k]?.getD 0 = (k : Int) := by
        rw [List.getElem?_append_left hlen]
        unfold kc_perm_id
        rw [List.getElem?_map, List.getElem?_range (by omega)]
        rfl
      simp only [List.map_cons, List.map_nil, List.sum_cons, List.sum_nil, Nat.add_zero,
        List.getD_eq_getElem?_getD, e, Int.toNat_ofNat]
  unfold kc_perm_index
  rw [key n (Nat.le_refl _), Nat.mod_eq_of_lt hm]

/-- Before the first call of `kc_get_next_perm` the tables are the original
functions and the ordering is the identity. -/
theorem kc_perm_rel_init (n : Nat) (z : List Int) (orig : kc_vt) :
    kc_perm_rel (kc_perm_id n ++ z) n orig orig :=
  ⟨rfl, fun t m hm => by rw [kc_perm_index_id n z m hm]⟩

/-- Permutation and tables in lock-step on every ordering but the last one: when
the first `nVars` entries of `currPerm` are not in descending order, the call of
`kc_get_next_perm` returns, it changes `currPerm` as it does without a store,
and the relation between `currPerm` and the tables that holds before the call
holds after it. -/
theorem kc_get_next_perm_lockstep (o z : List Int) (v orig : kc_vt)
    (hnot : ¬ o.Pairwise (· ≥ ·)) (hw : v.words = kc_truth_word_num o.length)
    (hok : kc_vt_ok v) (hR : kc_perm_rel (o ++ z) o.length orig v) :
    ∃ q w, kc_get_next_perm (o ++ z) o.length (some v) = some (q, some w) ∧
      kc_get_next_perm (o ++ z) o.length none = some (q, none) ∧
      w.words = v.words ∧ kc_vt_ok w ∧ kc_perm_rel q o.length orig w := by
  obtain ⟨pre, x, s1, y, s2, e, h1, h2, _⟩ := kc_perm_decomp o hnot
  have hx : ∀ h, (s1 ++ y :: s2)[0]? = some h → x < h := by
    intro h hh
    cases s1 with
    | nil => simp at hh; omega
    | cons a s1' =>
      simp only [List.cons_append, List.getElem?_cons_zero, Option.some.injEq] at hh
      rw [List.cons_append, List.pairwise_cons] at h1
      have := h1.1 y (by simp)
      omega
  have hscan := kc_perm_scan_i_spec pre (s1 ++ y :: s2) z x h1 hx ((s1 ++ y :: s2).length - 1)
    (by simp)
  have hlen : o.length = pre.length + 1 + ((s1 ++ y :: s2).length - 1) + 1 := by
    rw [e]; simp; omega
  rw [← hlen, ← e] at hscan
  exact kc_get_next_perm_store o.length (o ++ z) v orig _ (by simp) hscan hw hok hR

/-- The first call on two variables: from the identity ordering the call
returns, and the table of `x0 AND x1` stays in relation with the ordering. -/
theorem kc_get_next_perm_lockstep_first :
    ∃ q w, kc_get_next_perm (kc_perm_id 2 ++ List.replicate 14 0) (kc_perm_id 2).length
        (some ⟨1, [[0x8888888888888888]]⟩) = some (q, some w) ∧
      kc_get_next_perm (kc_perm_id 2 ++ List.replicate 14 0) (kc_perm_id 2).length none
        = some (q, none) ∧
      w.words = 1 ∧ kc_vt_ok w ∧
      kc_perm_rel q (kc_perm_id 2).length ⟨1, [[0x8888888888888888]]⟩ w :=
  kc_get_next_perm_lockstep (kc_perm_id 2) (List.replicate 14 0) ⟨1, [[0x8888888888888888]]⟩
    ⟨1, [[0x8888888888888888]]⟩ (by decide) (by decide) (by decide)
    (kc_perm_rel_init 2 (List.replicate 14 0) _)

/-! ## The last ordering -/

/-- On a descending arrangement of the first `nVars` entries, which is the last
ordering, the first loop of `kc_get_next_perm` runs down to `i = 0` and reads
`currPerm[-1]`: the call fails, whatever the store. -/
theorem kc_get_next_perm_desc (l z : List Int) (tts : Option kc_vt)
    (hdesc : l.Pairwise (· ≥ ·)) (hl : 0 < l.length) :
    kc_get_next_perm (l ++ z) l.length tts = none := by
  unfold kc_get_next_perm
  have := kc_perm_scan_i_desc l z hdesc (l.length - 1) (by omega)
  rw [show l.length - 1 + 1 = l.length by omega] at this
  rw [this]

/-- Claim C15, evaluated on the last ordering of two variables: with
`currPerm = {1, 0, 0, ...}`, `nVars = 2` and a store that holds the table of
`x0 AND x1`, the call of `kc_get_next_perm` does not deliver an updated
permutation and store.  Its first loop, `while (i >= 0 && currPerm[i - 1] >=
currPerm[i])`, reaches `i = 0` and reads `currPerm[-1]`, outside the array. -/
theorem kc_get_next_perm_last_fails :
    kc_get_next_perm [1, 0, 0, 0, 0, 0, 0, 0, 0, 0, 0, 0, 0, 0, 0, 0] 2
      (some ⟨1, [[0x8888888888888888]]⟩) = none := by
  decide

/-- Claim C16, evaluated on the function `x0 AND x1` of two variables: the driver
`kc_top_level_call_perm` does not reach its end, because the last of its `2!`
turns calls `kc_get_next_perm` on the last ordering `{1, 0}`, where the first
loop of that procedure reads `currPerm[-1]`.  For 13 variables the number of
turns itself is wrong: the product of `kc_factorial` leaves the range of `int`
and comes back as 1932053504. -/
theorem kc_top_level_call_perm_fails :
    kc_top_level_call_perm ⟨false, false⟩ 2 ⟨1, [[0x8888888888888888]]⟩ true = none ∧
    kc_factorial 13 = 1932053504 := by
  decide

/-! ## Boundary cases of the synthesis -/

theorem kc_order_cases (P : kc_order → Prop) (h1 : P ⟨false, false⟩) (h2 : P ⟨false, true⟩)
    (h3 : P ⟨true, false⟩) (h4 : P ⟨true, true⟩) : ∀ ord, P ord := by
  intro ord
  obtain ⟨a, b⟩ := ord
  cases a <;> cases b <;> assumption

/-- The first output of a graph and its table. -/
theorem kc_majority_eval (ord : kc_order) :
    (kc_top_level_call_one ord 3 ⟨1, [[0xE8E8E8E8E8E8E8E8]]⟩ true).bind
        (fun g => (kc_gg_node_count g).map
          (fun p => (p.2, kc_gg_node_num g, g.tops.map (fun t => kc_vt_read g.tts t.toNat))))
      = some (6, 6, [some [0xE8E8E8E8E8E8E8E8]]) := by
  revert ord
  apply kc_order_cases <;> decide

/-- Claim C21 as stated fails: the AND-only synthesis of the majority of three
inputs gives a graph whose node count is 6, which is not at most 4. -/
theorem kc_majority_count_not_le_four :
    ¬ ∃ g gm c, kc_top_level_call_one ⟨false, false⟩ 3 ⟨1, [[0xE8E8E8E8E8E8E8E8]]⟩ true = some g ∧
      kc_gg_node_count g = some (gm, c) ∧ c ≤ 4 := by
  rintro ⟨g, gm, c, h1, h2, h3⟩
  have key := kc_majority_eval ⟨false, false⟩
  rw [h1, Option.some_bind, h2] at key
  simp only [Option.map_some', Option.some.injEq, Prod.mk.injEq] at key
  omega

/-- Claim C21, amended: for `n = 3` and the single output table `E8` stretched to
64 bits, `kc_top_level_call_one` with `and_only` returns a graph whose
`kc_gg_node_count` is exactly 6, with 6 internal nodes in all, and the table of
its output literal is `E8`; this holds for both evaluation orders. -/
theorem kc_majority_count (ord : kc_order) :
    ∃ g gm top, kc_top_level_call_one ord 3 ⟨1, [[0xE8E8E8E8E8E8E8E8]]⟩ true = some g ∧
      kc_gg_node_count g = some (gm, 6) ∧ kc_gg_node_num g = 6 ∧
      g.tops = [top] ∧ kc_vt_read g.tts top.toNat = some [0xE8E8E8E8E8E8E8E8] := by
  have key := kc_majority_eval ord
  cases h1 : kc_top_level_call_one ord 3 ⟨1, [[0xE8E8E8E8E8E8E8E8]]⟩ true with
  | none => rw [h1] at key; exact Option.noConfusion key
  | some g =>
    rw [h1, Option.some_bind] at key
    cases h2 : kc_gg_node_count g with
    | none => rw [h2] at key; exact Option.noConfusion key
    | some p =>
      obtain ⟨gm, c⟩ := p
      rw [h2] at key
      simp only [Option.map_some', Option.some.injEq, Prod.mk.injEq] at key
      obtain ⟨k1, k2, k3⟩ := key
      cases ht : g.tops with
      | nil => rw [ht] at k3; simp at k3
      | cons top rest =>
        rw [ht] at k3
        simp only [List.map_cons, List.cons.injEq, List.map_eq_nil_iff] at k3
        refine ⟨g, gm, top, rfl, by rw [h2, k1], k2, by rw [ht, k3.2], k3.1⟩

theorem kc_gg_shape_and (g : kc_gg) (n : Nat) (ts : List (Option (List Nat)))
    (h : kc_gg_shape g = (n, List.replicate n (some false), ts)) :
    kc_gg_node_num g = n ∧ (∀ v, g.nins < v → v < g.size → kc_gg_is_xor g v = some false) ∧
      g.tops.map (fun t => kc_vt_read g.tts t.toNat) = ts := by
  unfold kc_gg_shape at h
  simp only [Prod.mk.injEq] at h
  obtain ⟨h1, h2, h3⟩ := h
  refine ⟨h1, ?_, h3⟩
  intro v hv1 hv2
  have hm : kc_gg_is_xor g v ∈ (List.range' (1 + g.nins) (g.size - (1 + g.nins))).map
      (kc_gg_is_xor g) :=
    List.mem_map.2 ⟨v, by rw [List.mem_range'_1]; omega, rfl⟩
  rw [h2] at hm
  exact (List.mem_replicate.1 hm).2

set_option synthInstance.maxSize 1024 in
theorem kc_xor2_eval (ord : kc_order) :
    (kc_top_level_call_one ord 2 ⟨1, [[0x6666666666666666]]⟩ false).map (fun g =>
        (kc_gg_shape g, kc_gg_fanin g 3 0, kc_gg_fanin g 3 1, kc_gg_is_xor g 3))
      = some ((1, [some true], [some [0x6666666666666666]]), some 4, some 2, some true) := by
  revert ord
  apply kc_order_cases <;> decide

set_option synthInstance.maxSize 1024 in
theorem kc_xor2_dup_eval (ord : kc_order) :
    (kc_top_level_call_one ord 2 ⟨1, [[0x6666666666666666]]⟩ false).bind (fun g =>
      (kc_gg_node_count g).bind (fun p =>
        (kc_gg_dup ord p.1 true).map (fun g1 => (p.2, kc_gg_shape g1))))
      = some (1, 3, [some false, some false, some false], [some [0x6666666666666666]]) := by
  revert ord
  apply kc_order_cases <;> decide

set_option synthInstance.maxSize 1024 in
theorem kc_xor2_level_eval (ord : kc_order) :
    (kc_top_level_call_one ord 2 ⟨1, [[0x6666666666666666]]⟩ false).bind (fun g =>
      (kc_gg_node_count g).bind (fun p =>
        (kc_gg_level p.1).bind (fun q =>
          (kc_gg_dup ord q.1 true).map (fun g2 => kc_gg_shape g2))))
      = some (3, [some false, some false, some false], [some [0x6666666666666666]]) := by
  revert ord
  apply kc_order_cases <;> decide

/-- Claim C22: the two-input XOR.  For `n = 2` and the table `0110` stretched to
64 bits, `kc_top_level_call_one` without `and_only` returns a graph with exactly
one internal node, node 3 with the fanins 4 and 2, an XOR node, whose output
table is `0110`.  In `kc_top_level_call` the graph is traversed by
`kc_gg_node_count` and `kc_gg_level`, which mark the node, before
`kc_gg_aiger_write` duplicates it; with the marks of either traversal
`kc_gg_dup` with `only_and` returns a graph with exactly 3 internal nodes, all
of them AND nodes, whose output table is still `0110`.  This holds for all
evaluation orders. -/
theorem kc_xor2_synthesis (ord : kc_order) :
    ∃ g gm g1 gl lev g2,
      kc_top_level_call_one ord 2 ⟨1, [[0x6666666666666666]]⟩ false = some g ∧
      kc_gg_node_num g = 1 ∧ kc_gg_fanin g 3 0 = some 4 ∧ kc_gg_fanin g 3 1 = some 2 ∧
      kc_gg_is_xor g 3 = some true ∧
      g.tops.map (fun t => kc_vt_read g.tts t.toNat) = [some [0x6666666666666666]] ∧
      kc_gg_node_count g = some (gm, 1) ∧
      kc_gg_dup ord gm true = some g1 ∧ kc_gg_node_num g1 = 3 ∧
      (∀ v, g1.nins < v → v < g1.size → kc_gg_is_xor g1 v = some false) ∧
      g1.tops.map (fun t => kc_vt_read g1.tts t.toNat) = [some [0x6666666666666666]] ∧
      kc_gg_level gm = some (gl, lev) ∧
      kc_gg_dup ord gl true = some g2 ∧ kc_gg_node_num g2 = 3 ∧
      (∀ v, g2.nins < v → v < g2.size → kc_gg_is_xor g2 v = some false) ∧
      g2.tops.map (fun t => kc_vt_read g2.tts t.toNat) = [some [0x6666666666666666]] := by
  obtain ⟨g, hg, key⟩ := Option.map_eq_some'.1 (kc_xor2_eval ord)
  simp only [Prod.mk.injEq] at key
  obtain ⟨k1, k4, k5, hx⟩ := key
  have key2 := kc_xor2_dup_eval ord
  rw [hg, Option.some_bind] at key2
  obtain ⟨⟨gm, c⟩, hgm, key2⟩ := Option.bind_eq_some.1 key2
  obtain ⟨g1, hg1, key2⟩ := Option.map_eq_some'.1 key2
  simp only [Prod.mk.injEq] at key2
  obtain ⟨k6, k7⟩ := key2
  have key3 := kc_xor2_level_eval ord
  rw [hg, Option.some_bind, hgm, Option.some_bind] at key3
  obtain ⟨⟨gl, lev⟩, hgl, key3⟩ := Option.bind_eq_some.1 key3
  obtain ⟨g2, hg2, k8⟩ := Option.map_eq_some'.1 key3
  have s0 : kc_gg_node_num g = 1 ∧ g.tops.map (fun t => kc_vt_read g.tts t.toNat)
      = [some [0x6666666666666666]] := by
    unfold kc_gg_shape at k1
    simp only [Prod.mk.injEq] at k1
    exact ⟨k1.1, k1.2.2⟩
  have s1 := kc_gg_shape_and g1 3 _ k7
  have s2 := kc_gg_shape_and g2 3 _ k8
  exact ⟨g, gm, g1, gl, lev, g2, hg, s0.1, k4, k5, hx, s0.2, by rw [hgm, k6],
    hg1, s1.1, s1.2.1, s1.2.2, hgl, hg2, s2.1, s2.2.1, s2.2.2⟩

/-- Claim C25 as stated fails: for `n = 2` the outputs `1000` and `0001`
synthesized together give the node count 2, and alone the node counts 1 and 1,
so the count together is not strictly smaller than the sum. -/
theorem kc_sharing_two_inputs_not_less :
    ¬ ∃ c c1 c2,
      kc_synth_count ⟨false, false⟩ 2 ⟨1, [[0x8888888888888888], [0x1111111111111111]]⟩ true
        = some c ∧
      kc_synth_count ⟨false, false⟩ 2 ⟨1, [[0x8888888888888888]]⟩ true = some c1 ∧
      kc_synth_count ⟨false, false⟩ 2 ⟨1, [[0x1111111111111111]]⟩ true = some c2 ∧
      c < c1 + c2 := by
  rintro ⟨c, c1, c2, h, h1, h2, hlt⟩
  have e : kc_synth_count ⟨false, false⟩ 2
      ⟨1, [[0x8888888888888888], [0x1111111111111111]]⟩ true = some 2 := by decide
  have e1 : kc_synth_count ⟨false, false⟩ 2 ⟨1, [[0x8888888888888888]]⟩ true = some 1 := by
    decide
  have e2 : kc_synth_count ⟨false, false⟩ 2 ⟨1, [[0x1111111111111111]]⟩ true = some 1 := by
    decide
  rw [e] at h
  rw [e1] at h1
  rw [e2] at h2
  have := Option.some.inj h
  have := Option.some.inj h1
  have := Option.some.inj h2
  omega

/-- Claim C25, amended: for `n = 2` and the two outputs `1000` and `0001` the node
count of the graph that `kc_top_level_call_one` builds for both is 2, equal to
the sum 1 + 1 of the node counts of the graphs built for each output alone: the
two outputs share no node.  Sharing shows for the same two strings read as
hexadecimal tables of `n = 4` variables: the node count for both is 5, strictly
smaller than the sum 3 + 3 for each alone.  This holds with and without
`and_only` and for all evaluation orders. -/
theorem kc_sharing_across_outputs (ord : kc_order) (and_only : Bool) :
    (kc_synth_count ord 2 ⟨1, [[0x8888888888888888], [0x1111111111111111]]⟩ and_only = some 2 ∧
     kc_synth_count ord 2 ⟨1, [[0x8888888888888888]]⟩ and_only = some 1 ∧
     kc_synth_count ord 2 ⟨1, [[0x1111111111111111]]⟩ and_only = some 1) ∧
    (kc_synth_count ord 4 ⟨1, [[0x1000100010001000], [0x0001000100010001]]⟩ and_only = some 5 ∧
     kc_synth_count ord 4 ⟨1, [[0x1000100010001000]]⟩ and_only = some 3 ∧
     kc_synth_count ord 4 ⟨1, [[0x0001000100010001]]⟩ and_only = some 3) := by
  revert ord
  cases and_only
  · apply kc_order_cases <;> decide
  · apply kc_order_cases <;> decide

/-! ## Stretching of small tables -/

/-- One line: the low `w` bits are kept and copied to the next `w` bits. -/
theorem kc_stretch_bits (u w : Nat) (hw : 2 * w ≤ 64) :
    (u &&& (2 ^ w - 1)) ||| kc_shl (u &&& (2 ^ w - 1)) w < 2 ^ (2 * w) ∧
    ∀ k, k < 2 * w →
      ((u &&& (2 ^ w - 1)) ||| kc_shl (u &&& (2 ^ w - 1)) w).testBit k = u.testBit (k % w) := by
  have hmod : u &&& (2 ^ w - 1) = u % 2 ^ w := Nat.and_pow_two_sub_one_eq_mod u w
  have hlt : u % 2 ^ w < 2 ^ w := Nat.mod_lt _ (Nat.two_pow_pos w)
  have hsh : (u % 2 ^ w) <<< w < 2 ^ (2 * w) := by
    rw [Nat.shiftLeft_eq, Nat.two_mul, Nat.pow_add]
    exact Nat.mul_lt_mul_of_pos_right hlt (Nat.two_pow_pos w)
  have h64 : 2 ^ (2 * w) ≤ 2 ^ 64 := Nat.pow_le_pow_right (by norm_num) hw
  have hshl : kc_shl (u % 2 ^ w) w = (u % 2 ^ w) <<< w := by
    unfold kc_shl
    exact Nat.mod_eq_of_lt (Nat.lt_of_lt_of_le hsh h64)
  rw [hmod, hshl]
  constructor
  · apply Nat.or_lt_two_pow
    · exact Nat.lt_of_lt_of_le hlt (Nat.pow_le_pow_right (by norm_num) (by omega))
    · exact hsh
  · intro k hk
    rw [Nat.testBit_or, Nat.testBit_shiftLeft, Nat.testBit_mod_two_pow, Nat.testBit_mod_two_pow]
    by_cases h : k < w
    · have : ¬ k ≥ w := by omega
      simp [h, this, Nat.mod_eq_of_lt h]
    · have h1 : k ≥ w := by omega
      have h2 : k - w < w := by omega
      have h3 : k % w = k - w := by
        rw [Nat.mod_eq_sub_mod h1, Nat.mod_eq_of_lt h2]
      simp [h, h1, h2, h3]

theorem kc_stretch_lines_eq :
    kc_stretch_lines = (List.range' 0 6).map
      (fun (k : Nat) => ((k : Int), 2 ^ (2 ^ k) - 1, 2 ^ k)) := by
  decide

/-- The lines from line `j` on bring a word whose low `2 ^ i` bits are periodic
copies of the low `2 ^ n` bits of `t` to a 64-bit word with that property. -/
theorem kc_stretch_chain (t n : Nat) : ∀ d j, j + d = 6 → ∀ i u, j ≤ i → i ≤ 6 → n ≤ i →
    (∀ k, k < 2 ^ i → u.testBit k = t.testBit (k % 2 ^ n)) → (i = 6 → u < 2 ^ 64) →
    (((List.range' j d).map (fun (k : Nat) => ((k : Int), 2 ^ (2 ^ k) - 1, 2 ^ k))).foldl
        kc_stretch_step ((i : Int), u)).1 = 6 ∧
    (∀ k, k < 64 → (((List.range' j d).map (fun (k : Nat) => ((k : Int), 2 ^ (2 ^ k) - 1, 2 ^ k))).foldl
        kc_stretch_step ((i : Int), u)).2.testBit k = t.testBit (k % 2 ^ n)) ∧
    (((List.range' j d).map (fun (k : Nat) => ((k : Int), 2 ^ (2 ^ k) - 1, 2 ^ k))).foldl
        kc_stretch_step ((i : Int), u)).2 < 2 ^ 64 := by
  intro d
  induction d with
  | zero =>
    intro j hj i u h1 h2 _ hinv hlt
    have hi : i = 6 := by omega
    subst hi
    exact ⟨rfl, fun k hk => hinv k (by norm_num; exact hk), hlt rfl⟩
  | succ d ih =>
    intro j hj i u h1 h2 hn hinv hlt
    rw [List.range'_succ, List.map_cons, List.foldl_cons]
    by_cases hij : i = j
    · subst hij
      have hfire : kc_stretch_step ((i : Int), u) ((i : Int), 2 ^ (2 ^ i) - 1, 2 ^ i)
          = (((i + 1 : Nat) : Int), (u &&& (2 ^ (2 ^ i) - 1)) |||
              kc_shl (u &&& (2 ^ (2 ^ i) - 1)) (2 ^ i)) := by
        unfold kc_stretch_step
        rw [if_pos rfl]
        simp
      rw [hfire]
      have hw : 2 * 2 ^ i ≤ 64 := by
        have : 2 ^ i ≤ 2 ^ 5 := Nat.pow_le_pow_right (by norm_num) (by omega)
        omega
      obtain ⟨b1, b2⟩ := kc_stretch_bits u (2 ^ i) hw
      have e2 : 2 * 2 ^ i = 2 ^ (i + 1) := by rw [Nat.pow_succ]; omega
      rw [e2] at b1 b2
      apply ih (i + 1) (by omega) (i + 1) _ (Nat.le_refl _) (by omega) (by omega)
      · intro k hk
        rw [b2 k hk, hinv _ (Nat.mod_lt _ (Nat.two_pow_pos i)),
          Nat.mod_mod_of_dvd _ (Nat.pow_dvd_pow 2 hn)]
      · intro h6
        have : i = 5 := by omega
        subst this
        exact b1
    · have hskip : kc_stretch_step ((i : Int), u) ((j : Int), 2 ^ (2 ^ j) - 1, 2 ^ j)
          = ((i : Int), u) := by
        unfold kc_stretch_step
        rw [if_neg (by simp only; omega)]
      rw [hskip]
      exact ih (j + 1) (by omega) i u (by omega) h2 hn hinv hlt

theorem kc_clear_bit_mod (m i n : Nat) (h : n ≤ i) : kc_clear_bit m i % 2 ^ n = m % 2 ^ n := by
  apply Nat.eq_of_testBit_eq
  intro k
  rw [Nat.testBit_mod_two_pow, Nat.testBit_mod_two_pow, kc_clear_bit_bits]
  by_cases hk : k < n
  · have : k ≠ i := by omega
    simp [hk, this]
  · simp [hk]

/-- Claim C26: stretching of small tables.  For `n <= 5` and every word `t`,
`kc_truth_stretch` returns a 64-bit word whose bit `k` is bit `k mod 2^n` of `t`
for every `k < 64`; hence the test `kc_vt_has_var` on the store that holds the
word as its only table answers 0 for each of the variables `n .. 5`, and the low
`2^n` bits of the word are those of `t`. -/
theorem kc_truth_stretch_bits (n t : Nat) (hn : n ≤ 5) :
    ∃ s, kc_truth_stretch t (n : Int) = some s ∧ s < 2 ^ 64 ∧
      (∀ k, k < 64 → s.testBit k = t.testBit (k % 2 ^ n)) ∧
      (∀ i, n ≤ i → i < 6 → kc_vt_has_var ⟨1, [[s]]⟩ 0 i = some false) ∧
      (∀ k, k < 2 ^ n → s.testBit k = t.testBit k) := by
  obtain ⟨c1, c2, c3⟩ := kc_stretch_chain t n 6 0 rfl n t (Nat.zero_le _) (by omega)
    (Nat.le_refl _) (fun k hk => by rw [Nat.mod_eq_of_lt hk]) (fun h => by omega)
  rw [← kc_stretch_lines_eq] at c1 c2 c3
  refine ⟨_, ?_, c3, c2, ?_, ?_⟩
  · unfold kc_truth_stretch
    rw [if_pos (by omega)]
    simp only
    rw [if_pos c1]
  · intro i hi1 hi2
    apply kc_vt_has_var_indep 6 ⟨1, [[_]]⟩ 0 i [_] rfl ⟨rfl, ?_⟩ rfl hi2
    · intro m hm
      have hm' : m < 64 := by simpa using hm
      have hc : kc_clear_bit m i < 64 := Nat.lt_of_le_of_lt (kc_clear_bit_le m i) hm'
      unfold kc_tt_bit
      rw [Nat.div_eq_of_lt hm', Nat.mod_eq_of_lt hm', Nat.div_eq_of_lt hc, Nat.mod_eq_of_lt hc]
      simp only [List.getD_cons_zero]
      rw [c2 m hm', c2 _ hc, kc_clear_bit_mod m i n hi1]
    · intro x hx
      rw [List.mem_singleton] at hx
      rw [hx]; exact c3
  · intro k hk
    have h64 : 2 ^ n ≤ 64 := by
      calc 2 ^ n ≤ 2 ^ 5 := Nat.pow_le_pow_right (by norm_num) hn
        _ ≤ 64 := by norm_num
    rw [c2 k (by omega), Nat.mod_eq_of_lt hk]

/-- Instance of claim C26: the table `1000` of two variables is stretched to
`0x8888888888888888`. -/
theorem kc_truth_stretch_bits_witness :
    (2 : Nat) ≤ 5 ∧ kc_truth_stretch 0x8 2 = some 0x8888888888888888 ∧
    ∃ s, kc_truth_stretch 0x8 ((2 : Nat) : Int) = some s ∧ s < 2 ^ 64 ∧
      (∀ k, k < 64 → s.testBit k = (0x8 : Nat).testBit (k % 2 ^ 2)) ∧
      (∀ i, 2 ≤ i → i < 6 → kc_vt_has_var ⟨1, [[s]]⟩ 0 i = some false) ∧
      (∀ k, k < 2 ^ 2 → s.testBit k = (0x8 : Nat).testBit k) :=
  ⟨by decide, by decide, kc_truth_stretch_bits 2 0x8 (by decide)⟩

/-! ## Elementary tables of the initial graph -/

theorem kc_truth_word_num_max (n : Nat) : kc_truth_word_num n = max 1 (2 ^ (n - 6)) := by
  by_cases h : n ≤ 6
  · unfold kc_truth_word_num
    rw [if_pos h, show n - 6 = 0 by omega]; rfl
  · rw [kc_truth_word_num_pow n (by omega)]
    have := Nat.one_le_two_pow (n := n - 6)
    omega

/-- Words of the table of variable `i` before complementing. -/
theorem kc_start_base_word (W i k : Nat) (hk : k < W) :
    (kc_vt_start_truth_tt W (2 * i)).getD k 0
      = if i < 6 then s_Truths6.getD i 0 else if k.testBit (i - 6) then kc_ones else 0 := by
  unfold kc_vt_start_truth_tt
  simp only
  rw [Nat.and_one_is_mod, if_neg (by omega), show 2 * i / 2 = i by omega]
  by_cases hi : i < 6
  · rw [if_pos hi, if_pos hi, List.getD_eq_getElem?_getD, List.getElem?_map,
      List.getElem?_range hk]; rfl
  · rw [if_neg hi, if_neg hi, List.getD_eq_getElem?_getD, List.getElem?_map,
      List.getElem?_range hk]
    simp only [Option.map_some', Option.getD_some]
    by_cases hb : k.testBit (i - 6) = true
    · rw [if_pos ((kc_and_pow_ne_zero _ _).2 hb), if_pos hb]
    · rw [if_neg (fun h => hb ((kc_and_pow_ne_zero _ _).1 h)), if_neg hb]

/-- Words of the table of the complement of variable `i`. -/
theorem kc_start_neg_word (W i k : Nat) (hk : k < W) :
    (kc_vt_start_truth_tt W (2 * i + 1)).getD k 0
      = kc_not ((kc_vt_start_truth_tt W (2 * i)).getD k 0) := by
  have e : kc_vt_start_truth_tt W (2 * i + 1) = (kc_vt_start_truth_tt W (2 * i)).map kc_not := by
    have a1 : (2 * i + 1) &&& 1 = 1 := by rw [Nat.and_one_is_mod]; omega
    have a2 : (2 * i) &&& 1 = 0 := by rw [Nat.and_one_is_mod]; omega
    have a3 : (2 * i + 1) / 2 = i := by omega
    have a4 : 2 * i / 2 = i := by omega
    unfold kc_vt_start_truth_tt
    simp only [a1, a2, a3, a4]
    simp
  have hl : k < (kc_vt_start_truth_tt W (2 * i)).length := by
    rw [(kc_start_tt_ok W (2 * i)).1]; exact hk
  rw [e, List.getD_eq_getElem?_getD, List.getD_eq_getElem?_getD, List.getElem?_map,
    List.getElem?_eq_getElem hl]
  rfl

/-- Claim C27: after `kc_gg_start n outs` with `1 ≤ n ≤ 16` the store `tts` has
`W = max 1 (2 ^ (n - 6))` words per table and `2 (n + 1)` tables; table 0 is all
zeros and table 1 all ones; for every variable `i < n` the table `2 (i + 1)` has
`W` words, its bit `m` is bit `i` of `m` for every `m < 64 W`, its word `k` is
`s_Truths6[i]` when `i < 6` and otherwise all ones exactly when bit `i - 6` of `k`
is set; the table `2 (i + 1) + 1` is its word-wise complement. -/
theorem kc_gg_start_elementary (n : Nat) (outs : kc_vt) (_hn1 : 1 ≤ n) (_hn2 : n ≤ 16) :
    (kc_gg_start n outs).tts.words = max 1 (2 ^ (n - 6)) ∧
    kc_vt_size (kc_gg_start n outs).tts = 2 * (n + 1) ∧
    kc_vt_read (kc_gg_start n outs).tts 0 = some (List.replicate (max 1 (2 ^ (n - 6))) 0) ∧
    kc_vt_read (kc_gg_start n outs).tts 1
      = some (List.replicate (max 1 (2 ^ (n - 6))) kc_ones) ∧
    ∀ i, i < n → ∃ t tn,
      kc_vt_read (kc_gg_start n outs).tts (2 * (i + 1)) = some t ∧
      kc_vt_read (kc_gg_start n outs).tts (2 * (i + 1) + 1) = some tn ∧
      t.length = max 1 (2 ^ (n - 6)) ∧ tn.length = max 1 (2 ^ (n - 6)) ∧
      (∀ m, m < 64 * max 1 (2 ^ (n - 6)) → kc_tt_bit t m = m.testBit i) ∧
      (∀ k, k < max 1 (2 ^ (n - 6)) → t.getD k 0
        = if i < 6 then s_Truths6.getD i 0 else if k.testBit (i - 6) then kc_ones else 0) ∧
      (∀ k, k < max 1 (2 ^ (n - 6)) → tn.getD k 0 = kc_not (t.getD k 0)) ∧
      (∀ m, m < 64 * max 1 (2 ^ (n - 6)) → kc_tt_bit tn m = !m.testBit i) := by
  rw [← kc_truth_word_num_max]
  have hlen : (kc_gg_start n outs).tts.ptr.length = 2 * (n + 1) := by
    simp [kc_gg_start, kc_vt_start_truth]; omega
  have hrd : ∀ l, l < 2 * (n + 1) →
      kc_vt_read (kc_gg_start n outs).tts l = some (kc_gg_tt (kc_gg_start n outs) l) := by
    intro l hl
    exact kc_gg_tt_get _ l (by rw [hlen]; exact hl)
  refine ⟨rfl, hlen, ?_, ?_, ?_⟩
  · rw [hrd 0 (by omega), kc_start_tt, if_pos rfl]
  · rw [hrd 1 (by omega), kc_start_tt, if_neg (by omega), if_pos rfl]
  · intro i hi
    have e0 : kc_gg_tt (kc_gg_start n outs) (2 * (i + 1))
        = kc_vt_start_truth_tt (kc_truth_word_num n) (2 * i) := by
      rw [kc_start_tt, if_neg (by omega), if_neg (by omega), if_pos (by omega),
        show 2 * (i + 1) - 2 = 2 * i by omega]
    have e1 : kc_gg_tt (kc_gg_start n outs) (2 * (i + 1) + 1)
        = kc_vt_start_truth_tt (kc_truth_word_num n) (2 * i + 1) := by
      rw [kc_start_tt, if_neg (by omega), if_neg (by omega), if_pos (by omega),
        show 2 * (i + 1) + 1 - 2 = 2 * i + 1 by omega]
    refine ⟨_, _, hrd _ (by omega), hrd _ (by omega), ?_, ?_, ?_, ?_, ?_, ?_⟩
    · rw [e0]; exact (kc_start_tt_ok _ _).1
    · rw [e1]; exact (kc_start_tt_ok _ _).1
    · intro m hm
      rw [e0, kc_start_tt_bit _ _ m hm, show 2 * i / 2 = i by omega]
      simp
    · intro k hk
      rw [e0]; exact kc_start_base_word _ i k hk
    · intro k hk
      rw [e0, e1]; exact kc_start_neg_word _ i k hk
    · intro m hm
      rw [e1, kc_start_tt_bit _ _ m hm, show (2 * i + 1) / 2 = i by omega,
        show (2 * i + 1) % 2 = 1 by omega]
      cases m.testBit i <;> rfl

/-- Instance of `kc_gg_start_elementary` for seven variables (two words per table). -/
theorem kc_gg_start_elementary_witness :
    (1 ≤ 7 ∧ 7 ≤ 16) ∧
    ((kc_gg_start 7 ⟨2, []⟩).tts.words = max 1 (2 ^ (7 - 6)) ∧
    kc_vt_size (kc_gg_start 7 ⟨2, []⟩).tts = 2 * (7 + 1) ∧
    kc_vt_read (kc_gg_start 7 ⟨2, []⟩).tts 0 = some (List.replicate (max 1 (2 ^ (7 - 6))) 0) ∧
    kc_vt_read (kc_gg_start 7 ⟨2, []⟩).tts 1
      = some (List.replicate (max 1 (2 ^ (7 - 6))) kc_ones) ∧
    ∀ i, i < 7 → ∃ t tn,
      kc_vt_read (kc_gg_start 7 ⟨2, []⟩).tts (2 * (i + 1)) = some t ∧
      kc_vt_read (kc_gg_start 7 ⟨2, []⟩).tts (2 * (i + 1) + 1) = some tn ∧
      t.length = max 1 (2 ^ (7 - 6)) ∧ tn.length = max 1 (2 ^ (7 - 6)) ∧
      (∀ m, m < 64 * max 1 (2 ^ (7 - 6)) → kc_tt_bit t m = m.testBit i) ∧
      (∀ k, k < max 1 (2 ^ (7 - 6)) → t.getD k 0
        = if i < 6 then s_Truths6.getD i 0 else if k.testBit (i - 6) then kc_ones else 0) ∧
      (∀ k, k < max 1 (2 ^ (7 - 6)) → tn.getD k 0 = kc_not (t.getD k 0)) ∧
      (∀ m, m < 64 * max 1 (2 ^ (7 - 6)) → kc_tt_bit tn m = !m.testBit i)) :=
  ⟨⟨by decide, by decide⟩, kc_gg_start_elementary 7 ⟨2, []⟩ (by decide) (by decide)⟩

/-! ## Reuse of existing literals -/

/-- The hash lookup finds the literal that carries the target table. -/
theorem kc_gg_hash_function_hit (gg : kc_gg) (hinv : kc_gg_inv gg) (ttId : Nat) (f : List Nat)
    (hw : gg.funcs.words = gg.tts.words) (hf : gg.funcs.ptr[ttId]? = some f)
    (l : Nat) (hl : l < 2 * gg.size) (hlf : kc_gg_tt gg l = f) :
    kc_gg_hash_function gg ttId = some (some l) := by
  rw [kc_gg_hash_function_eq gg hinv ttId f hw hf]
  cases hfind : (List.range (2 * gg.size)).find? (fun i => decide (kc_gg_tt gg i = f)) with
  | some i =>
    obtain ⟨h1, h2⟩ := kc_synth_hash_hit gg f i hfind
    rw [hinv.func_uniq i l h1 hl (by rw [h2, hlf])]
  | none =>
    rw [List.find?_eq_none] at hfind
    have := hfind l (by rw [List.mem_range]; exact hl)
    simp [hlf] at this

/-- A target that is the table of a literal of the graph is answered by the hash
lookup at every level: the graph is returned as it is. -/
theorem kc_synth_go_reuse (ord : kc_order) (k : Nat) (gg : kc_gg) (hinv : kc_gg_inv gg)
    (ttId : Nat) (f : List Nat) (hw : gg.funcs.words = gg.tts.words)
    (hf : gg.funcs.ptr[ttId]? = some f) (l : Nat) (hl : l < 2 * gg.size)
    (hlf : kc_gg_tt gg l = f) :
    synthesis_and_go ord k gg ttId = some (gg, (l : Int)) ∧
    synthesis_xor_go ord k gg ttId = some (gg, (l : Int)) := by
  have hh := kc_gg_hash_function_hit gg hinv ttId f hw hf l hl hlf
  cases k with
  | zero => constructor <;> simp only [synthesis_and_go, synthesis_xor_go, hh]
  | succ k => constructor <;> simp only [synthesis_and_go, synthesis_xor_go, hh]

/-- One output of `kc_top_level_call_one` that is the table of literal `l` of the
constant or of an input: the literal is pushed and the graph keeps its size. -/
theorem kc_top_level_iter_base (ord : kc_order) (n : Nat) (outs : kc_vt) (and_only : Bool)
    (j : Nat) (g : kc_gg) (hI : kc_tops_ok n outs j g) (l : Nat) (hl : l < 2 * (1 + n)) :
    (if and_only then
        synthesis_and_rec ord
          { g with funcs := { words := g.funcs.words, ptr := [kc_gg_tt (kc_gg_start n outs) l] } }
          0 ((n : Int) - 1)
       else
        synthesis_xor_rec ord
          { g with funcs := { words := g.funcs.words, ptr := [kc_gg_tt (kc_gg_start n outs) l] } }
          0 ((n : Int) - 1))
      = some ({ g with funcs :=
          { words := g.funcs.words, ptr := [kc_gg_tt (kc_gg_start n outs) l] } }, (l : Int)) := by
  obtain ⟨hinv, hn, ho, hw, hlen, htops⟩ := hI
  have hsz := hinv.size_ge
  have hb : kc_gg_tt g l = kc_gg_tt (kc_gg_start n outs) l :=
    kc_gg_base_tt g _ hinv (kc_gg_start_inv n outs) hn l (by rw [hn]; exact hl)
  have key := kc_synth_go_reuse ord n
    { g with funcs := { words := g.funcs.words, ptr := [kc_gg_tt (kc_gg_start n outs) l] } }
    (kc_gg_inv_funcs g _ hinv) 0 (kc_gg_tt (kc_gg_start n outs) l)
    (by show g.funcs.words = g.tts.words; rw [hw, hinv.tts_words, hn]) rfl l
    (by show l < 2 * g.size; omega) hb
  unfold synthesis_and_rec synthesis_xor_rec
  rw [kc_toNat_var]
  cases and_only with
  | true => exact key.1
  | false => exact key.2

/-- The literal pushed for an output that is the table of a literal of the
constant or of an input is that literal. -/
theorem kc_tops_base (n : Nat) (outs : kc_vt) (g : kc_gg)
    (hI : kc_tops_ok n outs outs.ptr.length g) (i l : Nat) (hl : l < 2 * (1 + n))
    (ht : outs.ptr[i]? = some (kc_gg_tt (kc_gg_start n outs) l)) :
    g.tops[i]? = some (l : Int) := by
  obtain ⟨hinv, hn, ho, hw, hlen, htops⟩ := hI
  have hsz := hinv.size_ge
  have hi : i < outs.ptr.length := by
    by_contra hc
    rw [List.getElem?_eq_none (by omega)] at ht
    exact Option.noConfusion ht
  obtain ⟨top, p1, p2, p3⟩ := htops i hi
  rw [ht] at p3
  have hb : kc_gg_tt g l = kc_gg_tt (kc_gg_start n outs) l :=
    kc_gg_base_tt g _ hinv (kc_gg_start_inv n outs) hn l (by rw [hn]; exact hl)
  have e : top = l :=
    hinv.func_uniq top l p2 (by omega) (by rw [hb]; exact (Option.some.inj p3).symm)
  rw [p1, e]

/-- When every output is the table of a literal of the constant or of an input,
`kc_top_level_call_one` returns the initial graph with `tops` filled in. -/
theorem kc_top_level_call_one_base (ord : kc_order) (n : Nat) (outs : kc_vt) (and_only : Bool)
    (hok : kc_outs_ok n outs)
    (hall : ∀ i, i < outs.ptr.length → ∃ l, l < 2 * (1 + n) ∧
      outs.ptr[i]? = some (kc_gg_tt (kc_gg_start n outs) l)) :
    ∃ g, kc_top_level_call_one ord n outs and_only = some g ∧
      kc_tops_ok n outs outs.ptr.length g ∧ g.size = 1 + n ∧
      g.fans = (kc_gg_start n outs).fans ∧ g.tts = (kc_gg_start n outs).tts := by
  unfold kc_top_level_call_one
  have key := kc_foldlM_range_inv (fun gg i =>
    match kc_vt_resize gg.funcs 0 with
    | none => none
    | some fs0 =>
      match kc_vt_move fs0 gg.outs i with
      | none => none
      | some fs1 =>
        match (if and_only then synthesis_and_rec ord { gg with funcs := fs1 } 0 ((n : Int) - 1)
               else synthesis_xor_rec ord { gg with funcs := fs1 } 0 ((n : Int) - 1)) with
        | none => none
        | some (g, top) => some { g with tops := g.tops ++ [top] })
    (fun j g => kc_tops_ok n outs j g ∧ g.size = 1 + n ∧
      g.fans = (kc_gg_start n outs).fans ∧ g.tts = (kc_gg_start n outs).tts)
    outs.ptr.length (kc_gg_start n outs)
    ⟨⟨kc_gg_start_inv n outs, rfl, rfl, rfl, rfl, fun i hi => by omega⟩, rfl, rfl, rfl⟩ ?_
  · exact key
  · intro j g hj hJ
    obtain ⟨hI, hs, hfa, htt⟩ := hJ
    have hI' := hI
    obtain ⟨hinv, hn, ho, hw, hlen, htops⟩ := hI
    obtain ⟨l, hl, ht⟩ := hall j hj
    have hrs : kc_vt_resize g.funcs 0 = some { words := g.funcs.words, ptr := [] } := by
      unfold kc_vt_resize; simp
    have hmv : kc_vt_move { words := g.funcs.words, ptr := [] } g.outs j
        = some { words := g.funcs.words, ptr := [kc_gg_tt (kc_gg_start n outs) l] } := by
      unfold kc_vt_move kc_vt_read kc_vt_push
      rw [ho, ht]
      simp only [List.nil_append]
      rw [if_pos (by rw [hw, hok.1])]
    have e1 := kc_top_level_iter_base ord n outs and_only j g hI' l hl
    simp only [hrs, hmv]
    rw [e1]
    simp only
    have hb : kc_gg_tt g l = kc_gg_tt (kc_gg_start n outs) l :=
      kc_gg_base_tt g _ hinv (kc_gg_start_inv n outs) hn l (by rw [hn]; exact hl)
    refine ⟨_, rfl, ⟨kc_gg_inv_congr g _ hinv rfl rfl rfl rfl rfl, hn, ho, hw, ?_, ?_⟩,
      hs, hfa, htt⟩
    · show (g.tops ++ [(l : Int)]).length = j + 1
      rw [List.length_append, hlen]; rfl
    · intro i hi
      by_cases hij : i < j
      · obtain ⟨top, p1, p2, p3⟩ := htops i hij
        refine ⟨top, ?_, p2, p3⟩
        show (g.tops ++ [(l : Int)])[i]? = some (top : Int)
        rw [List.getElem?_append_left (by omega)]; exact p1
      · have hij' : i = j := by omega
        subst hij'
        refine ⟨l, ?_, ?_, ?_⟩
        · show (g.tops ++ [(l : Int)])[i]? = some (l : Int)
          rw [List.getElem?_append_right (by omega), hlen]; simp
        · show l < 2 * g.size
          omega
        · rw [ht]
          congr 1
          exact hb.symm

/-- Claim C24: reuse of existing functions.  Whenever the target table
`funcs[ttId]` is the table of a literal `l < 2 * size` of a well-formed graph,
`synthesis_and_rec` and `synthesis_xor_rec` return, for every `varId`, the
smallest literal with that table and the graph as it was, so no node is
created.  Consequently in the graph returned by `kc_top_level_call_one` an
output that is constant 0 has `tops[i] = 0`, an output that is constant 1 has
`tops[i] = 1`, an output that is the table of input `k` has
`tops[i] = kc_v2l (k + 1) 0`, and when every output is the table of a literal of
the constant or of an input the graph has no internal node. -/
theorem kc_synthesis_reuse (ord : kc_order) (n : Nat) (outs : kc_vt) (_hn1 : 1 ≤ n)
    (_hn2 : n ≤ 16) (hok : kc_outs_ok n outs) :
    (∀ (gg : kc_gg) (ttId : Nat) (varId : Int) (f : List Nat) (l : Nat),
      kc_gg_inv gg → gg.funcs.words = gg.tts.words → kc_vt_read gg.funcs ttId = some f →
      l < 2 * gg.size → kc_vt_read gg.tts l = some f →
      ∃ l0 : Nat, kc_vt_read gg.tts l0 = some f ∧
        (∀ l1, l1 < 2 * gg.size → kc_vt_read gg.tts l1 = some f → l0 ≤ l1) ∧
        synthesis_and_rec ord gg ttId varId = some (gg, (l0 : Int)) ∧
        synthesis_xor_rec ord gg ttId varId = some (gg, (l0 : Int))) ∧
    (∀ and_only : Bool, ∃ g, kc_top_level_call_one ord n outs and_only = some g ∧
      (∀ i, kc_vt_read outs i = some (List.replicate (kc_truth_word_num n) 0) →
        g.tops[i]? = some 0) ∧
      (∀ i, kc_vt_read outs i = some (List.replicate (kc_truth_word_num n) kc_ones) →
        g.tops[i]? = some 1) ∧
      (∀ i k, k < n →
        kc_vt_read outs i = kc_vt_read (kc_gg_start n outs).tts (kc_v2l (k + 1) 0) →
        g.tops[i]? = some ((kc_v2l (k + 1) 0 : Nat) : Int)) ∧
      ((∀ i, i < kc_vt_size outs → ∃ l, l < 2 * (1 + n) ∧
          kc_vt_read outs i = kc_vt_read (kc_gg_start n outs).tts l) →
        kc_gg_node_num g = 0)) := by
  have hsi := kc_gg_start_inv n outs
  have hrd : ∀ l, l < 2 * (1 + n) →
      kc_vt_read (kc_gg_start n outs).tts l = some (kc_gg_tt (kc_gg_start n outs) l) :=
    fun l hl => kc_gg_tt_read _ hsi l hl
  constructor
  · intro gg ttId varId f l hinv hw hf hl hlf
    have e : kc_gg_tt gg l = f := by
      rw [kc_gg_tt_read gg hinv l hl] at hlf
      exact Option.some.inj hlf
    obtain ⟨k1, k2⟩ := kc_synth_go_reuse ord (varId + 1).toNat gg hinv ttId f hw hf l hl e
    refine ⟨l, hlf, ?_, k1, k2⟩
    intro l1 h1 h2
    rw [kc_gg_tt_read gg hinv l1 h1] at h2
    rw [hinv.func_uniq l1 l h1 hl (by rw [Option.some.inj h2, e])]
  · intro and_only
    by_cases hall : ∀ i, i < kc_vt_size outs → ∃ l, l < 2 * (1 + n) ∧
        kc_vt_read outs i = kc_vt_read (kc_gg_start n outs).tts l
    · have hall2 : ∀ i, i < outs.ptr.length → ∃ l, l < 2 * (1 + n) ∧
          outs.ptr[i]? = some (kc_gg_tt (kc_gg_start n outs) l) := by
        intro i hi
        obtain ⟨l, h1, h2⟩ := hall i hi
        exact ⟨l, h1, by rw [← hrd l h1]; exact h2⟩
      obtain ⟨g, e1, hI, hs, _, _⟩ := kc_top_level_call_one_base ord n outs and_only hok hall2
      refine ⟨g, e1, ?_, ?_, ?_, ?_⟩
      · intro i hi
        apply kc_tops_base n outs g hI i 0 (by omega)
        rw [kc_start_tt, if_pos rfl]; exact hi
      · intro i hi
        apply kc_tops_base n outs g hI i 1 (by omega)
        rw [kc_start_tt, if_neg (by omega), if_pos rfl]; exact hi
      · intro i k hk hi
        have hl : kc_v2l (k + 1) 0 < 2 * (1 + n) := by unfold kc_v2l; omega
        apply kc_tops_base n outs g hI i _ hl
        rw [← hrd _ hl]; exact hi
      · intro _
        unfold kc_gg_node_num
        rw [hs, hI.2.1]; omega
    · obtain ⟨g, e1, hI⟩ := kc_top_level_call_one_spec ord n outs and_only hok
      refine ⟨g, e1, ?_, ?_, ?_, fun h => absurd h hall⟩
      · intro i hi
        apply kc_tops_base n outs g hI i 0 (by omega)
        rw [kc_start_tt, if_pos rfl]; exact hi
      · intro i hi
        apply kc_tops_base n outs g hI i 1 (by omega)
        rw [kc_start_tt, if_neg (by omega), if_pos rfl]; exact hi
      · intro i k hk hi
        have hl : kc_v2l (k + 1) 0 < 2 * (1 + n) := by unfold kc_v2l; omega
        apply kc_tops_base n outs g hI i _ hl
        rw [← hrd _ hl]; exact hi

/-- Instance of `kc_synthesis_reuse`: one input and the output table `10`, the
table of the input itself. -/
theorem kc_synthesis_reuse_witness :
    (1 ≤ 1 ∧ 1 ≤ 16 ∧ kc_outs_ok 1 ⟨1, [[0xAAAAAAAAAAAAAAAA]]⟩) ∧
    ((∀ (gg : kc_gg) (ttId : Nat) (varId : Int) (f : List Nat) (l : Nat),
      kc_gg_inv gg → gg.funcs.words = gg.tts.words → kc_vt_read gg.funcs ttId = some f →
      l < 2 * gg.size → kc_vt_read gg.tts l = some f →
      ∃ l0 : Nat, kc_vt_read gg.tts l0 = some f ∧
        (∀ l1, l1 < 2 * gg.size → kc_vt_read gg.tts l1 = some f → l0 ≤ l1) ∧
        synthesis_and_rec ⟨false, false⟩ gg ttId varId = some (gg, (l0 : Int)) ∧
        synthesis_xor_rec ⟨false, false⟩ gg ttId varId = some (gg, (l0 : Int))) ∧
    (∀ and_only : Bool, ∃ g,
      kc_top_level_call_one ⟨false, false⟩ 1 ⟨1, [[0xAAAAAAAAAAAAAAAA]]⟩ and_only = some g ∧
      (∀ i, kc_vt_read ⟨1, [[0xAAAAAAAAAAAAAAAA]]⟩ i
          = some (List.replicate (kc_truth_word_num 1) 0) → g.tops[i]? = some 0) ∧
      (∀ i, kc_vt_read ⟨1, [[0xAAAAAAAAAAAAAAAA]]⟩ i
          = some (List.replicate (kc_truth_word_num 1) kc_ones) → g.tops[i]? = some 1) ∧
      (∀ i k, k < 1 →
        kc_vt_read ⟨1, [[0xAAAAAAAAAAAAAAAA]]⟩ i
          = kc_vt_read (kc_gg_start 1 ⟨1, [[0xAAAAAAAAAAAAAAAA]]⟩).tts (kc_v2l (k + 1) 0) →
        g.tops[i]? = some ((kc_v2l (k + 1) 0 : Nat) : Int)) ∧
      ((∀ i, i < kc_vt_size ⟨1, [[0xAAAAAAAAAAAAAAAA]]⟩ → ∃ l, l < 2 * (1 + 1) ∧
          kc_vt_read ⟨1, [[0xAAAAAAAAAAAAAAAA]]⟩ i
            = kc_vt_read (kc_gg_start 1 ⟨1, [[0xAAAAAAAAAAAAAAAA]]⟩).tts l) →
        kc_gg_node_num g = 0))) :=
  ⟨⟨by decide, by decide, by decide⟩,
   kc_synthesis_reuse ⟨false, false⟩ 1 ⟨1, [[0xAAAAAAAAAAAAAAAA]]⟩ (by decide) (by decide)
     (by decide)⟩

/-- The three examples of reuse for one input, evaluated: the tables `00`, `11`
and `10` get the literals 0, 1 and 2, and the graph has no internal node. -/
theorem kc_reuse_examples (ord : kc_order) (and_only : Bool) :
    (kc_top_level_call_one ord 1 ⟨1, [[0]]⟩ and_only).map
        (fun g => (g.tops, kc_gg_node_num g)) = some ([0], 0) ∧
    (kc_top_level_call_one ord 1 ⟨1, [[0xFFFFFFFFFFFFFFFF]]⟩ and_only).map
        (fun g => (g.tops, kc_gg_node_num g)) = some ([1], 0) ∧
    (kc_top_level_call_one ord 1 ⟨1, [[0xAAAAAAAAAAAAAAAA]]⟩ and_only).map
        (fun g => (g.tops, kc_gg_node_num g)) = some ([2], 0) := by
  revert ord
  apply kc_order_cases <;> cases and_only <;> decide

/-! ## The number of nodes in the fanin cones -/

/-- The marked internal nodes form a finite set whose size is the number of
marks below `size`. -/
theorem kc_gg_marked_finset (gm : kc_gg) (P : Nat → Prop) (hlen : gm.tids.length = gm.size)
    (h1 : ∀ v : Nat, gm.tids[v]? = some gm.tid → gm.nins < v ∧ P v)
    (h2 : ∀ v : Nat, P v → v ≤ gm.nins ∨ gm.tids[v]? = some gm.tid) :
    ∃ S : Finset Nat, (∀ v, v ∈ S ↔ gm.nins < v ∧ P v) ∧
      kc_gg_marked_below gm gm.size = S.card := by
  refine ⟨((List.range' (1 + gm.nins) (gm.size - (1 + gm.nins))).filter
    (fun i => decide (gm.tids[i]? = some gm.tid))).toFinset, ?_, ?_⟩
  · intro v
    rw [List.mem_toFinset, List.mem_filter, List.mem_range'_1]
    simp only [decide_eq_true_eq]
    constructor
    · rintro ⟨_, h⟩
      exact h1 v h
    · rintro ⟨hv, hp⟩
      rcases h2 v hp with h | h
      · omega
      · have : v < gm.tids.length := by
          by_contra hc
          rw [List.getElem?_eq_none (by omega)] at h
          exact Option.noConfusion h
        exact ⟨by omega, h⟩
  · unfold kc_gg_marked_below
    rw [List.toFinset_card_of_nodup ((List.nodup_range' _ _).filter _),
      List.countP_eq_length_filter]

/-- Two calls of `kc_gg_node_count_rec` in a fresh traversal return, change
marks only, and their sum is the number of internal nodes in `P`, the least set
of objects that holds the objects of both literals and is closed under fanins. -/
theorem kc_gg_count_pair (gg : kc_gg) (hinv : kc_gg_inv gg)
    (hq : ∀ t, t ∈ gg.tids → t ≤ gg.tid) (x y : Nat) (hx : x < 2 * gg.size)
    (hy : y < 2 * gg.size) (P : Nat → Prop) (hPx : P (x / 2)) (hPy : P (y / 2))
    (hPc : ∀ w a k : Nat, P w → gg.nins < w → k < 2 → gg.fans[2 * w + k]? = some (a : Int) →
      P (a / 2))
    (hPm : ∀ C : Nat → Prop, C (x / 2) → C (y / 2) →
      (∀ w a k : Nat, C w → gg.nins < w → k < 2 → gg.fans[2 * w + k]? = some (a : Int) →
        C (a / 2)) → ∀ v, P v → C v) :
    ∃ g1 c1 g2 c2,
      kc_gg_node_count_rec (kc_gg_tid_increment gg).1.size (kc_gg_tid_increment gg).1 (x : Int)
        = some (g1, c1) ∧
      kc_gg_node_count_rec g1.size g1 (y : Int) = some (g2, c2) ∧
      kc_gg_same gg g2 ∧ g2.tid = gg.tid + 1 ∧
      ∃ S : Finset Nat, (∀ v, v ∈ S ↔ gg.nins < v ∧ P v) ∧ c1 + c2 = S.card := by
  have hs0 : kc_gg_same gg (kc_gg_tid_increment gg).1 :=
    ⟨rfl, rfl, rfl, rfl, rfl, rfl, rfl, rfl⟩
  have hinv0 := kc_gg_same_inv _ _ hs0 hinv
  have hnone : ∀ v : Nat, gg.tids[v]? ≠ some (gg.tid + 1) := by
    intro v hv
    have := hq _ (List.getElem?_mem hv)
    omega
  obtain ⟨g1, c1, e1, s1, t1, m1, r1, d1, n1⟩ :=
    kc_gg_node_count_rec_marks (kc_gg_tid_increment gg).1.size (kc_gg_tid_increment gg).1 x hinv0
      (by show x < 2 * gg.size; exact hx) (by show x / 2 < gg.size; omega)
  have hinv1 := kc_gg_same_inv _ _ s1 hinv0
  have hz1 : g1.size = gg.size := s1.2.1
  obtain ⟨g2, c2, e2, s2, t2, m2, r2, d2, n2⟩ :=
    kc_gg_node_count_rec_marks g1.size g1 y hinv1 (by rw [hz1]; exact hy) (by rw [hz1]; omega)
  have ht0 : (kc_gg_tid_increment gg).1.tid = gg.tid + 1 := rfl
  have hd0 : (kc_gg_tid_increment gg).1.tids = gg.tids := rfl
  have hn0 : (kc_gg_tid_increment gg).1.nins = gg.nins := rfl
  have hf0 : (kc_gg_tid_increment gg).1.fans = gg.fans := rfl
  have ht1 : g1.tid = gg.tid + 1 := t1
  have hn1 : g1.nins = gg.nins := s1.1
  have hf1 : g1.fans = gg.fans := s1.2.2.1
  have hz2 : g2.size = gg.size := by rw [s2.2.1, hz1]
  rw [ht0, hd0] at m1
  rw [ht0, hn0] at r1
  rw [ht0, hd0, hn0, hf0] at d1
  rw [ht1] at m2
  rw [ht1, hn1] at r2
  rw [ht1, hn1, hf1] at d2
  have hss : kc_gg_same gg g2 := kc_gg_same_trans _ _ _ (kc_gg_same_trans _ _ _ hs0 s1) s2
  have htid : g2.tid = gg.tid + 1 := by rw [t2, ht1]
  -- every mark of the traversal has been set by one of the two calls
  have hmark : ∀ v : Nat, g2.tids[v]? = some (gg.tid + 1) →
      gg.nins < v ∧ P v ∧
      ∀ k a : Nat, k < 2 → gg.fans[2 * v + k]? = some (a : Int) →
        a / 2 ≤ gg.nins ∨ g2.tids[a / 2]? = some (gg.tid + 1) := by
    intro v hv
    by_cases h21 : g2.tids[v]? = g1.tids[v]?
    · have h10 : g1.tids[v]? ≠ gg.tids[v]? := by
        intro h
        rw [h21, h] at hv
        exact hnone v hv
      obtain ⟨a1, _, a3, a4⟩ := d1 v h10
      refine ⟨a1, a4 P hPx hPc, ?_⟩
      intro k a hk hf
      rcases a3 k a hk hf with h | h
      · exact Or.inl h
      · exact Or.inr (m2 _ h)
    · obtain ⟨a1, _, a3, a4⟩ := d2 v h21
      exact ⟨a1, a4 P hPy hPc, a3⟩
  have hcone : ∀ v, P v → v ≤ gg.nins ∨ g2.tids[v]? = some (gg.tid + 1) := by
    apply hPm (fun v => v ≤ gg.nins ∨ g2.tids[v]? = some (gg.tid + 1))
    · rcases r1 with h | h
      · exact Or.inl h
      · exact Or.inr (m2 _ h)
    · exact r2
    · intro w a k hw hw1 hk hf
      rcases hw with h | h
      · omega
      · exact (hmark w h).2.2 k a hk hf
  have hzero : kc_gg_marked_below (kc_gg_tid_increment gg).1 (kc_gg_tid_increment gg).1.size
      = 0 := by
    unfold kc_gg_marked_below
    rw [List.countP_eq_zero]
    intro i _
    simp only [decide_eq_true_eq]
    exact hnone i
  obtain ⟨S, hS1, hS2⟩ := kc_gg_marked_finset g2 P
    (by rw [hz2, hss.2.2.2.2.2.2.2, hinv.tids_len])
    (by
      intro v hv
      rw [htid] at hv
      rw [hss.1]
      exact ⟨(hmark v hv).1, (hmark v hv).2.1⟩)
    (by
      intro v hv
      rw [htid, hss.1]
      exact hcone v hv)
  refine ⟨g1, c1, g2, c2, e1, e2, hss, htid, S, ?_, ?_⟩
  · intro v
    rw [hS1 v, hss.1]
  · rw [← hS2, n2, n1, hzero]
    omega

/-- The fanin cone of two literals is the least set of objects that holds their
objects and is closed under fanins. -/
theorem kc_gg_cone_pair_min (gg : kc_gg) (T : List Int) (x y : Nat)
    (hT : ∀ t, t ∈ T → t = (x : Int) ∨ t = (y : Int)) (C : Nat → Prop) (hCx : C (x / 2))
    (hCy : C (y / 2))
    (hCc : ∀ w a k : Nat, C w → gg.nins < w → k < 2 → gg.fans[2 * w + k]? = some (a : Int) →
      C (a / 2)) :
    ∀ v, kc_gg_cone { gg with tops := T } v → C v := by
  intro v hv
  induction hv with
  | top l hl =>
    rcases hT _ hl with h | h
    · rw [Int.ofNat_inj.1 h]; exact hCx
    · rw [Int.ofNat_inj.1 h]; exact hCy
  | fanin w a k _ hw1 hk hf ih => exact hCc w a k ih hw1 hk hf

/-- The call of `kc_gg_node_count2` returns the number of internal nodes in the
fanin cones of its two literals and changes marks only. -/
theorem kc_gg_node_count2_cone (ord : kc_order) (gg : kc_gg) (hinv : kc_gg_inv gg)
    (hq : ∀ t, t ∈ gg.tids → t ≤ gg.tid) (a b : Nat) (ha : a < 2 * gg.size)
    (hb : b < 2 * gg.size) :
    ∃ g c, kc_gg_node_count2 ord gg (a : Int) (b : Int) = some (g, c) ∧ kc_gg_same gg g ∧
      g.tid = gg.tid + 1 ∧
      ∃ S : Finset Nat,
        (∀ v, v ∈ S ↔ gg.nins < v ∧ kc_gg_cone { gg with tops := [(a : Int), (b : Int)] } v) ∧
        c = S.card := by
  have hPa : kc_gg_cone { gg with tops := [(a : Int), (b : Int)] } (a / 2) :=
    kc_gg_cone.top a (by simp)
  have hPb : kc_gg_cone { gg with tops := [(a : Int), (b : Int)] } (b / 2) :=
    kc_gg_cone.top b (by simp)
  have hPc : ∀ w x k : Nat, kc_gg_cone { gg with tops := [(a : Int), (b : Int)] } w →
      gg.nins < w → k < 2 → gg.fans[2 * w + k]? = some (x : Int) →
      kc_gg_cone { gg with tops := [(a : Int), (b : Int)] } (x / 2) :=
    fun w x k hw hw1 hk hf => kc_gg_cone.fanin w x k hw hw1 hk hf
  unfold kc_gg_node_count2
  simp only
  by_cases ho : ord.sum_rtl = true
  · rw [if_pos ho]
    obtain ⟨g1, c1, g2, c2, e1, e2, hs, ht, S, hS1, hS2⟩ :=
      kc_gg_count_pair gg hinv hq b a hb ha _ hPb hPa hPc
        (fun C h1 h2 h3 => kc_gg_cone_pair_min gg _ a b
          (fun t h => by simpa using h) C h2 h1 h3)
    rw [e1]
    simp only
    rw [e2]
    exact ⟨g2, c2 + c1, rfl, hs, ht, S, hS1, by omega⟩
  · rw [if_neg ho]
    obtain ⟨g1, c1, g2, c2, e1, e2, hs, ht, S, hS1, hS2⟩ :=
      kc_gg_count_pair gg hinv hq a b ha hb _ hPa hPb hPc
        (fun C h1 h2 h3 => kc_gg_cone_pair_min gg _ a b
          (fun t h => by simpa using h) C h1 h2 h3)
    rw [e1]
    simp only
    rw [e2]
    exact ⟨g2, c1 + c2, rfl, hs, ht, S, hS1, hS2⟩

/-- Claim C29: reachable-node counting.  For a well-formed graph whose traversal
counter can still be incremented and in which no stored traversal id exceeds
`tid`, and for valid literals `a`, `b`: `kc_gg_node_count2` returns the number
of elements of the set of internal nodes in the fanin cones of `a` and `b`, so
every node counts once even when it is shared; `kc_gg_node_count` returns the
size of the set of internal nodes reachable from `tops`; the graph returned has
the `nins`, `size`, `fans`, `tts`, `funcs`, `tops` and `outs` it had and as many
traversal ids, so only `tid` and the values in `tids` change. -/
theorem kc_gg_node_count_reachable (ord : kc_order) (gg : kc_gg) (hinv : kc_gg_inv gg)
    (_hpre : kc_gg_tid_increment_pre gg) (hq : ∀ t, t ∈ gg.tids → t ≤ gg.tid) :
    (∀ a b : Nat, a < 2 * gg.size → b < 2 * gg.size →
      ∃ (g : kc_gg) (c : Nat) (S : Finset Nat),
        kc_gg_node_count2 ord gg (a : Int) (b : Int) = some (g, c) ∧ kc_gg_same gg g ∧
        (∀ v, v ∈ S ↔
          gg.nins < v ∧ kc_gg_cone { gg with tops := [(a : Int), (b : Int)] } v) ∧
        c = S.card) ∧
    ((∀ top, top ∈ gg.tops → ∃ l : Nat, top = (l : Int) ∧ l < 2 * gg.size) →
      ∃ (g : kc_gg) (c : Nat) (S : Finset Nat),
        kc_gg_node_count gg = some (g, c) ∧ kc_gg_same gg g ∧
        (∀ v, v ∈ S ↔ gg.nins < v ∧ kc_gg_cone gg v) ∧ c = S.card) := by
  constructor
  · intro a b ha hb
    obtain ⟨g, c, e, hs, _, S, h1, h2⟩ := kc_gg_node_count2_cone ord gg hinv hq a b ha hb
    exact ⟨g, c, S, e, hs, h1, h2⟩
  · intro htops
    obtain ⟨gm, cnt, e, hs, ht, h1, h2, h3⟩ :=
      kc_gg_node_count_spec gg hinv htops hq
    obtain ⟨S, hS1, hS2⟩ := kc_gg_marked_finset gm (kc_gg_cone gg)
      (by rw [hs.2.1, hs.2.2.2.2.2.2.2, hinv.tids_len])
      (fun v hv => by rw [hs.1]; exact ⟨(h1 v hv).1, (h1 v hv).2.1⟩)
      (fun v hv => by rw [hs.1]; exact h2 v hv)
    refine ⟨gm, cnt, S, e, hs, ?_, by rw [h3, hS2]⟩
    intro v
    rw [hS1 v, hs.1]

/-- Instance of `kc_gg_node_count_reachable` on the graph `kc_demo_marked`, whose
only output is the complemented literal of its XOR node. -/
theorem kc_gg_node_count_reachable_witness :
    (kc_gg_inv kc_demo_marked ∧ kc_gg_tid_increment_pre kc_demo_marked ∧
      ∀ t, t ∈ kc_demo_marked.tids → t ≤ kc_demo_marked.tid) ∧
    ((∀ a b : Nat, a < 2 * kc_demo_marked.size → b < 2 * kc_demo_marked.size →
      ∃ (g : kc_gg) (c : Nat) (S : Finset Nat),
        kc_gg_node_count2 ⟨false, false⟩ kc_demo_marked (a : Int) (b : Int) = some (g, c) ∧
        kc_gg_same kc_demo_marked g ∧
        (∀ v, v ∈ S ↔ kc_demo_marked.nins < v ∧
          kc_gg_cone { kc_demo_marked with tops := [(a : Int), (b : Int)] } v) ∧
        c = S.card) ∧
    ((∀ top, top ∈ kc_demo_marked.tops →
        ∃ l : Nat, top = (l : Int) ∧ l < 2 * kc_demo_marked.size) →
      ∃ (g : kc_gg) (c : Nat) (S : Finset Nat),
        kc_gg_node_count kc_demo_marked = some (g, c) ∧ kc_gg_same kc_demo_marked g ∧
        (∀ v, v ∈ S ↔ kc_demo_marked.nins < v ∧ kc_gg_cone kc_demo_marked v) ∧
        c = S.card)) :=
  ⟨⟨kc_demo_marked_inv, by unfold kc_gg_tid_increment_pre; decide, by decide⟩,
   kc_gg_node_count_reachable ⟨false, false⟩ kc_demo_marked kc_demo_marked_inv
     (by unfold kc_gg_tid_increment_pre; decide) (by decide)⟩

/-- On the graph `kc_demo_xor` with the AND node 3 and the XOR node 4: the two
literals of node 4 count the node once, the literals of both nodes count two,
and two literals of inputs count nothing. -/
theorem kc_gg_node_count2_examples (ord : kc_order) :
    (kc_gg_node_count2 ord kc_demo_xor 8 9).map Prod.snd = some 1 ∧
    (kc_gg_node_count2 ord kc_demo_xor 6 8).map Prod.snd = some 2 ∧
    (kc_gg_node_count2 ord kc_demo_xor 2 5).map Prod.snd = some 0 := by
  revert ord
  apply kc_order_cases <;> decide

/-! ## The choice of the decomposition -/

theorem kc_lit_of_int_some (x : Int) (l : Nat) (h : kc_lit_of_int x = some l) :
    x = (l : Int) := by
  unfold kc_lit_of_int at h
  split at h
  · have := Option.some.inj h
    omega
  · exact Option.noConfusion h

/-- The selection at the end of `synthesis_xor_rec` in terms of comparisons: the
first candidate when it is a minimum, else the second when it is a minimum, else
the third. -/
theorem kc_select_min_eq {α : Type} (n01 n02 n12 : Nat) (A B C D : α) :
    (if Nat.min n01 (Nat.min n02 n12) = n01 then A
     else if Nat.min n01 (Nat.min n02 n12) = n02 then B
     else if Nat.min n01 (Nat.min n02 n12) = n12 then C else D)
      = if n01 ≤ n02 ∧ n01 ≤ n12 then A else if n02 ≤ n01 ∧ n02 ≤ n12 then B else C := by
  simp only [Nat.min_def]
  split_ifs <;> first | rfl | (exfalso; omega)

/-- What a call of `synthesis_xor_go` that misses the hash lookup at a variable of
the support has done when it returns. -/
theorem synthesis_xor_go_choice (ord : kc_order) (k : Nat) (gg : kc_gg) (ttId : Nat)
    (hmiss : kc_gg_hash_function gg ttId = some none)
    (hvar : kc_vt_has_var gg.funcs ttId k = some true) (g : kc_gg) (r : Int)
    (h : synthesis_xor_go ord (k + 1) gg ttId = some (g, r)) :
    ∃ (fs0 : kc_vt) (f0 : Nat) (fs1 : kc_vt) (f1 : Nat) (fs2 : kc_vt) (f2 : Nat)
      (gg0 : kc_gg) (l0 : Nat) (gg1 : kc_gg) (l1 : Nat) (gg2 : kc_gg) (l2 : Nat) (fs3 : kc_vt)
      (g3 : kc_gg) (c01 : Nat) (g4 : kc_gg) (c02 : Nat) (g5 : kc_gg) (c12 : Nat),
      kc_vt_cof0 gg.funcs ttId k = some (fs0, f0) ∧
      kc_vt_cof1 fs0 ttId k = some (fs1, f1) ∧
      kc_vt_xor fs1 f0 f1 = some (fs2, f2) ∧
      synthesis_xor_go ord k { gg with funcs := fs2 } f0 = some (gg0, (l0 : Int)) ∧
      synthesis_xor_go ord k gg0 f1 = some (gg1, (l1 : Int)) ∧
      synthesis_xor_go ord k gg1 f2 = some (gg2, (l2 : Int)) ∧
      kc_vt_shrink gg2.funcs 3 = some fs3 ∧
      kc_gg_node_count2 ord { gg2 with funcs := fs3 } (l0 : Int) (l1 : Int) = some (g3, c01) ∧
      kc_gg_node_count2 ord g3 (l0 : Int) (l2 : Int) = some (g4, c02) ∧
      kc_gg_node_count2 ord g4 (l1 : Int) (l2 : Int) = some (g5, c12) ∧
      (if c01 + 1 + 2 * (if 2 ≤ l0 ∧ 2 ≤ l1 then 1 else 0)
            ≤ c02 + 1 + (if 2 ≤ l0 ∧ 2 ≤ l1 then 1 else 0) ∧
          c01 + 1 + 2 * (if 2 ≤ l0 ∧ 2 ≤ l1 then 1 else 0)
            ≤ c12 + 1 + (if 2 ≤ l0 ∧ 2 ≤ l1 then 1 else 0) then
        (kc_gg_mux ord g5 (kc_v2l (1 + k) 0) l1 l0).map (fun p => (p.1, (p.2 : Int)))
       else if c02 + 1 + (if 2 ≤ l0 ∧ 2 ≤ l1 then 1 else 0)
            ≤ c01 + 1 + 2 * (if 2 ≤ l0 ∧ 2 ≤ l1 then 1 else 0) ∧
          c02 + 1 + (if 2 ≤ l0 ∧ 2 ≤ l1 then 1 else 0)
            ≤ c12 + 1 + (if 2 ≤ l0 ∧ 2 ≤ l1 then 1 else 0) then
        (kc_gg_and_xor g5 (kc_v2l (1 + k) 0) l2 l0).map (fun p => (p.1, (p.2 : Int)))
       else
        (kc_gg_and_xor g5 (kc_v2l (1 + k) 1) l2 l1).map (fun p => (p.1, (p.2 : Int))))
        = some (g, r) := by
  unfold synthesis_xor_go at h
  rw [hmiss] at h
  simp only at h
  rw [hvar] at h
  simp only at h
  split at h
  · exact Option.noConfusion h
  rename_i fs0 f0 e0
  split at h
  · exact Option.noConfusion h
  rename_i fs1 f1 e1
  split at h
  · exact Option.noConfusion h
  rename_i fs2 f2 e2
  split at h
  · exact Option.noConfusion h
  rename_i gg0 lit0 a0
  split at h
  · exact Option.noConfusion h
  rename_i gg1 lit1 a1
  split at h
  · exact Option.noConfusion h
  rename_i gg2 lit2 a2
  split at h
  · exact Option.noConfusion h
  rename_i fs3 e3
  split at h
  · exact Option.noConfusion h
  rename_i g3 c01 b1
  split at h
  · exact Option.noConfusion h
  rename_i g4 c02 b2
  split at h
  · exact Option.noConfusion h
  rename_i g5 c12 b3
  split at h
  · rename_i l0 l1 l2 q0 q1 q2
    have z0 := kc_lit_of_int_some _ _ q0
    have z1 := kc_lit_of_int_some _ _ q1
    have z2 := kc_lit_of_int_some _ _ q2
    subst z0 z1 z2
    refine ⟨fs0, f0, fs1, f1, fs2, f2, gg0, l0, gg1, l1, gg2, l2, fs3, g3, c01, g4, c02, g5,
      c12, e0, e1, e2, a0, a1, a2, e3, b1, b2, b3, ?_⟩
    rw [kc_select_min_eq] at h
    have hc : ((l0 : Int) ≥ 2 ∧ (l1 : Int) ≥ 2) ↔ (2 ≤ l0 ∧ 2 ≤ l1) := by omega
    simp only [hc, Nat.one_mul] at h
    rw [← h]
    split_ifs <;> first
      | (cases kc_gg_mux ord g5 (kc_v2l (1 + k) 0) l1 l0 <;> rfl)
      | (cases kc_gg_and_xor g5 (kc_v2l (1 + k) 0) l2 l0 <;> rfl)
      | (cases kc_gg_and_xor g5 (kc_v2l (1 + k) 1) l2 l1 <;> rfl)
  · exact Option.noConfusion h

theorem kc_map_cast_some (o : Option (kc_gg × Nat)) (g : kc_gg) (r : Nat)
    (h : o.map (fun p => (p.1, (p.2 : Int))) = some (g, (r : Int))) : o = some (g, r) := by
  cases o with
  | none => exact Option.noConfusion h
  | some p =>
    obtain ⟨a, b⟩ := p
    have e := Prod.mk.inj (Option.some.inj h)
    have e1 : a = g := e.1
    have e2 : b = r := Int.ofNat_inj.1 e.2
    rw [e1, e2]

/-- Claim C30: the decomposition choice of `synthesis_xor_rec`.  At a level where
the hash lookup misses and variable `k` is in the support of the target, the
call takes the cofactors `f0`, `f1` and their XOR `f2`, synthesizes the literals
`l0`, `l1`, `l2` for them with `varId = k - 1`, drops the three tables, and
counts `c01 = kc_gg_node_count2 (l0, l1)`, `c02 = kc_gg_node_count2 (l0, l2)`,
`c12 = kc_gg_node_count2 (l1, l2)`.  With `c = 1` when `l0 ≥ 2` and `l1 ≥ 2` and
`c = 0` otherwise, and `n01 = c01 + 1 + 2 c`, `n02 = c02 + 1 + c`,
`n12 = c12 + 1 + c`, the call returns a literal `r`, never `-1`, which is the
result of `kc_gg_mux (v_k, l1, l0)` when `n01` is a minimum, otherwise of
`kc_gg_and_xor (v_k, l2, l0)` when `n02` is a minimum, otherwise of
`kc_gg_and_xor (NOT v_k, l2, l1)`. -/
theorem synthesis_xor_rec_choice (ord : kc_order) (gg : kc_gg) (ttId k : Nat) (f : List Nat)
    (pre : kc_synth_pre gg (k + 1) ttId f)
    (hmiss : kc_gg_hash_function gg ttId = some none)
    (hvar : kc_vt_has_var gg.funcs ttId k = some true) :
    ∃ (fs0 : kc_vt) (f0 : Nat) (fs1 : kc_vt) (f1 : Nat) (fs2 : kc_vt) (f2 : Nat)
      (gg0 : kc_gg) (l0 : Nat) (gg1 : kc_gg) (l1 : Nat) (gg2 : kc_gg) (l2 : Nat) (fs3 : kc_vt)
      (g3 : kc_gg) (c01 : Nat) (g4 : kc_gg) (c02 : Nat) (g5 : kc_gg) (c12 : Nat)
      (c n01 n02 n12 : Nat) (g : kc_gg) (r : Nat),
      kc_vt_cof0 gg.funcs ttId k = some (fs0, f0) ∧
      kc_vt_cof1 fs0 ttId k = some (fs1, f1) ∧
      kc_vt_xor fs1 f0 f1 = some (fs2, f2) ∧
      synthesis_xor_rec ord { gg with funcs := fs2 } f0 ((k : Int) - 1)
        = some (gg0, (l0 : Int)) ∧
      synthesis_xor_rec ord gg0 f1 ((k : Int) - 1) = some (gg1, (l1 : Int)) ∧
      synthesis_xor_rec ord gg1 f2 ((k : Int) - 1) = some (gg2, (l2 : Int)) ∧
      kc_vt_shrink gg2.funcs 3 = some fs3 ∧
      kc_gg_node_count2 ord { gg2 with funcs := fs3 } (l0 : Int) (l1 : Int) = some (g3, c01) ∧
      kc_gg_node_count2 ord g3 (l0 : Int) (l2 : Int) = some (g4, c02) ∧
      kc_gg_node_count2 ord g4 (l1 : Int) (l2 : Int) = some (g5, c12) ∧
      c = (if 2 ≤ l0 ∧ 2 ≤ l1 then 1 else 0) ∧
      n01 = c01 + 1 + 2 * c ∧ n02 = c02 + 1 + c ∧ n12 = c12 + 1 + c ∧
      synthesis_xor_rec ord gg ttId (k : Int) = some (g, (r : Int)) ∧
      (n01 ≤ n02 ∧ n01 ≤ n12 → kc_gg_mux ord g5 (kc_v2l (1 + k) 0) l1 l0 = some (g, r)) ∧
      (¬ (n01 ≤ n02 ∧ n01 ≤ n12) → n02 ≤ n01 ∧ n02 ≤ n12 →
        kc_gg_and_xor g5 (kc_v2l (1 + k) 0) l2 l0 = some (g, r)) ∧
      (¬ (n01 ≤ n02 ∧ n01 ≤ n12) → ¬ (n02 ≤ n01 ∧ n02 ≤ n12) →
        kc_gg_and_xor g5 (kc_v2l (1 + k) 1) l2 l1 = some (g, r)) := by
  obtain ⟨g, r, e, _⟩ := synthesis_xor_go_spec ord (k + 1) gg ttId f pre
  obtain ⟨fs0, f0, fs1, f1, fs2, f2, gg0, l0, gg1, l1, gg2, l2, fs3, g3, c01, g4, c02, g5, c12,
    e0, e1, e2, a0, a1, a2, e3, b1, b2, b3, hsel⟩ :=
    synthesis_xor_go_choice ord k gg ttId hmiss hvar g r e
  have hk : ((k : Int) + 1).toNat = k + 1 := by omega
  refine ⟨fs0, f0, fs1, f1, fs2, f2, gg0, l0, gg1, l1, gg2, l2, fs3, g3, c01, g4, c02, g5, c12,
    _, _, _, _, g, r, e0, e1, e2, ?_, ?_, ?_, e3, b1, b2, b3, rfl, rfl, rfl, rfl, ?_, ?_, ?_, ?_⟩
  · unfold synthesis_xor_rec; rw [kc_toNat_var]; exact a0
  · unfold synthesis_xor_rec; rw [kc_toNat_var]; exact a1
  · unfold synthesis_xor_rec; rw [kc_toNat_var]; exact a2
  · unfold synthesis_xor_rec; rw [hk]; exact e
  · intro hA
    rw [if_pos hA] at hsel
    exact kc_map_cast_some _ g r hsel
  · intro hA hB
    rw [if_neg hA, if_pos hB] at hsel
    exact kc_map_cast_some _ g r hsel
  · intro hA hB
    rw [if_neg hA, if_neg hB] at hsel
    exact kc_map_cast_some _ g r hsel

/-- Instance of `synthesis_xor_rec_choice`: the parity of two inputs at the
level of the second input. -/
theorem synthesis_xor_rec_choice_witness :
    (kc_synth_pre kc_demo_target (1 + 1) 0 [0x6666666666666666] ∧
      kc_gg_hash_function kc_demo_target 0 = some none ∧
      kc_vt_has_var kc_demo_target.funcs 0 1 = some true) ∧
    (∃ (fs0 : kc_vt) (f0 : Nat) (fs1 : kc_vt) (f1 : Nat) (fs2 : kc_vt) (f2 : Nat)
      (gg0 : kc_gg) (l0 : Nat) (gg1 : kc_gg) (l1 : Nat) (gg2 : kc_gg) (l2 : Nat) (fs3 : kc_vt)
      (g3 : kc_gg) (c01 : Nat) (g4 : kc_gg) (c02 : Nat) (g5 : kc_gg) (c12 : Nat)
      (c n01 n02 n12 : Nat) (g : kc_gg) (r : Nat),
      kc_vt_cof0 kc_demo_target.funcs 0 1 = some (fs0, f0) ∧
      kc_vt_cof1 fs0 0 1 = some (fs1, f1) ∧
      kc_vt_xor fs1 f0 f1 = some (fs2, f2) ∧
      synthesis_xor_rec ⟨false, false⟩ { kc_demo_target with funcs := fs2 } f0 (((1 : Nat) : Int) - 1)
        = some (gg0, (l0 : Int)) ∧
      synthesis_xor_rec ⟨false, false⟩ gg0 f1 (((1 : Nat) : Int) - 1) = some (gg1, (l1 : Int)) ∧
      synthesis_xor_rec ⟨false, false⟩ gg1 f2 (((1 : Nat) : Int) - 1) = some (gg2, (l2 : Int)) ∧
      kc_vt_shrink gg2.funcs 3 = some fs3 ∧
      kc_gg_node_count2 ⟨false, false⟩ { gg2 with funcs := fs3 } (l0 : Int) (l1 : Int) = some (g3, c01) ∧
      kc_gg_node_count2 ⟨false, false⟩ g3 (l0 : Int) (l2 : Int) = some (g4, c02) ∧
      kc_gg_node_count2 ⟨false, false⟩ g4 (l1 : Int) (l2 : Int) = some (g5, c12) ∧
      c = (if 2 ≤ l0 ∧ 2 ≤ l1 then 1 else 0) ∧
      n01 = c01 + 1 + 2 * c ∧ n02 = c02 + 1 + c ∧ n12 = c12 + 1 + c ∧
      synthesis_xor_rec ⟨false, false⟩ kc_demo_target 0 ((1 : Nat) : Int) = some (g, (r : Int)) ∧
      (n01 ≤ n02 ∧ n01 ≤ n12 → kc_gg_mux ⟨false, false⟩ g5 (kc_v2l (1 + 1) 0) l1 l0 = some (g, r)) ∧
      (¬ (n01 ≤ n02 ∧ n01 ≤ n12) → n02 ≤ n01 ∧ n02 ≤ n12 →
        kc_gg_and_xor g5 (kc_v2l (1 + 1) 0) l2 l0 = some (g, r)) ∧
      (¬ (n01 ≤ n02 ∧ n01 ≤ n12) → ¬ (n02 ≤ n01 ∧ n02 ≤ n12) →
        kc_gg_and_xor g5 (kc_v2l (1 + 1) 1) l2 l1 = some (g, r))) :=
  ⟨⟨⟨kc_gg_inv_funcs _ _ (kc_gg_start_inv 2 ⟨1, []⟩), by decide, by decide, by decide, by decide,
      by decide⟩, by decide, by decide⟩,
   synthesis_xor_rec_choice ⟨false, false⟩ kc_demo_target 0 1 [0x6666666666666666]
     ⟨kc_gg_inv_funcs _ _ (kc_gg_start_inv 2 ⟨1, []⟩), by decide, by decide, by decide,
       by decide, by decide⟩ (by decide) (by decide)⟩

/-- On the parity of two inputs the two Davio expansions cost 2 and the Shannon
expansion 3: the positive Davio expansion is taken, and it makes the XOR node
of the literals 4 and 2. -/
theorem kc_demo_target_choice (ord : kc_order) :
    (synthesis_xor_rec ord kc_demo_target 0 1).map
        (fun p => (p.1.fans.drop 6, p.1.size, p.2)) = some ([4, 2], 4, 6) ∧
    (kc_gg_and_xor kc_demo_target 4 1 2).map
        (fun p => (p.1.fans.drop 6, p.1.size, p.2)) = some ([4, 2], 4, 6) := by
  revert ord
  apply kc_order_cases <;> decide

/-! ## One level of the recursion -/

/-- A level of either synthesizer at which the target does not depend on the
top-most variable: the target satisfies the precondition of the level below. -/
theorem kc_synth_pre_skip (gg : kc_gg) (k ttId : Nat) (f : List Nat)
    (pre : kc_synth_pre gg (k + 1) ttId f)
    (hvar : kc_vt_has_var gg.funcs ttId k = some false) : kc_synth_pre gg k ttId f := by
  obtain ⟨hinv, hk, hw, hok, hf, hind⟩ := pre
  have hfo : kc_tt_ok gg.tts.words f := by rw [← hw]; exact hok f (List.getElem?_mem hf)
  obtain ⟨b, hb1, hb2⟩ := kc_vt_has_var_spec gg.nins gg.funcs ttId k f
    (by rw [hw, hinv.tts_words]) (by rw [hw]; exact hfo) hf (by omega)
  rw [hvar] at hb1
  have hb : b = false := (Option.some.inj hb1).symm
  refine ⟨hinv, by omega, hw, hok, hf, ?_⟩
  intro j hj1 hj2
  by_cases hjk : j = k
  · rw [hjk]; exact hb2 hb
  · exact hind j (by omega) hj2

/-- One level of `synthesis_xor_go` at a variable of the support after a miss of
the hash lookup: the tables appended to the scratch store, the three calls of
the level below with their preconditions, the three counts, and the selection. -/
theorem synthesis_xor_go_level (ord : kc_order) (k : Nat) (gg : kc_gg) (ttId : Nat)
    (f : List Nat) (pre : kc_synth_pre gg (k + 1) ttId f)
    (hmiss : kc_gg_hash_function gg ttId = some none)
    (hvar : kc_vt_has_var gg.funcs ttId k = some true) :
    ∃ (f0 f1 : List Nat) (g0 : kc_gg) (l0 : Nat) (g1 : kc_gg) (l1 : Nat) (g2 : kc_gg) (l2 : Nat)
      (g3 : kc_gg) (c01 : Nat) (g4 : kc_gg) (c02 : Nat) (g5 : kc_gg) (c12 : Nat),
      kc_vt_cof0 gg.funcs ttId k = some (kc_vt_push gg.funcs f0, gg.funcs.ptr.length) ∧
      kc_vt_cof1 (kc_vt_push gg.funcs f0) ttId k
        = some (kc_vt_push (kc_vt_push gg.funcs f0) f1, gg.funcs.ptr.length + 1) ∧
      kc_vt_xor (kc_vt_push (kc_vt_push gg.funcs f0) f1) gg.funcs.ptr.length
          (gg.funcs.ptr.length + 1)
        = some (kc_vt_push (kc_vt_push (kc_vt_push gg.funcs f0) f1)
            (List.zipWith (· ^^^ ·) f0 f1), gg.funcs.ptr.length + 2) ∧
      kc_tt_ok gg.tts.words f0 ∧ kc_tt_ok gg.tts.words f1 ∧
      (∀ m, m < 64 * gg.tts.words → kc_tt_bit f0 m = kc_tt_bit f (kc_clear_bit m k)) ∧
      (∀ m, m < 64 * gg.tts.words → kc_tt_bit f1 m = kc_tt_bit f (kc_set_bit m k)) ∧
      kc_synth_pre { gg with funcs := (kc_vt_push (kc_vt_push (kc_vt_push gg.funcs f0) f1)
          (List.zipWith (· ^^^ ·) f0 f1)) } k gg.funcs.ptr.length f0 ∧
      synthesis_xor_go ord k { gg with funcs := (kc_vt_push (kc_vt_push (kc_vt_push gg.funcs f0) f1)
          (List.zipWith (· ^^^ ·) f0 f1)) } gg.funcs.ptr.length = some (g0, (l0 : Int)) ∧
      kc_synth_pre g0 k (gg.funcs.ptr.length + 1) f1 ∧
      synthesis_xor_go ord k g0 (gg.funcs.ptr.length + 1) = some (g1, (l1 : Int)) ∧
      kc_synth_pre g1 k (gg.funcs.ptr.length + 2) (List.zipWith (· ^^^ ·) f0 f1) ∧
      synthesis_xor_go ord k g1 (gg.funcs.ptr.length + 2) = some (g2, (l2 : Int)) ∧
      kc_gg_inv g2 ∧ l0 < 2 * g2.size ∧ l1 < 2 * g2.size ∧ l2 < 2 * g2.size ∧
      kc_gg_tt g2 l0 = f0 ∧ kc_gg_tt g2 l1 = f1 ∧
      kc_gg_tt g2 l2 = List.zipWith (· ^^^ ·) f0 f1 ∧
      kc_gg_ext { gg with funcs := (kc_vt_push (kc_vt_push (kc_vt_push gg.funcs f0) f1)
          (List.zipWith (· ^^^ ·) f0 f1)) } g2 ∧
      kc_vt_shrink g2.funcs 3 = some gg.funcs ∧
      kc_gg_node_count2 ord { g2 with funcs := gg.funcs } (l0 : Int) (l1 : Int)
        = some (g3, c01) ∧
      kc_gg_node_count2 ord g3 (l0 : Int) (l2 : Int) = some (g4, c02) ∧
      kc_gg_node_count2 ord g4 (l1 : Int) (l2 : Int) = some (g5, c12) ∧
      kc_gg_same { g2 with funcs := gg.funcs } g3 ∧ kc_gg_same g3 g4 ∧ kc_gg_same g4 g5 ∧
      synthesis_xor_go ord (k + 1) gg ttId
        = (if c01 + 1 + 2 * (if 2 ≤ l0 ∧ 2 ≤ l1 then 1 else 0)
                ≤ c02 + 1 + (if 2 ≤ l0 ∧ 2 ≤ l1 then 1 else 0) ∧
              c01 + 1 + 2 * (if 2 ≤ l0 ∧ 2 ≤ l1 then 1 else 0)
                ≤ c12 + 1 + (if 2 ≤ l0 ∧ 2 ≤ l1 then 1 else 0) then
            (kc_gg_mux ord g5 (kc_v2l (1 + k) 0) l1 l0).map (fun p => (p.1, (p.2 : Int)))
           else if c02 + 1 + (if 2 ≤ l0 ∧ 2 ≤ l1 then 1 else 0)
                ≤ c01 + 1 + 2 * (if 2 ≤ l0 ∧ 2 ≤ l1 then 1 else 0) ∧
              c02 + 1 + (if 2 ≤ l0 ∧ 2 ≤ l1 then 1 else 0)
                ≤ c12 + 1 + (if 2 ≤ l0 ∧ 2 ≤ l1 then 1 else 0) then
            (kc_gg_and_xor g5 (kc_v2l (1 + k) 0) l2 l0).map (fun p => (p.1, (p.2 : Int)))
           else
            (kc_gg_and_xor g5 (kc_v2l (1 + k) 1) l2 l1).map
              (fun p => (p.1, (p.2 : Int)))) := by
  have pre' := pre
  obtain ⟨hinv, hk, hw, hok, hf, hind⟩ := pre
  have hfo : kc_tt_ok gg.tts.words f := by rw [← hw]; exact hok f (List.getElem?_mem hf)
  obtain ⟨f0, f1, c1, c2, o0, o1, b0, b1, hind01⟩ := kc_synth_cofs gg k ttId f pre'
  have o2 := kc_tt_ok_xor _ f0 f1 o0 o1
  have hx : kc_vt_xor (kc_vt_push (kc_vt_push gg.funcs f0) f1) gg.funcs.ptr.length
      (gg.funcs.ptr.length + 1)
      = some (kc_vt_push (kc_vt_push (kc_vt_push gg.funcs f0) f1)
          (List.zipWith (· ^^^ ·) f0 f1), gg.funcs.ptr.length + 2) := by
    have r0 : (gg.funcs.ptr ++ [f0] ++ [f1])[gg.funcs.ptr.length]? = some f0 := by
      rw [List.append_assoc, List.getElem?_append_right (Nat.le_refl _)]; simp
    have r1 : (gg.funcs.ptr ++ [f0] ++ [f1])[gg.funcs.ptr.length + 1]? = some f1 := by
      rw [List.getElem?_append_right (by simp)]; simp
    unfold kc_vt_xor kc_vt_read
    simp only [kc_vt_push, r0, r1, List.length_append, List.length_singleton]
  have hokp : kc_vt_ok (kc_vt_push (kc_vt_push (kc_vt_push gg.funcs f0) f1)
      (List.zipWith (· ^^^ ·) f0 f1)) :=
    kc_vt_ok_push _ _ (kc_vt_ok_push _ f1 (kc_vt_ok_push _ f0 hok (by rw [hw]; exact o0))
      (by show kc_tt_ok gg.funcs.words f1; rw [hw]; exact o1))
      (by show kc_tt_ok gg.funcs.words _; rw [hw]; exact o2)
  have rd0 : (gg.funcs.ptr ++ [f0] ++ [f1] ++ [List.zipWith (· ^^^ ·) f0 f1])[
      gg.funcs.ptr.length]? = some f0 := by
    rw [List.append_assoc, List.append_assoc,
      List.getElem?_append_right (Nat.le_refl _)]; simp
  have rd1 : (gg.funcs.ptr ++ [f0] ++ [f1] ++ [List.zipWith (· ^^^ ·) f0 f1])[
      gg.funcs.ptr.length + 1]? = some f1 := by
    rw [List.append_assoc, List.getElem?_append_right (by simp)]; simp
  have rd2 : (gg.funcs.ptr ++ [f0] ++ [f1] ++ [List.zipWith (· ^^^ ·) f0 f1])[
      gg.funcs.ptr.length + 2]? = some (List.zipWith (· ^^^ ·) f0 f1) := by
    rw [List.getElem?_append_right (by simp)]; simp
  have pre0 : kc_synth_pre { gg with funcs := (kc_vt_push (kc_vt_push
      (kc_vt_push gg.funcs f0) f1) (List.zipWith (· ^^^ ·) f0 f1)) } k
      gg.funcs.ptr.length f0 :=
    ⟨kc_gg_inv_funcs gg _ hinv, by show k ≤ gg.nins; omega, hw, hokp, rd0,
      fun j hj1 hj2 => (hind01 j hj1 hj2).1⟩
  obtain ⟨g0, l0, e0, i0, x0, lt0, t0⟩ := synthesis_xor_go_spec ord k _ _ f0 pre0
  have hfu0 : g0.funcs = kc_vt_push (kc_vt_push (kc_vt_push gg.funcs f0) f1)
      (List.zipWith (· ^^^ ·) f0 f1) := x0.2.2.2.2.1
  have hn0 : g0.nins = gg.nins := x0.1
  have hw0 : g0.tts.words = gg.tts.words := x0.2.2.2.2.2.1
  have pre1 : kc_synth_pre g0 k (gg.funcs.ptr.length + 1) f1 :=
    ⟨i0, by rw [hn0]; omega, by rw [hfu0, hw0]; exact hw, by rw [hfu0]; exact hokp,
      by rw [hfu0]; exact rd1,
      fun j hj1 hj2 => (hind01 j hj1 (by rw [← hn0]; exact hj2)).2⟩
  obtain ⟨g1, l1, e1, i1, x1, lt1, t1⟩ := synthesis_xor_go_spec ord k _ _ f1 pre1
  have x01 := kc_gg_ext_trans _ _ _ x0 x1
  have hfu1 : g1.funcs = kc_vt_push (kc_vt_push (kc_vt_push gg.funcs f0) f1)
      (List.zipWith (· ^^^ ·) f0 f1) := x01.2.2.2.2.1
  have hn1 : g1.nins = gg.nins := x01.1
  have hw1 : g1.tts.words = gg.tts.words := x01.2.2.2.2.2.1
  have pre2 : kc_synth_pre g1 k (gg.funcs.ptr.length + 2) (List.zipWith (· ^^^ ·) f0 f1) :=
    ⟨i1, by rw [hn1]; omega, by rw [hfu1, hw1]; exact hw, by rw [hfu1]; exact hokp,
      by rw [hfu1]; exact rd2,
      fun j hj1 hj2 => kc_indep_xor f0 f1 (by rw [o0.1, o1.1]) j
        (hind01 j hj1 (by rw [← hn1]; exact hj2)).1
        (hind01 j hj1 (by rw [← hn1]; exact hj2)).2⟩
  obtain ⟨g2, l2, e2, i2, x2, lt2, t2⟩ := synthesis_xor_go_spec ord k _ _ _ pre2
  have x02 := kc_gg_ext_trans _ _ _ x01 x2
  have hfu2 : g2.funcs = kc_vt_push (kc_vt_push (kc_vt_push gg.funcs f0) f1)
      (List.zipWith (· ^^^ ·) f0 f1) := x02.2.2.2.2.1
  have hsh : kc_vt_shrink g2.funcs 3 = some gg.funcs := by rw [hfu2, kc_vt_shrink_push3]
  have lt0' : l0 < 2 * g2.size := kc_gg_ext_lt g1 g2 x2 l0 (kc_gg_ext_lt g0 g1 x1 l0 lt0)
  have lt1' : l1 < 2 * g2.size := kc_gg_ext_lt g1 g2 x2 l1 lt1
  have t0' : kc_gg_tt g2 l0 = f0 := by
    rw [kc_gg_ext_tt_inv g1 g2 i1 x2 l0 (kc_gg_ext_lt g0 g1 x1 l0 lt0),
      kc_gg_ext_tt_inv g0 g1 i0 x1 l0 lt0, t0]
  have t1' : kc_gg_tt g2 l1 = f1 := by rw [kc_gg_ext_tt_inv g1 g2 i1 x2 l1 lt1, t1]
  have i2' := kc_gg_inv_funcs g2 gg.funcs i2
  obtain ⟨g3, c01, n1, s3⟩ := kc_gg_node_count2_spec ord _ i2' l0 l1 lt0' lt1'
  have i3 := kc_gg_same_inv _ _ s3 i2'
  have sz3 : g3.size = g2.size := s3.2.1
  obtain ⟨g4, c02, n2, s4⟩ := kc_gg_node_count2_spec ord g3 i3 l0 l2
    (by rw [sz3]; exact lt0') (by rw [sz3]; exact lt2)
  have i4 := kc_gg_same_inv _ _ s4 i3
  have sz4 : g4.size = g2.size := by rw [s4.2.1, sz3]
  obtain ⟨g5, c12, n3, s5⟩ := kc_gg_node_count2_spec ord g4 i4 l1 l2
    (by rw [sz4]; exact lt1') (by rw [sz4]; exact lt2)
  refine ⟨f0, f1, g0, l0, g1, l1, g2, l2, g3, c01, g4, c02, g5, c12, c1, c2, hx, o0, o1, b0, b1,
    pre0, e0, pre1, e1, pre2, e2, i2, lt0', lt1', lt2, t0', t1', t2, x02, hsh, n1, n2, n3,
    s3, s4, s5, ?_⟩
  rw [synthesis_xor_go, hmiss]
  simp only
  rw [hvar]
  simp only
  rw [c1]
  simp only
  rw [c2]
  simp only
  rw [hx]
  simp only
  rw [e0]
  simp only
  rw [e1]
  simp only
  rw [e2]
  simp only
  rw [hsh]
  simp only
  rw [n1]
  simp only
  rw [n2]
  simp only
  rw [n3]
  simp only
  rw [kc_lit_of_int_cast, kc_lit_of_int_cast, kc_lit_of_int_cast]
  simp only
  rw [kc_select_min_eq]
  have hc : ((l0 : Int) ≥ 2 ∧ (l1 : Int) ≥ 2) ↔ (2 ≤ l0 ∧ 2 ≤ l1) := by omega
  simp only [hc, Nat.one_mul]
  split_ifs <;> first
    | (cases kc_gg_mux ord g5 (kc_v2l (1 + k) 0) l1 l0 <;> rfl)
    | (cases kc_gg_and_xor g5 (kc_v2l (1 + k) 0) l2 l0 <;> rfl)
    | (cases kc_gg_and_xor g5 (kc_v2l (1 + k) 1) l2 l1 <;> rfl)

/-- One level of `synthesis_and_go` at a variable of the support after a miss of
the hash lookup: the two cofactors, the two calls of the level below with their
preconditions, and the multiplexer. -/
theorem synthesis_and_go_level (ord : kc_order) (k : Nat) (gg : kc_gg) (ttId : Nat)
    (f : List Nat) (pre : kc_synth_pre gg (k + 1) ttId f)
    (hmiss : kc_gg_hash_function gg ttId = some none)
    (hvar : kc_vt_has_var gg.funcs ttId k = some true) :
    ∃ (f0 f1 : List Nat) (g0 : kc_gg) (l0 : Nat) (g1 : kc_gg) (l1 : Nat),
      kc_vt_cof0 gg.funcs ttId k = some (kc_vt_push gg.funcs f0, gg.funcs.ptr.length) ∧
      kc_vt_cof1 (kc_vt_push gg.funcs f0) ttId k
        = some (kc_vt_push (kc_vt_push gg.funcs f0) f1, gg.funcs.ptr.length + 1) ∧
      kc_synth_pre { gg with funcs := kc_vt_push (kc_vt_push gg.funcs f0) f1 } k
        gg.funcs.ptr.length f0 ∧
      synthesis_and_go ord k { gg with funcs := kc_vt_push (kc_vt_push gg.funcs f0) f1 }
        gg.funcs.ptr.length = some (g0, (l0 : Int)) ∧
      kc_synth_pre g0 k (gg.funcs.ptr.length + 1) f1 ∧
      synthesis_and_go ord k g0 (gg.funcs.ptr.length + 1) = some (g1, (l1 : Int)) ∧
      kc_vt_shrink g1.funcs 2 = some gg.funcs ∧
      synthesis_and_go ord (k + 1) gg ttId
        = (kc_gg_mux ord { g1 with funcs := gg.funcs } (kc_v2l (1 + k) 0) l1 l0).map
            (fun p => (p.1, (p.2 : Int))) := by
  have pre' := pre
  obtain ⟨hinv, hk, hw, hok, hf, hind⟩ := pre
  obtain ⟨f0, f1, c1, c2, o0, o1, b0, b1, hind01⟩ := kc_synth_cofs gg k ttId f pre'
  have hok1 : kc_vt_ok (kc_vt_push (kc_vt_push gg.funcs f0) f1) :=
    kc_vt_ok_push _ f1 (kc_vt_ok_push _ f0 hok (by rw [hw]; exact o0))
      (by show kc_tt_ok gg.funcs.words f1; rw [hw]; exact o1)
  have pre0 : kc_synth_pre { gg with funcs := kc_vt_push (kc_vt_push gg.funcs f0) f1 } k
      gg.funcs.ptr.length f0 := by
    refine ⟨kc_gg_inv_funcs gg _ hinv, by show k ≤ gg.nins; omega, hw, hok1, ?_,
      fun j hj1 hj2 => (hind01 j hj1 hj2).1⟩
    show (gg.funcs.ptr ++ [f0] ++ [f1])[gg.funcs.ptr.length]? = some f0
    rw [List.append_assoc, List.getElem?_append_right (Nat.le_refl _)]; simp
  obtain ⟨g0, l0, e0, i0, x0, lt0, t0⟩ := synthesis_and_go_spec ord k _ _ f0 pre0
  have hfu0 : g0.funcs = kc_vt_push (kc_vt_push gg.funcs f0) f1 := x0.2.2.2.2.1
  have hn0 : g0.nins = gg.nins := x0.1
  have hw0 : g0.tts.words = gg.tts.words := x0.2.2.2.2.2.1
  have pre1 : kc_synth_pre g0 k (gg.funcs.ptr.length + 1) f1 := by
    refine ⟨i0, by rw [hn0]; omega, by rw [hfu0, hw0]; exact hw, by rw [hfu0]; exact hok1,
      ?_, fun j hj1 hj2 => (hind01 j hj1 (by rw [← hn0]; exact hj2)).2⟩
    rw [hfu0]
    show (gg.funcs.ptr ++ [f0] ++ [f1])[gg.funcs.ptr.length + 1]? = some f1
    rw [List.getElem?_append_right (by simp)]; simp
  obtain ⟨g1, l1, e1, i1, x1, lt1, t1⟩ := synthesis_and_go_spec ord k _ _ f1 pre1
  have hfu1 : g1.funcs = kc_vt_push (kc_vt_push gg.funcs f0) f1 := by
    rw [x1.2.2.2.2.1, hfu0]
  have hsh : kc_vt_shrink g1.funcs 2 = some gg.funcs := by rw [hfu1, kc_vt_shrink_push2]
  refine ⟨f0, f1, g0, l0, g1, l1, c1, c2, pre0, e0, pre1, e1, hsh, ?_⟩
  rw [synthesis_and_go, hmiss]
  simp only
  rw [hvar]
  simp only
  rw [c1]
  simp only
  rw [c2]
  simp only
  rw [e0]
  simp only
  rw [e1]
  simp only
  rw [hsh]
  simp only
  rw [kc_lit_of_int_cast, kc_lit_of_int_cast]
  simp only
  cases kc_gg_mux ord { g1 with funcs := gg.funcs } (kc_v2l (1 + k) 0) l1 l0 <;> rfl

/-! ## Termination of the recursion -/

/-- A target that depends on no variable is constant 0 or constant 1, and the
hash lookup returns the literal 0 or 1 for it. -/
theorem kc_synth_const_target (gg : kc_gg) (ttId : Nat) (f : List Nat)
    (pre : kc_synth_pre gg 0 ttId f) :
    (f = List.replicate gg.tts.words 0 ∧ kc_gg_hash_function gg ttId = some (some 0)) ∨
    (f = List.replicate gg.tts.words kc_ones ∧
      kc_gg_hash_function gg ttId = some (some 1)) := by
  obtain ⟨hinv, _, hw, hok, hf, hind⟩ := pre
  have hfo : kc_tt_ok gg.tts.words f := by rw [← hw]; exact hok f (List.getElem?_mem hf)
  have hsz := hinv.size_ge
  have hbits : 64 * f.length = 2 ^ (max gg.nins 6) := by
    rw [hfo.1, hinv.tts_words, kc_bits_pow]
  have hc := kc_indep_const _ f hbits (fun j hj => hind j (Nat.zero_le _) hj)
  have hW : 64 * gg.tts.words = 2 ^ (max gg.nins 6) := by rw [← hfo.1]; exact hbits
  by_cases h0 : kc_tt_bit f 0 = true
  · right
    have e : f = List.replicate gg.tts.words kc_ones := by
      apply kc_tt_ext gg.tts.words _ _ hfo (kc_tt_ok_replicate _ _ (by unfold kc_ones; norm_num))
      intro m hm
      rw [kc_tt_bit_ones _ m hm, hc m (by omega), h0]
    exact ⟨e, kc_gg_hash_function_hit gg hinv ttId f hw hf 1 (by omega)
      (by rw [kc_gg_tt_one gg hinv, e])⟩
  · left
    have e : f = List.replicate gg.tts.words 0 := by
      apply kc_tt_ext gg.tts.words _ _ hfo (kc_tt_ok_replicate _ _ (by norm_num))
      intro m hm
      rw [kc_tt_bit_zero, hc m (by omega)]
      simpa using h0
    exact ⟨e, kc_gg_hash_function_hit gg hinv ttId f hw hf 0 (by omega)
      (by rw [hinv.const0, e])⟩

theorem kc_toNat_succ (j : Nat) : ((j : Int) + 1).toNat = j + 1 := by omega

theorem kc_toNat_neg_one : ((-1 : Int) + 1).toNat = 0 := rfl

/-- Claim C28: the recursion terminates through the hash base case.  Here `K`
is `varId + 1`, so `varId = K - 1` runs from `-1` to `n - 1`; the hypothesis says
that the graph is well formed, that `K ≤ n`, and that the target `funcs[ttId]`
depends on no variable of index `K` or more.  Then the hash lookup and both
synthesizers return.  For `K = 0` the target is constant and both return the
literal 0 or 1 that the hash lookup found; the call consists of the lookup
alone.  For `varId = j ≥ 0`: after a hit the literal is returned; after a miss
`kc_vt_has_var` is called with index `j` and returns; if the variable is not in
the support the call is the call with `j - 1`, whose hypothesis holds; if it is,
`kc_vt_cof0` and `kc_vt_cof1` are called with index `j`, the recursive calls are
made with `j - 1` on targets for which the hypothesis holds again, and the rest
of the body calls the constructors and the node counter only. -/
theorem synthesis_rec_terminates (ord : kc_order) (gg : kc_gg) (ttId K : Nat) (f : List Nat)
    (pre : kc_synth_pre gg K ttId f) :
    ((∃ o, kc_gg_hash_function gg ttId = some o) ∧
      (∃ (g : kc_gg) (r : Nat),
        synthesis_and_rec ord gg ttId ((K : Int) - 1) = some (g, (r : Int))) ∧
      (∃ (g : kc_gg) (r : Nat),
        synthesis_xor_rec ord gg ttId ((K : Int) - 1) = some (g, (r : Int)))) ∧
    (synthesis_and_rec ord gg ttId (-1)
        = (kc_gg_hash_function gg ttId).bind (fun o => o.map (fun l => (gg, (l : Int)))) ∧
      synthesis_xor_rec ord gg ttId (-1)
        = (kc_gg_hash_function gg ttId).bind (fun o => o.map (fun l => (gg, (l : Int))))) ∧
    (K = 0 → ∃ l : Nat, (l = 0 ∨ l = 1) ∧
      (f = List.replicate gg.tts.words 0 ∨ f = List.replicate gg.tts.words kc_ones) ∧
      kc_gg_hash_function gg ttId = some (some l) ∧
      synthesis_and_rec ord gg ttId (-1) = some (gg, (l : Int)) ∧
      synthesis_xor_rec ord gg ttId (-1) = some (gg, (l : Int))) ∧
    (∀ j : Nat, K = j + 1 →
      (∀ l, kc_gg_hash_function gg ttId = some (some l) →
        synthesis_and_rec ord gg ttId (j : Int) = some (gg, (l : Int)) ∧
        synthesis_xor_rec ord gg ttId (j : Int) = some (gg, (l : Int))) ∧
      (kc_gg_hash_function gg ttId = some none →
        (∃ b, kc_vt_has_var gg.funcs ttId j = some b) ∧
        (kc_vt_has_var gg.funcs ttId j = some false →
          kc_synth_pre gg j ttId f ∧
          synthesis_and_rec ord gg ttId (j : Int)
            = synthesis_and_rec ord gg ttId ((j : Int) - 1) ∧
          synthesis_xor_rec ord gg ttId (j : Int)
            = synthesis_xor_rec ord gg ttId ((j : Int) - 1)) ∧
        (kc_vt_has_var gg.funcs ttId j = some true →
          (∃ (fs0 : kc_vt) (i0 : Nat) (fs1 : kc_vt) (i1 : Nat) (f0 f1 : List Nat)
              (g0 : kc_gg) (l0 : Nat) (g1 : kc_gg) (l1 : Nat) (fs : kc_vt),
            kc_vt_cof0 gg.funcs ttId j = some (fs0, i0) ∧
            kc_vt_cof1 fs0 ttId j = some (fs1, i1) ∧
            kc_synth_pre { gg with funcs := fs1 } j i0 f0 ∧
            synthesis_and_rec ord { gg with funcs := fs1 } i0 ((j : Int) - 1)
              = some (g0, (l0 : Int)) ∧
            kc_synth_pre g0 j i1 f1 ∧
            synthesis_and_rec ord g0 i1 ((j : Int) - 1) = some (g1, (l1 : Int)) ∧
            kc_vt_shrink g1.funcs 2 = some fs ∧
            synthesis_and_rec ord gg ttId (j : Int)
              = (kc_gg_mux ord { g1 with funcs := fs } (kc_v2l (1 + j) 0) l1 l0).map
                  (fun p => (p.1, (p.2 : Int)))) ∧
          (∃ (fs0 : kc_vt) (i0 : Nat) (fs1 : kc_vt) (i1 : Nat) (fs2 : kc_vt) (i2 : Nat)
              (f0 f1 f2 : List Nat) (g0 : kc_gg) (l0 : Nat) (g1 : kc_gg) (l1 : Nat)
              (g2 : kc_gg) (l2 : Nat) (fs : kc_vt) (g3 : kc_gg) (c01 : Nat) (g4 : kc_gg)
              (c02 : Nat) (g5 : kc_gg) (c12 : Nat) (c : Nat),
            kc_vt_cof0 gg.funcs ttId j = some (fs0, i0) ∧
            kc_vt_cof1 fs0 ttId j = some (fs1, i1) ∧
            kc_vt_xor fs1 i0 i1 = some (fs2, i2) ∧
            kc_synth_pre { gg with funcs := fs2 } j i0 f0 ∧
            synthesis_xor_rec ord { gg with funcs := fs2 } i0 ((j : Int) - 1)
              = some (g0, (l0 : Int)) ∧
            kc_synth_pre g0 j i1 f1 ∧
            synthesis_xor_rec ord g0 i1 ((j : Int) - 1) = some (g1, (l1 : Int)) ∧
            kc_synth_pre g1 j i2 f2 ∧
            synthesis_xor_rec ord g1 i2 ((j : Int) - 1) = some (g2, (l2 : Int)) ∧
            kc_vt_shrink g2.funcs 3 = some fs ∧
            kc_gg_node_count2 ord { g2 with funcs := fs } (l0 : Int) (l1 : Int)
              = some (g3, c01) ∧
            kc_gg_node_count2 ord g3 (l0 : Int) (l2 : Int) = some (g4, c02) ∧
            kc_gg_node_count2 ord g4 (l1 : Int) (l2 : Int) = some (g5, c12) ∧
            c = (if 2 ≤ l0 ∧ 2 ≤ l1 then 1 else 0) ∧
            synthesis_xor_rec ord gg ttId (j : Int)
              = (if c01 + 1 + 2 * c ≤ c02 + 1 + c ∧ c01 + 1 + 2 * c ≤ c12 + 1 + c then
                  (kc_gg_mux ord g5 (kc_v2l (1 + j) 0) l1 l0).map
                    (fun p => (p.1, (p.2 : Int)))
                 else if c02 + 1 + c ≤ c01 + 1 + 2 * c ∧ c02 + 1 + c ≤ c12 + 1 + c then
                  (kc_gg_and_xor g5 (kc_v2l (1 + j) 0) l2 l0).map
                    (fun p => (p.1, (p.2 : Int)))
                 else
                  (kc_gg_and_xor g5 (kc_v2l (1 + j) 1) l2 l1).map
                    (fun p => (p.1, (p.2 : Int)))))))) := by
  have pre' := pre
  obtain ⟨hinv, hk, hw, hok, hf, hind⟩ := pre
  have hfo : kc_tt_ok gg.tts.words f := by rw [← hw]; exact hok f (List.getElem?_mem hf)
  have hbase : ∀ g : kc_gg, ∀ t : Nat,
      synthesis_and_go ord 0 g t
        = (kc_gg_hash_function g t).bind (fun o => o.map (fun l => (g, (l : Int)))) ∧
      synthesis_xor_go ord 0 g t
        = (kc_gg_hash_function g t).bind (fun o => o.map (fun l => (g, (l : Int)))) := by
    intro g t
    rw [synthesis_and_go, synthesis_xor_go]
    cases kc_gg_hash_function g t with
    | none => exact ⟨rfl, rfl⟩
    | some o => cases o <;> exact ⟨rfl, rfl⟩
  refine ⟨⟨⟨_, kc_gg_hash_function_eq gg hinv ttId f hw hf⟩, ?_, ?_⟩, ?_, ?_, ?_⟩
  · obtain ⟨g, r, e, _⟩ := synthesis_and_go_spec ord K gg ttId f pre'
    exact ⟨g, r, by unfold synthesis_and_rec; rw [kc_toNat_var]; exact e⟩
  · obtain ⟨g, r, e, _⟩ := synthesis_xor_go_spec ord K gg ttId f pre'
    exact ⟨g, r, by unfold synthesis_xor_rec; rw [kc_toNat_var]; exact e⟩
  · unfold synthesis_and_rec synthesis_xor_rec
    rw [kc_toNat_neg_one]
    exact hbase gg ttId
  · intro hK
    subst hK
    have hb := hbase gg ttId
    unfold synthesis_and_rec synthesis_xor_rec
    rw [kc_toNat_neg_one, hb.1, hb.2]
    rcases kc_synth_const_target gg ttId f pre' with ⟨h1, h2⟩ | ⟨h1, h2⟩
    · exact ⟨0, Or.inl rfl, Or.inl h1, h2, by rw [h2]; rfl, by rw [h2]; rfl⟩
    · exact ⟨1, Or.inr rfl, Or.inr h1, h2, by rw [h2]; rfl, by rw [h2]; rfl⟩
  · intro j hK
    subst hK
    have hrec : ∀ (g : kc_gg) (t : Nat),
        synthesis_and_rec ord g t ((j : Int) - 1) = synthesis_and_go ord j g t ∧
        synthesis_xor_rec ord g t ((j : Int) - 1) = synthesis_xor_go ord j g t ∧
        synthesis_and_rec ord g t (j : Int) = synthesis_and_go ord (j + 1) g t ∧
        synthesis_xor_rec ord g t (j : Int) = synthesis_xor_go ord (j + 1) g t := by
      intro g t
      unfold synthesis_and_rec synthesis_xor_rec
      rw [kc_toNat_var, kc_toNat_succ]
      exact ⟨rfl, rfl, rfl, rfl⟩
    constructor
    · intro l hl
      rw [(hrec gg ttId).2.2.1, (hrec gg ttId).2.2.2, synthesis_and_go, synthesis_xor_go, hl]
      exact ⟨rfl, rfl⟩
    · intro hmiss
      obtain ⟨b, hb1, _⟩ := kc_vt_has_var_spec gg.nins gg.funcs ttId j f
        (by rw [hw, hinv.tts_words]) (by rw [hw]; exact hfo) hf (by omega)
      refine ⟨⟨b, hb1⟩, ?_, ?_⟩
      · intro hvar
        refine ⟨kc_synth_pre_skip gg j ttId f pre' hvar, ?_, ?_⟩
        · rw [(hrec gg ttId).2.2.1, (hrec gg ttId).1]
          conv_lhs => rw [synthesis_and_go, hmiss]
          simp only
          rw [hvar]
        · rw [(hrec gg ttId).2.2.2, (hrec gg ttId).2.1]
          conv_lhs => rw [synthesis_xor_go, hmiss]
          simp only
          rw [hvar]
      · intro hvar
        constructor
        · obtain ⟨f0, f1, g0, l0, g1, l1, c1, c2, p0, e0, p1, e1, hsh, hfin⟩ :=
            synthesis_and_go_level ord j gg ttId f pre' hmiss hvar
          refine ⟨_, _, _, _, f0, f1, g0, l0, g1, l1, _, c1, c2, p0, ?_, p1, ?_, hsh, ?_⟩
          · rw [(hrec _ _).1]; exact e0
          · rw [(hrec _ _).1]; exact e1
          · rw [(hrec _ _).2.2.1]; exact hfin
        · obtain ⟨f0, f1, g0, l0, g1, l1, g2, l2, g3, c01, g4, c02, g5, c12, c1, c2, hx, _, _, _,
            _, p0, e0, p1, e1, p2, e2, _, _, _, _, _, _, _, _, hsh, n1, n2, n3, _, _, _, hfin⟩ :=
            synthesis_xor_go_level ord j gg ttId f pre' hmiss hvar
          refine ⟨_, _, _, _, _, _, f0, f1, _, g0, l0, g1, l1, g2, l2, _, g3, c01, g4, c02, g5,
            c12, _, c1, c2, hx, p0, ?_, p1, ?_, p2, ?_, hsh, n1, n2, n3, rfl, ?_⟩
          · rw [(hrec _ _).2.1]; exact e0
          · rw [(hrec _ _).2.1]; exact e1
          · rw [(hrec _ _).2.1]; exact e2
          · rw [(hrec _ _).2.2.2]; exact hfin

/-- Instance of `synthesis_rec_terminates`: the parity of two inputs on the
initial graph, with `varId = 1`. -/
theorem synthesis_rec_terminates_witness :
    kc_synth_pre kc_demo_target 2 0 [0x6666666666666666] ∧
    (((∃ o, kc_gg_hash_function kc_demo_target 0 = some o) ∧
      (∃ (g : kc_gg) (r : Nat),
        synthesis_and_rec ⟨false, false⟩ kc_demo_target 0 (((2 : Nat) : Int) - 1) = some (g, (r : Int))) ∧
      (∃ (g : kc_gg) (r : Nat),
        synthesis_xor_rec ⟨false, false⟩ kc_demo_target 0 (((2 : Nat) : Int) - 1) = some (g, (r : Int)))) ∧
    (synthesis_and_rec ⟨false, false⟩ kc_demo_target 0 (-1)
        = (kc_gg_hash_function kc_demo_target 0).bind (fun o => o.map (fun l => (kc_demo_target, (l : Int)))) ∧
      synthesis_xor_rec ⟨false, false⟩ kc_demo_target 0 (-1)
        = (kc_gg_hash_function kc_demo_target 0).bind (fun o => o.map (fun l => (kc_demo_target, (l : Int))))) ∧
    (2 = 0 → ∃ l : Nat, (l = 0 ∨ l = 1) ∧
      ([0x6666666666666666] = List.replicate kc_demo_target.tts.words 0 ∨ [0x6666666666666666] = List.replicate kc_demo_target.tts.words kc_ones) ∧
      kc_gg_hash_function kc_demo_target 0 = some (some l) ∧
      synthesis_and_rec ⟨false, false⟩ kc_demo_target 0 (-1) = some (kc_demo_target, (l : Int)) ∧
      synthesis_xor_rec ⟨false, false⟩ kc_demo_target 0 (-1) = some (kc_demo_target, (l : Int))) ∧
    (∀ j : Nat, 2 = j + 1 →
      (∀ l, kc_gg_hash_function kc_demo_target 0 = some (some l) →
        synthesis_and_rec ⟨false, false⟩ kc_demo_target 0 (j : Int) = some (kc_demo_target, (l : Int)) ∧
        synthesis_xor_rec ⟨false, false⟩ kc_demo_target 0 (j : Int) = some (kc_demo_target, (l : Int))) ∧
      (kc_gg_hash_function kc_demo_target 0 = some none →
        (∃ b, kc_vt_has_var kc_demo_target.funcs 0 j = some b) ∧
        (kc_vt_has_var kc_demo_target.funcs 0 j = some false →
          kc_synth_pre kc_demo_target j 0 [0x6666666666666666] ∧
          synthesis_and_rec ⟨false, false⟩ kc_demo_target 0 (j : Int)
            = synthesis_and_rec ⟨false, false⟩ kc_demo_target 0 ((j : Int) - 1) ∧
          synthesis_xor_rec ⟨false, false⟩ kc_demo_target 0 (j : Int)
            = synthesis_xor_rec ⟨false, false⟩ kc_demo_target 0 ((j : Int) - 1)) ∧
        (kc_vt_has_var kc_demo_target.funcs 0 j = some true →
          (∃ (fs0 : kc_vt) (i0 : Nat) (fs1 : kc_vt) (i1 : Nat) (f0 f1 : List Nat)
              (g0 : kc_gg) (l0 : Nat) (g1 : kc_gg) (l1 : Nat) (fs : kc_vt),
            kc_vt_cof0 kc_demo_target.funcs 0 j = some (fs0, i0) ∧
            kc_vt_cof1 fs0 0 j = some (fs1, i1) ∧
            kc_synth_pre { kc_demo_target with funcs := fs1 } j i0 f0 ∧
            synthesis_and_rec ⟨false, false⟩ { kc_demo_target with funcs := fs1 } i0 ((j : Int) - 1)
              = some (g0, (l0 : Int)) ∧
            kc_synth_pre g0 j i1 f1 ∧
            synthesis_and_rec ⟨false, false⟩ g0 i1 ((j : Int) - 1) = some (g1, (l1 : Int)) ∧
            kc_vt_shrink g1.funcs 2 = some fs ∧
            synthesis_and_rec ⟨false, false⟩ kc_demo_target 0 (j : Int)
              = (kc_gg_mux ⟨false, false⟩ { g1 with funcs := fs } (kc_v2l (1 + j) 0) l1 l0).map
                  (fun p => (p.1, (p.2 : Int)))) ∧
          (∃ (fs0 : kc_vt) (i0 : Nat) (fs1 : kc_vt) (i1 : Nat) (fs2 : kc_vt) (i2 : Nat)
              (f0 f1 f2 : List Nat) (g0 : kc_gg) (l0 : Nat) (g1 : kc_gg) (l1 : Nat)
              (g2 : kc_gg) (l2 : Nat) (fs : kc_vt) (g3 : kc_gg) (c01 : Nat) (g4 : kc_gg)
              (c02 : Nat) (g5 : kc_gg) (c12 : Nat) (c : Nat),
            kc_vt_cof0 kc_demo_target.funcs 0 j = some (fs0, i0) ∧
            kc_vt_cof1 fs0 0 j = some (fs1, i1) ∧
            kc_vt_xor fs1 i0 i1 = some (fs2, i2) ∧
            kc_synth_pre { kc_demo_target with funcs := fs2 } j i0 f0 ∧
            synthesis_xor_rec ⟨false, false⟩ { kc_demo_target with funcs := fs2 } i0 ((j : Int) - 1)
              = some (g0, (l0 : Int)) ∧
            kc_synth_pre g0 j i1 f1 ∧
            synthesis_xor_rec ⟨false, false⟩ g0 i1 ((j : Int) - 1) = some (g1, (l1 : Int)) ∧
            kc_synth_pre g1 j i2 f2 ∧
            synthesis_xor_rec ⟨false, false⟩ g1 i2 ((j : Int) - 1) = some (g2, (l2 : Int)) ∧
            kc_vt_shrink g2.funcs 3 = some fs ∧
            kc_gg_node_count2 ⟨false, false⟩ { g2 with funcs := fs } (l0 : Int) (l1 : Int)
              = some (g3, c01) ∧
            kc_gg_node_count2 ⟨false, false⟩ g3 (l0 : Int) (l2 : Int) = some (g4, c02) ∧
            kc_gg_node_count2 ⟨false, false⟩ g4 (l1 : Int) (l2 : Int) = some (g5, c12) ∧
            c = (if 2 ≤ l0 ∧ 2 ≤ l1 then 1 else 0) ∧
            synthesis_xor_rec ⟨false, false⟩ kc_demo_target 0 (j : Int)
              = (if c01 + 1 + 2 * c ≤ c02 + 1 + c ∧ c01 + 1 + 2 * c ≤ c12 + 1 + c then
                  (kc_gg_mux ⟨false, false⟩ g5 (kc_v2l (1 + j) 0) l1 l0).map
                    (fun p => (p.1, (p.2 : Int)))
                 else if c02 + 1 + c ≤ c01 + 1 + 2 * c ∧ c02 + 1 + c ≤ c12 + 1 + c then
                  (kc_gg_and_xor g5 (kc_v2l (1 + j) 0) l2 l0).map
                    (fun p => (p.1, (p.2 : Int)))
                 else
                  (kc_gg_and_xor g5 (kc_v2l (1 + j) 1) l2 l1).map
                    (fun p => (p.1, (p.2 : Int))))))))) :=
  ⟨⟨kc_gg_inv_funcs _ _ (kc_gg_start_inv 2 ⟨1, []⟩), by decide, by decide, by decide, by decide,
      by decide⟩,
   synthesis_rec_terminates ⟨false, false⟩ kc_demo_target 0 2 [0x6666666666666666]
     ⟨kc_gg_inv_funcs _ _ (kc_gg_start_inv 2 ⟨1, []⟩), by decide, by decide, by decide,
       by decide, by decide⟩⟩

/-! ## The parity function -/

theorem kc_parity_tt_succ (n m : Nat) :
    kc_parity_tt n (m + 1) = List.zipWith (· ^^^ ·) (kc_parity_tt n m)
      (kc_vt_start_truth_tt (kc_truth_word_num n) (2 * m)) := by
  unfold kc_parity_tt
  rw [List.range_succ, List.foldl_append]
  rfl

theorem kc_parity_tt_ok (n m : Nat) : kc_tt_ok (kc_truth_word_num n) (kc_parity_tt n m) := by
  induction m with
  | zero => exact kc_tt_ok_replicate _ _ (by norm_num)
  | succ m ih =>
    rw [kc_parity_tt_succ]
    exact kc_tt_ok_xor _ _ _ ih (kc_start_tt_ok _ _)

theorem kc_parity_tt_bit (n m x : Nat) (hx : x < 64 * kc_truth_word_num n) :
    kc_tt_bit (kc_parity_tt n m) x = kc_parity_bit m x := by
  induction m with
  | zero => exact kc_tt_bit_zero _ _
  | succ m ih =>
    rw [kc_parity_tt_succ, kc_tt_bit_xor _ _ (by rw [(kc_parity_tt_ok n m).1, (kc_start_tt_ok _ _).1]),
      ih, kc_start_tt_bit _ _ x hx, show 2 * m / 2 = m by omega, show 2 * m % 2 = 0 by omega]
    simp [kc_parity_bit]

theorem kc_parity_bit_zero (m : Nat) : kc_parity_bit m 0 = false := by
  induction m with
  | zero => rfl
  | succ m ih => simp [kc_parity_bit, ih]

theorem kc_parity_bit_one (m : Nat) : kc_parity_bit (m + 1) 1 = true := by
  induction m with
  | zero => simp [kc_parity_bit]
  | succ m ih =>
    rw [kc_parity_bit, ih]
    have : Nat.testBit 1 (m + 1) = false := by
      rw [show (1 : Nat) = 2 ^ 0 by rfl, Nat.testBit_two_pow]; simp
    rw [this]; rfl

theorem kc_parity_bit_pow_low (m k : Nat) (h : m ≤ k) : kc_parity_bit m (2 ^ k) = false := by
  induction m with
  | zero => rfl
  | succ m ih =>
    rw [kc_parity_bit, ih (by omega), Nat.testBit_two_pow]
    have : ¬ k = m := by omega
    simp [this]

theorem kc_parity_bit_pow (k : Nat) : kc_parity_bit (k + 1) (2 ^ k) = true := by
  rw [kc_parity_bit, kc_parity_bit_pow_low k k (Nat.le_refl k), Nat.testBit_two_pow]
  simp

/-- The parity of the first `m` variables does not look at a variable from `m` on. -/
theorem kc_parity_bit_clear (m x j : Nat) (h : m ≤ j) :
    kc_parity_bit m (kc_clear_bit x j) = kc_parity_bit m x := by
  induction m with
  | zero => rfl
  | succ m ih =>
    rw [kc_parity_bit, kc_parity_bit, ih (by omega), kc_clear_bit_bits]
    have : ¬ m = j := by omega
    simp [this]

theorem kc_parity_bit_set (m x j : Nat) (h : m ≤ j) :
    kc_parity_bit m (kc_set_bit x j) = kc_parity_bit m x := by
  induction m with
  | zero => rfl
  | succ m ih =>
    rw [kc_parity_bit, kc_parity_bit, ih (by omega), kc_set_bit_bits]
    have : ¬ m = j := by omega
    simp [this]

theorem kc_parity_bit_cof0 (k x : Nat) :
    kc_parity_bit (k + 1) (kc_clear_bit x k) = kc_parity_bit k x := by
  rw [kc_parity_bit, kc_parity_bit_clear k x k (Nat.le_refl k), kc_clear_bit_testBit]
  simp

theorem kc_parity_bit_cof1 (k x : Nat) :
    kc_parity_bit (k + 1) (kc_set_bit x k) = !kc_parity_bit k x := by
  rw [kc_parity_bit, kc_parity_bit_set k x k (Nat.le_refl k), kc_set_bit_bits]
  simp

/-- The parity table of the first `m` variables depends on no variable from `m` on. -/
theorem kc_parity_tt_indep (n m j : Nat) (h : m ≤ j) : kc_tt_indep (kc_parity_tt n m) j := by
  intro x hx
  rw [(kc_parity_tt_ok n m).1] at hx
  rw [kc_parity_tt_bit n m x hx,
    kc_parity_tt_bit n m _ (Nat.lt_of_le_of_lt (kc_clear_bit_le x j) hx),
    kc_parity_bit_clear m x j h]

/-- The parity table of one variable is the table of the first input. -/
theorem kc_parity_tt_one (n : Nat) :
    kc_parity_tt n 1 = kc_vt_start_truth_tt (kc_truth_word_num n) 0 := by
  rw [kc_parity_tt_succ]
  exact kc_tt_xor_zero _ _ (kc_start_tt_ok _ _).1

/-- The parity of four variables is the table `6996`. -/
theorem kc_parity_tt_four : kc_parity_tt 4 4 = [0x6996699669966996] := by decide

/-! ## The chain of XOR nodes -/

/-- A call of `kc_gg_xor` on two literals of different objects, neither of them
constant, whose XOR is the table of no literal of the graph: a node with the
larger literal as first fanin is appended. -/
theorem kc_gg_xor_new (gg : kc_gg) (hinv : kc_gg_inv gg) (a b : Nat) (ha : a < 2 * gg.size)
    (hb : b < 2 * gg.size) (hlt : b < a) (hb2 : 2 ≤ b) (hab : a ^^^ b ≠ 1)
    (hnew : ∀ l, l < 2 * gg.size →
      kc_gg_tt gg l ≠ List.zipWith (· ^^^ ·) (kc_gg_tt gg a) (kc_gg_tt gg b)) :
    kc_gg_xor gg a b = some ({ gg with
        size := gg.size + 1
        fans := gg.fans ++ [(a : Int), (b : Int)]
        tids := gg.tids ++ [0]
        tts := kc_vt_push (kc_vt_push gg.tts
          (List.zipWith (· ^^^ ·) (kc_gg_tt gg a) (kc_gg_tt gg b)))
          ((List.zipWith (· ^^^ ·) (kc_gg_tt gg a) (kc_gg_tt gg b)).map kc_not) },
        2 * gg.size) ∧
    kc_gg_xor gg b a = kc_gg_xor gg a b ∧
    kc_gg_inv { gg with
        size := gg.size + 1
        fans := gg.fans ++ [(a : Int), (b : Int)]
        tids := gg.tids ++ [0]
        tts := kc_vt_push (kc_vt_push gg.tts
          (List.zipWith (· ^^^ ·) (kc_gg_tt gg a) (kc_gg_tt gg b)))
          ((List.zipWith (· ^^^ ·) (kc_gg_tt gg a) (kc_gg_tt gg b)).map kc_not) } := by
  have hoka := kc_gg_tt_ok gg hinv a ha
  have hokb := kc_gg_tt_ok gg hinv b hb
  have hba : b ^^^ a ≠ 1 := by rw [Nat.xor_comm]; exact hab
  obtain ⟨g, r, e1, e2, _, _, e5, e6⟩ := kc_gg_hash_or_append_spec gg hinv a b _ ha hb
    (by omega) (kc_tt_ok_xor _ _ _ hoka hokb) (fun h => by omega) (fun _ => rfl)
  have key : kc_gg_xor gg a b = some (g, r) := by
    unfold kc_gg_xor
    rw [if_neg (by omega), if_neg (by omega), if_neg (by omega), if_neg (by omega),
      if_neg (by omega), if_neg hab]
    simp only [if_neg (show ¬ a < b by omega)]
    rw [if_pos hlt, kc_vt_xor_eq gg hinv a b ha hb]
    exact e1
  have key2 : kc_gg_xor gg b a = some (g, r) := by
    unfold kc_gg_xor
    rw [if_neg (by omega), if_neg (by omega), if_neg (by omega), if_neg (by omega),
      if_neg (by omega), if_neg hba]
    simp only [if_pos hlt]
    rw [kc_vt_xor_eq gg hinv a b ha hb]
    exact e1
  rcases e6 with ⟨h1, h2⟩ | ⟨h1, h2, _⟩
  · exfalso
    rw [h1] at e5
    exact hnew r h2 e5
  · rw [h1] at e2 key key2
    rw [h2] at key key2
    exact ⟨key, by rw [key, key2], e2⟩

/-- The AND of a literal with constant 1 is the literal. -/
theorem kc_gg_and_one (gg : kc_gg) (a : Nat) (ha : 2 ≤ a) : kc_gg_and gg a 1 = some (gg, a) := by
  unfold kc_gg_and
  rw [if_neg (by omega), if_neg (by omega), if_neg (by omega), if_pos rfl]

/-- The internal nodes of a fanin cone lie in every cone, over the same fanins,
that holds the internal nodes among the roots. -/
theorem kc_gg_cone_sub (g g1 : kc_gg) (hn : g1.nins = g.nins) (hf : g1.fans = g.fans)
    (hT : ∀ l : Nat, (l : Int) ∈ g.tops → l / 2 ≤ g.nins ∨ kc_gg_cone g1 (l / 2)) :
    ∀ v, kc_gg_cone g v → g.nins < v → kc_gg_cone g1 v := by
  intro v hv
  induction hv with
  | top l hl =>
    intro h
    rcases hT l hl with h1 | h1
    · omega
    · exact h1
  | fanin w a c _ hw1 hc hfa ih =>
    intro _
    exact kc_gg_cone.fanin w a c (ih hw1) (by rw [hn]; exact hw1) hc (by rw [hf]; exact hfa)

/-- The parity of two or more variables is the table of no literal of the
constant or of an input. -/
theorem kc_parity_not_base (n k : Nat) (outs : kc_vt) (hk : k + 1 < n) (l : Nat)
    (hl : l < 2 * (1 + n)) :
    kc_gg_tt (kc_gg_start n outs) l ≠ kc_parity_tt n (k + 2) := by
  intro h
  have hpos : 1 < 64 * kc_truth_word_num n := by
    have := kc_truth_word_num_pos n; omega
  have hb : ∀ m, m < 64 * kc_truth_word_num n →
      ((decide (2 ≤ l) && m.testBit (l / 2 - 1)) ^^ decide (l % 2 = 1))
        = kc_parity_bit (k + 2) m := by
    intro m hm
    rw [← kc_start_bit n outs l m hl hm, h, kc_parity_tt_bit n _ m hm]
  by_cases hodd : l % 2 = 1
  · have := hb 0 (by omega)
    rw [kc_parity_bit_zero] at this
    simp [hodd] at this
  · by_cases h0 : l / 2 - 1 = 0
    · by_cases h2 : 2 ≤ l
      · have := hb (2 ^ (k + 1)) (kc_pow_lt_bits n _ (by omega))
        rw [kc_parity_bit_pow, h0, Nat.testBit_two_pow] at this
        simp [hodd] at this
      · have := hb 1 hpos
        rw [kc_parity_bit_one] at this
        simp [hodd, h2] at this
    · have := hb 1 hpos
      rw [kc_parity_bit_one] at this
      have e : Nat.testBit 1 (l / 2 - 1) = false := by
        rw [show (1 : Nat) = 2 ^ 0 by rfl, Nat.testBit_two_pow]
        simp; omega
      rw [e] at this
      simp [hodd] at this

/-- The parity of the first `k + 2` variables depends on variable `k + 1`. -/
theorem kc_parity_dep (n k : Nat) (hk : k + 1 < n) :
    ¬ kc_tt_indep (kc_parity_tt n (k + 2)) (k + 1) := by
  intro h
  have hm : 2 ^ (k + 1) < 64 * kc_truth_word_num n := kc_pow_lt_bits n _ hk
  have := h (2 ^ (k + 1)) (by rw [(kc_parity_tt_ok n _).1]; exact hm)
  have e : kc_clear_bit (2 ^ (k + 1)) (k + 1) = 0 := by
    unfold kc_clear_bit
    rw [if_pos (by rw [Nat.testBit_two_pow]; simp)]
    exact Nat.sub_self _
  rw [e, kc_parity_tt_bit n _ _ hm, kc_parity_tt_bit n _ 0 (by have := kc_truth_word_num_pos n; omega), kc_parity_bit_pow,
    kc_parity_bit_zero] at this
  exact Bool.noConfusion this

theorem kc_parity_lit_ge (n i : Nat) : 2 ≤ kc_parity_lit n i ∧ kc_parity_lit n i % 2 = 0 := by
  unfold kc_parity_lit
  split <;> omega

/-- In a chain of `j` nodes the literal `kc_parity_lit n i` carries the parity of
the variables `0 .. i`, for every `i ≤ j`. -/
theorem kc_parity_chain_tt (n j : Nat) (g : kc_gg) (hn : 1 ≤ n) (h : kc_parity_chain n j g)
    (i : Nat) (hi : i ≤ j) :
    kc_parity_lit n i < 2 * g.size ∧ kc_gg_tt g (kc_parity_lit n i) = kc_parity_tt n (i + 1) := by
  obtain ⟨hinv, hni, hs, ht, _, _⟩ := h
  unfold kc_parity_lit
  by_cases h0 : i = 0
  · rw [if_pos h0, h0]
    refine ⟨by omega, ?_⟩
    rw [kc_gg_base_tt g (kc_gg_start n g.outs) hinv (kc_gg_start_inv n _) hni 2
      (by rw [hni]; omega), kc_start_tt, if_neg (by omega), if_neg (by omega),
      if_pos (by omega), kc_parity_tt_one]
  · rw [if_neg h0]
    exact ⟨by omega, ht i (by omega) hi⟩

/-- A change of the traversal marks keeps the chain. -/
theorem kc_parity_chain_same (n j : Nat) (g g1 : kc_gg) (hs : kc_gg_same g g1)
    (h : kc_parity_chain n j g) : kc_parity_chain n j g1 := by
  obtain ⟨hinv, hni, hz, ht, hf1, hf2⟩ := h
  refine ⟨kc_gg_same_inv _ _ hs hinv, by rw [hs.1]; exact hni, by rw [hs.2.1]; exact hz, ?_, ?_,
    ?_⟩
  · intro i h1 h2
    rw [kc_gg_same_tt _ _ hs]; exact ht i h1 h2
  · intro h1
    rw [hs.2.2.1]; exact hf1 h1
  · intro i h1 h2
    rw [hs.2.2.1]; exact hf2 i h1 h2

/-- The internal nodes of the cone of two literals lie in the cone, over the same
fanins, of two literals whose objects include the internal ones among theirs. -/
theorem kc_gg_cone_pair_sub (g g1 : kc_gg) (hn : g1.nins = g.nins) (hf : g1.fans = g.fans)
    (a b a1 b1 : Nat) (ha : a / 2 ≤ g.nins ∨ a / 2 = a1 / 2 ∨ a / 2 = b1 / 2)
    (hb : b / 2 ≤ g.nins ∨ b / 2 = a1 / 2 ∨ b / 2 = b1 / 2) :
    ∀ v, kc_gg_cone { g with tops := [(a : Int), (b : Int)] } v → g.nins < v →
      kc_gg_cone { g1 with tops := [(a1 : Int), (b1 : Int)] } v := by
  have ta : kc_gg_cone { g1 with tops := [(a1 : Int), (b1 : Int)] } (a1 / 2) :=
    kc_gg_cone.top a1 (by simp)
  have tb : kc_gg_cone { g1 with tops := [(a1 : Int), (b1 : Int)] } (b1 / 2) :=
    kc_gg_cone.top b1 (by simp)
  apply kc_gg_cone_sub { g with tops := [(a : Int), (b : Int)] }
    { g1 with tops := [(a1 : Int), (b1 : Int)] } hn hf
  intro l hl
  have hl2 : (l : Int) = (a : Int) ∨ (l : Int) = (b : Int) := by simpa using hl
  rcases hl2 with h | h
  · rw [Int.ofNat_inj.1 h]
    rcases ha with h1 | h1 | h1
    · exact Or.inl h1
    · rw [h1]; exact Or.inr ta
    · rw [h1]; exact Or.inr tb
  · rw [Int.ofNat_inj.1 h]
    rcases hb with h1 | h1 | h1
    · exact Or.inl h1
    · rw [h1]; exact Or.inr ta
    · rw [h1]; exact Or.inr tb

/-- The three counts of `synthesis_xor_rec` when the literals for the two
cofactors are the two literals of one object and the literal for their XOR is a
constant: all three are the number of nodes in the cone of that object. -/
theorem kc_gg_counts_equal (ord : kc_order) (g : kc_gg) (hinv : kc_gg_inv g)
    (hq : kc_gg_tids_ok g) (l0 l1 l2 : Nat) (h0 : l0 < 2 * g.size) (h1 : l1 < 2 * g.size)
    (h2 : l2 < 2 * g.size) (e1 : l1 / 2 = l0 / 2) (e2 : l2 / 2 ≤ g.nins)
    (g3 : kc_gg) (c01 : Nat) (g4 : kc_gg) (c02 : Nat) (g5 : kc_gg) (c12 : Nat)
    (n1 : kc_gg_node_count2 ord g (l0 : Int) (l1 : Int) = some (g3, c01))
    (n2 : kc_gg_node_count2 ord g3 (l0 : Int) (l2 : Int) = some (g4, c02))
    (n3 : kc_gg_node_count2 ord g4 (l1 : Int) (l2 : Int) = some (g5, c12)) :
    c01 = c02 ∧ c02 = c12 ∧ kc_gg_same g g5 ∧ kc_gg_tids_ok g5 := by
  obtain ⟨g3', c01', m1, s3, _, S1, hS1, hc1⟩ := kc_gg_node_count2_cone ord g hinv hq.2 l0 l1 h0 h1
  rw [n1] at m1
  obtain ⟨rfl, rfl⟩ := Prod.mk.inj (Option.some.inj m1)
  have q3 := kc_gg_node_count2_tids _ _ _ _ _ _ n1 hq
  have i3 := kc_gg_same_inv _ _ s3 hinv
  have z3 : g3.size = g.size := s3.2.1
  obtain ⟨g4', c02', m2, s4, _, S2, hS2, hc2⟩ := kc_gg_node_count2_cone ord g3 i3 q3.2 l0 l2
    (by rw [z3]; exact h0) (by rw [z3]; exact h2)
  rw [n2] at m2
  obtain ⟨rfl, rfl⟩ := Prod.mk.inj (Option.some.inj m2)
  have q4 := kc_gg_node_count2_tids _ _ _ _ _ _ n2 q3
  have i4 := kc_gg_same_inv _ _ s4 i3
  have z4 : g4.size = g.size := by rw [s4.2.1, z3]
  obtain ⟨g5', c12', m3, s5, _, S3, hS3, hc3⟩ := kc_gg_node_count2_cone ord g4 i4 q4.2 l1 l2
    (by rw [z4]; exact h1) (by rw [z4]; exact h2)
  rw [n3] at m3
  obtain ⟨rfl, rfl⟩ := Prod.mk.inj (Option.some.inj m3)
  have q5 := kc_gg_node_count2_tids _ _ _ _ _ _ n3 q4
  have nn3 : g3.nins = g.nins := s3.1
  have nn4 : g4.nins = g.nins := by rw [s4.1, nn3]
  have ff3 : g3.fans = g.fans := s3.2.2.1
  have ff4 : g4.fans = g.fans := by rw [s4.2.2.1, ff3]
  have e2' : l2 / 2 ≤ g3.nins := by rw [nn3]; exact e2
  have e2'' : l2 / 2 ≤ g4.nins := by rw [nn4]; exact e2
  have hS12 : S1 = S2 := by
    ext v
    constructor
    · intro h
      obtain ⟨hv, hc⟩ := (hS1 v).1 h
      exact (hS2 v).2 ⟨by rw [nn3]; exact hv,
        kc_gg_cone_pair_sub g g3 nn3 ff3 l0 l1 l0 l2 (Or.inr (Or.inl rfl))
          (Or.inr (Or.inl e1)) v hc hv⟩
    · intro h
      obtain ⟨hv, hc⟩ := (hS2 v).1 h
      exact (hS1 v).2 ⟨by rw [← nn3]; exact hv,
        kc_gg_cone_pair_sub g3 g nn3.symm ff3.symm l0 l2 l0 l1 (Or.inr (Or.inl rfl))
          (Or.inl e2') v hc hv⟩
  have hS23 : S2 = S3 := by
    ext v
    constructor
    · intro h
      obtain ⟨hv, hc⟩ := (hS2 v).1 h
      exact (hS3 v).2 ⟨by rw [nn4, ← nn3]; exact hv,
        kc_gg_cone_pair_sub g3 g4 (by rw [nn4, nn3]) (by rw [ff4, ff3]) l0 l2 l1 l2
          (Or.inr (Or.inl e1.symm)) (Or.inl e2') v hc hv⟩
    · intro h
      obtain ⟨hv, hc⟩ := (hS3 v).1 h
      exact (hS2 v).2 ⟨by rw [nn3, ← nn4]; exact hv,
        kc_gg_cone_pair_sub g4 g3 (by rw [nn4, nn3]) (by rw [ff4, ff3]) l1 l2 l0 l2
          (Or.inr (Or.inl e1)) (Or.inl e2'') v hc hv⟩
  exact ⟨by rw [hc1, hc2, hS12], by rw [hc2, hc3, hS23],
    kc_gg_same_trans _ _ _ (kc_gg_same_trans _ _ _ s3 s4) s5, q5⟩

/-- The parity of the variables `0 .. k + 1` is the table of no literal of a
chain of `k` nodes. -/
theorem kc_parity_chain_new (n k : Nat) (g : kc_gg) (hk : k + 1 < n)
    (h : kc_parity_chain n k g) (l : Nat) (hl : l < 2 * g.size) :
    kc_gg_tt g l ≠ kc_parity_tt n (k + 2) := by
  obtain ⟨hinv, hni, hsz, ht, _, _⟩ := h
  have hpos : 0 < 64 * kc_truth_word_num n := by
    have := kc_truth_word_num_pos n; omega
  have hpow : 2 ^ (k + 1) < 64 * kc_truth_word_num n := kc_pow_lt_bits n _ hk
  by_cases hb : l < 2 * (1 + n)
  · rw [kc_gg_base_tt g (kc_gg_start n g.outs) hinv (kc_gg_start_inv n _) hni l
      (by rw [hni]; exact hb)]
    exact kc_parity_not_base n k g.outs hk l hb
  · have hi1 : 1 ≤ l / 2 - n := by omega
    have hi2 : l / 2 - n ≤ k := by omega
    have hev := ht (l / 2 - n) hi1 hi2
    have e2 : 2 * (n + (l / 2 - n)) = 2 * (l / 2) := by omega
    rw [e2] at hev
    by_cases hp : l % 2 = 0
    · have e : l = 2 * (l / 2) := by omega
      rw [e, hev]
      intro hc
      have := congrArg (fun t => kc_tt_bit t (2 ^ (k + 1))) hc
      simp only at this
      rw [kc_parity_tt_bit n _ _ hpow, kc_parity_tt_bit n _ _ hpow, kc_parity_bit_pow,
        kc_parity_bit_pow_low _ _ (by omega)] at this
      exact Bool.noConfusion this
    · have e : l = (2 * (l / 2)) ^^^ 1 := by
        rw [kc_xor_one_eq]; rw [if_pos (by omega)]; omega
      rw [e, hinv.polar _ (by omega), hev]
      intro hc
      have := congrArg (fun t => kc_tt_bit t 0) hc
      simp only at this
      rw [kc_tt_bit_not _ _ (kc_parity_tt_ok n _) 0 hpos, kc_parity_tt_bit n _ _ hpos,
        kc_parity_tt_bit n _ _ hpos, kc_parity_bit_zero, kc_parity_bit_zero] at this
      exact Bool.noConfusion this

/-- The XOR of the input `x_(k+1)` with the last literal of a chain of `k` nodes
appends the next node of the chain. -/
theorem kc_parity_chain_step (n k : Nat) (g : kc_gg) (hn : 2 ≤ n) (hk : k + 1 < n)
    (h : kc_parity_chain n k g) :
    ∃ G, kc_gg_xor g (2 * (k + 2)) (kc_parity_lit n k)
        = some (G, kc_parity_lit n (k + 1)) ∧
      kc_parity_chain n (k + 1) G ∧ kc_gg_ext g G := by
  have h' := h
  obtain ⟨hinv, hni, hsz, ht, hf1, hf2⟩ := h
  obtain ⟨hL, hLt⟩ := kc_parity_chain_tt n k g (by omega) h' k (Nat.le_refl k)
  have hW : g.tts.words = kc_truth_word_num n := by rw [hinv.tts_words, hni]
  have hv : 2 * (k + 2) < 2 * g.size := by omega
  have hvt : kc_gg_tt g (2 * (k + 2)) = kc_vt_start_truth_tt (kc_truth_word_num n) (2 * (k + 1)) := by
    rw [kc_gg_base_tt g (kc_gg_start n g.outs) hinv (kc_gg_start_inv n _) hni _
      (by rw [hni]; omega), kc_start_tt, if_neg (by omega), if_neg (by omega),
      if_pos (by omega), show 2 * (k + 2) - 2 = 2 * (k + 1) by omega]
  have hlit : kc_parity_lit n (k + 1) = 2 * g.size := by
    unfold kc_parity_lit; rw [if_neg (by omega)]; omega
  have hflen : g.fans.length = 2 * (n + (k + 1)) := by rw [hinv.fans_len]; omega
  have hnew := kc_parity_chain_new n k g hk h'
  -- the chain properties of the graph with the node appended
  have hchain : ∀ (a b : Nat) (t : List Nat), t = kc_parity_tt n (k + 2) →
      (k = 0 → a = 4 ∧ b = 2) → (1 ≤ k → a = 2 * (n + k) ∧ b = 2 * (k + 2)) →
      kc_gg_inv { g with
        size := g.size + 1
        fans := g.fans ++ [(a : Int), (b : Int)]
        tids := g.tids ++ [0]
        tts := kc_vt_push (kc_vt_push g.tts t) (t.map kc_not) } →
      kc_parity_chain n (k + 1) { g with
        size := g.size + 1
        fans := g.fans ++ [(a : Int), (b : Int)]
        tids := g.tids ++ [0]
        tts := kc_vt_push (kc_vt_push g.tts t) (t.map kc_not) } ∧
      kc_gg_ext g { g with
        size := g.size + 1
        fans := g.fans ++ [(a : Int), (b : Int)]
        tids := g.tids ++ [0]
        tts := kc_vt_push (kc_vt_push g.tts t) (t.map kc_not) } := by
    intro a b t het hk0 hk1 hGinv
    have hx : kc_gg_ext g { g with
        size := g.size + 1
        fans := g.fans ++ [(a : Int), (b : Int)]
        tids := g.tids ++ [0]
        tts := kc_vt_push (kc_vt_push g.tts t) (t.map kc_not) } :=
      ⟨rfl, Nat.le_succ _, rfl, rfl, rfl, rfl, [t, t.map kc_not], by simp [kc_vt_push]⟩
    refine ⟨⟨hGinv, hni, by show g.size + 1 = 1 + n + (k + 1); omega, ?_, ?_, ?_⟩, hx⟩
    · intro i hi1 hi2
      by_cases hik : i ≤ k
      · rw [kc_gg_ext_tt_inv g _ hinv hx _ (by omega)]
        exact ht i hi1 hik
      · have e : i = k + 1 := by omega
        subst e
        show (g.tts.ptr ++ [t] ++ [t.map kc_not]).getD (2 * (n + (k + 1))) [] = _
        rw [List.getD_eq_getElem?_getD, List.append_assoc,
          List.getElem?_append_right (by rw [hinv.tts_len]; omega)]
        have e2 : 2 * (n + (k + 1)) - g.tts.ptr.length = 0 := by rw [hinv.tts_len]; omega
        rw [e2]
        exact het
    · intro _
      show (g.fans ++ [(a : Int), (b : Int)])[2 * (n + 1)]? = some 4 ∧
        (g.fans ++ [(a : Int), (b : Int)])[2 * (n + 1) + 1]? = some 2
      by_cases hk0' : k = 0
      · obtain ⟨ea, eb⟩ := hk0 hk0'
        subst hk0'
        rw [List.getElem?_append_right (by omega), List.getElem?_append_right (by omega),
          hflen, ea, eb]
        have e3 : 2 * (n + 1) - 2 * (n + (0 + 1)) = 0 := by omega
        have e4 : 2 * (n + 1) + 1 - 2 * (n + (0 + 1)) = 1 := by omega
        rw [e3, e4]
        exact ⟨rfl, rfl⟩
      · rw [List.getElem?_append_left (by omega), List.getElem?_append_left (by omega)]
        exact hf1 (by omega)
    · intro i hi1 hi2
      show (g.fans ++ [(a : Int), (b : Int)])[2 * (n + i)]? = _ ∧
        (g.fans ++ [(a : Int), (b : Int)])[2 * (n + i) + 1]? = _
      by_cases hik : i ≤ k
      · rw [List.getElem?_append_left (by omega), List.getElem?_append_left (by omega)]
        exact hf2 i hi1 hik
      · have e : i = k + 1 := by omega
        subst e
        obtain ⟨ea, eb⟩ := hk1 (by omega)
        rw [List.getElem?_append_right (by omega), List.getElem?_append_right (by omega),
          hflen, ea, eb]
        have e3 : 2 * (n + (k + 1)) - 2 * (n + (k + 1)) = 0 := by omega
        have e4 : 2 * (n + (k + 1)) + 1 - 2 * (n + (k + 1)) = 1 := by omega
        rw [e3, e4]
        have e5 : n + (k + 1) - 1 = n + k := by omega
        rw [e5]
        exact ⟨rfl, rfl⟩
  by_cases hk0 : k = 0
  · -- the first node: the fanins are `x1` and `x0`
    have eL : kc_parity_lit n k = 2 := by unfold kc_parity_lit; rw [if_pos hk0]
    rw [eL] at hL hLt ⊢
    have het : List.zipWith (· ^^^ ·) (kc_gg_tt g (2 * (k + 2))) (kc_gg_tt g 2)
        = kc_parity_tt n (k + 2) := by
      rw [hvt, hLt, kc_tt_xor_comm, ← kc_parity_tt_succ]
    obtain ⟨x1, _, x3⟩ := kc_gg_xor_new g hinv (2 * (k + 2)) 2 hv hL (by omega) (by omega)
      (by
        intro hc
        have := (kc_xor_eq_one _ _).1 hc
        rw [kc_xor_one_eq, if_pos (by omega)] at this
        omega)
      (fun l hl => by rw [het]; exact hnew l hl)
    obtain ⟨c1, c2⟩ := hchain (2 * (k + 2)) 2 _ het (fun _ => ⟨by omega, rfl⟩)
      (fun h => by omega) x3
    exact ⟨_, by rw [x1, hlit], c1, c2⟩
  · -- a later node: the fanins are the previous node and the next input
    have eL : kc_parity_lit n k = 2 * (n + k) := by unfold kc_parity_lit; rw [if_neg hk0]
    rw [eL] at hL hLt ⊢
    have het : List.zipWith (· ^^^ ·) (kc_gg_tt g (2 * (n + k))) (kc_gg_tt g (2 * (k + 2)))
        = kc_parity_tt n (k + 2) := by
      rw [hvt, hLt, ← kc_parity_tt_succ]
    obtain ⟨x1, x2, x3⟩ := kc_gg_xor_new g hinv (2 * (n + k)) (2 * (k + 2)) hL hv (by omega)
      (by omega)
      (by
        intro hc
        have := (kc_xor_eq_one _ _).1 hc
        rw [kc_xor_one_eq, if_pos (by omega)] at this
        omega)
      (fun l hl => by rw [het]; exact hnew l hl)
    obtain ⟨c1, c2⟩ := hchain (2 * (n + k)) (2 * (k + 2)) _ het (fun h => absurd h hk0)
      (fun _ => ⟨rfl, rfl⟩) x3
    exact ⟨_, by rw [x2, x1, hlit], c1, c2⟩

/-- The synthesis of the parity of the variables `0 .. k` on a graph without
internal nodes returns the chain of `k` XOR nodes and its last literal. -/
theorem kc_parity_go (ord : kc_order) (n : Nat) (hn : 2 ≤ n) : ∀ k, k < n →
    ∀ (gg : kc_gg) (ttId : Nat), kc_parity_chain n 0 gg → kc_gg_tids_ok gg →
      gg.funcs.words = gg.tts.words → kc_vt_ok gg.funcs →
      gg.funcs.ptr[ttId]? = some (kc_parity_tt n (k + 1)) →
      ∃ g, synthesis_xor_go ord (k + 1) gg ttId
          = some (g, ((kc_parity_lit n k : Nat) : Int)) ∧
        kc_parity_chain n k g ∧ kc_gg_ext gg g := by
  intro k
  induction k with
  | zero =>
    intro _ gg ttId hch _ hw _ hf
    obtain ⟨hl, ht⟩ := kc_parity_chain_tt n 0 gg (by omega) hch 0 (Nat.le_refl 0)
    exact ⟨gg, (kc_synth_go_reuse ord 1 gg hch.1 ttId _ hw hf _ hl ht).2, hch,
      kc_gg_ext_refl gg⟩
  | succ k ih =>
    intro hk gg ttId hch hq hw hok hf
    have hch' := hch
    obtain ⟨hinv, hni, hsz, hc4, hc5, hc6⟩ := hch
    have hW : gg.tts.words = kc_truth_word_num n := by rw [hinv.tts_words, hni]
    have pre : kc_synth_pre gg (k + 1 + 1) ttId (kc_parity_tt n (k + 1 + 1)) :=
      ⟨hinv, by omega, hw, hok, hf, fun j hj _ => kc_parity_tt_indep n _ j hj⟩
    have hmiss : kc_gg_hash_function gg ttId = some none := by
      rw [kc_gg_hash_function_eq gg hinv ttId _ hw hf]
      congr 1
      rw [List.find?_eq_none]
      intro l hl
      rw [List.mem_range] at hl
      simp only [decide_eq_true_eq]
      rw [kc_gg_base_tt gg (kc_gg_start n gg.outs) hinv (kc_gg_start_inv n _) hni l
        (by rw [hni]; omega)]
      exact kc_parity_not_base n k gg.outs hk l (by omega)
    have hvar : kc_vt_has_var gg.funcs ttId (k + 1) = some true := by
      obtain ⟨b, hb1, hb2⟩ := kc_vt_has_var_iff gg.nins gg.funcs ttId (k + 1) _
        (by rw [hw, hinv.tts_words]) (by rw [hw, hW]; exact kc_parity_tt_ok n _) hf (by omega)
      rw [hb1]
      cases b with
      | true => rfl
      | false => exact absurd (hb2.1 rfl) (kc_parity_dep n k hk)
    obtain ⟨f0, f1, g0, l0, g1, l1, g2, l2, g3, c01, g4, c02, g5, c12, _, _, _, o0, o1, b0, b1,
      p0, e0, p1, e1, p2, e2, _, _, _, _, _, _, _, _, _, n1, n2, n3, _, _, _, hfin⟩ :=
      synthesis_xor_go_level ord (k + 1) gg ttId _ pre hmiss hvar
    -- the two cofactors are the parity of the variables below and its complement
    have hf0 : f0 = kc_parity_tt n (k + 1) := by
      apply kc_tt_ext gg.tts.words _ _ o0 (by rw [hW]; exact kc_parity_tt_ok n _)
      intro m hm
      have hm' : m < 64 * kc_truth_word_num n := by rw [← hW]; exact hm
      rw [b0 m hm, kc_parity_tt_bit n _ _ (Nat.lt_of_le_of_lt (kc_clear_bit_le m _) hm'),
        kc_parity_tt_bit n _ m hm', kc_parity_bit_cof0]
    have hf1 : f1 = (kc_parity_tt n (k + 1)).map kc_not := by
      apply kc_tt_ext gg.tts.words _ _ o1
        (kc_tt_ok_not _ _ (by rw [hW]; exact kc_parity_tt_ok n _))
      intro m hm
      have hm' : m < 64 * kc_truth_word_num n := by rw [← hW]; exact hm
      have hs : kc_set_bit m (k + 1) < 64 * kc_truth_word_num n := by
        rw [kc_bits_pow] at hm' ⊢
        exact kc_set_bit_lt m (k + 1) _ hm' (by omega)
      rw [b1 m hm, kc_tt_bit_not _ _ (kc_parity_tt_ok n _) m hm', kc_parity_tt_bit n _ _ hs,
        kc_parity_tt_bit n _ m hm', kc_parity_bit_cof1]
    subst hf0
    subst hf1
    -- the first call is the synthesis of the parity of the variables below
    have hch0 : kc_parity_chain n 0 { gg with funcs := (kc_vt_push (kc_vt_push
        (kc_vt_push gg.funcs (kc_parity_tt n (k + 1))) ((kc_parity_tt n (k + 1)).map kc_not))
        (List.zipWith (· ^^^ ·) (kc_parity_tt n (k + 1))
          ((kc_parity_tt n (k + 1)).map kc_not))) } :=
      ⟨p0.1, hni, hsz, hc4, hc5, hc6⟩
    obtain ⟨g', eg, hc', x'⟩ := ih (by omega) _ _ hch0 (kc_gg_funcs_tids gg _ hq) p0.2.2.1
      p0.2.2.2.1 p0.2.2.2.2.1
    have q' := synthesis_xor_go_tids ord _ _ _ _ _ eg (kc_gg_funcs_tids gg _ hq)
    rw [eg] at e0
    obtain ⟨rfl, hl0⟩ := Prod.mk.inj (Option.some.inj e0)
    have hl0' := Int.ofNat_inj.1 hl0
    subst hl0'
    obtain ⟨hL, hLt⟩ := kc_parity_chain_tt n k g' (by omega) hc' k (Nat.le_refl k)
    obtain ⟨hL2, hLe⟩ := kc_parity_lit_ge n k
    have hinv' := hc'.1
    have hW' : g'.tts.words = kc_truth_word_num n := by rw [hinv'.tts_words, hc'.2.1]
    -- the second call finds the complemented literal
    have r1 := (kc_synth_go_reuse ord (k + 1) g' hinv' _ _ p1.2.2.1 p1.2.2.2.2.1
      (kc_parity_lit n k ^^^ 1) (kc_lnot_lt _ _ hL)
      (by rw [hinv'.polar _ hL, hLt])).2
    rw [r1] at e1
    obtain ⟨rfl, hl1⟩ := Prod.mk.inj (Option.some.inj e1)
    have hl1' := Int.ofNat_inj.1 hl1
    subst hl1'
    -- the third call finds constant 1
    have r2 := (kc_synth_go_reuse ord (k + 1) g' hinv' _ _ p2.2.2.1 p2.2.2.2.2.1
      1 (by have := hinv'.size_ge; omega)
      (by rw [kc_gg_tt_one g' hinv', hW', kc_tt_xor_not _ _ (kc_parity_tt_ok n _)])).2
    rw [r2] at e2
    obtain ⟨rfl, hl2⟩ := Prod.mk.inj (Option.some.inj e2)
    have hl2' := Int.ofNat_inj.1 hl2
    subst hl2'
    -- the three counts are equal, so the positive Davio expansion is taken
    obtain ⟨ec1, ec2, s5, q5⟩ := kc_gg_counts_equal ord { g' with funcs := gg.funcs }
      (kc_gg_inv_funcs g' _ hinv') (kc_gg_funcs_tids g' _ q') (kc_parity_lit n k)
      (kc_parity_lit n k ^^^ 1) 1 hL (kc_lnot_lt _ _ hL)
      (by show 1 < 2 * g'.size; have := hinv'.size_ge; omega)
      (kc_xor_one_div _) (by show 1 / 2 ≤ g'.nins; omega) g3 c01 g4 c02 g5 c12 n1 n2 n3
    have hL1 : 2 ≤ kc_parity_lit n k ^^^ 1 := by
      rw [kc_xor_one_eq, if_pos hLe]; omega
    rw [if_pos (show 2 ≤ kc_parity_lit n k ∧ 2 ≤ kc_parity_lit n k ^^^ 1 from ⟨hL2, hL1⟩),
      if_neg (by omega), if_pos (by omega)] at hfin
    have hch5 : kc_parity_chain n k g5 :=
      kc_parity_chain_same n k _ g5 s5 ⟨kc_gg_inv_funcs g' _ hinv', hc'.2.1, hc'.2.2.1,
        hc'.2.2.2.1, hc'.2.2.2.2.1, hc'.2.2.2.2.2⟩
    obtain ⟨G, eG, hG, xG⟩ := kc_parity_chain_step n k g5 hn hk hch5
    refine ⟨G, ?_, hG, ?_⟩
    · rw [hfin]
      unfold kc_gg_and_xor
      rw [(kc_v2l_var (k + 1)).1, kc_gg_and_one g5 _ (by omega)]
      simp only
      rw [show 2 * (k + 1 + 1) = 2 * (k + 2) by rfl, eG]
      rfl
    · exact kc_gg_ext_trans _ _ _ (kc_gg_ext_trans _ _ _ (kc_gg_ext_of_funcs gg g' _ x')
        (kc_gg_same_ext _ _ s5)) xG

/-- Claim C23: parity is synthesized as a chain of XOR nodes.  For every `n`
with `2 ≤ n ≤ 16`, `kc_top_level_call_one` with `and_only = 0` on the single
output `x0 XOR ... XOR x(n-1)` returns a graph with exactly `n - 1` internal
nodes, the objects `n + 1 .. 2 n - 1`.  Every one of them is an XOR node (its
first fanin is the larger one); the first has the fanins 4 and 2, the literals
of the inputs `x1` and `x0`; node `n + i` for `2 ≤ i < n` has the literal
`2 (n + i - 1)` of the previous node and the literal `2 (i + 1)` of the input
`x_i`; the output is the literal of the last node, and its table is the parity
table. -/
theorem kc_parity_synthesis (ord : kc_order) (n : Nat) (hn1 : 2 ≤ n) (_hn2 : n ≤ 16) :
    ∃ g, kc_top_level_call_one ord n ⟨kc_truth_word_num n, [kc_parity_tt n n]⟩ false = some g ∧
      kc_gg_node_num g = n - 1 ∧
      (∀ v, n < v → v < g.size → kc_gg_is_xor g v = some true) ∧
      kc_gg_fanin g (n + 1) 0 = some 4 ∧ kc_gg_fanin g (n + 1) 1 = some 2 ∧
      (∀ i, 2 ≤ i → i < n →
        kc_gg_fanin g (n + i) 0 = some ((2 * (n + i - 1) : Nat) : Int) ∧
        kc_gg_fanin g (n + i) 1 = some ((2 * (i + 1) : Nat) : Int)) ∧
      g.tops = [((2 * (2 * n - 1) : Nat) : Int)] ∧
      kc_vt_read g.tts (2 * (2 * n - 1)) = some (kc_parity_tt n n) := by
  have hch0 : kc_parity_chain n 0
      { kc_gg_start n ⟨kc_truth_word_num n, [kc_parity_tt n n]⟩ with
        funcs := { words := kc_truth_word_num n, ptr := [kc_parity_tt n n] } } :=
    ⟨kc_gg_inv_funcs _ _ (kc_gg_start_inv n _), rfl, rfl, fun i h1 h2 => by omega,
      fun h => by omega, fun i h1 h2 => by omega⟩
  have hok : kc_vt_ok ({ words := kc_truth_word_num n, ptr := [kc_parity_tt n n] } : kc_vt) := by
    intro t ht
    simp only [List.mem_singleton] at ht
    rw [ht]
    exact kc_parity_tt_ok n n
  have hsub : n - 1 + 1 = n := Nat.sub_add_cancel (by omega)
  obtain ⟨g, eg, hch, hx⟩ := kc_parity_go ord n hn1 (n - 1) (by omega) _ 0 hch0
    (kc_gg_funcs_tids _ _ (kc_gg_start_tids n _)) rfl hok (by rw [hsub]; rfl)
  rw [hsub] at eg
  obtain ⟨hinv, hni, hsz, ht, hf1, hf2⟩ := hch
  have hlit : kc_parity_lit n (n - 1) = 2 * (2 * n - 1) := by
    unfold kc_parity_lit; rw [if_neg (by omega)]; omega
  rw [hlit] at eg
  have htops : g.tops = [] := hx.2.2.2.1
  refine ⟨{ g with tops := g.tops ++ [((2 * (2 * n - 1) : Nat) : Int)] }, ?_, ?_, ?_, ?_, ?_, ?_,
    ?_, ?_⟩
  · unfold kc_top_level_call_one
    have hr : List.range ({ words := kc_truth_word_num n, ptr := [kc_parity_tt n n] } :
        kc_vt).ptr.length = [0] := rfl
    rw [hr]
    simp only [List.foldlM_cons, List.foldlM_nil]
    have hrs : kc_vt_resize (kc_gg_start n ⟨kc_truth_word_num n, [kc_parity_tt n n]⟩).funcs 0
        = some { words := kc_truth_word_num n, ptr := [] } := by
      unfold kc_vt_resize; simp [kc_gg_start, kc_vt_start]
    have hmv : kc_vt_move { words := kc_truth_word_num n, ptr := [] }
        (kc_gg_start n ⟨kc_truth_word_num n, [kc_parity_tt n n]⟩).outs 0
        = some { words := kc_truth_word_num n, ptr := [kc_parity_tt n n] } := by
      unfold kc_vt_move kc_vt_read kc_vt_push
      simp [kc_gg_start, kc_vt_dup]
    simp only [hrs, hmv, Bool.false_eq_true, if_false]
    unfold synthesis_xor_rec
    rw [kc_toNat_var, eg]
    rfl
  · show g.size - 1 - g.nins = n - 1
    omega
  · intro v hv1 hv2
    have hv2' : v < g.size := hv2
    unfold kc_gg_is_xor kc_gg_fanin
    show (match (g.fans[2 * v + 0]?), (g.fans[2 * v + 1]?) with
      | some f0, some f1 => some (decide (f0 > f1))
      | _, _ => none) = some true
    by_cases h1 : v = n + 1
    · rw [h1, Nat.add_zero, (hf1 (by omega)).1, (hf1 (by omega)).2]
      rfl
    · have e : v = n + (v - n) := by omega
      obtain ⟨a1, a2⟩ := hf2 (v - n) (by omega) (by omega)
      rw [← e] at a1 a2
      rw [Nat.add_zero, a1, a2]
      simp only [gt_iff_lt, Option.some.injEq, decide_eq_true_eq]
      omega
  · exact (hf1 (by omega)).1
  · exact (hf1 (by omega)).2
  · intro i hi1 hi2
    exact hf2 i hi1 (by omega)
  · show g.tops ++ _ = _
    rw [htops]; rfl
  · have hl : 2 * (2 * n - 1) < 2 * g.size := by omega
    have := kc_gg_tt_read g hinv _ hl
    have e : 2 * (2 * n - 1) = 2 * (n + (n - 1)) := by omega
    rw [e] at this ⊢
    rw [ht (n - 1) (by omega) (Nat.le_refl _), hsub] at this
    exact this

/-- Instance of `kc_parity_synthesis` for four inputs, where the parity table is
`6996`: three XOR nodes in a chain. -/
theorem kc_parity_synthesis_witness :
    (2 ≤ 4 ∧ 4 ≤ 16) ∧
    ∃ g, kc_top_level_call_one ⟨false, false⟩ 4 ⟨1, [[0x6996699669966996]]⟩ false = some g ∧
      kc_gg_node_num g = 4 - 1 ∧
      (∀ v, 4 < v → v < g.size → kc_gg_is_xor g v = some true) ∧
      kc_gg_fanin g (4 + 1) 0 = some 4 ∧ kc_gg_fanin g (4 + 1) 1 = some 2 ∧
      (∀ i, 2 ≤ i → i < 4 →
        kc_gg_fanin g (4 + i) 0 = some ((2 * (4 + i - 1) : Nat) : Int) ∧
        kc_gg_fanin g (4 + i) 1 = some ((2 * (i + 1) : Nat) : Int)) ∧
      g.tops = [((2 * (2 * 4 - 1) : Nat) : Int)] ∧
      kc_vt_read g.tts (2 * (2 * 4 - 1)) = some [0x6996699669966996] := by
  have h := kc_parity_synthesis ⟨false, false⟩ 4 (by decide) (by decide)
  rw [kc_parity_tt_four] at h
  exact ⟨⟨by decide, by decide⟩, h⟩

/-- The graph synthesized for the parity of four inputs, evaluated: the fanins of
its three nodes and its output. -/
theorem kc_parity_four_eval (ord : kc_order) :
    (kc_top_level_call_one ord 4 ⟨1, [[0x6996699669966996]]⟩ false).map
        (fun g => (g.size, g.fans.drop 10, g.tops)) = some (8, [4, 2, 10, 6, 12, 8], [14]) := by
  revert ord
  apply kc_order_cases <;> decide

/-! ## The number of turns of the driver -/

/-- Up to 12 variables the product of `kc_factorial` stays in the range of `int`
and is the factorial. -/
theorem kc_factorial_exact (n : Nat) (hn : n ≤ 12) : kc_factorial n = (n.factorial : Int) := by
  interval_cases n <;> decide

set_option maxRecDepth 100000 in
/-- The values of `kc_factorial` on 13 to 16 variables. -/
theorem kc_factorial_values :
    kc_factorial 13 = 1932053504 ∧ kc_factorial 14 = 1278945280 ∧
    kc_factorial 15 = 2004310016 ∧ kc_factorial 16 = 2004189184 := by
  decide

/-- Claim C31, evaluated on 13 to 16 variables: the product of `kc_factorial`
leaves the range of `int`, and the value that comes back is not the factorial;
it is smaller, so the loop of `kc_top_level_call_perm` that it bounds ends
before all orderings have been tried. -/
theorem kc_factorial_overflows :
    kc_factorial 13 = 1932053504 ∧ kc_factorial 14 = 1278945280 ∧
    kc_factorial 15 = 2004310016 ∧ kc_factorial 16 = 2004189184 ∧
    (Nat.factorial 13 : Int) = 6227020800 ∧
    kc_factorial 13 < (Nat.factorial 13 : Int) ∧ kc_factorial 14 < (Nat.factorial 14 : Int) ∧
    kc_factorial 15 < (Nat.factorial 15 : Int) ∧ kc_factorial 16 < (Nat.factorial 16 : Int) := by
  obtain ⟨h13, h14, h15, h16⟩ := kc_factorial_values
  refine ⟨h13, h14, h15, h16, ?_, ?_, ?_, ?_, ?_⟩
  · norm_num [Nat.factorial]
  · rw [h13]; norm_num [Nat.factorial]
  · rw [h14]; norm_num [Nat.factorial]
  · rw [h15]; norm_num [Nat.factorial]
  · rw [h16]; norm_num [Nat.factorial]

/-! ## The traversal counter -/

/-- Claim C32 as stated fails: on a graph whose counter is `0x7FFFFFFE` the
assertion of `kc_gg_tid_increment` passes and the resulting counter is
`0x7FFFFFFF`. -/
theorem kc_gg_tid_increment_reaches_max :
    ¬ (kc_gg_tid_increment_pre { kc_gg_start 1 ⟨1, []⟩ with tid := 0x7FFFFFFE } →
      (kc_gg_tid_increment { kc_gg_start 1 ⟨1, []⟩ with tid := 0x7FFFFFFE }).1.tid
        ≠ 0x7FFFFFFF) := by
  intro h
  exact h (by unfold kc_gg_tid_increment_pre; decide) (by decide)

/-- Claim C32, amended: on a graph whose counter is an `int` and on which the
assertion of `kc_gg_tid_increment` passes, the call adds exactly 1 to `tid` and
returns the new value; the sum does not leave the range of `int`, so the counter
grows strictly and does not wrap; the new value is at most `0x7FFFFFFF`, and it
is `0x7FFFFFFF` exactly when the call was made with `0x7FFFFFFE`, after which
the assertion fails; nothing else of the graph changes. -/
theorem kc_gg_tid_increment_contract (gg : kc_gg) (hint : kc_int32 gg.tid = gg.tid)
    (hpre : kc_gg_tid_increment_pre gg) :
    (kc_gg_tid_increment gg).1.tid = gg.tid + 1 ∧
    (kc_gg_tid_increment gg).2 = gg.tid + 1 ∧
    kc_int32 (gg.tid + 1) = gg.tid + 1 ∧
    gg.tid < (kc_gg_tid_increment gg).1.tid ∧
    (kc_gg_tid_increment gg).1.tid ≤ 0x7FFFFFFF ∧
    ((kc_gg_tid_increment gg).1.tid = 0x7FFFFFFF ↔ gg.tid = 0x7FFFFFFE) ∧
    (¬ kc_gg_tid_increment_pre (kc_gg_tid_increment gg).1 ↔ gg.tid = 0x7FFFFFFE) ∧
    kc_gg_same gg (kc_gg_tid_increment gg).1 ∧
    (kc_gg_tid_increment gg).1.tids = gg.tids := by
  unfold kc_gg_tid_increment_pre at *
  unfold kc_int32 at *
  have e : (kc_gg_tid_increment gg).1.tid = gg.tid + 1 := rfl
  refine ⟨rfl, rfl, by omega, by rw [e]; omega, by rw [e]; omega, by rw [e]; omega,
    by rw [e]; omega, ⟨rfl, rfl, rfl, rfl, rfl, rfl, rfl, rfl⟩, rfl⟩

/-- Instance of `kc_gg_tid_increment_contract` on the initial graph of two inputs. -/
theorem kc_gg_tid_increment_contract_witness :
    (kc_int32 (kc_gg_start 2 ⟨1, []⟩).tid = (kc_gg_start 2 ⟨1, []⟩).tid ∧
      kc_gg_tid_increment_pre (kc_gg_start 2 ⟨1, []⟩)) ∧
    ((kc_gg_tid_increment (kc_gg_start 2 ⟨1, []⟩)).1.tid = (kc_gg_start 2 ⟨1, []⟩).tid + 1 ∧
    (kc_gg_tid_increment (kc_gg_start 2 ⟨1, []⟩)).2 = (kc_gg_start 2 ⟨1, []⟩).tid + 1 ∧
    kc_int32 ((kc_gg_start 2 ⟨1, []⟩).tid + 1) = (kc_gg_start 2 ⟨1, []⟩).tid + 1 ∧
    (kc_gg_start 2 ⟨1, []⟩).tid < (kc_gg_tid_increment (kc_gg_start 2 ⟨1, []⟩)).1.tid ∧
    (kc_gg_tid_increment (kc_gg_start 2 ⟨1, []⟩)).1.tid ≤ 0x7FFFFFFF ∧
    ((kc_gg_tid_increment (kc_gg_start 2 ⟨1, []⟩)).1.tid = 0x7FFFFFFF
      ↔ (kc_gg_start 2 ⟨1, []⟩).tid = 0x7FFFFFFE) ∧
    (¬ kc_gg_tid_increment_pre (kc_gg_tid_increment (kc_gg_start 2 ⟨1, []⟩)).1
      ↔ (kc_gg_start 2 ⟨1, []⟩).tid = 0x7FFFFFFE) ∧
    kc_gg_same (kc_gg_start 2 ⟨1, []⟩) (kc_gg_tid_increment (kc_gg_start 2 ⟨1, []⟩)).1 ∧
    (kc_gg_tid_increment (kc_gg_start 2 ⟨1, []⟩)).1.tids = (kc_gg_start 2 ⟨1, []⟩).tids) :=
  ⟨⟨by decide, by unfold kc_gg_tid_increment_pre; decide⟩,
   kc_gg_tid_increment_contract (kc_gg_start 2 ⟨1, []⟩) (by decide)
     (by unfold kc_gg_tid_increment_pre; decide)⟩

/-! ## Reads before the array -/

set_option maxRecDepth 1000000 in
/-- The loop of `kc_perm_test`: after 119 calls the array holds the last of the
`5!` orderings, and the call that follows it has no result. -/
theorem kc_perm_test_last_call :
    kc_perm_iter 5 119 = some [4, 3, 2, 1, 0, 0, 0, 0, 0, 0, 0, 0, 0, 0, 0, 0] ∧
    kc_perm_iter 5 120 = none := by
  decide

/-- Claim C33, evaluated on the last ordering: with `currPerm = {1, 0, 0, ...}`
and `nVars = 2` the first loop of `kc_get_next_perm` reaches `i = 0`, where its
test `currPerm[i - 1] >= currPerm[i]` reads `currPerm[-1]`, an index outside
`0 .. nVars - 1` and outside the array, so the call has no result, with a table
store as in the driver and with the `NULL` store of `kc_perm_test`; the same
happens on the first call for one variable, and in `kc_perm_test` on the call
after the last of the `5!` orderings. -/
theorem kc_get_next_perm_reads_before_array :
    kc_perm_scan_i [1, 0, 0, 0, 0, 0, 0, 0, 0, 0, 0, 0, 0, 0, 0, 0] 2 = none ∧
    kc_perm_scan_i [1, 0, 0, 0, 0, 0, 0, 0, 0, 0, 0, 0, 0, 0, 0, 0] 1 = none ∧
    kc_arr_read [1, 0, 0, 0, 0, 0, 0, 0, 0, 0, 0, 0, 0, 0, 0, 0] ((0 : Int) - 1) = none ∧
    kc_get_next_perm [1, 0, 0, 0, 0, 0, 0, 0, 0, 0, 0, 0, 0, 0, 0, 0] 2 none = none ∧
    kc_get_next_perm [1, 0, 0, 0, 0, 0, 0, 0, 0, 0, 0, 0, 0, 0, 0, 0] 2
      (some ⟨1, [[0x6666666666666666]]⟩) = none ∧
    kc_get_next_perm [0, 0, 0, 0, 0, 0, 0, 0, 0, 0, 0, 0, 0, 0, 0, 0] 1 none = none ∧
    kc_perm_iter 5 119 = some [4, 3, 2, 1, 0, 0, 0, 0, 0, 0, 0, 0, 0, 0, 0, 0] ∧
    kc_perm_iter 5 120 = none :=
  ⟨by decide, by decide, by decide, by decide, by decide, by decide,
    kc_perm_test_last_call.1, kc_perm_test_last_call.2⟩

end RecSyn
